import Mathlib

/-! # Offline graph format, partition loader and synchronization engine

A shallow embedding of `OfflineGraph.h` (reader and writer of the offline CSR
format) and of `vGraph.h` (partition loader, identity translation tables,
handshake, push and pull synchronization), followed by the theorems proved
about them.

Conventions of the embedding:

* a file is the list of its bytes; a C++ stream is the file it is opened on, its
  position and its (sticky) `failbit`;
* `uint64_t` / `size_t` arithmetic is arithmetic on `Nat` reduced modulo `2^64`;
  a `std::streamoff` is kept as its 64-bit two's-complement pattern, so a
  pattern `≥ 2^63` is a negative offset;
* an exception, a failed `assert` or an access outside an array is an
  `Except.error`.
-/

namespace Katana

/-! ## Bytes and little-endian integers -/

/-- One byte of a file. -/
abbrev Byte := Fin 256

/-- Value of a little-endian byte string. -/
def fromLE : List Byte → Nat
  | [] => 0
  | b :: bs => b.val + 256 * fromLE bs

/-- The `n` bytes of the object representation of the unsigned value `v`
on a little-endian machine. -/
def toLE : Nat → Nat → List Byte
  | 0, _ => []
  | n + 1, v => ⟨v % 256, Nat.mod_lt _ (by decide)⟩ :: toLE n (v / 256)

/-- Reduction to `uint64_t`. -/
def u64 (x : Nat) : Nat := x % 2 ^ 64

/-- Reduction to `uint32_t`. -/
def u32 (x : Nat) : Nat := x % 2 ^ 32

/-! ## Streams -/

/-- A `std::ifstream` / `std::fstream` opened in binary mode on a file: the
bytes of the file, the (joint) position and the fail bit.  Every operation on
a stream whose fail bit is set does nothing. -/
structure FileStream where
  data : List Byte
  pos : Nat
  failbit : Bool
deriving DecidableEq

namespace FileStream

/-- `s.seekg(off, std::ios_base::beg)`; `off` is the bit pattern of the
`std::streamoff`, a negative offset makes the seek fail. -/
def seekg (s : FileStream) (off : Nat) : FileStream :=
  if s.failbit then s
  else if 2 ^ 63 ≤ off then { s with failbit := true }
  else { s with pos := off }

/-- `s.seekg(0, std::ios_base::end)`. -/
def seekEnd (s : FileStream) : FileStream :=
  if s.failbit then s else { s with pos := s.data.length }

/-- `s.tellg()` as a bit pattern: `-1` on a failed stream. -/
def tellg (s : FileStream) : Nat :=
  if s.failbit then 2 ^ 64 - 1 else s.pos

/-- `s.read(buf, n)`: the bytes extracted (`gcount()` is their number) and the
stream afterwards.  Reaching the end of the file before `n` bytes sets the
fail bit. -/
def read (s : FileStream) (n : Nat) : List Byte × FileStream :=
  if s.failbit then ([], s)
  else
    let got := (s.data.drop s.pos).take n
    (got, { s with pos := s.pos + got.length, failbit := decide (got.length < n) })

/-- `s.read(reinterpret_cast<char*>(&x), n)` for an `n`-byte unsigned variable
holding `x`: the bytes extracted overwrite the first bytes of `x`. -/
def readInto (s : FileStream) (n : Nat) (x : Nat) : Nat × FileStream :=
  let r := s.read n
  (fromLE (r.1 ++ (toLE n x).drop r.1.length), r.2)

/-- The file after `bs` has been stored at byte offset `pos`; a gap between
the old end of the file and `pos` reads as zero bytes. -/
def writeAt (f : List Byte) (pos : Nat) (bs : List Byte) : List Byte :=
  f.take pos ++ List.replicate (pos - f.length) 0 ++ bs ++ f.drop (pos + bs.length)

/-- `s.write(buf, n)` with the `n` bytes `bs`. -/
def write (s : FileStream) (bs : List Byte) : FileStream :=
  if s.failbit then s
  else { s with data := writeAt s.data s.pos bs, pos := s.pos + bs.length }

end FileStream

/-! ## `OfflineGraph`: the reader -/

/-- State of an `OfflineGraph` object (`OfflineGraph.h`, lines 65-77). -/
structure OfflineGraph where
  file1 : FileStream
  fileIndex : FileStream
  fileEdgeDst : FileStream
  fileEdgeData : FileStream
  loc1 : Nat
  locIndex : Nat
  locEdgeData : Nat
  numNodes : Nat
  numEdges : Nat
  sizeEdgeData : Nat
  length : Nat
  v2 : Bool
  numSeeks1 : Nat
  numSeeksDst : Nat
  numSeeksData : Nat
deriving DecidableEq

namespace OfflineGraph

/-- Width in bytes of one edge destination: `v2 ? sizeof(uint64_t) : sizeof(uint32_t)`. -/
def dstWidth (v2 : Bool) : Nat := if v2 then 8 else 4

/-- The constructor `OfflineGraph(name)` (lines 143-167).  `content` is what
the file system holds under `name`: `none` when the file cannot be opened.
The three header fields read after the version are uninitialised members;
they are only used when the four reads succeeded. -/
def mk? (content : Option (List Byte)) : Except String OfflineGraph :=
  match content with
  | none => .error "Bad filename"
  | some bytes =>
    let s0 : FileStream := { data := bytes, pos := 0, failbit := false }
    let ver := s0.readInto 8 0
    let sizeEdgeData := ver.2.readInto 8 0
    let numNodes := sizeEdgeData.2.readInto 8 0
    let numEdges := numNodes.2.readInto 8 0
    if ver.1 = 0 ∨ ver.1 > 2 then .error "Bad Version"
    else
      let v2 := decide (ver.1 = 2)
      if numEdges.2.failbit then .error "Out of data"
      else
        let s5 := numEdges.2.seekEnd
        let length := s5.tellg
        if length < u64 (8 * (4 + numNodes.1) + dstWidth v2 * numEdges.1) then
          .error "File too small"
        else
          .ok { file1 := s5.seekg 0
                fileIndex := s0.seekg 0
                fileEdgeDst := s0.seekg 0
                fileEdgeData := s0.seekg 0
                loc1 := 0, locIndex := 0, locEdgeData := 0
                numNodes := numNodes.1, numEdges := numEdges.1
                sizeEdgeData := sizeEdgeData.1
                length := length, v2 := v2
                numSeeks1 := 0, numSeeksDst := 0, numSeeksData := 0 }

/-- `size()`. -/
def size (g : OfflineGraph) : Nat := g.numNodes

/-- `sizeEdges()`. -/
def sizeEdges (g : OfflineGraph) : Nat := g.numEdges

/-- `edgeSize()`. -/
def edgeSize (g : OfflineGraph) : Nat := g.sizeEdgeData

/-- `outIndexs(node)` (lines 79-91): the value returned (`none` when the read
did not fill the uninitialised `retval`) and the object afterwards. -/
def outIndexs (g : OfflineGraph) (node : Nat) : Option Nat × OfflineGraph :=
  let pos := u64 ((4 + node) * 8)
  let g1 : OfflineGraph :=
    if g.loc1 ≠ pos then
      { g with numSeeks1 := u64 (g.numSeeks1 + 1), file1 := g.file1.seekg pos, loc1 := pos }
    else g
  let r := g1.file1.read 8
  (if r.1.length = 8 then some (fromLE r.1) else none,
   { g1 with file1 := r.2, loc1 := u64 (g1.loc1 + r.1.length) })

/-- `outEdges(edge)` (lines 93-112). -/
def outEdges (g : OfflineGraph) (edge : Nat) : Option Nat × OfflineGraph :=
  let pos := u64 ((4 + g.numNodes) * 8 + edge * dstWidth g.v2)
  let g1 : OfflineGraph :=
    if g.locIndex ≠ pos then
      { g with numSeeksDst := u64 (g.numSeeksDst + 1), fileIndex := g.fileIndex.seekg pos,
               locIndex := pos }
    else g
  let r := g1.fileIndex.read (dstWidth g.v2)
  (if r.1.length = dstWidth g.v2 then some (fromLE r.1) else none,
   { g1 with fileIndex := r.2, locIndex := u64 (g1.locIndex + r.1.length) })

/-- `edgeData<T>(edge)` (lines 114-136) for a type `T` of `sizeT` bytes: the
bytes of the object read. -/
def edgeData (g : OfflineGraph) (sizeT : Nat) (edge : Nat) :
    Except String (Option (List Byte) × OfflineGraph) :=
  if ¬ sizeT ≤ g.sizeEdgeData then .error "assert(sizeof(T) <= sizeEdgeData)"
  else
    let pos0 := u64 ((4 + g.numNodes) * 8 + g.numEdges * dstWidth g.v2)
    let pos1 := u64 (pos0 + 7) / 8 * 8
    let pos := u64 (pos1 + edge * g.sizeEdgeData)
    let g1 : OfflineGraph :=
      if g.locEdgeData ≠ pos then
        { g with numSeeksData := u64 (g.numSeeksData + 1),
                 fileEdgeData := g.fileEdgeData.seekg pos, locEdgeData := pos }
      else g
    let r := g1.fileEdgeData.read sizeT
    .ok (if r.1.length = sizeT then some r.1 else none,
         { g1 with fileEdgeData := r.2, locEdgeData := u64 (g1.locEdgeData + r.1.length) })

/-- `edge_begin(N)` (lines 186-191); `N` is a `uint32_t`. -/
def edge_begin (g : OfflineGraph) (N : Nat) : Option Nat × OfflineGraph :=
  if u32 N = 0 then (some 0, g) else g.outIndexs (u32 N - 1)

/-- `edge_end(N)` (lines 193-195); `N` is a `uint32_t`. -/
def edge_end (g : OfflineGraph) (N : Nat) : Option Nat × OfflineGraph :=
  g.outIndexs (u32 N)

/-- `getEdgeDst(ni)` (lines 197-199): the result of `outEdges` converted to
`GraphNode`, a `uint32_t`. -/
def getEdgeDst (g : OfflineGraph) (ni : Nat) : Option Nat × OfflineGraph :=
  let r := g.outEdges (u64 ni)
  (r.1.map u32, r.2)

/-- `getEdgeData<T>(ni)` (lines 206-209). -/
def getEdgeData (g : OfflineGraph) (sizeT : Nat) (ni : Nat) :
    Except String (Option (List Byte) × OfflineGraph) :=
  g.edgeData sizeT (u64 ni)

end OfflineGraph

/-! ## `OfflineGraphWriter` -/

/-- State of an `OfflineGraphWriter` object (`OfflineGraph.h`, lines 214-219). -/
structure OfflineGraphWriter where
  file : FileStream
  numNodes : Nat
  numEdges : Nat
  smallData : Bool
  edgeOffsets : List Nat
deriving DecidableEq

/-- Conversion of an `int`, kept as its 32-bit pattern, to `uint64_t`: sign
extension. -/
def sext32 (p : Nat) : Nat := if p < 2 ^ 31 then p else p + (2 ^ 64 - 2 ^ 32)

/-- `std::accumulate(first, last, 0)` over `uint64_t` elements.  The
accumulator has the type of the initial value `0`, an `int`: each step
computes `acc + x` in `uint64_t` and converts the sum back to `int`.  The
result is the 32-bit pattern of that `int`. -/
def accumulateInt (xs : List Nat) : Nat :=
  xs.foldl (fun acc x => u32 (u64 (sext32 acc + x))) 0

/-- `std::partial_sum(first, last, first)` over `uint64_t` elements, `acc`
being the sum of the elements already passed. -/
def partialSum : Nat → List Nat → List Nat
  | _, [] => []
  | acc, x :: xs => u64 (acc + x) :: partialSum (u64 (acc + x)) xs

namespace OfflineGraphWriter

/-- Size of one edge payload: `smallData ? sizeof(float) : sizeof(double)`. -/
def etSize (smallData : Bool) : Nat := if smallData then 4 else 8

/-- The constructor `OfflineGraphWriter(name, use32)` (lines 249-258);
`openable` tells whether the file could be created. -/
def mk? (openable : Bool) (use32 : Bool) : Except String OfflineGraphWriter :=
  if ¬ openable then .error "Bad filename"
  else
    let f0 : FileStream := { data := [], pos := 0, failbit := false }
    let f1 := f0.write (toLE 8 1)
    let f2 := f1.write (toLE 8 (etSize use32))
    let f3 := f2.write (toLE 8 0)
    let f4 := f3.write (toLE 8 0)
    .ok { file := f4.seekg 0, numNodes := 0, numEdges := 0, smallData := use32,
          edgeOffsets := [] }

/-- `offsetOfDst(edge)` (lines 221-223). -/
def offsetOfDst (w : OfflineGraphWriter) (edge : Nat) : Nat :=
  u64 (8 * (4 + w.numNodes + edge))

/-- `offsetOfData(edge)` (lines 224-227). -/
def offsetOfData (w : OfflineGraphWriter) (edge : Nat) : Nat :=
  u64 (8 * (4 + w.numNodes + w.numEdges) + etSize w.smallData * edge)

/-- `setCounts(edgeCounts)` (lines 263-274); the elements of the deque are
`uint64_t`. -/
def setCounts (w : OfflineGraphWriter) (edgeCounts : List Nat) : OfflineGraphWriter :=
  let counts := edgeCounts.map u64
  let numNodes := u64 counts.length
  let numEdges := sext32 (accumulateInt counts)
  let edgeOffsets := partialSum 0 counts
  let f1 := w.file.seekg 16
  let f2 := f1.write (toLE 8 numNodes)
  let f3 := f2.write (toLE 8 numEdges)
  let f4 := edgeOffsets.foldl (fun f i => f.write (toLE 8 i)) f3
  { w with file := f4.seekg 0, numNodes := numNodes, numEdges := numEdges,
           edgeOffsets := edgeOffsets }

/-- The common start of `setEdge32` and `setEdge64`:
`if (src) offset += edgeOffsets[src-1];`. -/
def slotIndex (w : OfflineGraphWriter) (src offset : Nat) : Except String Nat :=
  if u64 src ≠ 0 then
    match w.edgeOffsets[u64 src - 1]? with
    | some o => .ok (u64 (offset + o))
    | none => .error "edgeOffsets[src-1] outside the deque"
  else .ok (u64 offset)

/-- `setEdge32(src, offset, dst, val)` (lines 229-236). -/
def setEdge32 (w : OfflineGraphWriter) (src offset dst val : Nat) :
    Except String OfflineGraphWriter :=
  match w.slotIndex src offset with
  | .error e => .error e
  | .ok o =>
    let f1 := w.file.seekg (w.offsetOfDst o)
    let f2 := f1.write (toLE 8 (u64 dst))
    let f3 := f2.seekg (w.offsetOfData o)
    let f4 := f3.write (toLE 4 (u32 val))
    .ok { w with file := f4 }

/-- `setEdge64(src, offset, dst, val)` (lines 238-245). -/
def setEdge64 (w : OfflineGraphWriter) (src offset dst val : Nat) :
    Except String OfflineGraphWriter :=
  match w.slotIndex src offset with
  | .error e => .error e
  | .ok o =>
    let f1 := w.file.seekg (w.offsetOfDst o)
    let f2 := f1.write (toLE 8 (u64 dst))
    let f3 := f2.seekg (w.offsetOfData o)
    let f4 := f3.write (toLE 8 (u64 val))
    .ok { w with file := f4 }

/-- `setEdge(src, offset, dst, val)` (lines 276-281). -/
def setEdge (w : OfflineGraphWriter) (src offset dst val : Nat) :
    Except String OfflineGraphWriter :=
  if w.smallData then w.setEdge32 src offset dst val else w.setEdge64 src offset dst val

end OfflineGraphWriter

/-- One call `setEdge(src, offset, dst, val)`. -/
structure EdgeWrite where
  src : Nat
  offset : Nat
  dst : Nat
  val : Nat
deriving DecidableEq

/-- A writing session: the constructor, `setCounts(counts)`, then the calls
`setEdge` of `writes` in order.  The result is the writer afterwards. -/
def writeSession (use32 : Bool) (counts : List Nat) (writes : List EdgeWrite) :
    Except String OfflineGraphWriter :=
  match OfflineGraphWriter.mk? true use32 with
  | .error e => .error e
  | .ok w0 =>
    writes.foldlM (fun w e => w.setEdge e.src e.offset e.dst e.val) (w0.setCounts counts)

/-- The file a writing session leaves on disk. -/
def writeGraph (use32 : Bool) (counts : List Nat) (writes : List EdgeWrite) :
    Except String (List Byte) :=
  match writeSession use32 counts writes with
  | .error e => .error e
  | .ok w => .ok w.file.data

/-- The `k`-th 8-byte little-endian field of a file (`k = 0` the version,
`1` the edge payload size, `2` the vertex count, `3` the edge count, `4 + i`
the `i`-th offset). -/
def hdrField (bytes : List Byte) (k : Nat) : Nat :=
  fromLE ((bytes.drop (8 * k)).take 8)

/-- The size of a file implied by its header, as the specification describes
the layout: 32 bytes of header, `8 * N` bytes of offsets, `w * E` bytes of
destinations (`w = 4` for version 1, `8` for version 2), padding to the next
multiple of 8, then `E * edgeDataSize` bytes of edge payload; computed in
unbounded arithmetic. -/
def impliedSize (ver edgeDataSize N E : Nat) : Nat :=
  (32 + 8 * N + (if ver = 2 then 8 else 4) * E + 7) / 8 * 8 + E * edgeDataSize

/-- The part of the layout that holds the topology: header, offsets and
destinations. -/
def topologySize (ver N E : Nat) : Nat :=
  32 + 8 * N + (if ver = 2 then 8 else 4) * E

/-- A version-1 file with one vertex and one edge (destination 7, offset
table `[1]`) that stops after the destination array: 44 bytes, neither
padding nor edge payload. -/
def truncatedFile : List Byte :=
  toLE 8 1 ++ toLE 8 4 ++ toLE 8 1 ++ toLE 8 1 ++ toLE 8 1 ++ toLE 4 7

/-! ## The two file formats, as documented -/

/-- An array of unsigned integers of `w` bytes each, little-endian. -/
def encodeArray (w : Nat) : List Nat → List Byte
  | [] => []
  | x :: xs => toLE w x ++ encodeArray w xs

/-- A logical graph: the size of one edge payload element, the offset table
(`offsets[i]` is the index of the first edge of vertex `i + 1`), the edge
destinations, and the bytes of the edge payload elements. -/
structure LogicalGraph where
  edgeDataSize : Nat
  offsets : List Nat
  dsts : List Nat
  edgeData : List Byte

/-- File format V1, as the format comment of `OfflineGraph.h` (lines 45-53)
describes it: version 1, edge payload size, vertex count, edge count and the
offsets as `uint64_t`, the destinations as `uint32_t`, padding to a multiple
of 8 bytes, then the edge payload. -/
def encodeV1 (G : LogicalGraph) : List Byte :=
  encodeArray 8 (1 :: G.edgeDataSize :: G.offsets.length :: G.dsts.length :: G.offsets)
    ++ (encodeArray 4 G.dsts
    ++ (List.replicate ((8 - 4 * G.dsts.length % 8) % 8) 0 ++ G.edgeData))

/-- File format V2, as the format comment of `OfflineGraph.h` (lines 55-62)
describes it: as V1 with version 2 and the destinations as `uint64_t`, hence
without padding. -/
def encodeV2 (G : LogicalGraph) : List Byte :=
  encodeArray 8 (2 :: G.edgeDataSize :: G.offsets.length :: G.dsts.length :: G.offsets)
    ++ (encodeArray 8 G.dsts ++ G.edgeData)

/-- A logical graph with two vertices and three edges: vertex 0 has the edges
to 1 and 0, vertex 1 the edge to 1; 4-byte edge payloads 10, 20, 30. -/
def sampleGraph : LogicalGraph :=
  { edgeDataSize := 4, offsets := [2, 3], dsts := [1, 0, 1],
    edgeData := toLE 4 10 ++ toLE 4 20 ++ toLE 4 30 }

/-! ## `vGraph.h`: data -/

/-- `NodeInfo` (`vGraph.h`, lines 51-61): one ownership record. -/
structure NodeInfo where
  local_id : Nat
  global_id : Nat
  owner_id : Nat
deriving DecidableEq

/-- A `std::map<size_t, size_t>`: the value stored under each key, if any. -/
abbrev StdMap := Nat → Option Nat

namespace StdMap

/-- The empty map. -/
def empty : StdMap := fun _ => none

/-- `m[k] = v;`: insert or overwrite. -/
def assign (m : StdMap) (k v : Nat) : StdMap := fun x => if x = k then some v else m x

/-- `m.at(k)`: throws `std::out_of_range` when `k` is absent. -/
def atKey (m : StdMap) (k : Nat) : Except String Nat :=
  match m k with
  | some v => .ok v
  | none => .error "std::out_of_range"

/-- `m[k]` used as a value: an absent key is inserted with the value `0`.
Returns the value and the map afterwards. -/
def index (m : StdMap) (k : Nat) : Nat × StdMap :=
  match m k with
  | some v => (v, m)
  | none => (0, m.assign k 0)

end StdMap

/-- `v.resize(n)` for a vector of vectors. -/
def resizeVec (v : List (List Nat)) (n : Nat) : List (List Nat) :=
  v.take n ++ List.replicate (n - v.length) []

/-- The network interface (`Galois/Runtime/Network.h`, not part of the
sources read here), as far as `vGraph.h` uses it: the id of this host and the
number of hosts. -/
structure NetworkInterface where
  ID : Nat
  Num : Nat
deriving DecidableEq

/-- The members of the policy type `FnTy` that `sync_push` and `syncRecvApply`
use; `α` is the node type, `β` is `FnTy::ValTy`. -/
structure PushFn (α β : Type) where
  extract : Nat → α → β
  reduce : Nat → α → β → α
  reset : Nat → α → α

/-- The members of the policy type `FnTy` that `sync_pull`,
`syncPullRecvReply` and `syncPullRecvApply` use. -/
structure PullFn (α β : Type) where
  extract : Nat → α → β
  setVal : Nat → α → β → α

/-- `PR_NodeData` (`pagerankpush/gen.cpp`), over a type `R` of numbers in
place of `float`: exact numbers, or `F32`, the `float` values themselves. -/
structure PR_NodeData (R : Type) where
  value : R
  residual : R
  nout : Nat

/-- `Syncer_0` of `InitializeGraph::go` and `PageRank::go`
(`pagerankpush/gen.cpp`, CPU personality): extract the residual, reduce by
adding to the residual, reset the residual to 0. -/
def Syncer_0 (R : Type) [Add R] [Zero R] : PushFn (PR_NodeData R) R where
  extract := fun _ node => node.residual
  reduce := fun _ node y => { node with residual := node.residual + y }
  reset := fun _ node => { node with residual := 0 }

/-- The content of a message, after the object id and the handler that
`gSerialize` puts in front: one constructor per handler, holding the fields
the handler deserializes. -/
inductive Message (β : Type) where
  /-- For `exchange_info_landingPad`: sender, item count, items. -/
  | exchangeInfo (hostID : Nat) (numItems : Nat) (items : List Nat)
  /-- For `syncRecvApply`: entry count, then the `(gid, val)` entries. -/
  | pushApply (num : Nat) (entries : List (Nat × β))
  /-- For `syncPullRecvReply`: requester, entry count. -/
  | pullRequest (from_id : Nat) (num : Nat)
  /-- For `syncPullRecvApply`: replier, entry count, then the `(gid, val)` entries. -/
  | pullReply (from_id : Nat) (num : Nat) (entries : List (Nat × β))

/-- State of a `vGraph` object (lines 115-138), for `BSPNode = false`; of the
local CSR graph only the node payload array is kept. -/
structure vGraph (α : Type) where
  id : Nat
  totalNodes : Nat
  numOwned : Nat
  localToGlobalMap_meta : List NodeInfo
  slaveNodes : List (List Nat)
  masterNodes : List (List Nat)
  LocalToGlobalMap : StdMap
  GlobalToLocalMap : StdMap
  GIDtoOwnerMap : StdMap
  num_recv_expected : Nat
  nodeData : List α

namespace vGraph

variable {α β : Type}

/-! ## `vGraph.h`: identity translation -/

/-- `L2G(lid)` (lines 151-154). -/
def L2G (h : vGraph α) (lid : Nat) : Except String Nat := h.LocalToGlobalMap.atKey lid

/-- `G2L(gid)` (lines 155-158). -/
def G2L (h : vGraph α) (gid : Nat) : Except String Nat := h.GlobalToLocalMap.atKey gid

/-- `getGID(nodeID)` (lines 531-533); the result is a `uint64_t`, as wide as
the `size_t` that `L2G` returns. -/
def getGID (h : vGraph α) (nodeID : Nat) : Except String Nat :=
  h.L2G nodeID

/-- `getLID(nodeID)` (lines 534-536); the result is a `uint32_t`. -/
def getLID (h : vGraph α) (nodeID : Nat) : Except String Nat :=
  (h.G2L nodeID).map u32

/-- `getHostID(gid)` (lines 538-540): `GIDtoOwnerMap[gid]` converted to
`unsigned`, and the object afterwards. -/
def getHostID (h : vGraph α) (gid : Nat) : Nat × vGraph α :=
  let r := h.GIDtoOwnerMap.index gid
  (u32 r.1, { h with GIDtoOwnerMap := r.2 })

/-- `getNumOwned()` (lines 541-543). -/
def getNumOwned (h : vGraph α) : Nat := h.numOwned

/-- `getData(N)` (lines 406-411): the payload of node `N`, a `uint32_t`; a node
outside the graph is an error. -/
def getData (h : vGraph α) (N : Nat) : Except String α :=
  match h.nodeData[u32 N]? with
  | some d => .ok d
  | none => .error "getData: node outside the graph"

/-- Storing `d` through the reference `getData(N)` returned. -/
def setData (h : vGraph α) (N : Nat) (d : α) : vGraph α :=
  { h with nodeData := h.nodeData.set (u32 N) d }

/-! ## `vGraph.h`: the constructor's tables -/

/-- The object after the member initialisers of the constructor (line 337),
with the ownership records `records` in `localToGlobalMap_meta` (line 345). -/
def blank (host : Nat) (records : List NodeInfo) : vGraph α :=
  { id := host, totalNodes := 0, numOwned := 0, localToGlobalMap_meta := records
    slaveNodes := [], masterNodes := [], LocalToGlobalMap := StdMap.empty
    GlobalToLocalMap := StdMap.empty, GIDtoOwnerMap := StdMap.empty
    num_recv_expected := 0, nodeData := [] }

/-- One iteration of the loop of lines 350-358. -/
def addRecord (numHosts : Nat) (h : vGraph α) (info : NodeInfo) : Except String (vGraph α) :=
  if ¬ info.owner_id < numHosts then
    .error "assert(info.owner_id >= 0 && info.owner_id < numHosts)"
  else
    match h.slaveNodes[info.owner_id]? with
    | none => .error "slaveNodes[info.owner_id] outside the vector"
    | some s =>
      .ok { h with
        slaveNodes := h.slaveNodes.set info.owner_id (s ++ [info.global_id])
        GIDtoOwnerMap := h.GIDtoOwnerMap.assign info.global_id info.owner_id
        LocalToGlobalMap := h.LocalToGlobalMap.assign info.local_id info.global_id
        GlobalToLocalMap := h.GlobalToLocalMap.assign info.global_id info.local_id }

/-- Lines 347-358 of the constructor: the two `resize` calls and the loop over
the ownership records that fills the Slave Sets and the three maps. -/
def buildTables (h : vGraph α) (numHosts : Nat) : Except String (vGraph α) :=
  h.localToGlobalMap_meta.foldlM (addRecord numHosts)
    { h with masterNodes := resizeVec h.masterNodes numHosts
             slaveNodes := resizeVec h.slaveNodes numHosts }

/-- A loaded host: the tables built by the constructor of host `host` out of
`numHosts` from the ownership records `records`, with `nodes` as the node
payload array of the local graph. -/
def loaded (host numHosts : Nat) (records : List NodeInfo) (nodes : List α) :
    Except String (vGraph α) :=
  match (blank host records : vGraph α).buildTables numHosts with
  | .error e => .error e
  | .ok h => .ok { h with nodeData := nodes }

/-! ## `vGraph.h`: handshake -/

/-- `exchange_info_init()` (lines 449-466): the messages sent, as pairs of
destination and content, in the order of sending; the object is unchanged. -/
def exchange_info_init (net : NetworkInterface) (h : vGraph α) :
    Except String (List (Nat × Message β)) :=
  (List.range net.Num).foldlM (fun sent x =>
    match h.slaveNodes[x]? with
    | none => .error "slaveNodes[x] outside the vector"
    | some s =>
      if x = h.id ∨ s.length = 0 then .ok sent
      else .ok (sent ++ [(x, Message.exchangeInfo (u32 h.id) (u64 s.length) s)])) []

/-- `exchange_info_landingPad(buf)` (lines 242-253) on the fields `hostID`,
`numItems` and the vector that follows them. -/
def exchange_info_landingPad (h : vGraph α) (hostID _numItems : Nat) (items : List Nat) :
    Except String (vGraph α) :=
  let mn := if h.masterNodes.length < hostID then resizeVec h.masterNodes hostID
    else h.masterNodes
  if hostID < mn.length then .ok { h with masterNodes := mn.set hostID items }
  else .error "masterNodes[hostID] outside the vector"

/-! ## `vGraph.h`: push -/

/-- The body of the inner loop of `sync_push` (lines 479-486) for one GID:
the entry appended to the buffer and the reset of the slot. -/
def pushEntry (P : PushFn α β) (st : vGraph α × List (Nat × β)) (gid : Nat) :
    Except String (vGraph α × List (Nat × β)) :=
  match st.1.G2L gid with
  | .error e => .error e
  | .ok lid =>
    match st.1.getData lid with
    | .error e => .error e
    | .ok d =>
      .ok (st.1.setData lid (P.reset (u32 lid) d), st.2 ++ [(gid, P.extract (u32 lid) d)])

/-- One iteration of the send loop of `sync_push` (lines 472-489), for the
destination `x`: nothing for this host itself or for an empty Slave Set,
otherwise one message with the entries of the Slave Set of `x`. -/
def pushStep (P : PushFn α β) (st : vGraph α × List (Nat × Message β)) (x : Nat) :
    Except String (vGraph α × List (Nat × Message β)) :=
  match st.1.slaveNodes[x]? with
  | none => .error "slaveNodes[x] outside the vector"
  | some s =>
    if x = st.1.id ∨ s.length = 0 then .ok st
    else
      match s.foldlM (pushEntry P) (st.1, []) with
      | .error e => .error e
      | .ok r => .ok (r.1, st.2 ++ [(x, Message.pushApply (u32 s.length) r.2)])

/-- The send loop of `sync_push` (lines 472-489): the object afterwards and
the messages sent, in order.  The `flush` and the barrier that follow change
nothing in the object. -/
def sync_push (P : PushFn α β) (net : NetworkInterface) (h : vGraph α) :
    Except String (vGraph α × List (Nat × Message β)) :=
  (List.range net.Num).foldlM (pushStep P) (h, [])

/-- The body of the loop of `syncRecvApply` (lines 261-267) for one entry
`(gid, val)` of the buffer: the value is reduced into the local slot. -/
def reduceEntry (P : PushFn α β) (h : vGraph α) (e : Nat × β) : Except String (vGraph α) :=
  match h.G2L e.1 with
  | .error err => .error err
  | .ok lid =>
    match h.getData lid with
    | .error err => .error err
    | .ok d => .ok (h.setData lid (P.reduce (u32 lid) d e.2))

/-- The loop of `syncRecvApply` (lines 260-268): `num` entries are taken from
the buffer, one after the other. -/
def syncRecvApplyLoop (P : PushFn α β) :
    Nat → List (Nat × β) → vGraph α → Except String (vGraph α)
  | 0, _, h => .ok h
  | _ + 1, [], _ => .error "gDeserialize: buffer exhausted"
  | num + 1, e :: buf, h =>
    match reduceEntry P h e with
    | .error err => .error err
    | .ok h1 => syncRecvApplyLoop P num buf h1

/-- `syncRecvApply<FnTy>(buf)` (lines 255-269) on the fields of the buffer. -/
def syncRecvApply (P : PushFn α β) (h : vGraph α) (num : Nat) (entries : List (Nat × β)) :
    Except String (vGraph α) :=
  syncRecvApplyLoop P num entries h

/-! ## `vGraph.h`: pull -/

/-- One iteration of the send loop of `sync_pull` (lines 505-519), for the
destination `x`: a request to every host but this one. -/
def pullStep (net : NetworkInterface) (st : vGraph α × List (Nat × Message β)) (x : Nat) :
    Except String (vGraph α × List (Nat × Message β)) :=
  if x = st.1.id then .ok st
  else
    match st.1.slaveNodes[x]? with
    | none => .error "slaveNodes[x] outside the vector"
    | some s =>
      .ok ({ st.1 with num_recv_expected := u32 (st.1.num_recv_expected + 1) },
           st.2 ++ [(x, Message.pullRequest net.ID (u32 s.length))])

/-- The send loop of `sync_pull` (lines 504-519): the object afterwards
(`num_recv_expected` counts the requests) and the requests sent. -/
def sync_pull (net : NetworkInterface) (h : vGraph α) :
    Except String (vGraph α × List (Nat × Message β)) :=
  (List.range net.Num).foldlM (pullStep net) ({ h with num_recv_expected := 0 }, [])

/-- The body of the loop of `syncPullRecvReply` (lines 296-302) for one GID
of the Master Set: the entry appended to the reply. -/
def replyEntry (P : PullFn α β) (h : vGraph α) (b : List (Nat × β)) (n : Nat) :
    Except String (List (Nat × β)) :=
  match h.G2L n with
  | .error e => .error e
  | .ok localID =>
    match h.getData localID with
    | .error e => .error e
    | .ok d => .ok (b ++ [(n, P.extract (u32 localID) d)])

/-- `syncPullRecvReply<FnTy>(buf)` (lines 271-304) on the fields of the
request: the object afterwards and the reply sent, as destination and
content. -/
def syncPullRecvReply (P : PullFn α β) (h : vGraph α) (from_id num : Nat) :
    Except String (vGraph α × (Nat × Message β)) :=
  match h.masterNodes[from_id]? with
  | none => .error "masterNodes[from_id] outside the vector"
  | some m =>
    if num ≠ m.length then .error "assert(num == masterNodes[from_id].size())"
    else
      match m.foldlM (replyEntry P h) [] with
      | .error e => .error e
      | .ok b => .ok (h, (from_id, Message.pullReply (u32 h.id) num b))

/-- The body of the loop of `syncPullRecvApply` (lines 316-321) for one entry
`(gid, val)` of the buffer: the value overwrites the local slot. -/
def setValEntry (P : PullFn α β) (h : vGraph α) (e : Nat × β) : Except String (vGraph α) :=
  match h.G2L e.1 with
  | .error err => .error err
  | .ok localId =>
    match h.getData localId with
    | .error err => .error err
    | .ok d => .ok (h.setData localId (P.setVal (u32 localId) d e.2))

/-- The loop of `syncPullRecvApply` (lines 315-322). -/
def syncPullRecvApplyLoop (P : PullFn α β) :
    Nat → List (Nat × β) → vGraph α → Except String (vGraph α)
  | 0, _, h => .ok h
  | _ + 1, [], _ => .error "gDeserialize: buffer exhausted"
  | num + 1, e :: buf, h =>
    match setValEntry P h e with
    | .error err => .error err
    | .ok h1 => syncPullRecvApplyLoop P num buf h1

/-- `syncPullRecvApply<FnTy>(buf)` (lines 306-324) on the fields of the reply. -/
def syncPullRecvApply (P : PullFn α β) (h : vGraph α) (from_id num : Nat)
    (entries : List (Nat × β)) : Except String (vGraph α) :=
  if ¬ 0 < h.num_recv_expected then .error "assert(num_recv_expected > 0)"
  else
    match h.slaveNodes[from_id]? with
    | none => .error "slaveNodes[from_id] outside the vector"
    | some s =>
      if num ≠ s.length then .error "assert(num == slaveNodes[from_id].size())"
      else
        match syncPullRecvApplyLoop P num entries h with
        | .error e => .error e
        | .ok h1 => .ok { h1 with num_recv_expected := h1.num_recv_expected - 1 }

end vGraph

/-! ## Descriptions of the tables, used to state and prove the theorems -/

/-- The GIDs, in record order, of the records whose owner is `x`. -/
def slaveSetOf (records : List NodeInfo) (x : Nat) : List Nat :=
  (records.filter (fun r => r.owner_id = x)).map (·.global_id)

/-- The Slave Sets after the records `rs` have been added to `sl`. -/
def slaveAfter (sl : List (List Nat)) (rs : List NodeInfo) : List (List Nat) :=
  rs.foldl (fun sl r => sl.set r.owner_id ((sl[r.owner_id]?).getD [] ++ [r.global_id])) sl

/-- A map after the assignments `m[key r] = val r` for the records `rs`. -/
def assignAll (key val : NodeInfo → Nat) (m : StdMap) (rs : List NodeInfo) : StdMap :=
  rs.foldl (fun m r => m.assign (key r) (val r)) m

/-! ## The hosts of a run and the delivery of messages -/

/-- The hosts of a run: the object of host `x`, for `x` below the number of
hosts. -/
abbrev Hosts (α : Type) := Nat → vGraph α

/-- Every host runs `exchange_info_init`: all the handshake messages sent,
as pairs of destination and content. -/
def handshakeSends {α β : Type} (numHosts : Nat) (c : Hosts α) :
    Except String (List (Nat × Message β)) :=
  (List.range numHosts).foldlM (fun sent x =>
    match vGraph.exchange_info_init ⟨x, numHosts⟩ (c x) with
    | .error e => .error e
    | .ok s => .ok (sent ++ s)) []

/-- Delivery of one handshake message: `syncRecv` (lines 232-240) runs
`exchange_info_landingPad` on the object of the destination. -/
def recvHandshake {α β : Type} (numHosts : Nat) (c : Hosts α) (m : Nat × Message β) :
    Except String (Hosts α) :=
  if ¬ m.1 < numHosts then .error "no such host"
  else
    match m.2 with
    | .exchangeInfo hostID numItems items =>
      match (c m.1).exchange_info_landingPad hostID numItems items with
      | .error e => .error e
      | .ok h => .ok (Function.update c m.1 h)
    | _ => .error "not a handshake message"

/-- What host `x` sends to host `d` in the handshake when its Slave Set for
`d` is `s`: nothing to itself, nothing for an empty set, one message
otherwise. -/
def handshakeTo {β : Type} (x d : Nat) (s : List Nat) : List (Nat × Message β) :=
  if d = x ∨ s.length = 0 then []
  else [(d, Message.exchangeInfo (u32 x) (u64 s.length) s)]

/-- A host processes the push messages `ms` (entry count and entries of each)
one after the other with `syncRecvApply`. -/
def applyPushes {α β : Type} (P : PushFn α β) (h : vGraph α)
    (ms : List (Nat × List (Nat × β))) : Except String (vGraph α) :=
  ms.foldlM (fun h m => h.syncRecvApply P m.1 m.2) h

/-- `reduceEntry`, with failure as `none`, on a state that may already have
failed. -/
def reduceStep {α β : Type} (P : PushFn α β) (s : Option (vGraph α)) (e : Nat × β) :
    Option (vGraph α) :=
  s.bind (fun h => (h.reduceEntry P e).toOption)

/-! ## A sample run: three hosts -/

/-- Ownership records of three hosts: GID 10 is mastered by host 0 and
replicated by hosts 1 and 2; GID 11 is mastered and held by host 1 only. -/
def sampleRecords : Nat → List NodeInfo
  | 0 => [⟨0, 10, 0⟩]
  | 1 => [⟨0, 10, 0⟩, ⟨1, 11, 1⟩]
  | 2 => [⟨0, 10, 0⟩]
  | _ => []

/-- Node payloads of the three hosts: the residual of GID 10 is 1 on its
master and 2 and 3 on its replicas. -/
def sampleNodes : Nat → List (PR_NodeData Int)
  | 0 => [⟨0, 1, 0⟩]
  | 1 => [⟨0, 2, 0⟩, ⟨0, 7, 0⟩]
  | 2 => [⟨0, 3, 0⟩]
  | _ => []

/-- The three hosts after their constructors have built the tables. -/
def sampleHosts : Hosts (PR_NodeData Int) := fun x =>
  match vGraph.loaded x 3 (sampleRecords x) (sampleNodes x) with
  | .ok h => h
  | .error _ => vGraph.blank x []

/-! ## One pull exchange between two hosts -/

/-- A pull policy over `PR_NodeData`: extract the field `value`, overwrite
the field `value`. -/
def valuePull (R : Type) : PullFn (PR_NodeData R) R where
  extract := fun _ node => node.value
  setVal := fun _ node y => { node with value := y }

/-- The content of slot `l`, holding `d`, after the entries `es` have been
reduced into the payload array of a host whose translation table is `G`. -/
def slotAfter {α β : Type} (P : PushFn α β) (G : StdMap) (l : Nat) (d : α)
    (es : List (Nat × β)) : α :=
  es.foldl (fun d e => if (G e.1).map u32 = some l then P.reduce l d e.2 else d) d

/-! ## A run with ill-formed ownership records: two hosts -/

/-- Ownership records of two hosts.  Host 0 masters the GIDs 10 and 11 in
the slots 0 and 1; host 1 replicates both, and its records give both the
same local id 0. -/
def dupRecords : Nat → List NodeInfo
  | 0 => [⟨0, 10, 0⟩, ⟨1, 11, 0⟩]
  | 1 => [⟨0, 10, 0⟩, ⟨0, 11, 0⟩]
  | _ => []

/-- Node payloads of the two hosts: on host 0, GID 10 has value 3 and
residual 1, GID 11 has value 5 and residual 1; the one slot of host 1 has
value 0 and residual 2. -/
def dupNodes : Nat → List (PR_NodeData Int)
  | 0 => [⟨3, 1, 0⟩, ⟨5, 1, 0⟩]
  | 1 => [⟨0, 2, 0⟩]
  | _ => []

/-- Host 0 of the sample run after it has processed the handshake message of
host 1. -/
def sampleResponder : vGraph (PR_NodeData Int) :=
  match (sampleHosts 0).exchange_info_landingPad 1 1 [10] with
  | .ok h => h
  | .error _ => sampleHosts 0

/-! ## One push round of a run -/

/-- Host `x` runs the send loop of `sync_push`: its object afterwards
replaces the old one and its messages follow those sent so far. -/
def pushSendStep {α β : Type} (P : PushFn α β) (numHosts : Nat)
    (st : Hosts α × List (Nat × Message β)) (x : Nat) :
    Except String (Hosts α × List (Nat × Message β)) :=
  match (st.1 x).sync_push P ⟨x, numHosts⟩ with
  | .error e => .error e
  | .ok r => .ok (Function.update st.1 x r.1, st.2 ++ r.2)

/-- Every host runs the send loop of `sync_push`, host 0 first: the hosts
afterwards and all the messages sent, as pairs of destination and content. -/
def pushSends {α β : Type} (P : PushFn α β) (numHosts : Nat) (c : Hosts α) :
    Except String (Hosts α × List (Nat × Message β)) :=
  (List.range numHosts).foldlM (pushSendStep P numHosts) (c, [])

/-- Delivery of one push message: `syncRecv` (lines 232-240) runs
`syncRecvApply` on the object of the destination. -/
def recvPush {α β : Type} (P : PushFn α β) (numHosts : Nat) (c : Hosts α)
    (m : Nat × Message β) : Except String (Hosts α) :=
  if ¬ m.1 < numHosts then .error "no such host"
  else
    match m.2 with
    | .pushApply num entries =>
      match (c m.1).syncRecvApply P num entries with
      | .error e => .error e
      | .ok h => .ok (Function.update c m.1 h)
    | _ => .error "not a push message"

/-- The residual a host holds for the GID `g`: the field `residual` of
`getData(getLID(g))`, when the host holds `g`. -/
def residualOf {R : Type} (h : vGraph (PR_NodeData R)) (g : Nat) : Option R :=
  match h.getLID g with
  | .error _ => none
  | .ok lid =>
    match h.getData lid with
    | .error _ => none
    | .ok d => some d.residual

/-- What host `x` sends to host `d` in a push when its Slave Set for `d` is
`s`, the slot of a GID `g` is `L g` and holds `D g`: nothing to itself,
nothing for an empty set, otherwise one message with one entry per GID. -/
def pushTo {α β : Type} (P : PushFn α β) (x d : Nat) (s : List Nat) (L : Nat → Nat)
    (D : Nat → α) : List (Nat × Message β) :=
  if d = x ∨ s.length = 0 then []
  else [(d, Message.pushApply (u32 s.length) (s.map (fun g => (g, P.extract (L g) (D g)))))]

/-- The entries that `syncRecvApply` takes from a push message. -/
def entriesOf {β : Type} : Message β → List (Nat × β)
  | .pushApply num es => es.take num
  | _ => []

/-- The entries that host `y` reduces when the messages `l` are delivered in
order. -/
def entriesTo {β : Type} (y : Nat) (l : List (Nat × Message β)) : List (Nat × β) :=
  l.flatMap (fun m => if m.1 = y then entriesOf m.2 else [])

/-- The sum of the values that the entries `es` carry for the GID `g`. -/
def gidSum {R : Type} [AddCommMonoid R] (g : Nat) (es : List (Nat × R)) : R :=
  ((es.filter (fun e => e.1 = g)).map (·.2)).sum

/-- Well-formed ownership records of a run of `n` hosts, host `x` having a
payload array of `len x` slots: on every host the global ids are pairwise
distinct, the local ids are pairwise distinct and inside the payload array,
the payload array has fewer than `2^32` slots, and the owner named by a
record of a replica holds that GID as its master. -/
structure WellFormedRun (n : Nat) (records : Nat → List NodeInfo) (len : Nat → Nat) : Prop where
  gid_nodup : ∀ x, x < n → ((records x).map (·.global_id)).Nodup
  lid_nodup : ∀ x, x < n → ((records x).map (·.local_id)).Nodup
  lid_lt : ∀ x, x < n → ∀ r ∈ records x, r.local_id < len x
  len_lt : ∀ x, x < n → len x < 2 ^ 32
  owner_holds : ∀ x, x < n → ∀ r ∈ records x, r.owner_id ≠ x →
    ∃ r' ∈ records r.owner_id, r'.global_id = r.global_id ∧ r'.owner_id = r.owner_id

/-- The local id that the ownership records give the GID `g` (0 when no
record has `g`). -/
def lidOf (records : List NodeInfo) (g : Nat) : Nat :=
  ((assignAll (·.global_id) (·.local_id) StdMap.empty records) g).getD 0

/-- The payload that a host with the given records and payload array holds
for the GID `g` (`d0` when it holds none). -/
def payloadOf {α : Type} (d0 : α) (records : List NodeInfo) (nodes : List α) (g : Nat) : α :=
  (nodes[lidOf records g]?).getD d0

/-- All the messages of one push round of `n` loaded hosts: those of host 0
first, for each host in the order of the destinations. -/
def roundMessages {α β : Type} (P : PushFn α β) (d0 : α) (n : Nat)
    (records : Nat → List NodeInfo) (nodes : Nat → List α) : List (Nat × Message β) :=
  (List.range n).flatMap (fun x => (List.range n).flatMap (fun d =>
    pushTo P x d (slaveSetOf (records x) d) (lidOf (records x))
      (payloadOf d0 (records x) (nodes x))))

/-- The two hosts with ill-formed ownership records after their constructors
have built the tables. -/
def dupHosts : Hosts (PR_NodeData Int) := fun x =>
  match vGraph.loaded x 2 (dupRecords x) (dupNodes x) with
  | .ok h => h
  | .error _ => vGraph.blank x []

/-! ## `vGraph.h`: the metadata file and the constructor -/

/-- The loop of `readMetaFile` (lines 89-96) with `k` iterations left: three
reads of 8 bytes, into the value-initialised pair `entry` and into the
uninitialised `owner`, whose content before the read is `uninit`; then
`push_back(NodeInfo(entry.second, entry.first, owner))`. -/
def readRecords (uninit : Nat) : Nat → FileStream → List NodeInfo → List NodeInfo
  | 0, _, vec => vec
  | k + 1, s, vec =>
    let first := s.readInto 8 0
    let second := first.2.readInto 8 0
    let owner := second.2.readInto 8 uninit
    readRecords uninit k owner.2 (vec ++ [⟨second.1, first.1, owner.1⟩])

/-- `readMetaFile(metaFileName, localToGlobalMap_meta)` (lines 80-98).
`content` is what the file system holds under the name, `none` when the file
cannot be opened; `uninit` is the content of an uninitialised `size_t`
(`num_entries`, `owner`) before the read into it.  Returns the `bool` and the
vector afterwards. -/
def readMetaFile (content : Option (List Byte)) (uninit : Nat) (vec : List NodeInfo) :
    Bool × List NodeInfo :=
  match content with
  | none => (false, vec)
  | some bytes =>
    let num_entries := (⟨bytes, 0, false⟩ : FileStream).readInto 8 uninit
    (true, readRecords uninit num_entries.1 num_entries.2 vec)

/-- The constructor `vGraph(filename, partitionFolder, host, numHosts)` (lines
336-378).  `shard` and `meta` are what the file system holds under the names
of the partition file and of the metadata file; `d0` is a default-constructed
node payload.  The result of `readMetaFile` is not looked at (line 345).  Of
the local CSR graph (`LC_CSR_Graph`, not part of the sources read here) only
the payload array made by `allocateFrom(numNodes, ...)` and `constructNodes()`
is kept (`numNodes` is the `uint32_t numOwned`); `loadEdges` fills its edges
through accessors of the reader that do not throw.  Returns the object and
the handshake messages sent by `exchange_info_init`. -/
def vGraph.mk? {α β : Type} (d0 : α) (shard meta : Option (List Byte))
    (net : NetworkInterface) (host numHosts uninit : Nat) :
    Except String (vGraph α × List (Nat × Message β)) :=
  match OfflineGraph.mk? shard with
  | .error e => .error e
  | .ok g =>
    let records := (readMetaFile meta uninit []).2
    match ({ (vGraph.blank host records : vGraph α) with
        totalNodes := g.size }).buildTables numHosts with
    | .error e => .error e
    | .ok h1 =>
      match h1.exchange_info_init net with
      | .error e => .error e
      | .ok msgs =>
        .ok ({ h1 with numOwned := u32 g.size
                       nodeData := List.replicate (u32 g.size) d0 }, msgs)

/-- A version-1 partition file with two vertices and no edge. -/
def sampleShard : List Byte := encodeArray 8 [1, 0, 2, 0, 0, 0]

/-- A metadata file with two records: GID 10 in slot 0, owned by host 0, and
GID 11 in slot 1, owned by host 1. -/
def sampleMeta : List Byte := encodeArray 8 [2, 10, 0, 0, 11, 1, 1]

/-- Ownership records of host 0 of two that give one local id to a replica
and to a master: GID 11, owned by host 1, and GID 10, owned by host 0, both
in slot 0. -/
def mixedRecords : List NodeInfo := [⟨0, 11, 1⟩, ⟨0, 10, 0⟩]

/-- Host 0 loaded from `mixedRecords`, its one slot holding the residual 4. -/
def mixedHost : vGraph (PR_NodeData Int) :=
  match vGraph.loaded 0 2 mixedRecords [⟨0, 4, 0⟩] with
  | .ok h => h
  | .error _ => vGraph.blank 0 []

/-- The `i`-th record of a metadata file, as the file is documented: after
the 8-byte count, three 8-byte fields per record, the global id, the local id
and the owner, in that order. -/
def metaRecord (bytes : List Byte) (i : Nat) : NodeInfo :=
  { global_id := hdrField bytes (1 + 3 * i)
    local_id := hdrField bytes (2 + 3 * i)
    owner_id := hdrField bytes (3 + 3 * i) }

/-- `std::to_string(unsigned)` of the C++ standard library: the decimal
digits of the value, most significant first, without leading zeros. -/
def to_string (n : Nat) : String := (Nat.toDigits 10 n).asString

/-- `getPartitionFileName(basename, hostID, num_hosts)` (lines 63-70). -/
def getPartitionFileName (basename : String) (hostID num_hosts : Nat) : String :=
  let result := basename
  let result := result ++ ".PART."
  let result := result ++ to_string hostID
  let result := result ++ ".OF."
  let result := result ++ to_string num_hosts
  result

/-- `getMetaFileName(basename, hostID, num_hosts)` (lines 71-78). -/
def getMetaFileName (basename : String) (hostID num_hosts : Nat) : String :=
  let result := basename
  let result := result ++ ".META."
  let result := result ++ to_string hostID
  let result := result ++ ".OF."
  let result := result ++ to_string num_hosts
  result

/-- The number that a string of decimal digits denotes. -/
def decimalValue (cs : List Char) : Nat :=
  cs.foldl (fun a c => 10 * a + (c.toNat - 48)) 0

/-! ## `vGraph.h`: receiving -/

/-- `syncRecv(buf)` (lines 232-240): the handler named in the message runs on
the object.  `Ppush` and `Ppull` are the policies of the handlers.  Returns
the object afterwards and what the handler sent. -/
def vGraph.syncRecv {α β : Type} (Ppush : PushFn α β) (Ppull : PullFn α β) (h : vGraph α)
    (m : Message β) : Except String (vGraph α × List (Nat × Message β)) :=
  match m with
  | .exchangeInfo hostID numItems items =>
    match h.exchange_info_landingPad hostID numItems items with
    | .error e => .error e
    | .ok h1 => .ok (h1, [])
  | .pushApply num entries =>
    match h.syncRecvApply Ppush num entries with
    | .error e => .error e
    | .ok h1 => .ok (h1, [])
  | .pullRequest from_id num =>
    match h.syncPullRecvReply Ppull from_id num with
    | .error e => .error e
    | .ok r => .ok (r.1, [r.2])
  | .pullReply from_id num entries =>
    match h.syncPullRecvApply Ppull from_id num entries with
    | .error e => .error e
    | .ok h1 => .ok (h1, [])

/-- Modelled from the spec: `net.handleReceives()` of the network layer, which
is not among the sources read here.  The requester "drains its network
receive queue": one call takes the next message of the queue, if there is
one, and dispatches it through `syncRecv`.  Returns the object, what the
handler sent, and the rest of the queue. -/
def vGraph.handleReceives {α β : Type} (Ppush : PushFn α β) (Ppull : PullFn α β)
    (h : vGraph α) (queue : List (Message β)) :
    Except String (vGraph α × List (Nat × Message β) × List (Message β)) :=
  match queue with
  | [] => .ok (h, [], [])
  | m :: rest =>
    match h.syncRecv Ppush Ppull m with
    | .error e => .error e
    | .ok r => .ok (r.1, r.2, rest)

/-- The wait loop of `sync_pull` (lines 522-524),
`while (num_recv_expected) net.handleReceives();`, on the messages `queue`
that arrive at this host, in order.  The result is `none` when the queue is
drained while a reply is still expected (the loop goes on polling), and
otherwise the object at the exit of the loop, what the handlers sent, and
the messages not yet taken from the queue. -/
def vGraph.waitLoop {α β : Type} (Ppush : PushFn α β) (Ppull : PullFn α β) :
    List (Message β) → vGraph α → List (Nat × Message β) →
    Except String (Option (vGraph α × List (Nat × Message β) × List (Message β)))
  | [], h, sent => if h.num_recv_expected = 0 then .ok (some (h, sent, [])) else .ok none
  | m :: rest, h, sent =>
    if h.num_recv_expected = 0 then .ok (some (h, sent, m :: rest))
    else
      match h.handleReceives Ppush Ppull (m :: rest) with
      | .error e => .error e
      | .ok r => vGraph.waitLoop Ppush Ppull rest r.1 (sent ++ r.2.1)

/-- The object after the messages `ms` have been dispatched through
`syncRecv`, one after the other. -/
def vGraph.handled {α β : Type} (Ppush : PushFn α β) (Ppull : PullFn α β) (h : vGraph α)
    (ms : List (Message β)) : Except String (vGraph α) :=
  ms.foldlM (fun h m =>
    match h.syncRecv Ppush Ppull m with
    | .error e => .error e
    | .ok r => .ok r.1) h

/-- The pull replies among the messages `ms`. -/
def pullReplies {β : Type} (ms : List (Message β)) : List (Message β) :=
  ms.filter (fun m => match m with
    | .pullReply _ _ _ => true
    | _ => false)

/-! ## The reader between two accesses -/

/-- The streams of a reader on the file `bytes` are in step: each of the
streams that the accessors use is good and stands, inside the file, where
the cached location says.  This is the state of the reader after its
constructor and after every access that stays inside the file. -/
structure OfflineGraph.InStep (g : OfflineGraph) (bytes : List Byte) : Prop where
  file1 : g.file1 = ⟨bytes, g.loc1, false⟩
  fileIndex : g.fileIndex = ⟨bytes, g.locIndex, false⟩
  fileEdgeData : g.fileEdgeData = ⟨bytes, g.locEdgeData, false⟩

/-- The byte offset at which the edge payload starts, as `edgeData` computes
it (lines 118-120) when nothing overflows: the end of the destination array,
rounded up with `(pos + 7) & ~7`. -/
def OfflineGraph.payloadStart (g : OfflineGraph) : Nat :=
  ((4 + g.numNodes) * 8 + g.numEdges * dstWidth g.v2 + 7) / 8 * 8

/-- A 32-byte file that consists of a header alone: version 1, no edge
payload, `2^61` vertices, no edge.  The length check of the reader computes
`8 * (4 + 2^61)` in 64 bits, which is 32. -/
def wrapFile : List Byte := encodeArray 8 [1, 0, 2 ^ 61, 0]

/-- The `i`-th entry of the offset table of a file. -/
def offsetEntry (bytes : List Byte) (i : Nat) : Nat := hdrField bytes (4 + i)

/-- The first edge index of vertex `v` according to the offset table: 0 for
vertex 0, the offset entry of the vertex before for the others. -/
def rangeBegin (bytes : List Byte) (v : Nat) : Nat :=
  if v = 0 then 0 else offsetEntry bytes (v - 1)

/-! ## `vGraph.h`: loading the edges -/

/-- Modelled from the spec: the local CSR storage `LC_CSR_Graph`, whose
header `Galois/Graphs/LC_CSR_Graph.h` is not among the sources.  It holds,
for every node, the index behind its last edge and, for every edge, its
destination and its payload (the bytes of an `EdgeTy`; unused for a void
edge type). -/
structure LC_CSR_Graph where
  edgeIndData : List Nat
  edgeDst : List Nat
  edgeData : List (List Byte)

namespace LC_CSR_Graph

/-- Modelled from the spec: `allocateFrom(nNodes, nEdges)` and
`constructNodes()` of the local CSR storage, which make room for `nNodes`
nodes and `nEdges` edges. -/
def allocateFrom (nNodes nEdges : Nat) : LC_CSR_Graph :=
  { edgeIndData := List.replicate nNodes 0
    edgeDst := List.replicate nEdges 0
    edgeData := List.replicate nEdges [] }

/-- Modelled from the spec: `constructEdge(e, dst, val)` and, for a void edge
type (`val = none`), `constructEdge(e, dst)` of the local CSR storage: edge
`e` receives its destination and its payload. -/
def constructEdge (c : LC_CSR_Graph) (e dst : Nat) (val : Option (List Byte)) :
    Except String LC_CSR_Graph :=
  if e < c.edgeDst.length then
    .ok { c with
      edgeDst := c.edgeDst.set e dst
      edgeData := match val with
        | some v => c.edgeData.set e v
        | none => c.edgeData }
  else .error "constructEdge: edge outside the graph"

/-- Modelled from the spec: `fixEndEdge(n, e)` of the local CSR storage: the
edges of node `n` end before index `e`. -/
def fixEndEdge (c : LC_CSR_Graph) (n e : Nat) : Except String LC_CSR_Graph :=
  if n < c.edgeIndData.length then .ok { c with edgeIndData := c.edgeIndData.set n e }
  else .error "fixEndEdge: node outside the graph"

/-- Modelled from the spec: `edge_begin(n)` of the local CSR storage. -/
def edge_begin (c : LC_CSR_Graph) (n : Nat) : Nat :=
  if n = 0 then 0 else c.edgeIndData.getD (n - 1) 0

/-- Modelled from the spec: `edge_end(n)` of the local CSR storage. -/
def edge_end (c : LC_CSR_Graph) (n : Nat) : Nat := c.edgeIndData.getD n 0

/-- Modelled from the spec: `getEdgeDst(e)` of the local CSR storage. -/
def getEdgeDst (c : LC_CSR_Graph) (e : Nat) : Option Nat := c.edgeDst[e]?

/-- Modelled from the spec: `getEdgeData(e)` of the local CSR storage. -/
def getEdgeData (c : LC_CSR_Graph) (e : Nat) : Option (List Byte) := c.edgeData[e]?

end LC_CSR_Graph

/-- The body of the inner loop of `loadEdges` (lines 386-388, and 399-400
for a void edge type) at the edge iterator `ii`, on the reader, the local
graph and `cur`.  `sizeT` is `sizeof(EdgeTy)`, `none` for a void edge type.
The accessors of the reader return an indeterminate value when they read
outside the file; using it is an error here. -/
def loadEdge (sizeT : Option Nat) (st : OfflineGraph × LC_CSR_Graph × Nat) (ii : Nat) :
    Except String (OfflineGraph × LC_CSR_Graph × Nat) :=
  let d := st.1.getEdgeDst ii
  match d.1 with
  | none => .error "getEdgeDst: read outside the file"
  | some gdst =>
    match sizeT with
    | none =>
      match st.2.1.constructEdge st.2.2 gdst none with
      | .error e => .error e
      | .ok c => .ok (d.2, c, u64 (st.2.2 + 1))
    | some sz =>
      match d.2.getEdgeData sz ii with
      | .error e => .error e
      | .ok (none, _) => .error "getEdgeData: read outside the file"
      | .ok (some gdata, g2) =>
        match st.2.1.constructEdge st.2.2 gdst (some gdata) with
        | .error e => .error e
        | .ok c => .ok (g2, c, u64 (st.2.2 + 1))

/-- The body of the outer loop of `loadEdges` (lines 385-390) at node `n`:
the edge iterators `ii` and `ee` are taken once, the edges from `ii` up to
`ee` are constructed, then `fixEndEdge(n, cur)`. -/
def loadNode (sizeT : Option Nat) (st : OfflineGraph × LC_CSR_Graph × Nat) (n : Nat) :
    Except String (OfflineGraph × LC_CSR_Graph × Nat) :=
  let b := st.1.edge_begin n
  let e := b.2.edge_end n
  match b.1, e.1 with
  | some ii, some ee =>
    match (List.range' ii (ee - ii)).foldlM (loadEdge sizeT) (e.2, st.2.1, st.2.2) with
    | .error err => .error err
    | .ok st1 =>
      match st1.2.1.fixEndEdge n st1.2.2 with
      | .error err => .error err
      | .ok c => .ok (st1.1, c, st1.2.2)
  | _, _ => .error "outIndexs: read outside the file"

/-- `loadEdges<isVoidType>(g)` (lines 380-404) on the local graph `c`: `cur`
starts at 0 and the nodes run from `g.begin()` to `g.end()`, the
`uint32_t` iterator made from `numNodes`.  Returns the reader, the local
graph and `cur` afterwards. -/
def loadEdges (sizeT : Option Nat) (g : OfflineGraph) (c : LC_CSR_Graph) :
    Except String (OfflineGraph × LC_CSR_Graph × Nat) :=
  (List.range (u32 g.numNodes)).foldlM (loadNode sizeT) (g, c, 0)

/-- The end of the constructor of `vGraph` (lines 365-377) on the reader `g`
of the shard: `numOwned = g.size()`, the edge count
`g.edge_begin(*g.end()) - g.edge_begin(*g.begin())`, the allocation of the
local graph with `numOwned` nodes and that many edges, and `loadEdges`. -/
def loadGraph (sizeT : Option Nat) (g : OfflineGraph) :
    Except String (OfflineGraph × LC_CSR_Graph × Nat) :=
  let numOwned := u32 g.size
  let e := g.edge_begin (u32 g.numNodes)
  let b := e.2.edge_begin 0
  match e.1, b.1 with
  | some x, some y =>
    let numEdges := u64 (x + 2 ^ 64 - y)
    let numNodes := u32 numOwned
    loadEdges sizeT b.2 (LC_CSR_Graph.allocateFrom numNodes numEdges)
  | _, _ => .error "outIndexs: read outside the file"

/-- The reader `g` is in step on the file `bytes` and has the header fields
of the reader `g0`. -/
structure OfflineGraph.Reads (g0 : OfflineGraph) (bytes : List Byte) (g : OfflineGraph) :
    Prop where
  inStep : g.InStep bytes
  numNodes : g.numNodes = g0.numNodes
  numEdges : g.numEdges = g0.numEdges
  sizeEdgeData : g.sizeEdgeData = g0.sizeEdgeData
  v2 : g.v2 = g0.v2

/-- The destination field of edge `e` in the file, as a `uint32_t`. -/
def OfflineGraph.dstAt (g0 : OfflineGraph) (bytes : List Byte) (e : Nat) : Nat :=
  u32 (fromLE ((bytes.drop ((4 + g0.numNodes) * 8 + e * OfflineGraph.dstWidth g0.v2)).take
    (OfflineGraph.dstWidth g0.v2)))

/-- The first `sz` bytes of the payload element of edge `e` in the file. -/
def OfflineGraph.dataAt (g0 : OfflineGraph) (bytes : List Byte) (sz e : Nat) : List Byte :=
  (bytes.drop (g0.payloadStart + e * g0.sizeEdgeData)).take sz

/-- The local graph `c`, allocated for `M` nodes and `L` edges, holds the
destinations (and, for a non-void edge type, the payloads) of the edges below
`m` and the edge ends of the nodes below `n` of the file. -/
structure LC_CSR_Graph.Filled (g0 : OfflineGraph) (bytes : List Byte) (sizeT : Option Nat)
    (L M : Nat) (c : LC_CSR_Graph) (m n : Nat) : Prop where
  lenDst : c.edgeDst.length = L
  lenData : c.edgeData.length = L
  lenInd : c.edgeIndData.length = M
  dst : ∀ j, j < m → c.edgeDst[j]? = some (g0.dstAt bytes j)
  data : ∀ sz, sizeT = some sz → ∀ j, j < m → c.edgeData[j]? = some (g0.dataAt bytes sz j)
  ind : ∀ i, i < n → c.edgeIndData[i]? = some (offsetEntry bytes i)

/-- A metadata file for the sample graph that puts GID 0 in slot 1 and GID 1
in slot 0, both owned by host 0. -/
def swappedMeta : List Byte := encodeArray 8 [2, 0, 1, 0, 1, 0, 0]

/-! ## `vGraph.h`: local slots -/

/-- `size()` (line 435): `graph.size()`, the number of nodes of the local
graph, each with its payload. -/
def vGraph.size {α : Type} (h : vGraph α) : Nat := h.nodeData.length

/-- Every local id of the translation table is, as the `uint32_t` that
`getData` receives, the index of a node of the local graph. -/
def vGraph.SlotsInRange {α : Type} (h : vGraph α) : Prop :=
  ∀ g l, h.GlobalToLocalMap g = some l → u32 l < h.size

/-- The error of a payload access outside the node array. -/
def outOfBounds : String := "getData: node outside the graph"

/-- A metadata file with one record: GID 10 in slot 7, owned by host 1. -/
def strayMeta : List Byte := encodeArray 8 [1, 10, 7, 1]

/-- A logical graph with one vertex and one edge whose destination,
`2^32 + 5`, does not fit 32 bits; no edge payload. -/
def wideGraph : LogicalGraph :=
  { edgeDataSize := 0, offsets := [1], dsts := [2 ^ 32 + 5], edgeData := [] }

/-- Host 0 of the sample run after the handshake: hosts 1 and 2 replicate
GID 10. -/
def sampleMaster : vGraph (PR_NodeData Int) :=
  { sampleHosts 0 with masterNodes := [[], [10], [10]] }

/-! ## Sequences of calls to the reader -/

/-- One call of an accessor of the reader (`OfflineGraph.h`, lines 186-209). -/
inductive ReaderCall where
  | edge_begin (n : Nat)
  | edge_end (n : Nat)
  | getEdgeDst (e : Nat)
  | getEdgeData (sizeT e : Nat)
deriving DecidableEq

/-- What a call returns: an edge index, a node, or the bytes of an edge
payload object; `none` stands for the indeterminate value left by a read that
failed. -/
inductive ReaderResult where
  | index (v : Option Nat)
  | node (v : Option Nat)
  | data (b : Option (List Byte))
deriving DecidableEq

/-- The call `c` on the reader `g`: its result and the reader afterwards. -/
def OfflineGraph.call (g : OfflineGraph) : ReaderCall → Except String (ReaderResult × OfflineGraph)
  | .edge_begin n => .ok (.index (g.edge_begin n).1, (g.edge_begin n).2)
  | .edge_end n => .ok (.index (g.edge_end n).1, (g.edge_end n).2)
  | .getEdgeDst e => .ok (.node (g.getEdgeDst e).1, (g.getEdgeDst e).2)
  | .getEdgeData sizeT e =>
    match g.getEdgeData sizeT e with
    | .error err => .error err
    | .ok r => .ok (.data r.1, r.2)

/-- The calls `cs` on the reader `g`, one after the other: their results in
order and the reader afterwards. -/
def OfflineGraph.calls (g : OfflineGraph) :
    List ReaderCall → Except String (List ReaderResult × OfflineGraph)
  | [] => .ok ([], g)
  | c :: cs =>
    match g.call c with
    | .error err => .error err
    | .ok r =>
      match r.2.calls cs with
      | .error err => .error err
      | .ok rs => .ok (r.1 :: rs.1, rs.2)

/-- The bytes that the call reads lie inside the file: the offset entry of
`edge_begin(n)` (none for `n = 0`) and of `edge_end(n)`, with `n` a
`uint32_t`; the destination of `getEdgeDst(e)`; the `sizeT` bytes of
`getEdgeData<T>(e)`, with `sizeof(T) <= sizeEdgeData` and `e` a `uint64_t`. -/
def OfflineGraph.ReadsInside (g0 : OfflineGraph) (bytes : List Byte) : ReaderCall → Prop
  | .edge_begin n => n < 2 ^ 32 ∧ (n = 0 ∨ (4 + (n - 1)) * 8 + 8 ≤ bytes.length)
  | .edge_end n => n < 2 ^ 32 ∧ (4 + n) * 8 + 8 ≤ bytes.length
  | .getEdgeDst e =>
    (4 + g0.numNodes) * 8 + e * OfflineGraph.dstWidth g0.v2 + OfflineGraph.dstWidth g0.v2
      ≤ bytes.length
  | .getEdgeData sizeT e =>
    sizeT ≤ g0.sizeEdgeData ∧ e < 2 ^ 64 ∧
      g0.payloadStart + e * g0.sizeEdgeData + sizeT ≤ bytes.length

/-- The content of the file at the offset computed from the argument of the
call alone. -/
def OfflineGraph.answer (g0 : OfflineGraph) (bytes : List Byte) : ReaderCall → ReaderResult
  | .edge_begin n => .index (some (rangeBegin bytes n))
  | .edge_end n => .index (some (offsetEntry bytes n))
  | .getEdgeDst e => .node (some (g0.dstAt bytes e))
  | .getEdgeData sizeT e => .data (some (g0.dataAt bytes sizeT e))

/-- The version-1 encoding of the sample graph without its last four bytes,
the payload of edge 2. -/
def cutSample : List Byte := (encodeV1 sampleGraph).take 72

/-- The sum of the residuals that the hosts `holders` hold for the GID `g`;
`none` when one of them does not hold `g`. -/
def totalOf {R : Type} [Add R] [Zero R] (c : Hosts (PR_NodeData R)) (g : Nat) :
    List Nat → Option R
  | [] => some 0
  | x :: xs =>
    match residualOf (c x) g, totalOf c g xs with
    | some a, some b => some (a + b)
    | _, _ => none

/-! ## `tsuba_api.cpp`: storing -/

namespace tsuba

/-- What `tsuba_api.cpp` takes from outside for its `Store` functions:
`IsUri` of `tsuba_internal.h`, the state of the `std::ofstream` after it was
opened and after the data was written, and `S3SplitUri` and the upload
functions of `s3.h`. -/
structure Env where
  IsUri : String → Bool
  openGood : String → Bool
  writeGood : String → List Byte → Bool
  S3SplitUri : String → String × String
  S3UploadOverwrite : String → String → List Byte → Int
  S3PutSingleSync : String → String → List Byte → Int
  S3PutSingleAsync : String → String → List Byte → Int
  S3PutMultiAsync1 : String → String → List Byte → Int

/-- What a `Store` function does outside the process: it opens a local file
for writing, writes data to it, or calls an upload function of `s3.h`. -/
inductive Effect where
  | fileOpen (uri : String)
  | fileWrite (uri : String) (data : List Byte)
  | s3 (fn : String) (bucket object : String) (data : List Byte)
deriving DecidableEq

/-- `S3OrDoFile(uri, data, size)` (lines 176-192): 1 for an S3 URI, otherwise
the file is written and the result is 0 for success and -1 for failure. -/
def S3OrDoFile (env : Env) (uri : String) (data : List Byte) : Int × List Effect :=
  if env.IsUri uri then (1, [])
  else if ¬ env.openGood uri then (-1, [.fileOpen uri])
  else if ¬ env.writeGood uri data then (-1, [.fileOpen uri, .fileWrite uri data])
  else (0, [.fileOpen uri, .fileWrite uri data])

/-- `DoWriteS3(filename, buf, size)` (lines 54-58). -/
def DoWriteS3 (env : Env) (filename : String) (buf : List Byte) : Int × List Effect :=
  let bo := env.S3SplitUri filename
  (env.S3UploadOverwrite bo.1 bo.2 buf, [.s3 "S3UploadOverwrite" bo.1 bo.2 buf])

/-- `DoWriteS3Sync(filename, buf, size)` (lines 60-64). -/
def DoWriteS3Sync (env : Env) (filename : String) (buf : List Byte) : Int × List Effect :=
  let bo := env.S3SplitUri filename
  (env.S3PutSingleSync bo.1 bo.2 buf, [.s3 "S3PutSingleSync" bo.1 bo.2 buf])

/-- `DoWriteS3Async(filename, buf, size)` (lines 66-70). -/
def DoWriteS3Async (env : Env) (filename : String) (buf : List Byte) : Int × List Effect :=
  let bo := env.S3SplitUri filename
  (env.S3PutSingleAsync bo.1 bo.2 buf, [.s3 "S3PutSingleAsync" bo.1 bo.2 buf])

/-- `DoWriteS3MultiAsync1(filename, buf, size)` (lines 77-81). -/
def DoWriteS3MultiAsync1 (env : Env) (filename : String) (buf : List Byte) :
    Int × List Effect :=
  let bo := env.S3SplitUri filename
  (env.S3PutMultiAsync1 bo.1 bo.2 buf, [.s3 "S3PutMultiAsync1" bo.1 bo.2 buf])

/-- `Store(uri, data, size)` (lines 194-200): the result and the effects in
order. -/
def Store (env : Env) (uri : String) (data : List Byte) : Int × List Effect :=
  let ret := S3OrDoFile env uri data
  if ret.1 ≠ 0 then
    let up := DoWriteS3 env uri data
    (up.1, ret.2 ++ up.2)
  else ret

/-- `StoreSync(uri, data, size)` (lines 202-208). -/
def StoreSync (env : Env) (uri : String) (data : List Byte) : Int × List Effect :=
  let ret := S3OrDoFile env uri data
  if ret.1 ≠ 0 then
    let up := DoWriteS3Sync env uri data
    (up.1, ret.2 ++ up.2)
  else ret

/-- `StoreAsync(uri, data, size)` (lines 210-216). -/
def StoreAsync (env : Env) (uri : String) (data : List Byte) : Int × List Effect :=
  let ret := S3OrDoFile env uri data
  if ret.1 ≠ 0 then
    let up := DoWriteS3Async env uri data
    (up.1, ret.2 ++ up.2)
  else ret

/-- `StoreMultiAsync1(uri, data, size)` (lines 225-232). -/
def StoreMultiAsync1 (env : Env) (uri : String) (data : List Byte) : Int × List Effect :=
  let ret := S3OrDoFile env uri data
  if ret.1 ≠ 0 then
    let up := DoWriteS3MultiAsync1 env uri data
    (up.1, ret.2 ++ up.2)
  else ret

/-- Whether an effect is a call of an upload function of `s3.h`. -/
def Effect.isS3 : Effect → Bool
  | .s3 _ _ _ _ => true
  | _ => false

/-- An environment without S3 URIs in which no local file can be opened for
writing and every upload returns 7. -/
def sampleEnv : Env :=
  { IsUri := fun _ => false, openGood := fun _ => false, writeGood := fun _ _ => true
    S3SplitUri := fun _ => ("", "")
    S3UploadOverwrite := fun _ _ _ => 7, S3PutSingleSync := fun _ _ _ => 7
    S3PutSingleAsync := fun _ _ _ => 7, S3PutMultiAsync1 := fun _ _ _ => 7 }

end tsuba

/-! ## `tsuba_api.cpp`: mappings -/

namespace tsuba

/-- What the operating system and S3 answer during one `Mmap` call: the file
descriptor of `open` (negative on failure), the address that
`galois::MmapPopulate` returns (`none` for `MAP_FAILED`) and the result of
`S3DownloadRange`.  Pointers are addresses, 0 is `nullptr`. -/
structure MapAnswers where
  fd : Int
  mmap : Option Nat
  download : Int
deriving DecidableEq

/-- `MmapCast<T>(size, prot, flags, fd, off)` (lines 27-35). -/
def MmapCast (a : MapAnswers) : Nat :=
  match a.mmap with
  | none => 0
  | some ret => ret

/-- `MmapLocalFile(filename, begin, size)` (lines 37-46). -/
def MmapLocalFile (a : MapAnswers) : Nat :=
  if a.fd < 0 then 0 else MmapCast a

/-- `AllocAndReadS3(filename, begin, size)` (lines 95-109). -/
def AllocAndReadS3 (a : MapAnswers) : Nat :=
  let ret := MmapCast a
  if ret = 0 then 0
  else if a.download ≠ 0 then 0
  else ret

/-- `MappingDesc` (lines 111-156). -/
structure MappingDesc where
  ptr_ : Nat
  size_ : Nat
  valid_ : Bool
deriving DecidableEq

/-- `MappingDesc::Init(uri, offset, size)` (lines 136-149): the result and
the object afterwards. -/
def MappingDesc.Init (d : MappingDesc) (isUri : Bool) (a : MapAnswers) (size : Nat) :
    Except String (Int × MappingDesc) :=
  if d.valid_ then .error "assert(!valid_)"
  else
    let p := if isUri then AllocAndReadS3 a else MmapLocalFile a
    if p = 0 then .ok (-1, { d with ptr_ := p })
    else .ok (0, { d with ptr_ := p, valid_ := true, size_ := size })

/-- The registry `allocated_memory` (line 159), a
`std::unordered_map<uint8_t*, MappingDesc>`: the entry under each pointer,
if any. -/
abbrev Registry := Nat → Option MappingDesc

/-- The registry when the process starts. -/
def Registry.empty : Registry := fun _ => none

/-- `allocated_memory.erase(ptr)` on a registry. -/
def Registry.erase (reg : Registry) (ptr : Nat) : Registry :=
  fun k => if k = ptr then none else reg k

/-- `Mmap(filename, begin, size)` (lines 286-300): the pointer returned and
the registry afterwards.  `isUri` is `IsUri(filename)`. -/
def Mmap (reg : Registry) (isUri : Bool) (a : MapAnswers) (size : Nat) :
    Except String (Nat × Registry) :=
  let new_mapping : MappingDesc := { ptr_ := 0, size_ := 0, valid_ := false }
  match new_mapping.Init isUri a size with
  | .error e => .error e
  | .ok (err, m) =>
    if err ≠ 0 then .ok (0, reg)
    else
      match reg m.ptr_ with
      | some _ => .ok (0, reg)
      | none => .ok (m.ptr_, fun k => if k = m.ptr_ then some m else reg k)

/-- `Munmap(ptr)` (lines 302-309): the result and the registry afterwards. -/
def Munmap (reg : Registry) (ptr : Nat) : Int × Registry :=
  match reg ptr with
  | some _ => (0, reg.erase ptr)
  | none => (-22, reg)

/-- One call of `Mmap` or `Munmap`. -/
inductive Call where
  | Mmap (isUri : Bool) (a : MapAnswers) (size : Nat)
  | Munmap (ptr : Nat)
deriving DecidableEq

/-- What a call returned: the pointer of `Mmap` or the status of `Munmap`. -/
inductive Ret where
  | ptr (p : Nat)
  | status (r : Int)
deriving DecidableEq

/-- One call on the registry: what it returns and the registry afterwards. -/
def step (reg : Registry) : Call → Except String (Ret × Registry)
  | .Mmap isUri a size =>
    match Mmap reg isUri a size with
    | .error e => .error e
    | .ok r => .ok (.ptr r.1, r.2)
  | .Munmap ptr => .ok (.status (Munmap reg ptr).1, (Munmap reg ptr).2)

/-- A sequence of calls, one after the other: the history of the calls with
what each returned, and the registry afterwards. -/
def run (calls : List Call) (reg : Registry) : Except String (List (Call × Ret) × Registry) :=
  calls.foldlM (fun st c =>
    match step st.2 c with
    | .error e => .error e
    | .ok r => .ok (st.1 ++ [(c, r.1)], r.2)) ([], reg)

/-- Whether, after the history, the pointer `p` was returned by a successful
`Mmap` and has not been unmapped since: a `Mmap` that returns the non-null
`p` makes it live, a `Munmap(p)` ends that. -/
def live (p : Nat) (hist : List (Call × Ret)) : Bool :=
  hist.foldl (fun b e =>
    match e with
    | (.Mmap _ _ _, .ptr q) => if q = p ∧ q ≠ 0 then true else b
    | (.Munmap q, _) => if q = p then false else b
    | _ => b) false

end tsuba

/-! ## `float` -/

/-- The `float` values (IEEE 754 binary32) that are non-negative integers,
each held as the integer it denotes: an integer below `2^24`, or a multiple
of the spacing `ulpF32` of the binary32 values at its size. -/
structure F32 where
  val : Nat
deriving DecidableEq

/-- The spacing of the binary32 values at the size of `n`: 1 below `2^24`,
the significand having 24 bits, and twice as much each time `n` doubles.
The fuel bounds the exponent. -/
def ulpF32 : Nat → Nat → Nat
  | 0, _ => 1
  | fuel + 1, n => if n < 2 ^ 24 then 1 else 2 * ulpF32 fuel (n / 2)

/-- Rounding of a non-negative integer below the overflow threshold `2^128`
to binary32, to nearest, ties to the even significand. -/
def roundF32 (n : Nat) : Nat :=
  let ulp := ulpF32 104 n
  let q := n / ulp
  let r := n % ulp
  if 2 * r < ulp then q * ulp
  else if ulp < 2 * r then (q + 1) * ulp
  else if q % 2 = 0 then q * ulp else (q + 1) * ulp

/-- `a + b` on `float`: the exact sum, rounded. -/
def F32.add (a b : F32) : F32 := ⟨roundF32 (a.val + b.val)⟩

instance : Add F32 := ⟨F32.add⟩

instance : Zero F32 := ⟨⟨0⟩⟩

/-- Host 0 of the sample run with `float` payloads: it masters GID 10 in its
slot 0, whose residual is `16777216.0f`, that is `2^24`. -/
def floatMaster : vGraph (PR_NodeData F32) :=
  match vGraph.loaded 0 3 (sampleRecords 0) [⟨⟨0⟩, ⟨16777216⟩, 0⟩] with
  | .ok h => h
  | .error _ => vGraph.blank 0 []

/-- Host 0 of the sample run with `float` payloads and the residual `0.0f`
in the slot of GID 10. -/
def floatMasterZero : vGraph (PR_NodeData F32) :=
  match vGraph.loaded 0 3 (sampleRecords 0) [⟨⟨0⟩, ⟨0⟩, 0⟩] with
  | .ok h => h
  | .error _ => vGraph.blank 0 []

/-! # Theorems -/


/-! ## Little-endian integers -/

theorem toLE_length (n v : Nat) : (toLE n v).length = n := by
  induction n generalizing v with
  | zero => rfl
  | succ n ih => simp [toLE, ih]

theorem fromLE_append (a b : List Byte) :
    fromLE (a ++ b) = fromLE a + 256 ^ a.length * fromLE b := by
  induction a with
  | nil => simp [fromLE]
  | cons x xs ih =>
    show fromLE (x :: (xs ++ b)) = _
    simp only [fromLE, ih, List.length_cons]; ring

theorem fromLE_lt (bs : List Byte) : fromLE bs < 256 ^ bs.length := by
  induction bs with
  | nil => simp [fromLE]
  | cons x xs ih =>
    have hx := x.isLt
    simp only [fromLE, List.length_cons, pow_succ]
    omega

theorem fromLE_toLE (n v : Nat) : fromLE (toLE n v) = v % 256 ^ n := by
  induction n generalizing v with
  | zero => simp [toLE, fromLE, Nat.mod_one]
  | succ n ih =>
    simp only [toLE, fromLE, ih]
    rw [pow_succ, mul_comm (256 ^ n) 256, Nat.mod_mul]

theorem toLE_zero (n : Nat) : toLE n 0 = List.replicate n 0 := by
  induction n with
  | zero => rfl
  | succ n ih => simp [toLE, ih, List.replicate_succ]

theorem fromLE_replicate_zero (n : Nat) : fromLE (List.replicate n (0 : Byte)) = 0 := by
  induction n with
  | zero => rfl
  | succ n ih => simp [List.replicate_succ, fromLE, ih]

theorem toLE_fromLE (bs : List Byte) : toLE bs.length (fromLE bs) = bs := by
  induction bs with
  | nil => rfl
  | cons x xs ih =>
    have hx := x.isLt
    simp only [List.length_cons, toLE, fromLE]
    have h1 : (x.val + 256 * fromLE xs) % 256 = x.val := by omega
    have h2 : (x.val + 256 * fromLE xs) / 256 = fromLE xs := by omega
    simp only [h1, h2, ih]

/-! ## Streams -/

namespace FileStream

theorem read_of_le (s : FileStream) (n : Nat) (hf : s.failbit = false)
    (h : s.pos + n ≤ s.data.length) :
    s.read n = ((s.data.drop s.pos).take n, { s with pos := s.pos + n }) := by
  have hl : ((s.data.drop s.pos).take n).length = n := by
    simp only [List.length_take, List.length_drop]; omega
  cases s with
  | mk data pos failbit =>
    simp only at hf h hl
    subst hf
    simp [read, hl]

theorem read_failbit (s : FileStream) (n : Nat) (hn : 0 < n) :
    (s.read n).2.failbit = (s.failbit || decide (s.data.length < s.pos + n)) := by
  cases hf : s.failbit with
  | true => simp [read, hf]
  | false =>
    simp only [read, hf, Bool.false_eq_true, ↓reduceIte, List.length_take, List.length_drop,
      Bool.false_or, decide_eq_decide]
    omega

theorem read_data (s : FileStream) (n : Nat) : (s.read n).2.data = s.data := by
  unfold read; split <;> rfl

theorem readInto_of_le (s : FileStream) (x : Nat) (hf : s.failbit = false)
    (h : s.pos + 8 ≤ s.data.length) :
    s.readInto 8 x = (fromLE ((s.data.drop s.pos).take 8), { s with pos := s.pos + 8 }) := by
  have hl : ((s.data.drop s.pos).take 8).length = 8 := by
    simp only [List.length_take, List.length_drop]; omega
  have hd : (toLE 8 x).drop ((s.data.drop s.pos).take 8).length = [] := by
    rw [hl]; exact List.drop_of_length_le (by simp [toLE_length])
  unfold readInto
  rw [read_of_le s 8 hf h]
  simp only [hd, List.append_nil]

end FileStream

namespace FileStream

theorem read_ok_iff (s : FileStream) (n : Nat) (hn : 0 < n) :
    (s.read n).2.failbit = false ↔ s.failbit = false ∧ s.pos + n ≤ s.data.length := by
  rw [read_failbit s n hn]
  simp only [Bool.or_eq_false_iff, decide_eq_false_iff_not, not_lt]

theorem readInto_zero_fst (s : FileStream) (n : Nat) (hf : s.failbit = false) :
    (s.readInto n 0).1 = fromLE ((s.data.drop s.pos).take n) := by
  simp only [readInto, read, hf, Bool.false_eq_true, ↓reduceIte, fromLE_append, toLE_zero,
    List.drop_replicate, fromLE_replicate_zero, mul_zero, add_zero]

theorem readInto_snd (s : FileStream) (n x : Nat) : (s.readInto n x).2 = (s.read n).2 := rfl

/-- After the four header reads the stream is at offset 32 when the file has
32 bytes, and has its fail bit set otherwise. -/
theorem read_header (bytes : List Byte) :
    (32 ≤ bytes.length →
      (((((⟨bytes, 0, false⟩ : FileStream).read 8).2.read 8).2.read 8).2.read 8).2
        = ⟨bytes, 32, false⟩ ∧
      ((((⟨bytes, 0, false⟩ : FileStream).read 8).2.read 8).2.read 8).2 = ⟨bytes, 24, false⟩ ∧
      (((⟨bytes, 0, false⟩ : FileStream).read 8).2.read 8).2 = ⟨bytes, 16, false⟩ ∧
      ((⟨bytes, 0, false⟩ : FileStream).read 8).2 = ⟨bytes, 8, false⟩) ∧
    (bytes.length < 32 →
      (((((⟨bytes, 0, false⟩ : FileStream).read 8).2.read 8).2.read 8).2.read 8).2.failbit
        = true) := by
  constructor
  · intro h
    have h1 : ((⟨bytes, 0, false⟩ : FileStream).read 8).2 = ⟨bytes, 8, false⟩ := by
      rw [read_of_le _ 8 rfl (by simp only [zero_add]; omega)]
    have h2 : ((⟨bytes, 8, false⟩ : FileStream).read 8).2 = ⟨bytes, 16, false⟩ := by
      rw [read_of_le _ 8 rfl (by simp only []; omega)]
    have h3 : ((⟨bytes, 16, false⟩ : FileStream).read 8).2 = ⟨bytes, 24, false⟩ := by
      rw [read_of_le _ 8 rfl (by simp only []; omega)]
    have h4 : ((⟨bytes, 24, false⟩ : FileStream).read 8).2 = ⟨bytes, 32, false⟩ := by
      rw [read_of_le _ 8 rfl (by simp only []; omega)]
    rw [h1, h2, h3, h4]
    exact ⟨rfl, rfl, rfl, rfl⟩
  · intro h
    by_contra hc
    rw [Bool.not_eq_true] at hc
    obtain ⟨f3, p3⟩ := (read_ok_iff _ 8 (by decide)).1 hc
    obtain ⟨f2, p2⟩ := (read_ok_iff _ 8 (by decide)).1 f3
    obtain ⟨f1, p1⟩ := (read_ok_iff _ 8 (by decide)).1 f2
    obtain ⟨f0, p0⟩ := (read_ok_iff _ 8 (by decide)).1 f1
    rw [read_of_le _ 8 f2 p2, read_of_le _ 8 f1 p1, read_of_le _ 8 f0 p0] at p3
    simp only [zero_add] at p3
    omega

end FileStream

/-! ## The reader's constructor -/

namespace OfflineGraph

/-- What the constructor does, in terms of the header fields of the file. -/
theorem mk?_some (bytes : List Byte) :
    mk? (some bytes) =
      if hdrField bytes 0 = 0 ∨ hdrField bytes 0 > 2 then .error "Bad Version"
      else if bytes.length < 32 then .error "Out of data"
      else if bytes.length <
          u64 (8 * (4 + hdrField bytes 2)
            + dstWidth (decide (hdrField bytes 0 = 2)) * hdrField bytes 3) then
        .error "File too small"
      else
        .ok { file1 := ⟨bytes, 0, false⟩
              fileIndex := ⟨bytes, 0, false⟩
              fileEdgeDst := ⟨bytes, 0, false⟩
              fileEdgeData := ⟨bytes, 0, false⟩
              loc1 := 0, locIndex := 0, locEdgeData := 0
              numNodes := hdrField bytes 2, numEdges := hdrField bytes 3
              sizeEdgeData := hdrField bytes 1
              length := bytes.length, v2 := decide (hdrField bytes 0 = 2)
              numSeeks1 := 0, numSeeksDst := 0, numSeeksData := 0 } := by
  have hver : ((⟨bytes, 0, false⟩ : FileStream).readInto 8 0).1 = hdrField bytes 0 := by
    rw [FileStream.readInto_zero_fst _ _ rfl]; simp [hdrField]
  unfold mk?
  simp only [hver, FileStream.readInto_snd]
  by_cases hv : hdrField bytes 0 = 0 ∨ hdrField bytes 0 > 2
  · simp only [hv, ↓reduceIte]
  · simp only [hv, ↓reduceIte]
    by_cases hl : bytes.length < 32
    · simp only [(FileStream.read_header bytes).2 hl, ↓reduceIte, hl]
    · have h1 : ((⟨bytes, 0, false⟩ : FileStream).read 8).2 = ⟨bytes, 8, false⟩ := by
        rw [FileStream.read_of_le _ 8 rfl (by simp only [zero_add]; omega)]
      have h2 : ((⟨bytes, 8, false⟩ : FileStream).read 8).2 = ⟨bytes, 16, false⟩ := by
        rw [FileStream.read_of_le _ 8 rfl (by simp only []; omega)]
      have h3 : ((⟨bytes, 16, false⟩ : FileStream).read 8).2 = ⟨bytes, 24, false⟩ := by
        rw [FileStream.read_of_le _ 8 rfl (by simp only []; omega)]
      have h4 : ((⟨bytes, 24, false⟩ : FileStream).read 8).2 = ⟨bytes, 32, false⟩ := by
        rw [FileStream.read_of_le _ 8 rfl (by simp only []; omega)]
      have e1 : ((⟨bytes, 8, false⟩ : FileStream).readInto 8 0).1 = hdrField bytes 1 := by
        rw [FileStream.readInto_zero_fst _ _ rfl]; simp [hdrField]
      have e2 : ((⟨bytes, 16, false⟩ : FileStream).readInto 8 0).1 = hdrField bytes 2 := by
        rw [FileStream.readInto_zero_fst _ _ rfl]; simp [hdrField]
      have e3 : ((⟨bytes, 24, false⟩ : FileStream).readInto 8 0).1 = hdrField bytes 3 := by
        rw [FileStream.readInto_zero_fst _ _ rfl]; simp [hdrField]
      simp only [h1, h2, h3, h4, e1, e2, e3, hl, ↓reduceIte, FileStream.seekEnd,
        FileStream.tellg, FileStream.seekg, Bool.false_eq_true]
      rfl

end OfflineGraph

namespace OfflineGraph

/-- C9. The reader rejects bad versions: a file whose first 8 bytes encode
version 0 or a version greater than 2 makes the constructor throw
("Bad Version"), and whenever the constructor succeeds the version field is 1
or 2 and the file holds the whole 32-byte header. -/
theorem mk?_version (bytes : List Byte) :
    ((fromLE (bytes.take 8) = 0 ∨ 2 < fromLE (bytes.take 8)) →
      mk? (some bytes) = .error "Bad Version") ∧
    (∀ g, mk? (some bytes) = .ok g →
      (fromLE (bytes.take 8) = 1 ∨ fromLE (bytes.take 8) = 2) ∧ 32 ≤ bytes.length) := by
  have hv : hdrField bytes 0 = fromLE (bytes.take 8) := by simp [hdrField]
  rw [mk?_some, hv]
  constructor
  · intro h
    have h' : fromLE (bytes.take 8) = 0 ∨ fromLE (bytes.take 8) > 2 := h
    simp only [h', ↓reduceIte]
  · intro g hg
    split at hg
    · exact absurd hg (by simp)
    · split at hg
      · exact absurd hg (by simp)
      · constructor <;> omega

/-- C9, at concrete files: a header with version 3 is rejected; the empty
version-2 graph is accepted, and its version field and length are as stated. -/
theorem mk?_version_witness :
    mk? (some (toLE 8 3 ++ toLE 24 0)) = .error "Bad Version" ∧
    ((fromLE ((toLE 8 2 ++ toLE 24 0).take 8) = 1 ∨
        fromLE ((toLE 8 2 ++ toLE 24 0).take 8) = 2) ∧
      32 ≤ (toLE 8 2 ++ toLE 24 0).length) :=
  ⟨(mk?_version (toLE 8 3 ++ toLE 24 0)).1 (by decide),
   (mk?_version (toLE 8 2 ++ toLE 24 0)).2 _ rfl⟩

/-- C10 as stated fails: `truncatedFile` is shorter than the size implied by
its header (44 bytes against 52) and the constructor accepts it. -/
theorem mk?_accepts_truncated :
    truncatedFile.length <
        impliedSize (hdrField truncatedFile 0) (hdrField truncatedFile 1)
          (hdrField truncatedFile 2) (hdrField truncatedFile 3) ∧
    ∃ g, mk? (some truncatedFile) = .ok g :=
  ⟨by decide, _, rfl⟩

/-- C10, amended. The length check covers the header, the offsets and the
destinations: when `32 + 8 * N + w * E` does not wrap around `2^64`, every
file shorter than that is rejected by the constructor. -/
theorem mk?_rejects_short (bytes : List Byte)
    (hwrap : topologySize (hdrField bytes 0) (hdrField bytes 2) (hdrField bytes 3) < 2 ^ 64)
    (hshort : bytes.length <
      topologySize (hdrField bytes 0) (hdrField bytes 2) (hdrField bytes 3)) :
    ∃ e, mk? (some bytes) = .error e := by
  rw [mk?_some]
  unfold topologySize at hwrap hshort
  split
  · exact ⟨_, rfl⟩
  · split
    · exact ⟨_, rfl⟩
    · have hw : dstWidth (decide (hdrField bytes 0 = 2)) = if hdrField bytes 0 = 2 then 8 else 4 := by
        unfold dstWidth; split <;> simp_all
      have hu : u64 (8 * (4 + hdrField bytes 2)
          + dstWidth (decide (hdrField bytes 0 = 2)) * hdrField bytes 3)
          = 32 + 8 * hdrField bytes 2 + (if hdrField bytes 0 = 2 then 8 else 4) * hdrField bytes 3 := by
        rw [hw]; unfold u64
        rw [Nat.mod_eq_of_lt (by omega)]; ring
      rw [hu, if_pos hshort]
      exact ⟨_, rfl⟩

/-- C10 amended, at a concrete file: a version-1 header announcing one vertex
and one edge, with nothing after it. -/
theorem mk?_rejects_short_witness :
    ∃ e, mk? (some (toLE 8 1 ++ toLE 8 4 ++ toLE 8 1 ++ toLE 8 1)) = .error e :=
  mk?_rejects_short (toLE 8 1 ++ toLE 8 4 ++ toLE 8 1 ++ toLE 8 1) (by decide) (by decide)

end OfflineGraph

/-! ## The writer -/

namespace FileStream

theorem seekg_of_failbit (s : FileStream) (off : Nat) (h : s.failbit = true) :
    s.seekg off = s := by
  simp [seekg, h]

theorem write_of_failbit (s : FileStream) (bs : List Byte) (h : s.failbit = true) :
    s.write bs = s := by
  simp [write, h]

end FileStream

namespace OfflineGraphWriter

/-- Once the stream has failed, `setEdge` for a slot of vertex 0 changes
nothing. -/
theorem setEdge_of_failbit (w : OfflineGraphWriter) (offset dst val : Nat)
    (h : w.file.failbit = true) : w.setEdge 0 offset dst val = .ok w := by
  have hs : w.slotIndex 0 offset = .ok (u64 offset) := by
    simp [slotIndex, u64]
  unfold setEdge setEdge32 setEdge64
  simp only [hs, FileStream.seekg_of_failbit _ _ h, FileStream.write_of_failbit _ _ h]
  split <;> rfl

theorem foldlM_setEdge_of_failbit (writes : List EdgeWrite) (w : OfflineGraphWriter)
    (h : w.file.failbit = true) (hw : ∀ e ∈ writes, e.src = 0) :
    writes.foldlM (fun w e => w.setEdge e.src e.offset e.dst e.val) w = .ok w := by
  induction writes with
  | nil => rfl
  | cons e es ih =>
    have he : e.src = 0 := hw e (List.mem_cons_self _ _)
    rw [List.foldlM_cons, he, setEdge_of_failbit w _ _ _ h]
    exact ih (fun x hx => hw x (List.mem_cons_of_mem _ hx))

end OfflineGraphWriter

theorem writeSession_append (use32 : Bool) (counts : List Nat) (a b : List EdgeWrite) :
    writeSession use32 counts (a ++ b) =
      match writeSession use32 counts a with
      | .error e => .error e
      | .ok w => b.foldlM (fun w e => w.setEdge e.src e.offset e.dst e.val) w := by
  unfold writeSession
  cases OfflineGraphWriter.mk? true use32 with
  | error e => rfl
  | ok w0 =>
    simp only [List.foldlM_append]
    cases List.foldlM (fun w e => w.setEdge e.src e.offset e.dst e.val)
      (w0.setCounts counts) a <;> rfl

set_option maxRecDepth 100000 in
/-- C1, at the failing input: one vertex with two edges, destinations 5 and
7.  The writer announces version 1 and stores each destination in 8 bytes; the
reader takes 4 bytes per destination, so the second edge of vertex 0 reads back
as 0 (the upper half of the first destination) instead of 7. -/
theorem writer_reader_dst_mismatch :
    ∃ bytes g, writeGraph false [2] [⟨0, 0, 5, 9⟩, ⟨0, 1, 7, 9⟩] = .ok bytes ∧
      hdrField bytes 0 = 1 ∧
      OfflineGraph.mk? (some bytes) = .ok g ∧
      (g.edge_begin 0).1 = some 0 ∧
      ((g.edge_begin 0).2.getEdgeDst (0 + 1)).1 = some 0 :=
  ⟨_, _, rfl, rfl, rfl, rfl, rfl⟩

/-- C2, at the failing input: one vertex with `2^31` edges.  `setCounts` sums
the counts in an `int`, so the header receives the edge count
`2^64 - 2^31`; the first `setEdge` then seeks to a negative payload offset,
the stream fails, and whatever is written afterwards the reader rejects the
file ("File too small"). -/
theorem setCounts_overflow_rejected (rest : List EdgeWrite) (hrest : ∀ e ∈ rest, e.src = 0) :
    ∃ bytes, writeGraph false [2147483648] (⟨0, 0, 5, 9⟩ :: rest) = .ok bytes ∧
      hdrField bytes 3 = 2 ^ 64 - 2 ^ 31 ∧
      OfflineGraph.mk? (some bytes) = .error "File too small" := by
  obtain ⟨w1, hw1, hf, hE, hmk⟩ : ∃ w1, writeSession false [2147483648] [⟨0, 0, 5, 9⟩] = .ok w1 ∧
      w1.file.failbit = true ∧ hdrField w1.file.data 3 = 2 ^ 64 - 2 ^ 31 ∧
      OfflineGraph.mk? (some w1.file.data) = .error "File too small" :=
    ⟨_, rfl, rfl, rfl, rfl⟩
  refine ⟨w1.file.data, ?_, hE, hmk⟩
  unfold writeGraph
  rw [show (⟨0, 0, 5, 9⟩ : EdgeWrite) :: rest = [⟨0, 0, 5, 9⟩] ++ rest from rfl,
    writeSession_append, hw1]
  simp only [OfflineGraphWriter.foldlM_setEdge_of_failbit rest w1 hf hrest]

/-- C2 at the failing input, with the second slot written after the first. -/
theorem setCounts_overflow_rejected_witness :
    ∃ bytes, writeGraph false [2147483648] [⟨0, 0, 5, 9⟩, ⟨0, 1, 7, 9⟩] = .ok bytes ∧
      hdrField bytes 3 = 2 ^ 64 - 2 ^ 31 ∧
      OfflineGraph.mk? (some bytes) = .error "File too small" :=
  setCounts_overflow_rejected [⟨0, 1, 7, 9⟩] (by decide)

/-! ## Arrays in a file -/

theorem encodeArray_length (w : Nat) (xs : List Nat) :
    (encodeArray w xs).length = w * xs.length := by
  induction xs with
  | nil => rfl
  | cons x xs ih => simp [encodeArray, toLE_length, ih, Nat.mul_succ, Nat.add_comm]

theorem encodeArray_slice (w : Nat) (xs : List Nat) (i x : Nat) (h : xs[i]? = some x) :
    ((encodeArray w xs).drop (w * i)).take w = toLE w x := by
  induction xs generalizing i with
  | nil => simp at h
  | cons y ys ih =>
    cases i with
    | zero =>
      simp only [List.getElem?_cons_zero, Option.some.injEq] at h
      subst h
      simp only [encodeArray, Nat.mul_zero, List.drop_zero]
      rw [List.take_append_of_le_length (by simp [toLE_length]),
        List.take_of_length_le (by simp [toLE_length])]
    | succ i =>
      simp only [List.getElem?_cons_succ] at h
      have e : w * (i + 1) = (toLE w y).length + w * i := by
        rw [toLE_length]; ring
      simp only [encodeArray, e, List.drop_append]
      exact ih i h

theorem slice_append_left (a b : List Byte) (k w : Nat) (h : k + w ≤ a.length) :
    ((a ++ b).drop k).take w = (a.drop k).take w := by
  rw [List.drop_append_of_le_length (by omega),
    List.take_append_of_le_length (by simp only [List.length_drop]; omega)]

theorem slice_append_right (a b : List Byte) (k w : Nat) :
    ((a ++ b).drop (a.length + k)).take w = (b.drop k).take w := by
  rw [List.drop_append]

/-- A field of the leading `uint64_t` array of a file. -/
theorem hdrField_encodeArray (hs : List Nat) (rest : List Byte) (k x : Nat)
    (h : hs[k]? = some x) : hdrField (encodeArray 8 hs ++ rest) k = u64 x := by
  have hk : k < hs.length := by
    by_contra hc
    rw [List.getElem?_eq_none (by omega)] at h
    exact absurd h (by simp)
  unfold hdrField
  rw [slice_append_left _ _ _ _ (by rw [encodeArray_length]; omega),
    encodeArray_slice 8 hs k x h, fromLE_toLE]
  rfl

/-- An element of the array that follows the leading `uint64_t` array. -/
theorem slice_second_array (hs xs : List Nat) (rest : List Byte) (w i x : Nat)
    (h : xs[i]? = some x) :
    fromLE (((encodeArray 8 hs ++ (encodeArray w xs ++ rest)).drop
      (8 * hs.length + w * i)).take w) = x % 256 ^ w := by
  have hi : i < xs.length := by
    by_contra hc
    rw [List.getElem?_eq_none (by omega)] at h
    exact absurd h (by simp)
  have hle : w * i + w ≤ w * xs.length := by
    calc w * i + w = w * (i + 1) := by ring
      _ ≤ w * xs.length := Nat.mul_le_mul_left w hi
  rw [← encodeArray_length 8 hs, slice_append_right,
    slice_append_left _ _ _ _ (by rw [encodeArray_length]; exact hle),
    encodeArray_slice w xs i x h, fromLE_toLE]

/-! ## Reads of a reader whose streams are in step with the cached locations -/

namespace FileStream

theorem seekg_of_lt (s : FileStream) (off : Nat) (hf : s.failbit = false)
    (h : off < 2 ^ 63) : s.seekg off = { s with pos := off } := by
  unfold seekg
  rw [if_neg (by simp [hf]), if_neg (Nat.not_le.2 h)]

end FileStream

namespace OfflineGraph

/-- `outIndexs(node)` on a good stream whose position is the cached one
returns the field at byte offset `8 * (4 + node)`. -/
theorem outIndexs_value (g : OfflineGraph) (node : Nat) (hf : g.file1.failbit = false)
    (hloc : g.file1.pos = g.loc1) (hlt : (4 + node) * 8 < 2 ^ 63)
    (hlen : (4 + node) * 8 + 8 ≤ g.file1.data.length) :
    (g.outIndexs node).1 = some (hdrField g.file1.data (4 + node)) := by
  have hpos : u64 ((4 + node) * 8) = (4 + node) * 8 := Nat.mod_eq_of_lt (by omega)
  have hs : ∃ s : FileStream, s.failbit = false ∧ s.pos = (4 + node) * 8 ∧
      s.data = g.file1.data ∧
      (g.outIndexs node).1 = (if (s.read 8).1.length = 8 then some (fromLE (s.read 8).1)
        else none) := by
    unfold outIndexs
    rw [hpos]
    by_cases hc : g.loc1 ≠ (4 + node) * 8
    · refine ⟨g.file1.seekg ((4 + node) * 8), ?_, ?_, ?_, ?_⟩
      · rw [FileStream.seekg_of_lt _ _ hf hlt]; exact hf
      · rw [FileStream.seekg_of_lt _ _ hf hlt]
      · rw [FileStream.seekg_of_lt _ _ hf hlt]
      · dsimp only
        rw [if_pos hc]
    · refine ⟨g.file1, hf, ?_, rfl, ?_⟩
      · rw [hloc]; exact not_not.1 hc
      · dsimp only
        rw [if_neg hc]
  obtain ⟨s, hsf, hsp, hsd, hval⟩ := hs
  rw [hval, FileStream.read_of_le s 8 hsf (by rw [hsp, hsd]; exact hlen)]
  have hl : ((s.data.drop s.pos).take 8).length = 8 := by
    simp only [List.length_take, List.length_drop]; rw [hsp, hsd]; omega
  rw [hsp, hsd] at hl
  simp only [hsp, hsd]
  rw [if_pos hl, hdrField, Nat.mul_comm 8 (4 + node)]

/-- `outEdges(edge)` on a good stream whose position is the cached one
returns the `dstWidth` bytes at `8 * (4 + numNodes) + edge * dstWidth`. -/
theorem outEdges_value (g : OfflineGraph) (edge : Nat) (hf : g.fileIndex.failbit = false)
    (hloc : g.fileIndex.pos = g.locIndex)
    (hlt : (4 + g.numNodes) * 8 + edge * dstWidth g.v2 < 2 ^ 63)
    (hlen : (4 + g.numNodes) * 8 + edge * dstWidth g.v2 + dstWidth g.v2
      ≤ g.fileIndex.data.length) :
    (g.outEdges edge).1 = some (fromLE ((g.fileIndex.data.drop
      ((4 + g.numNodes) * 8 + edge * dstWidth g.v2)).take (dstWidth g.v2))) := by
  have hpos : u64 ((4 + g.numNodes) * 8 + edge * dstWidth g.v2)
      = (4 + g.numNodes) * 8 + edge * dstWidth g.v2 := Nat.mod_eq_of_lt (by omega)
  have hs : ∃ s : FileStream, s.failbit = false ∧
      s.pos = (4 + g.numNodes) * 8 + edge * dstWidth g.v2 ∧
      s.data = g.fileIndex.data ∧
      (g.outEdges edge).1 = (if (s.read (dstWidth g.v2)).1.length = dstWidth g.v2
        then some (fromLE (s.read (dstWidth g.v2)).1) else none) := by
    unfold outEdges
    rw [hpos]
    by_cases hc : g.locIndex ≠ (4 + g.numNodes) * 8 + edge * dstWidth g.v2
    · refine ⟨g.fileIndex.seekg ((4 + g.numNodes) * 8 + edge * dstWidth g.v2), ?_, ?_, ?_, ?_⟩
      · rw [FileStream.seekg_of_lt _ _ hf hlt]; exact hf
      · rw [FileStream.seekg_of_lt _ _ hf hlt]
      · rw [FileStream.seekg_of_lt _ _ hf hlt]
      · dsimp only
        rw [if_pos hc]
    · refine ⟨g.fileIndex, hf, ?_, rfl, ?_⟩
      · rw [hloc]; exact not_not.1 hc
      · dsimp only
        rw [if_neg hc]
  obtain ⟨s, hsf, hsp, hsd, hval⟩ := hs
  rw [hval, FileStream.read_of_le s _ hsf (by rw [hsp, hsd]; exact hlen)]
  have hl : ((s.data.drop s.pos).take (dstWidth g.v2)).length = dstWidth g.v2 := by
    simp only [List.length_take, List.length_drop]; rw [hsp, hsd]; omega
  rw [hsp, hsd] at hl
  simp only [hsp, hsd]
  rw [if_pos hl]

end OfflineGraph

/-! ## Reading a file laid out as the format comment says -/

namespace OfflineGraph

/-- The constructor accepts a file laid out as documented. -/
theorem mk?_encoded (v2 : Bool) (eds : Nat) (offsets dsts : List Nat) (rest : List Byte)
    (hfit : 8 * (4 + offsets.length) + 8 * dsts.length < 2 ^ 63) :
    mk? (some (encodeArray 8
        ((if v2 then 2 else 1) :: eds :: offsets.length :: dsts.length :: offsets)
        ++ (encodeArray (dstWidth v2) dsts ++ rest))) =
      .ok { file1 := ⟨encodeArray 8
              ((if v2 then 2 else 1) :: eds :: offsets.length :: dsts.length :: offsets)
              ++ (encodeArray (dstWidth v2) dsts ++ rest), 0, false⟩
            fileIndex := ⟨encodeArray 8
              ((if v2 then 2 else 1) :: eds :: offsets.length :: dsts.length :: offsets)
              ++ (encodeArray (dstWidth v2) dsts ++ rest), 0, false⟩
            fileEdgeDst := ⟨encodeArray 8
              ((if v2 then 2 else 1) :: eds :: offsets.length :: dsts.length :: offsets)
              ++ (encodeArray (dstWidth v2) dsts ++ rest), 0, false⟩
            fileEdgeData := ⟨encodeArray 8
              ((if v2 then 2 else 1) :: eds :: offsets.length :: dsts.length :: offsets)
              ++ (encodeArray (dstWidth v2) dsts ++ rest), 0, false⟩
            loc1 := 0, locIndex := 0, locEdgeData := 0
            numNodes := offsets.length, numEdges := dsts.length
            sizeEdgeData := u64 eds
            length := (encodeArray 8
              ((if v2 then 2 else 1) :: eds :: offsets.length :: dsts.length :: offsets)
              ++ (encodeArray (dstWidth v2) dsts ++ rest)).length
            v2 := v2
            numSeeks1 := 0, numSeeksDst := 0, numSeeksData := 0 } := by
  generalize hfile : encodeArray 8
        ((if v2 then 2 else 1) :: eds :: offsets.length :: dsts.length :: offsets)
        ++ (encodeArray (dstWidth v2) dsts ++ rest) = file
  have h0 : hdrField file 0 = if v2 then 2 else 1 := by
    rw [← hfile, hdrField_encodeArray _ _ 0 (if v2 then 2 else 1) (by simp)]
    cases v2 <;> rfl
  have h1 : hdrField file 1 = u64 eds := by
    rw [← hfile, hdrField_encodeArray _ _ 1 eds (by simp)]
  have h2 : hdrField file 2 = offsets.length := by
    rw [← hfile, hdrField_encodeArray _ _ 2 offsets.length (by simp)]
    exact Nat.mod_eq_of_lt (by omega)
  have h3 : hdrField file 3 = dsts.length := by
    rw [← hfile, hdrField_encodeArray _ _ 3 dsts.length (by simp)]
    exact Nat.mod_eq_of_lt (by omega)
  have hw : dstWidth v2 ≤ 8 := by cases v2 <;> decide
  have hlen : file.length =
      8 * (4 + offsets.length) + dstWidth v2 * dsts.length + rest.length := by
    rw [← hfile]
    simp only [List.length_append, encodeArray_length, List.length_cons]
    ring
  have hv : decide (hdrField file 0 = 2) = v2 := by
    rw [h0]; cases v2 <;> rfl
  have hnb : ¬ (hdrField file 0 = 0 ∨ hdrField file 0 > 2) := by
    rw [h0]; cases v2 <;> decide
  have hle : dstWidth v2 * dsts.length ≤ 8 * dsts.length := Nat.mul_le_mul_right _ hw
  rw [mk?_some, if_neg hnb, if_neg (by omega), hv, h1, h2, h3, if_neg]
  unfold u64
  rw [Nat.mod_eq_of_lt (by omega)]
  omega

end OfflineGraph

namespace OfflineGraph

/-- `outIndexs` on a file laid out as documented returns the offset entry. -/
theorem outIndexs_encoded (g : OfflineGraph) (a b c d : Nat) (offsets : List Nat)
    (tl : List Byte) (k x : Nat)
    (hg : g.file1 = ⟨encodeArray 8 (a :: b :: c :: d :: offsets) ++ tl, g.loc1, false⟩)
    (hfit : 8 * (4 + offsets.length) < 2 ^ 63) (hk : offsets[k]? = some x) :
    (g.outIndexs k).1 = some (u64 x) := by
  have hlt : k < offsets.length := by
    by_contra hc
    rw [List.getElem?_eq_none (by omega)] at hk
    exact absurd hk (by simp)
  have hf : g.file1.failbit = false := by rw [hg]
  have hp : g.file1.pos = g.loc1 := by rw [hg]
  have hd : g.file1.data = encodeArray 8 (a :: b :: c :: d :: offsets) ++ tl := by rw [hg]
  rw [outIndexs_value g k hf hp (by omega)
    (by rw [hd]; simp only [List.length_append, encodeArray_length, List.length_cons]; omega),
    hd, hdrField_encodeArray _ _ (4 + k) x
      (by rw [Nat.add_comm]; simpa using hk)]

/-- `outEdges` on a file laid out as documented returns the destination
entry, reduced to the width of the destination field. -/
theorem outEdges_encoded (g : OfflineGraph) (hs dsts : List Nat) (tl : List Byte)
    (e x : Nat)
    (hg : g.fileIndex = ⟨encodeArray 8 hs ++ (encodeArray (dstWidth g.v2) dsts ++ tl),
      g.locIndex, false⟩)
    (hn : hs.length = 4 + g.numNodes)
    (hfit : 8 * (4 + g.numNodes) + 8 * dsts.length < 2 ^ 63) (he : dsts[e]? = some x) :
    (g.outEdges e).1 = some (x % 256 ^ dstWidth g.v2) := by
  have hlt : e < dsts.length := by
    by_contra hc
    rw [List.getElem?_eq_none (by omega)] at he
    exact absurd he (by simp)
  have hw : dstWidth g.v2 ≤ 8 := by cases g.v2 <;> decide
  have hle : e * dstWidth g.v2 + dstWidth g.v2 ≤ 8 * dsts.length := by
    calc e * dstWidth g.v2 + dstWidth g.v2 = (e + 1) * dstWidth g.v2 := by ring
      _ ≤ dsts.length * 8 := Nat.mul_le_mul hlt hw
      _ = 8 * dsts.length := Nat.mul_comm _ _
  have hle2 : e * dstWidth g.v2 + dstWidth g.v2 ≤ dstWidth g.v2 * dsts.length := by
    calc e * dstWidth g.v2 + dstWidth g.v2 = dstWidth g.v2 * (e + 1) := by ring
      _ ≤ dstWidth g.v2 * dsts.length := Nat.mul_le_mul_left _ hlt
  have hf : g.fileIndex.failbit = false := by rw [hg]
  have hp : g.fileIndex.pos = g.locIndex := by rw [hg]
  have hd : g.fileIndex.data
      = encodeArray 8 hs ++ (encodeArray (dstWidth g.v2) dsts ++ tl) := by rw [hg]
  rw [outEdges_value g e hf hp (by omega)
    (by rw [hd]; simp only [List.length_append, encodeArray_length, hn]; omega), hd]
  have hpos : (4 + g.numNodes) * 8 + e * dstWidth g.v2
      = 8 * hs.length + dstWidth g.v2 * e := by rw [hn]; ring
  rw [hpos, slice_second_array hs dsts tl (dstWidth g.v2) e x he]

end OfflineGraph

/-- C3. Version interoperability: for every logical graph whose destinations
are below `2^32` (and whose version-2 file is addressable by a
`std::streamoff`), the reader accepts its version-1 and its version-2
encoding, and the two readers return the same `size()`, the same
`edge_begin(v)` and `edge_end(v)` for every vertex `v`, and the same
`getEdgeDst(e)` for every edge index `e`: the entries of the logical graph. -/
theorem version_interop (G : LogicalGraph) (hd : ∀ d ∈ G.dsts, d < 2 ^ 32)
    (hfit : 8 * (4 + G.offsets.length) + 8 * G.dsts.length < 2 ^ 63) :
    ∃ g1 g2, OfflineGraph.mk? (some (encodeV1 G)) = .ok g1 ∧
      OfflineGraph.mk? (some (encodeV2 G)) = .ok g2 ∧
      g1.size = g2.size ∧ g2.size = G.offsets.length ∧
      (∀ v, v < G.offsets.length →
        (g1.edge_begin v).1 = (g2.edge_begin v).1 ∧
        (g2.edge_begin v).1
          = (if u32 v = 0 then some 0 else (G.offsets[u32 v - 1]?).map u64) ∧
        (g1.edge_end v).1 = (g2.edge_end v).1 ∧
        (g2.edge_end v).1 = (G.offsets[u32 v]?).map u64 ∧
        (G.offsets[u32 v]?).isSome) ∧
      (∀ e, e < G.dsts.length →
        (g1.getEdgeDst e).1 = (g2.getEdgeDst e).1 ∧
        (g2.getEdgeDst e).1 = G.dsts[e]? ∧ (G.dsts[e]?).isSome) := by
  have h1 := OfflineGraph.mk?_encoded false G.edgeDataSize G.offsets G.dsts
    (List.replicate ((8 - 4 * G.dsts.length % 8) % 8) 0 ++ G.edgeData) hfit
  have h2 := OfflineGraph.mk?_encoded true G.edgeDataSize G.offsets G.dsts G.edgeData hfit
  refine ⟨_, _, h1, h2, rfl, rfl, ?_, ?_⟩
  · intro v hv
    have hu : u32 v < G.offsets.length := lt_of_le_of_lt (Nat.mod_le _ _) hv
    have hN : 8 * (4 + G.offsets.length) < 2 ^ 63 := by omega
    have e1 : ∀ k, k < G.offsets.length → ∀ (v2 : Bool) (tl : List Byte) (g : OfflineGraph),
        g.file1 = ⟨encodeArray 8 ((if v2 then 2 else 1) :: G.edgeDataSize ::
          G.offsets.length :: G.dsts.length :: G.offsets) ++ tl, g.loc1, false⟩ →
        (g.outIndexs k).1 = (G.offsets[k]?).map u64 := by
      intro k hk v2 tl g hg
      rw [OfflineGraph.outIndexs_encoded g _ _ _ _ G.offsets tl k G.offsets[k] hg hN
        (List.getElem?_eq_getElem hk), List.getElem?_eq_getElem hk]
      rfl
    have hb : ∀ (v2 : Bool) (tl : List Byte) (g : OfflineGraph),
        g.file1 = ⟨encodeArray 8 ((if v2 then 2 else 1) :: G.edgeDataSize ::
          G.offsets.length :: G.dsts.length :: G.offsets) ++ tl, g.loc1, false⟩ →
        (g.edge_begin v).1
          = (if u32 v = 0 then some 0 else (G.offsets[u32 v - 1]?).map u64) := by
      intro v2 tl g hg
      unfold OfflineGraph.edge_begin
      by_cases h0 : u32 v = 0
      · rw [if_pos h0, if_pos h0]
      · rw [if_neg h0, if_neg h0]
        exact e1 _ (by omega) v2 tl g hg
    have hbe : ∀ (v2 : Bool) (tl : List Byte) (g : OfflineGraph),
        g.file1 = ⟨encodeArray 8 ((if v2 then 2 else 1) :: G.edgeDataSize ::
          G.offsets.length :: G.dsts.length :: G.offsets) ++ tl, g.loc1, false⟩ →
        (g.edge_end v).1 = (G.offsets[u32 v]?).map u64 := by
      intro v2 tl g hg
      exact e1 _ hu v2 tl g hg
    refine ⟨(hb false _ _ rfl).trans (hb true _ _ rfl).symm, hb true _ _ rfl,
      (hbe false _ _ rfl).trans (hbe true _ _ rfl).symm, hbe true _ _ rfl, ?_⟩
    rw [List.getElem?_eq_getElem hu]; rfl
  · intro e he
    have hx : G.dsts[e]? = some G.dsts[e] := List.getElem?_eq_getElem he
    have hlt : G.dsts[e] < 2 ^ 32 := hd _ (List.getElem_mem _)
    have hue : u64 e = e := Nat.mod_eq_of_lt (by omega)
    have hd : ∀ (v2 : Bool) (tl : List Byte) (g : OfflineGraph),
        g.v2 = v2 → g.numNodes = G.offsets.length →
        g.fileIndex = ⟨encodeArray 8 ((if v2 then 2 else 1) :: G.edgeDataSize ::
          G.offsets.length :: G.dsts.length :: G.offsets)
          ++ (encodeArray (OfflineGraph.dstWidth v2) G.dsts ++ tl), g.locIndex, false⟩ →
        (g.getEdgeDst e).1 = G.dsts[e]? := by
      intro v2 tl g hv hn hg
      subst hv
      unfold OfflineGraph.getEdgeDst
      simp only [hue]
      have hpw : (2 : Nat) ^ 32 ≤ 256 ^ OfflineGraph.dstWidth g.v2 := by
        cases g.v2
        · show (2 : Nat) ^ 32 ≤ 256 ^ 4
          norm_num
        · show (2 : Nat) ^ 32 ≤ 256 ^ 8
          norm_num
      rw [OfflineGraph.outEdges_encoded g _ G.dsts tl e G.dsts[e] hg
        (by simp only [List.length_cons, hn]; omega) (by rw [hn]; exact hfit) hx, hx,
        Option.map_some', Nat.mod_eq_of_lt (lt_of_lt_of_le hlt hpw)]
      unfold u32
      rw [Nat.mod_eq_of_lt hlt]
    refine ⟨(hd false _ _ rfl rfl rfl).trans (hd true _ _ rfl rfl rfl).symm,
      hd true _ _ rfl rfl rfl, ?_⟩
    rw [hx]; rfl

/-- C3 at `sampleGraph`. -/
theorem version_interop_witness :
    ∃ g1 g2, OfflineGraph.mk? (some (encodeV1 sampleGraph)) = .ok g1 ∧
      OfflineGraph.mk? (some (encodeV2 sampleGraph)) = .ok g2 ∧
      g1.size = g2.size ∧ g2.size = sampleGraph.offsets.length ∧
      (∀ v, v < sampleGraph.offsets.length →
        (g1.edge_begin v).1 = (g2.edge_begin v).1 ∧
        (g2.edge_begin v).1
          = (if u32 v = 0 then some 0 else (sampleGraph.offsets[u32 v - 1]?).map u64) ∧
        (g1.edge_end v).1 = (g2.edge_end v).1 ∧
        (g2.edge_end v).1 = (sampleGraph.offsets[u32 v]?).map u64 ∧
        (sampleGraph.offsets[u32 v]?).isSome) ∧
      (∀ e, e < sampleGraph.dsts.length →
        (g1.getEdgeDst e).1 = (g2.getEdgeDst e).1 ∧
        (g2.getEdgeDst e).1 = sampleGraph.dsts[e]? ∧ (sampleGraph.dsts[e]?).isSome) :=
  version_interop sampleGraph (by decide) (by decide)

/-! ## The tables built by the constructor -/

theorem assignAll_append (key val : NodeInfo → Nat) (m : StdMap) (rs : List NodeInfo)
    (r : NodeInfo) :
    assignAll key val m (rs ++ [r]) = (assignAll key val m rs).assign (key r) (val r) := by
  simp [assignAll, List.foldl_append]

/-- When the keys of the records are pairwise distinct, every record is found
under its key. -/
theorem assignAll_of_mem (key val : NodeInfo → Nat) (m : StdMap) (rs : List NodeInfo)
    (hn : (rs.map key).Nodup) (r : NodeInfo) (hr : r ∈ rs) :
    assignAll key val m rs (key r) = some (val r) := by
  induction rs using List.reverseRecOn with
  | nil => simp at hr
  | append_singleton rs r0 ih =>
    rw [assignAll_append]
    simp only [List.map_append, List.map_cons, List.map_nil] at hn
    have hnd := List.nodup_append.1 hn
    by_cases hk : key r = key r0
    · simp only [StdMap.assign, hk, ↓reduceIte, Option.some.injEq]
      rcases List.mem_append.1 hr with h | h
      · exfalso
        exact hnd.2.2 (List.mem_map_of_mem key h) (by simp [hk])
      · simp only [List.mem_singleton] at h; rw [h]
    · simp only [StdMap.assign, hk, ↓reduceIte]
      rcases List.mem_append.1 hr with h | h
      · exact ih hnd.1 h
      · simp only [List.mem_singleton] at h; exact absurd (by rw [h]) hk

/-- A key that no record has keeps its old entry. -/
theorem assignAll_of_not_mem (key val : NodeInfo → Nat) (m : StdMap) (rs : List NodeInfo)
    (x : Nat) (hx : x ∉ rs.map key) : assignAll key val m rs x = m x := by
  induction rs using List.reverseRecOn with
  | nil => rfl
  | append_singleton rs r0 ih =>
    rw [assignAll_append]
    simp only [List.map_append, List.map_cons, List.map_nil, List.mem_append,
      List.mem_singleton, not_or] at hx
    simp only [StdMap.assign, hx.2, ↓reduceIte]
    exact ih hx.1

theorem slaveAfter_length (sl : List (List Nat)) (rs : List NodeInfo) :
    (slaveAfter sl rs).length = sl.length := by
  induction rs generalizing sl with
  | nil => rfl
  | cons r rs ih =>
    show (slaveAfter _ rs).length = _
    rw [ih, List.length_set]

namespace vGraph

variable {α β : Type}

/-- The loop of the constructor succeeds when every owner is a valid host,
and its effect is described by `slaveAfter` and `assignAll`. -/
theorem foldlM_addRecord (n : Nat) (rs : List NodeInfo) (h0 : vGraph α)
    (hlen : h0.slaveNodes.length = n) (ho : ∀ r ∈ rs, r.owner_id < n) :
    rs.foldlM (addRecord n) h0 = .ok { h0 with
      slaveNodes := slaveAfter h0.slaveNodes rs
      GIDtoOwnerMap := assignAll (·.global_id) (·.owner_id) h0.GIDtoOwnerMap rs
      LocalToGlobalMap := assignAll (·.local_id) (·.global_id) h0.LocalToGlobalMap rs
      GlobalToLocalMap := assignAll (·.global_id) (·.local_id) h0.GlobalToLocalMap rs } := by
  induction rs generalizing h0 with
  | nil => rfl
  | cons r rs ih =>
    have hr : r.owner_id < n := ho r (List.mem_cons_self _ _)
    have hs : h0.slaveNodes[r.owner_id]? = some (h0.slaveNodes[r.owner_id]) :=
      List.getElem?_eq_getElem (by omega)
    have hstep : addRecord n h0 r = .ok { h0 with
        slaveNodes := h0.slaveNodes.set r.owner_id
          ((h0.slaveNodes[r.owner_id]?).getD [] ++ [r.global_id])
        GIDtoOwnerMap := h0.GIDtoOwnerMap.assign r.global_id r.owner_id
        LocalToGlobalMap := h0.LocalToGlobalMap.assign r.local_id r.global_id
        GlobalToLocalMap := h0.GlobalToLocalMap.assign r.global_id r.local_id } := by
      unfold addRecord
      rw [if_neg (by simpa using hr), hs]
      rfl
    rw [List.foldlM_cons, hstep]
    show List.foldlM (addRecord n) _ rs = _
    rw [ih _ (by simp [hlen]) (fun x hx => ho x (List.mem_cons_of_mem _ hx))]
    rfl

end vGraph

theorem resizeVec_nil (n : Nat) : resizeVec [] n = List.replicate n [] := by
  simp [resizeVec]

namespace vGraph

variable {α β : Type}

/-- The loaded host, explicitly, when every owner is a valid host. -/
theorem loaded_eq (host n : Nat) (records : List NodeInfo) (nodes : List α)
    (ho : ∀ r ∈ records, r.owner_id < n) :
    loaded host n records nodes = .ok
      { id := host, totalNodes := 0, numOwned := 0, localToGlobalMap_meta := records
        slaveNodes := slaveAfter (List.replicate n []) records
        masterNodes := List.replicate n []
        LocalToGlobalMap := assignAll (·.local_id) (·.global_id) StdMap.empty records
        GlobalToLocalMap := assignAll (·.global_id) (·.local_id) StdMap.empty records
        GIDtoOwnerMap := assignAll (·.global_id) (·.owner_id) StdMap.empty records
        num_recv_expected := 0, nodeData := nodes } := by
  unfold loaded buildTables
  simp only [blank, resizeVec_nil]
  rw [foldlM_addRecord n records _ (by simp) ho]

end vGraph

/-- C4 as stated fails: two records with the same local id 0 and the global
ids 1 and 2.  The table is built, `getLID(1)` is 0, and `getGID(0)` is 2, so
`getGID(getLID(1))` is not 1. -/
theorem getGID_getLID_duplicate_lid :
    ∃ h : vGraph Unit, vGraph.loaded 0 1 [⟨0, 1, 0⟩, ⟨0, 2, 0⟩] [(), ()] = .ok h ∧
      h.getLID 1 = .ok 0 ∧ h.getGID 0 = .ok 2 ∧
      (h.getLID 1).bind h.getGID ≠ .ok 1 :=
  ⟨_, rfl, rfl, rfl, fun hc =>
    absurd (Except.ok.inj (hc : (Except.ok 2 : Except String Nat) = .ok 1)) (by decide)⟩

/-- C4, amended. When no two ownership records share a global id or a local
id and every local id fits the `uint32_t` that `getLID` returns, the loader
builds the tables and, for every record `(gid, lid, owner)`,
`getLID(getGID(lid)) = lid` and `getGID(getLID(gid)) = gid`. -/
theorem getLID_getGID_inverse {α : Type} (host n : Nat) (records : List NodeInfo)
    (nodes : List α)
    (ho : ∀ r ∈ records, r.owner_id < n)
    (hg : (records.map (·.global_id)).Nodup)
    (hl : (records.map (·.local_id)).Nodup)
    (h32 : ∀ r ∈ records, r.local_id < 2 ^ 32) :
    ∃ h, vGraph.loaded host n records nodes = .ok h ∧
      ∀ r ∈ records,
        (h.getGID r.local_id).bind h.getLID = .ok r.local_id ∧
        (h.getLID r.global_id).bind h.getGID = .ok r.global_id := by
  refine ⟨_, vGraph.loaded_eq host n records nodes ho, ?_⟩
  intro r hr
  have h1 := assignAll_of_mem (·.local_id) (·.global_id) StdMap.empty records hl r hr
  have h2 := assignAll_of_mem (·.global_id) (·.local_id) StdMap.empty records hg r hr
  have hu : u32 r.local_id = r.local_id := Nat.mod_eq_of_lt (h32 r hr)
  simp only at h1 h2
  constructor
  · simp only [vGraph.getGID, vGraph.getLID, vGraph.L2G, vGraph.G2L, StdMap.atKey, h1, h2,
      Except.bind, Except.map, hu]
  · simp only [vGraph.getGID, vGraph.getLID, vGraph.L2G, vGraph.G2L, StdMap.atKey, h1, h2,
      Except.bind, Except.map, hu]

/-- C4 amended, at two records with distinct ids. -/
theorem getLID_getGID_inverse_witness :
    ∃ h : vGraph Unit, vGraph.loaded 0 2 [⟨0, 7, 0⟩, ⟨1, 9, 1⟩] [(), ()] = .ok h ∧
      ∀ r ∈ [(⟨0, 7, 0⟩ : NodeInfo), ⟨1, 9, 1⟩],
        (h.getGID r.local_id).bind h.getLID = .ok r.local_id ∧
        (h.getLID r.global_id).bind h.getGID = .ok r.global_id :=
  getLID_getGID_inverse 0 2 [⟨0, 7, 0⟩, ⟨1, 9, 1⟩] [(), ()]
    (by decide) (by decide) (by decide) (by decide)

theorem slaveSetOf_cons (r : NodeInfo) (rs : List NodeInfo) (x : Nat) :
    slaveSetOf (r :: rs) x
      = (if r.owner_id = x then [r.global_id] else []) ++ slaveSetOf rs x := by
  unfold slaveSetOf
  by_cases h : r.owner_id = x <;> simp [List.filter_cons, h]

/-- The Slave Set of `x` after the loop: what it held before, followed by the
GIDs of the records owned by `x`, in record order. -/
theorem slaveAfter_getElem? (sl : List (List Nat)) (rs : List NodeInfo) (x : Nat) :
    (slaveAfter sl rs)[x]? = (sl[x]?).map (· ++ slaveSetOf rs x) := by
  induction rs generalizing sl with
  | nil => simp [slaveAfter, slaveSetOf]
  | cons r rs ih =>
    show (slaveAfter (sl.set r.owner_id ((sl[r.owner_id]?).getD [] ++ [r.global_id])) rs)[x]?
      = _
    rw [ih, slaveSetOf_cons, List.getElem?_set]
    by_cases ho : r.owner_id = x
    · subst ho
      by_cases hl : r.owner_id < sl.length
      · simp [hl, List.getElem?_eq_getElem hl]
      · simp [hl, List.getElem?_eq_none (Nat.le_of_not_lt hl)]
    · simp [ho]

/-- A loop that only appends to its accumulator. -/
theorem foldlM_append_ok {ι μ : Type} (step : List μ → ι → Except String (List μ))
    (g : ι → List μ) (L : List ι)
    (hstep : ∀ acc, ∀ i ∈ L, step acc i = .ok (acc ++ g i)) (init : List μ) :
    L.foldlM step init = .ok (init ++ L.flatMap g) := by
  induction L generalizing init with
  | nil => simp [pure, Except.pure]
  | cons i L ih =>
    rw [List.foldlM_cons, hstep init i (List.mem_cons_self _ _)]
    show List.foldlM step (init ++ g i) L = _
    rw [ih (fun acc j hj => hstep acc j (List.mem_cons_of_mem _ hj))]
    simp [List.flatMap_cons]

namespace vGraph

variable {α β : Type}

/-- The loop of the constructor succeeds only if every owner is a valid host. -/
theorem owner_lt_of_foldlM_addRecord (n : Nat) (rs : List NodeInfo) (h0 h : vGraph α)
    (hok : rs.foldlM (addRecord n) h0 = .ok h) : ∀ r ∈ rs, r.owner_id < n := by
  induction rs generalizing h0 with
  | nil => intro r hr; simp at hr
  | cons r rs ih =>
    rw [List.foldlM_cons] at hok
    cases hstep : addRecord n h0 r with
    | error e => rw [hstep] at hok; exact absurd hok (by simp [bind, Except.bind])
    | ok h1 =>
      rw [hstep] at hok
      have hr : r.owner_id < n := by
        by_contra hc
        unfold addRecord at hstep
        rw [if_pos hc] at hstep
        exact absurd hstep (by simp)
      intro r' hr'
      rcases List.mem_cons.1 hr' with e | e
      · rw [e]; exact hr
      · exact ih h1 hok r' e

theorem owner_lt_of_loaded (host n : Nat) (records : List NodeInfo) (nodes : List α)
    (h : vGraph α) (hok : loaded host n records nodes = .ok h) :
    ∀ r ∈ records, r.owner_id < n := by
  unfold loaded buildTables at hok
  cases hf : List.foldlM (addRecord n)
      { (blank host records : vGraph α) with
        masterNodes := resizeVec (blank host records : vGraph α).masterNodes n
        slaveNodes := resizeVec (blank host records : vGraph α).slaveNodes n }
      (blank host records : vGraph α).localToGlobalMap_meta with
  | error e => rw [hf] at hok; exact absurd hok (by simp)
  | ok h1 => exact owner_lt_of_foldlM_addRecord n _ _ h1 hf

/-- The fields of a loaded host. -/
theorem loaded_fields (host n : Nat) (records : List NodeInfo) (nodes : List α)
    (h : vGraph α) (hok : loaded host n records nodes = .ok h) :
    h.id = host ∧ h.nodeData = nodes ∧ h.masterNodes = List.replicate n [] ∧
    h.slaveNodes.length = n ∧ (∀ x, x < n → h.slaveNodes[x]? = some (slaveSetOf records x)) ∧
    h.GlobalToLocalMap = assignAll (·.global_id) (·.local_id) StdMap.empty records ∧
    h.LocalToGlobalMap = assignAll (·.local_id) (·.global_id) StdMap.empty records ∧
    h.GIDtoOwnerMap = assignAll (·.global_id) (·.owner_id) StdMap.empty records := by
  have ho := owner_lt_of_loaded host n records nodes h hok
  rw [loaded_eq host n records nodes ho] at hok
  have e := Except.ok.inj hok
  subst e
  refine ⟨rfl, rfl, rfl, ?_, ?_, rfl, rfl, rfl⟩
  · simp [slaveAfter_length]
  · intro x hx
    simp only [slaveAfter_getElem?, List.getElem?_replicate, hx, ↓reduceIte, Option.map_some',
      List.nil_append]

end vGraph

/-! ## Handshake -/

namespace vGraph

variable {α β : Type}

/-- The messages `exchange_info_init` sends on a loaded host. -/
theorem exchange_info_init_loaded (x n : Nat) (records : List NodeInfo) (nodes : List α)
    (h : vGraph α) (hok : loaded x n records nodes = .ok h) :
    (exchange_info_init ⟨x, n⟩ h : Except String (List (Nat × Message β)))
      = .ok ((List.range n).flatMap (fun d => handshakeTo x d (slaveSetOf records d))) := by
  obtain ⟨hid, -, -, -, hs, -⟩ := loaded_fields x n records nodes h hok
  unfold exchange_info_init
  have := foldlM_append_ok (μ := Nat × Message β)
    (fun sent d =>
      match h.slaveNodes[d]? with
      | none => .error "slaveNodes[x] outside the vector"
      | some s =>
        if d = h.id ∨ s.length = 0 then .ok sent
        else .ok (sent ++ [(d, Message.exchangeInfo (u32 h.id) (u64 s.length) s)]))
    (fun d => handshakeTo x d (slaveSetOf records d)) (List.range n)
    (by
      intro acc d hd
      have hd' : d < n := List.mem_range.1 hd
      simp only [hs d hd', hid, handshakeTo]
      split <;> simp) []
  simpa using this

end vGraph

/-- All the handshake messages of a run whose hosts are loaded. -/
theorem handshakeSends_loaded {α β : Type} (n : Nat) (records : Nat → List NodeInfo)
    (nodes : Nat → List α) (c : Hosts α)
    (hload : ∀ x, x < n → vGraph.loaded x n (records x) (nodes x) = .ok (c x)) :
    (handshakeSends n c : Except String (List (Nat × Message β)))
      = .ok ((List.range n).flatMap (fun x =>
          (List.range n).flatMap (fun d => handshakeTo x d (slaveSetOf (records x) d)))) := by
  unfold handshakeSends
  have := foldlM_append_ok (μ := Nat × Message β)
    (fun sent x =>
      match vGraph.exchange_info_init ⟨x, n⟩ (c x) with
      | .error e => .error e
      | .ok s => .ok (sent ++ s))
    (fun x => (List.range n).flatMap (fun d => handshakeTo x d (slaveSetOf (records x) d)))
    (List.range n)
    (by
      intro acc x hx
      have hx' : x < n := List.mem_range.1 hx
      simp only [vGraph.exchange_info_init_loaded x n (records x) (nodes x) (c x) (hload x hx')])
    []
  simpa using this

/-- Membership in the handshake messages of a run. -/
theorem mem_handshake_iff {β : Type} (n : Nat) (S : Nat → Nat → List Nat)
    (m : Nat × Message β) :
    m ∈ (List.range n).flatMap (fun x =>
        (List.range n).flatMap (fun d => handshakeTo x d (S x d))) ↔
      ∃ x d, x < n ∧ d < n ∧ d ≠ x ∧ S x d ≠ [] ∧
        m = (d, Message.exchangeInfo (u32 x) (u64 (S x d).length) (S x d)) := by
  simp only [List.mem_flatMap, List.mem_range, handshakeTo]
  constructor
  · rintro ⟨x, hx, d, hd, hm⟩
    by_cases hc : d = x ∨ (S x d).length = 0
    · rw [if_pos hc] at hm; simp at hm
    · rw [if_neg hc] at hm
      simp only [List.mem_singleton] at hm
      simp only [not_or] at hc
      exact ⟨x, d, hx, hd, hc.1, fun e => hc.2 (by simp [e]), hm⟩
  · rintro ⟨x, d, hx, hd, hne, hS, hm⟩
    refine ⟨x, hx, d, hd, ?_⟩
    rw [if_neg (by
      simp only [not_or]
      exact ⟨hne, fun e => hS (List.length_eq_zero.1 e)⟩)]
    simp [hm]

namespace vGraph

variable {α β : Type}

/-- `exchange_info_landingPad` on an object whose `masterNodes` has an entry
for the sender. -/
theorem exchange_info_landingPad_of_lt (h : vGraph α) (hostID numItems : Nat)
    (items : List Nat) (hlt : hostID < h.masterNodes.length) :
    h.exchange_info_landingPad hostID numItems items
      = .ok { h with masterNodes := h.masterNodes.set hostID items } := by
  unfold exchange_info_landingPad
  simp only [if_neg (Nat.lt_asymm hlt), hlt, ↓reduceIte]

end vGraph

/-- Delivery of handshake messages, in any order: every message is accepted,
the Master Set for a sender that has a message in the list is the content of
that message, and every other Master Set is untouched. -/
theorem foldlM_recvHandshake {α β : Type} (n : Nat) (T : Nat → Nat → List Nat)
    (l : List (Nat × Message β)) (c : Hosts α)
    (hl : ∀ m ∈ l, m.1 < n ∧ ∃ B k, B < n ∧ m.2 = Message.exchangeInfo B k (T m.1 B))
    (hc : ∀ A, A < n → (c A).masterNodes.length = n) :
    ∃ c', l.foldlM (recvHandshake n) c = .ok c' ∧
      (∀ A, (c' A).slaveNodes = (c A).slaveNodes) ∧
      (∀ A, A < n → (c' A).masterNodes.length = n) ∧
      (∀ A B, A < n → B < n →
        ((∃ k, (A, Message.exchangeInfo B k (T A B)) ∈ l) →
          (c' A).masterNodes[B]? = some (T A B)) ∧
        ((∀ k items, (A, Message.exchangeInfo B k items) ∉ l) →
          (c' A).masterNodes[B]? = (c A).masterNodes[B]?)) := by
  induction l generalizing c with
  | nil =>
    refine ⟨c, rfl, fun _ => rfl, hc, ?_⟩
    intro A B _ _
    exact ⟨fun ⟨k, hk⟩ => absurd hk (by simp), fun _ => rfl⟩
  | cons m l ih =>
    obtain ⟨A0, msg⟩ := m
    obtain ⟨hA0, B0, k0, hB0, hmsg⟩ := hl (A0, msg) (List.mem_cons_self _ _)
    simp only at hA0 hmsg
    subst hmsg
    have hl' : ∀ m ∈ l, m.1 < n ∧ ∃ B k, B < n ∧ m.2 = Message.exchangeInfo B k (T m.1 B) :=
      fun m hm => hl m (List.mem_cons_of_mem _ hm)
    have hstep : recvHandshake n c (A0, (Message.exchangeInfo B0 k0 (T A0 B0) : Message β))
        = .ok (Function.update c A0
            { c A0 with masterNodes := (c A0).masterNodes.set B0 (T A0 B0) }) := by
      unfold recvHandshake
      simp only [hA0, not_true_eq_false, ↓reduceIte]
      rw [vGraph.exchange_info_landingPad_of_lt _ _ _ _ (by rw [hc A0 hA0]; exact hB0)]
    have hc1 : ∀ A, A < n → ((Function.update c A0
        { c A0 with masterNodes := (c A0).masterNodes.set B0 (T A0 B0) }) A).masterNodes.length
        = n := by
      intro A hA
      by_cases e : A = A0
      · subst e; simp [hc A hA]
      · rw [Function.update_noteq e]; exact hc A hA
    obtain ⟨c', hfold, hsl, hlen, hmn⟩ := ih _ hl' hc1
    refine ⟨c', ?_, ?_, hlen, ?_⟩
    · rw [List.foldlM_cons, hstep]; exact hfold
    · intro A
      rw [hsl A]
      by_cases e : A = A0
      · subst e; simp
      · rw [Function.update_noteq e]
    · intro A B hA hB
      obtain ⟨h1, h2⟩ := hmn A B hA hB
      constructor
      · rintro ⟨k, hk⟩
        by_cases hin : ∃ k, (A, Message.exchangeInfo B k (T A B)) ∈ l
        · exact h1 hin
        · have hno : ∀ k items, (A, Message.exchangeInfo B k items) ∉ l := by
            intro k' items hmem
            obtain ⟨-, B', k'', -, hm'⟩ := hl' _ hmem
            simp only [Message.exchangeInfo.injEq] at hm'
            obtain ⟨e1, e2, e3⟩ := hm'
            subst e1 e2
            exact hin ⟨k', by rw [← e3]; exact hmem⟩
          rcases List.mem_cons.1 hk with e | e
          · simp only [Prod.mk.injEq, Message.exchangeInfo.injEq] at e
            obtain ⟨eA, eB, -, -⟩ := e
            subst eA eB
            rw [h2 hno, Function.update_same]
            simp only
            rw [List.getElem?_set_self (by rw [hc A hA]; exact hB)]
          · exact absurd e (fun e => hin ⟨k, e⟩)
      · intro hno
        have hno' : ∀ k items, (A, Message.exchangeInfo B k items) ∉ l :=
          fun k items hmem => hno k items (List.mem_cons_of_mem _ hmem)
        rw [h2 hno']
        by_cases e : A = A0
        · subst e
          have hB' : B0 ≠ B := by
            intro e'
            subst e'
            exact hno k0 (T A B0) (List.mem_cons_self _ _)
          rw [Function.update_same]
          simp only
          rw [List.getElem?_set_ne hB']
        · rw [Function.update_noteq e]

/-- C8. Handshake result: when every host has built its tables, has run
`exchange_info_init`, and every handshake message sent has been processed by
`exchange_info_landingPad` (in any order), then for all distinct hosts `A` and
`B` the Master Set recorded on `A` for `B` is the Slave Set of `B` for `A`
(the same list; empty when `B` sent nothing to `A`); and every message sent
goes from a host `x` to another host `d`, for a non-empty Slave Set. -/
theorem handshake_master_eq_slave {α β : Type} (n : Nat) (hn : n ≤ 2 ^ 32)
    (records : Nat → List NodeInfo) (nodes : Nat → List α) (c : Hosts α)
    (hload : ∀ x, x < n → vGraph.loaded x n (records x) (nodes x) = .ok (c x)) :
    ∃ msgs : List (Nat × Message β), handshakeSends n c = .ok msgs ∧
      (∀ m ∈ msgs, ∃ x d s, x < n ∧ d < n ∧ d ≠ x ∧ (c x).slaveNodes[d]? = some s ∧ s ≠ [] ∧
        m = (d, Message.exchangeInfo x (u64 s.length) s)) ∧
      ∀ order : List (Nat × Message β), order.Perm msgs →
        ∃ c', order.foldlM (recvHandshake n) c = .ok c' ∧
          ∀ A B, A < n → B < n → A ≠ B →
            ∃ s, (c' A).masterNodes[B]? = some s ∧ (c' B).slaveNodes[A]? = some s ∧
              ((∀ k, (A, Message.exchangeInfo B k s) ∉ msgs) → s = []) := by
  have hu : ∀ x, x < n → u32 x = x := fun x hx => Nat.mod_eq_of_lt (by omega)
  refine ⟨_, handshakeSends_loaded n records nodes c hload, ?_, ?_⟩
  · intro m hm
    obtain ⟨x, d, hx, hd, hne, hS, rfl⟩ :=
      (mem_handshake_iff n (fun x d => slaveSetOf (records x) d) m).1 hm
    obtain ⟨-, -, -, -, hs, -⟩ := vGraph.loaded_fields x n _ _ _ (hload x hx)
    exact ⟨x, d, _, hx, hd, hne, hs d hd, hS, by rw [hu x hx]⟩
  · intro order hperm
    have hl : ∀ m ∈ order, m.1 < n ∧ ∃ B k, B < n ∧
        m.2 = Message.exchangeInfo B k (slaveSetOf (records B) m.1) := by
      intro m hm
      obtain ⟨x, d, hx, hd, -, -, rfl⟩ :=
        (mem_handshake_iff n (fun x d => slaveSetOf (records x) d) m).1 (hperm.mem_iff.1 hm)
      exact ⟨hd, x, _, hx, by rw [hu x hx]⟩
    have hc : ∀ A, A < n → (c A).masterNodes.length = n := by
      intro A hA
      obtain ⟨-, -, hm, -⟩ := vGraph.loaded_fields A n _ _ _ (hload A hA)
      rw [hm, List.length_replicate]
    obtain ⟨c', hfold, hsl, -, hmn⟩ :=
      foldlM_recvHandshake n (fun A B => slaveSetOf (records B) A) order c hl hc
    refine ⟨c', hfold, ?_⟩
    intro A B hA hB hAB
    obtain ⟨-, -, -, -, hsB, -⟩ := vGraph.loaded_fields B n _ _ _ (hload B hB)
    obtain ⟨-, -, hmA, -⟩ := vGraph.loaded_fields A n _ _ _ (hload A hA)
    refine ⟨slaveSetOf (records B) A, ?_, by rw [hsl B]; exact hsB A hA, ?_⟩
    · by_cases hS : slaveSetOf (records B) A = []
      · rw [(hmn A B hA hB).2, hmA, hS, List.getElem?_replicate, if_pos hB]
        intro k items hmem
        obtain ⟨x, d, hx, -, -, hS', e⟩ :=
          (mem_handshake_iff n (fun x d => slaveSetOf (records x) d) _).1 (hperm.mem_iff.1 hmem)
        simp only [Prod.mk.injEq, Message.exchangeInfo.injEq] at e
        obtain ⟨e1, e2, -, -⟩ := e
        rw [hu x hx] at e2
        subst e1 e2
        exact hS' hS
      · apply (hmn A B hA hB).1
        refine ⟨u64 (slaveSetOf (records B) A).length, hperm.mem_iff.2 ?_⟩
        apply (mem_handshake_iff n (fun x d => slaveSetOf (records x) d) _).2
        exact ⟨B, A, hB, hA, hAB, hS, by rw [hu B hB]⟩
    · intro hno
      by_contra hS
      apply hno (u64 (slaveSetOf (records B) A).length)
      apply (mem_handshake_iff n (fun x d => slaveSetOf (records x) d) _).2
      exact ⟨B, A, hB, hA, hAB, hS, by rw [hu B hB]⟩

/-! ## Push messages on the receiving host -/

theorem foldlM_toOption {σ ι : Type} (f : σ → ι → Except String σ) (l : List ι) (a : σ) :
    (l.foldlM f a).toOption
      = l.foldl (fun s x => s.bind (fun a => (f a x).toOption)) (some a) := by
  have hnone : ∀ l : List ι,
      l.foldl (fun (s : Option σ) x => s.bind (fun a => (f a x).toOption)) none = none := by
    intro l
    induction l with
    | nil => rfl
    | cons x l ih => simpa using ih
  induction l generalizing a with
  | nil => rfl
  | cons x l ih =>
    rw [List.foldlM_cons, List.foldl_cons, Option.some_bind]
    cases f a x with
    | error e =>
      rw [show (Except.error e : Except String σ).toOption = none from rfl, hnone]
      rfl
    | ok b =>
      rw [show (Except.ok b : Except String σ).toOption = some b from rfl]
      exact ih b

/-- Updating two slots of an array one after the other, each with a function
of the value found: the order does not matter when the two functions commute
on a common slot. -/
theorem set_set_comm {α : Type} (nd : List α) (l1 l2 : Nat) (f1 f2 : α → α)
    (hf : l1 = l2 → ∀ d, f2 (f1 d) = f1 (f2 d)) :
    ((nd[l1]?).bind fun d1 =>
        ((nd.set l1 (f1 d1))[l2]?).map fun d2 => (nd.set l1 (f1 d1)).set l2 (f2 d2))
      = ((nd[l2]?).bind fun d2 =>
        ((nd.set l2 (f2 d2))[l1]?).map fun d1 => (nd.set l2 (f2 d2)).set l1 (f1 d1)) := by
  by_cases e : l1 = l2
  · subst e
    cases h1 : nd[l1]? with
    | none => rfl
    | some d =>
      have hlt : l1 < nd.length := by
        by_contra hc
        rw [List.getElem?_eq_none (Nat.le_of_not_lt hc)] at h1
        exact absurd h1 (by simp)
      simp only [Option.some_bind, List.getElem?_set_self hlt, Option.map_some', List.set_set,
        hf rfl d]
  · have e' : l2 ≠ l1 := fun h => e h.symm
    cases h1 : nd[l1]? with
    | none =>
      cases h2 : nd[l2]? with
      | none => rfl
      | some d2 => simp [List.getElem?_set_ne e', h1]
    | some d1 =>
      cases h2 : nd[l2]? with
      | none => simp [List.getElem?_set_ne e, h2]
      | some d2 =>
        simp only [Option.some_bind, List.getElem?_set_ne e, List.getElem?_set_ne e', h1, h2,
          Option.map_some', Option.some.injEq]
        exact List.set_comm _ _ _ e

namespace vGraph

variable {α β : Type}

/-- `reduceEntry` in terms of the translation table and the payload array. -/
theorem reduceEntry_toOption (P : PushFn α β) (h : vGraph α) (e : Nat × β) :
    (h.reduceEntry P e).toOption =
      (h.GlobalToLocalMap e.1).bind fun lid =>
        (h.nodeData[u32 lid]?).map fun d =>
          { h with nodeData := h.nodeData.set (u32 lid) (P.reduce (u32 lid) d e.2) } := by
  unfold reduceEntry G2L StdMap.atKey getData setData
  cases h.GlobalToLocalMap e.1 with
  | none => rfl
  | some lid =>
    simp only [Option.some_bind]
    cases h.nodeData[u32 lid]? <;> rfl

end vGraph

namespace vGraph

variable {α β : Type}

/-- `reduceStep` on a live state, through the payload array. -/
theorem reduceStep_some (P : PushFn α β) (h : vGraph α) (e : Nat × β) :
    reduceStep P (some h) e =
      (h.GlobalToLocalMap e.1).bind fun lid =>
        (h.nodeData[u32 lid]?).map fun d =>
          { h with nodeData := h.nodeData.set (u32 lid) (P.reduce (u32 lid) d e.2) } := by
  simp only [reduceStep, Option.some_bind, reduceEntry_toOption]

/-- Two entries can be reduced in either order, when the policy's reduce
gives the same slot for either order of two values. -/
theorem reduceStep_comm (P : PushFn α β)
    (hP : ∀ lid d a b, P.reduce lid (P.reduce lid d a) b = P.reduce lid (P.reduce lid d b) a)
    (z : Option (vGraph α)) (e1 e2 : Nat × β) :
    reduceStep P (reduceStep P z e1) e2 = reduceStep P (reduceStep P z e2) e1 := by
  cases z with
  | none => rfl
  | some h =>
    have key : ∀ (l1 l2 : Nat) (v1 v2 : β),
        ((h.nodeData[u32 l1]?).bind fun d1 =>
          ((h.nodeData.set (u32 l1) (P.reduce (u32 l1) d1 v1))[u32 l2]?).map fun d2 =>
            ({ h with nodeData :=
                ((h.nodeData.set (u32 l1) (P.reduce (u32 l1) d1 v1)).set (u32 l2)
                  (P.reduce (u32 l2) d2 v2)) } : vGraph α))
        = ((h.nodeData[u32 l2]?).bind fun d2 =>
          ((h.nodeData.set (u32 l2) (P.reduce (u32 l2) d2 v2))[u32 l1]?).map fun d1 =>
            ({ h with nodeData :=
                ((h.nodeData.set (u32 l2) (P.reduce (u32 l2) d2 v2)).set (u32 l1)
                  (P.reduce (u32 l1) d1 v1)) } : vGraph α)) := by
      intro l1 l2 v1 v2
      have hs := set_set_comm h.nodeData (u32 l1) (u32 l2)
        (fun d => P.reduce (u32 l1) d v1) (fun d => P.reduce (u32 l2) d v2)
        (by intro e d; simp only; rw [← e]; exact (hP _ _ _ _))
      have := congrArg (Option.map fun nd => ({ h with nodeData := nd } : vGraph α)) hs
      simpa [Option.map_bind', Function.comp_def] using this
    rw [reduceStep_some, reduceStep_some]
    cases h1 : h.GlobalToLocalMap e1.1 with
    | none =>
      cases h2 : h.GlobalToLocalMap e2.1 with
      | none => rfl
      | some l2 =>
        simp only [Option.none_bind, Option.some_bind, reduceStep]
        cases h.nodeData[u32 l2]? with
        | none => rfl
        | some d2 =>
          simp only [Option.map_some', Option.some_bind, reduceEntry_toOption, h1, Option.none_bind]
    | some l1 =>
      cases h2 : h.GlobalToLocalMap e2.1 with
      | none =>
        simp only [Option.none_bind, Option.some_bind, reduceStep]
        cases h.nodeData[u32 l1]? with
        | none => rfl
        | some d1 =>
          simp only [Option.map_some', Option.some_bind, reduceEntry_toOption, h2, Option.none_bind]
      | some l2 =>
        have := key l1 l2 e1.2 e2.2
        simp only [Option.some_bind, reduceStep]
        cases hd1 : h.nodeData[u32 l1]? with
        | none =>
          cases hd2 : h.nodeData[u32 l2]? with
          | none => rfl
          | some d2 =>
            rw [hd1, hd2] at this
            simp only [Option.map_some', Option.some_bind, reduceEntry_toOption, h1,
              Option.map_none', Option.none_bind] at this ⊢
            exact this
        | some d1 =>
          cases hd2 : h.nodeData[u32 l2]? with
          | none =>
            rw [hd1, hd2] at this
            simp only [Option.map_some', Option.some_bind, reduceEntry_toOption, h2,
              Option.map_none', Option.none_bind] at this ⊢
            exact this
          | some d2 =>
            rw [hd1, hd2] at this
            simp only [Option.map_some', Option.some_bind, reduceEntry_toOption, h1, h2]
              at this ⊢
            exact this

end vGraph

namespace vGraph

variable {α β : Type}

theorem foldl_reduceStep_none (P : PushFn α β) (es : List (Nat × β)) :
    es.foldl (reduceStep P) none = none := by
  induction es with
  | nil => rfl
  | cons e es ih => exact ih

/-- `syncRecvApply` fails when the buffer holds fewer entries than announced
and otherwise reduces the first `num` entries in order. -/
theorem syncRecvApplyLoop_toOption (P : PushFn α β) (num : Nat) (es : List (Nat × β))
    (h : vGraph α) :
    (syncRecvApplyLoop P num es h).toOption
      = if num ≤ es.length then (es.take num).foldl (reduceStep P) (some h) else none := by
  induction num generalizing es h with
  | zero => simp [syncRecvApplyLoop, Except.toOption]
  | succ num ih =>
    cases es with
    | nil => simp [syncRecvApplyLoop, Except.toOption]
    | cons e es =>
      simp only [syncRecvApplyLoop, List.length_cons, Nat.add_le_add_iff_right, List.take_succ_cons,
        List.foldl_cons]
      cases hr : reduceEntry P h e with
      | error err =>
        have : reduceStep P (some h) e = none := by
          simp [reduceStep, hr, Except.toOption]
        rw [this, foldl_reduceStep_none]
        simp [Except.toOption]
      | ok h1 =>
        have : reduceStep P (some h) e = some h1 := by
          simp [reduceStep, hr, Except.toOption]
        rw [this]
        exact ih es h1

end vGraph

/-- Processing a list of push messages, as a fold over the optional state. -/
theorem applyPushes_toOption {α β : Type} (P : PushFn α β) (h : vGraph α)
    (ms : List (Nat × List (Nat × β))) :
    (applyPushes P h ms).toOption
      = ms.foldl (fun s m =>
          if m.1 ≤ m.2.length then (m.2.take m.1).foldl (reduceStep P) s else none) (some h) := by
  unfold applyPushes
  rw [foldlM_toOption]
  congr 1
  funext s m
  cases s with
  | none =>
    simp only [Option.none_bind, vGraph.foldl_reduceStep_none, ite_self]
  | some h =>
    simp only [Option.some_bind, vGraph.syncRecvApply, vGraph.syncRecvApplyLoop_toOption]

/-- Push messages can be processed in any order. -/
theorem applyPushes_perm {α β : Type} (P : PushFn α β)
    (hP : ∀ lid d a b, P.reduce lid (P.reduce lid d a) b = P.reduce lid (P.reduce lid d b) a)
    (h : vGraph α) (ms ms' : List (Nat × List (Nat × β))) (hperm : ms.Perm ms') :
    (applyPushes P h ms).toOption = (applyPushes P h ms').toOption := by
  rw [applyPushes_toOption, applyPushes_toOption]
  apply List.Perm.foldl_eq' hperm
  intro m1 _ m2 _ z
  by_cases h1 : m1.1 ≤ m1.2.length <;> by_cases h2 : m2.1 ≤ m2.2.length
  · simp only [h1, h2, ↓reduceIte, ← List.foldl_append]
    exact List.Perm.foldl_eq' List.perm_append_comm
      (fun x _ y _ z => vGraph.reduceStep_comm P hP z x y) z
  · simp only [h1, h2, ↓reduceIte, vGraph.foldl_reduceStep_none]
  · simp only [h1, h2, ↓reduceIte, vGraph.foldl_reduceStep_none]
  · simp only [h1, h2, ↓reduceIte]

namespace vGraph

variable {α β : Type}

theorem getData_eq_ok (h : vGraph α) (N : Nat) (d : α) :
    h.getData N = .ok d ↔ h.nodeData[u32 N]? = some d := by
  unfold getData
  cases h.nodeData[u32 N]? <;> simp

theorem getData_setData_same (h : vGraph α) (N : Nat) (d0 d : α)
    (h0 : h.getData N = .ok d0) : (h.setData N d).getData N = .ok d := by
  rw [getData_eq_ok] at h0 ⊢
  have hlt : u32 N < h.nodeData.length := by
    by_contra hc
    rw [List.getElem?_eq_none (Nat.le_of_not_lt hc)] at h0
    exact absurd h0 (by simp)
  simp only [setData, List.getElem?_set_self hlt]

theorem reduceEntry_of_ok (P : PushFn α β) (h : vGraph α) (gid lid : Nat) (v : β) (d : α)
    (hg : h.G2L gid = .ok lid) (hd : h.getData lid = .ok d) :
    h.reduceEntry P (gid, v) = .ok (h.setData lid (P.reduce (u32 lid) d v)) := by
  unfold reduceEntry
  simp only [hg, hd]

end vGraph

/-- `k` push messages, each carrying the one entry `(g, v)`, add `k • v` to
the residual of the slot of `g`. -/
theorem applyPushes_replicate {R : Type} [AddCommMonoid R] (k : Nat)
    (h : vGraph (PR_NodeData R)) (g lid : Nat) (d : PR_NodeData R) (v : R)
    (hg : h.G2L g = .ok lid) (hd : h.getData lid = .ok d) :
    ∃ h', applyPushes (Syncer_0 R) h (List.replicate k (1, [(g, v)])) = .ok h' ∧
      h'.getData lid = .ok { d with residual := d.residual + k • v } := by
  induction k generalizing h d with
  | zero =>
    refine ⟨h, rfl, ?_⟩
    rw [hd]
    simp
  | succ k ih =>
    have hstep : h.syncRecvApply (Syncer_0 R) 1 [(g, v)]
        = .ok (h.setData lid ((Syncer_0 R).reduce (u32 lid) d v)) := by
      simp only [vGraph.syncRecvApply, vGraph.syncRecvApplyLoop,
        vGraph.reduceEntry_of_ok _ h g lid v d hg hd]
    obtain ⟨h', hrun, hres⟩ := ih (h.setData lid ((Syncer_0 R).reduce (u32 lid) d v))
      ((Syncer_0 R).reduce (u32 lid) d v) hg
      (vGraph.getData_setData_same h lid d _ hd)
    refine ⟨h', ?_, ?_⟩
    · unfold applyPushes at hrun ⊢
      rw [List.replicate_succ, List.foldlM_cons]
      simp only [hstep]
      exact hrun
    · rw [hres]
      simp only [Syncer_0, succ_nsmul', add_assoc]

/-- C6 (amended). No duplication or loss under fan-in.  (1) For every policy
whose reduce gives the same slot for either order of two incoming values
(what an associative and commutative combinator gives), every host, every
list of push messages and every reordering of it, `syncRecvApply` processing
the one or the other leaves the same state (or fails for both).  (2) In
particular for `reduce = fun _ d v => op d v` with `op` associative and
commutative.  (3) Over a commutative monoid of exact numbers, `k` messages
that each contribute `v` to GID `g` under the sum policy `Syncer_0` add
exactly `k • v` to the residual of the slot of `g` (`k` for `v = 1`). -/
theorem fan_in_order_independent :
    (∀ {α β : Type} (P : PushFn α β),
      (∀ lid d a b, P.reduce lid (P.reduce lid d a) b = P.reduce lid (P.reduce lid d b) a) →
      ∀ (h : vGraph α) (ms ms' : List (Nat × List (Nat × β))), ms.Perm ms' →
        (applyPushes P h ms).toOption = (applyPushes P h ms').toOption) ∧
    (∀ {α : Type} (op : α → α → α), (∀ a b c, op (op a b) c = op a (op b c)) →
      (∀ a b, op a b = op b a) →
      ∀ (P : PushFn α α), (P.reduce = fun _ d v => op d v) →
      ∀ (h : vGraph α) (ms ms' : List (Nat × List (Nat × α))), ms.Perm ms' →
        (applyPushes P h ms).toOption = (applyPushes P h ms').toOption) ∧
    (∀ {R : Type} [AddCommMonoid R] (k : Nat) (h : vGraph (PR_NodeData R)) (g lid : Nat)
      (d : PR_NodeData R) (v : R), h.G2L g = .ok lid → h.getData lid = .ok d →
      ∃ h', applyPushes (Syncer_0 R) h (List.replicate k (1, [(g, v)])) = .ok h' ∧
        h'.getData lid = .ok { d with residual := d.residual + k • v }) := by
  refine ⟨fun P hP h ms ms' hp => applyPushes_perm P hP h ms ms' hp, ?_,
    fun k h g lid d v hg hd => applyPushes_replicate k h g lid d v hg hd⟩
  intro α op hassoc hcomm P hred h ms ms' hp
  apply applyPushes_perm P _ h ms ms' hp
  intro lid d a b
  rw [hred]
  simp only
  rw [hassoc, hcomm a b, ← hassoc]

/-- C6 amended, on the master of the sample run with integer payloads: two
messages for GID 10 in both orders, and four replicas contributing 1 each. -/
theorem fan_in_order_independent_witness :
    (applyPushes (Syncer_0 Int) (sampleHosts 0) [(1, [(10, 2)]), (1, [(10, 3)])]).toOption
      = (applyPushes (Syncer_0 Int) (sampleHosts 0) [(1, [(10, 3)]), (1, [(10, 2)])]).toOption ∧
    (∃ h', applyPushes (Syncer_0 Int) (sampleHosts 0) (List.replicate 4 (1, [(10, 1)])) = .ok h' ∧
      h'.getData 0 = .ok { (⟨0, 1, 0⟩ : PR_NodeData Int) with residual := 1 + 4 • 1 }) :=
  ⟨fan_in_order_independent.1 (Syncer_0 Int)
      (fun _ d a b => by simp only [Syncer_0, add_right_comm])
      (sampleHosts 0) _ _ (List.Perm.swap _ _ _),
   fan_in_order_independent.2.2 4 (sampleHosts 0) 10 0 ⟨0, 1, 0⟩ 1 rfl rfl⟩

/-- The hosts of the sample run are loaded hosts. -/
theorem sampleHosts_loaded (x : Nat) (hx : x < 3) :
    vGraph.loaded x 3 (sampleRecords x) (sampleNodes x) = .ok (sampleHosts x) := by
  interval_cases x <;> rfl

/-- C8 on the sample run of three hosts. -/
theorem handshake_master_eq_slave_witness :
    ∃ msgs : List (Nat × Message Int), handshakeSends 3 sampleHosts = .ok msgs ∧
      (∀ m ∈ msgs, ∃ x d s, x < 3 ∧ d < 3 ∧ d ≠ x ∧
        (sampleHosts x).slaveNodes[d]? = some s ∧ s ≠ [] ∧
        m = (d, Message.exchangeInfo x (u64 s.length) s)) ∧
      ∀ order : List (Nat × Message Int), order.Perm msgs →
        ∃ c', order.foldlM (recvHandshake 3) sampleHosts = .ok c' ∧
          ∀ A B, A < 3 → B < 3 → A ≠ B →
            ∃ s, (c' A).masterNodes[B]? = some s ∧ (c' B).slaveNodes[A]? = some s ∧
              ((∀ k, (A, Message.exchangeInfo B k s) ∉ msgs) → s = []) :=
  handshake_master_eq_slave 3 (by decide) sampleRecords sampleNodes sampleHosts
    sampleHosts_loaded

/-! ## Pull -/

namespace vGraph

variable {α β : Type}

/-- The send loop of `sync_pull` over the destinations `L`, from a state in
which `k` requests have been counted. -/
theorem sync_pull_loop (ID Num : Nat) (L : List Nat) (h0 : vGraph α) (k : Nat)
    (msgs0 : List (Nat × Message β))
    (hL : ∀ x ∈ L, x < h0.slaveNodes.length)
    (hk : k + (L.filter (· ≠ h0.id)).length < 2 ^ 32) :
    L.foldlM (pullStep (β := β) ⟨ID, Num⟩)
      ({ h0 with num_recv_expected := k }, msgs0)
    = .ok ({ h0 with num_recv_expected := k + (L.filter (· ≠ h0.id)).length },
        msgs0 ++ (L.filter (· ≠ h0.id)).map
          (fun x => (x, Message.pullRequest ID (u32 ((h0.slaveNodes[x]?).getD []).length)))) := by
  induction L generalizing k msgs0 with
  | nil => simp [pure, Except.pure]
  | cons x L ih =>
    have hL' : ∀ y ∈ L, y < h0.slaveNodes.length := fun y hy => hL y (List.mem_cons_of_mem _ hy)
    rw [List.foldlM_cons]
    by_cases hx : x = h0.id
    · have hf : (x :: L).filter (· ≠ h0.id) = L.filter (· ≠ h0.id) := by
        simp [List.filter_cons, hx]
      rw [hf] at hk ⊢
      simp only [pullStep, hx, ↓reduceIte]
      exact ih k msgs0 hL' hk
    · have hf : (x :: L).filter (· ≠ h0.id) = x :: L.filter (· ≠ h0.id) := by
        simp [List.filter_cons, hx]
      rw [hf] at hk ⊢
      simp only [List.length_cons] at hk
      have hxl : x < h0.slaveNodes.length := hL x (List.mem_cons_self _ _)
      have hs : h0.slaveNodes[x]? = some h0.slaveNodes[x] :=
        List.getElem?_eq_getElem hxl
      have hu : u32 (k + 1) = k + 1 := Nat.mod_eq_of_lt (by omega)
      simp only [pullStep, hx, ↓reduceIte, hs, hu]
      have := ih (k + 1) (msgs0 ++ [(x, Message.pullRequest ID
        (u32 h0.slaveNodes[x].length))]) hL' (by omega)
      simp only [bind, Except.bind]
      rw [this]
      simp only [List.length_cons, List.map_cons, hs, Option.getD_some, List.append_assoc,
        List.singleton_append, Except.ok.injEq, Prod.mk.injEq, and_true]
      congr 1
      omega

end vGraph

namespace vGraph

variable {α β : Type}

/-- The reply loop of `syncPullRecvReply` when the responder holds every GID
of the Master Set: one entry per GID, in order, with the value extracted from
the responder's slot. -/
theorem foldlM_replyEntry (P : PullFn α β) (h : vGraph α) (gs : List Nat)
    (acc : List (Nat × β))
    (hres : ∀ g ∈ gs, ∃ l d, h.G2L g = .ok l ∧ h.getData l = .ok d) :
    ∃ outs, gs.foldlM (replyEntry P h) acc = .ok (acc ++ outs) ∧ outs.map (·.1) = gs ∧
      ∀ e ∈ outs, ∃ l d, h.G2L e.1 = .ok l ∧ h.getData l = .ok d ∧
        e.2 = P.extract (u32 l) d := by
  induction gs generalizing acc with
  | nil => exact ⟨[], by simp [pure, Except.pure], rfl, fun e he => absurd he (by simp)⟩
  | cons g gs ih =>
    obtain ⟨l, d, hl, hd⟩ := hres g (List.mem_cons_self _ _)
    obtain ⟨outs, hfold, hfst, hval⟩ := ih (acc ++ [(g, P.extract (u32 l) d)])
      (fun g' hg' => hres g' (List.mem_cons_of_mem _ hg'))
    refine ⟨(g, P.extract (u32 l) d) :: outs, ?_, by simp [hfst], ?_⟩
    · rw [List.foldlM_cons]
      have : replyEntry P h acc g = .ok (acc ++ [(g, P.extract (u32 l) d)]) := by
        simp only [replyEntry, hl, hd]
      rw [this]
      simp only [bind, Except.bind]
      rw [hfold]
      simp
    · intro e he
      rcases List.mem_cons.1 he with e1 | e1
      · subst e1; exact ⟨l, d, hl, hd, rfl⟩
      · exact hval e e1

/-- Reducing entries that the host can all resolve: the state afterwards
differs in the payload array only, and every slot holds what `slotAfter`
says. -/
theorem foldl_reduceStep_resolved (P : PushFn α β) (es : List (Nat × β)) (h : vGraph α)
    (hres : ∀ e ∈ es, ∃ l, h.GlobalToLocalMap e.1 = some l ∧ u32 l < h.nodeData.length) :
    ∃ nd, es.foldl (reduceStep P) (some h) = some { h with nodeData := nd } ∧
      nd.length = h.nodeData.length ∧
      ∀ l, nd[l]? = (h.nodeData[l]?).map (fun d => slotAfter P h.GlobalToLocalMap l d es) := by
  induction es generalizing h with
  | nil =>
    refine ⟨h.nodeData, rfl, rfl, ?_⟩
    intro l
    simp [slotAfter]
  | cons e es ih =>
    obtain ⟨lid, hG, hlt⟩ := hres e (List.mem_cons_self _ _)
    have hd : h.nodeData[u32 lid]? = some (h.nodeData[u32 lid]) := List.getElem?_eq_getElem hlt
    have hstep : reduceStep P (some h) e = some { h with nodeData :=
        (h.nodeData.set (u32 lid) (P.reduce (u32 lid) (h.nodeData[u32 lid]) e.2)) } := by
      rw [reduceStep_some, hG, Option.some_bind, hd, Option.map_some']
    obtain ⟨nd, hfold, hlen, hslot⟩ := ih { h with nodeData :=
        (h.nodeData.set (u32 lid) (P.reduce (u32 lid) (h.nodeData[u32 lid]) e.2)) }
      (by
        intro e' he'
        obtain ⟨l', hG', hlt'⟩ := hres e' (List.mem_cons_of_mem _ he')
        exact ⟨l', hG', by simpa using hlt'⟩)
    refine ⟨nd, ?_, by simpa using hlen, ?_⟩
    · rw [List.foldl_cons, hstep]; exact hfold
    · intro l
      rw [hslot l]
      simp only [List.getElem?_set, hlt, ↓reduceIte, slotAfter, List.foldl_cons, hG,
        Option.map_some', Option.some.injEq]
      by_cases hk : u32 lid = l
      · subst hk
        simp only [↓reduceIte, Option.map_some', hd]
      · simp only [hk, ↓reduceIte]

theorem toOption_eq_some {σ : Type} (r : Except String σ) (x : σ)
    (h : r.toOption = some x) : r = .ok x := by
  cases r with
  | error e => simp [Except.toOption] at h
  | ok y => simp [Except.toOption] at h; rw [h]

end vGraph

/-- A key that some record has is bound to the value of one of the records
with that key. -/
theorem assignAll_of_mem_keys (key val : NodeInfo → Nat) (m : StdMap) (rs : List NodeInfo)
    (x : Nat) (hx : x ∈ rs.map key) :
    ∃ r ∈ rs, key r = x ∧ assignAll key val m rs x = some (val r) := by
  induction rs using List.reverseRecOn with
  | nil => simp at hx
  | append_singleton rs r0 ih =>
    rw [assignAll_append]
    by_cases hk : x = key r0
    · exact ⟨r0, by simp, hk.symm, by simp [StdMap.assign, hk]⟩
    · have hx' : x ∈ rs.map key := by
        simp only [List.map_append, List.map_cons, List.map_nil, List.mem_append,
          List.mem_singleton] at hx
        rcases hx with h | h
        · exact h
        · exact absurd h hk
      obtain ⟨r, hr, hkr, hv⟩ := ih hx'
      exact ⟨r, by simp [hr], hkr, by simp [StdMap.assign, hk, hv]⟩

theorem mem_slaveSetOf (records : List NodeInfo) (x g : Nat) :
    g ∈ slaveSetOf records x ↔ ∃ r ∈ records, r.owner_id = x ∧ r.global_id = g := by
  simp [slaveSetOf, and_assoc]

theorem slaveSetOf_nodup (records : List NodeInfo) (x : Nat)
    (hg : (records.map (·.global_id)).Nodup) : (slaveSetOf records x).Nodup :=
  List.Nodup.sublist (List.Sublist.map _ (List.filter_sublist _)) hg

/-- Pairwise distinct local ids below `len`: there are at most `len` records. -/
theorem length_le_of_lid_nodup (records : List NodeInfo) (len : Nat)
    (hl : (records.map (·.local_id)).Nodup) (hr : ∀ r ∈ records, r.local_id < len) :
    records.length ≤ len := by
  have hsub : records.map (·.local_id) ⊆ List.range len := by
    intro l hl'
    obtain ⟨r, hr', rfl⟩ := List.mem_map.1 hl'
    exact List.mem_range.2 (hr r hr')
  have := (List.Nodup.subperm hl hsub).length_le
  simpa using this

theorem slaveSetOf_length_le (records : List NodeInfo) (x : Nat) :
    (slaveSetOf records x).length ≤ records.length := by
  unfold slaveSetOf
  rw [List.length_map]
  exact List.length_filter_le _ _

namespace vGraph

variable {α β : Type}

/-- The send loop of `sync_pull` on a host `b` of a run of `n` hosts: one
request per other host, and as many expected replies. -/
theorem sync_pull_eq (n b : Nat) (hn : n ≤ 2 ^ 32) (hb : b < n) (h : vGraph α)
    (hid : h.id = b) (hlen : h.slaveNodes.length = n) :
    (h.sync_pull ⟨b, n⟩ : Except String (vGraph α × List (Nat × Message β)))
      = .ok ({ h with num_recv_expected := ((List.range n).filter (· ≠ b)).length },
          ((List.range n).filter (· ≠ b)).map
            (fun x => (x, Message.pullRequest b (u32 ((h.slaveNodes[x]?).getD []).length)))) := by
  have hlt : ((List.range n).filter (· ≠ b)).length < (List.range n).length :=
    List.length_filter_lt_length_iff_exists.2 ⟨b, List.mem_range.2 hb, by simp⟩
  rw [List.length_range] at hlt
  have := sync_pull_loop (β := β) b n (List.range n) h 0 []
    (by intro x hx; rw [hlen]; exact List.mem_range.1 hx)
    (by rw [hid]; omega)
  unfold sync_pull
  simp only [hid, Nat.zero_add, List.nil_append] at this ⊢
  exact this

end vGraph

theorem u32_u32 (x : Nat) : u32 (u32 x) = u32 x := by
  unfold u32; exact Nat.mod_mod _ _

namespace vGraph

variable {α β : Type}

/-- The inner loop of `sync_push` over GIDs whose slots are pairwise
distinct: one entry per GID with the value extracted from the slot as it was
before the loop, and exactly those slots are reset. -/
theorem foldlM_pushEntry (P : PushFn α β) (L : Nat → Nat) (D : Nat → α) (gs : List Nat)
    (h : vGraph α) (acc : List (Nat × β))
    (hG : ∀ g ∈ gs, h.GlobalToLocalMap g = some (L g) ∧ L g < 2 ^ 32 ∧
      h.nodeData[L g]? = some (D g))
    (hnd : (gs.map L).Nodup) :
    ∃ nd, gs.foldlM (pushEntry P) (h, acc)
        = .ok ({ h with nodeData := nd }, acc ++ gs.map (fun g => (g, P.extract (L g) (D g)))) ∧
      nd.length = h.nodeData.length ∧
      ∀ l, nd[l]? = if l ∈ gs.map L then (h.nodeData[l]?).map (P.reset l) else h.nodeData[l]? := by
  induction gs generalizing h acc with
  | nil =>
    exact ⟨h.nodeData, by simp [pure, Except.pure], rfl, fun l => by simp⟩
  | cons g gs ih =>
    obtain ⟨hGg, h32, hDg⟩ := hG g (List.mem_cons_self _ _)
    have hu : u32 (L g) = L g := Nat.mod_eq_of_lt h32
    have hlt : L g < h.nodeData.length := by
      by_contra hc
      rw [List.getElem?_eq_none (Nat.le_of_not_lt hc)] at hDg
      exact absurd hDg (by simp)
    simp only [List.map_cons, List.nodup_cons] at hnd
    have hstep : pushEntry P (h, acc) g
        = .ok ({ h with nodeData := (h.nodeData.set (L g) (P.reset (L g) (D g))) },
            acc ++ [(g, P.extract (L g) (D g))]) := by
      unfold pushEntry
      have h1 : h.G2L g = .ok (L g) := by simp only [G2L, StdMap.atKey, hGg]
      have h2 : h.getData (L g) = .ok (D g) := by rw [getData_eq_ok, hu]; exact hDg
      simp only [h1, h2, setData, hu]
    obtain ⟨nd, hfold, hlen, hslot⟩ := ih
      { h with nodeData := (h.nodeData.set (L g) (P.reset (L g) (D g))) }
      (acc ++ [(g, P.extract (L g) (D g))])
      (by
        intro g' hg'
        obtain ⟨a1, a2, a3⟩ := hG g' (List.mem_cons_of_mem _ hg')
        refine ⟨a1, a2, ?_⟩
        have hne : L g ≠ L g' := fun e => hnd.1 (by rw [e]; exact List.mem_map_of_mem _ hg')
        show (h.nodeData.set (L g) (P.reset (L g) (D g)))[L g']? = _
        rw [List.getElem?_set_ne hne]; exact a3)
      hnd.2
    refine ⟨nd, ?_, by simpa using hlen, ?_⟩
    · rw [List.foldlM_cons, hstep]
      simp only [bind, Except.bind]
      rw [hfold]
      simp
    · intro l
      rw [hslot l]
      show (if l ∈ gs.map L then
          ((h.nodeData.set (L g) (P.reset (L g) (D g)))[l]?).map (P.reset l)
        else (h.nodeData.set (L g) (P.reset (L g) (D g)))[l]?) = _
      by_cases hl : l = L g
      · subst hl
        rw [if_neg hnd.1, List.getElem?_set_self hlt, if_pos (by simp), hDg]
        rfl
      · have hne : L g ≠ l := fun e => hl e.symm
        rw [List.getElem?_set_ne hne]
        by_cases hm : l ∈ gs.map L
        · rw [if_pos hm, if_pos (by simp [hm])]
        · rw [if_neg hm, if_neg (by simp [hm, hl])]

end vGraph

namespace vGraph

variable {α β : Type}

/-- The send loop of `sync_push` over the destinations `ds`, when the slots
of all the GIDs to send are pairwise distinct: the messages are those of
`pushTo` with the values the slots held before the loop, and exactly the
slots of the GIDs sent are reset. -/
theorem foldlM_pushStep (P : PushFn α β) (x : Nat) (S : Nat → List Nat) (L : Nat → Nat)
    (D : Nat → α) (ds : List Nat) (h : vGraph α) (acc : List (Nat × Message β))
    (hid : h.id = x)
    (hS : ∀ d ∈ ds, h.slaveNodes[d]? = some (S d))
    (hG : ∀ d ∈ ds, d ≠ x → ∀ g ∈ S d, h.GlobalToLocalMap g = some (L g) ∧ L g < 2 ^ 32 ∧
      h.nodeData[L g]? = some (D g))
    (hnd : (((ds.filter (fun d => d ≠ x)).flatMap S).map L).Nodup) :
    ∃ nd, ds.foldlM (pushStep P) (h, acc)
        = .ok ({ h with nodeData := nd },
            acc ++ ds.flatMap (fun d => pushTo P x d (S d) L D)) ∧
      nd.length = h.nodeData.length ∧
      ∀ l, nd[l]? = if l ∈ ((ds.filter (fun d => d ≠ x)).flatMap S).map L
        then (h.nodeData[l]?).map (P.reset l) else h.nodeData[l]? := by
  induction ds generalizing h acc with
  | nil => exact ⟨h.nodeData, by simp [pure, Except.pure], rfl, fun l => by simp⟩
  | cons d ds ih =>
    have hSd := hS d (List.mem_cons_self _ _)
    have hS' : ∀ d' ∈ ds, h.slaveNodes[d']? = some (S d') :=
      fun d' hd' => hS d' (List.mem_cons_of_mem _ hd')
    have hG' : ∀ d' ∈ ds, d' ≠ x → ∀ g ∈ S d', h.GlobalToLocalMap g = some (L g) ∧
        L g < 2 ^ 32 ∧ h.nodeData[L g]? = some (D g) :=
      fun d' hd' => hG d' (List.mem_cons_of_mem _ hd')
    by_cases hdx : d = x
    · have hf : (d :: ds).filter (fun d => d ≠ x) = ds.filter (fun d => d ≠ x) := by
        simp [List.filter_cons, hdx]
      rw [hf] at hnd ⊢
      have hstep : pushStep P (h, acc) d = .ok (h, acc) := by
        unfold pushStep
        dsimp only
        rw [hSd]
        simp only [hid, hdx, true_or, ↓reduceIte]
      obtain ⟨nd, hfold, hlen, hslot⟩ := ih h acc hid hS' hG' hnd
      refine ⟨nd, ?_, hlen, hslot⟩
      rw [List.foldlM_cons, hstep]
      simp only [bind, Except.bind]
      rw [hfold]
      simp [pushTo, hdx]
    · have hf : (d :: ds).filter (fun d => d ≠ x) = d :: ds.filter (fun d => d ≠ x) := by
        simp [List.filter_cons, hdx]
      rw [hf] at hnd ⊢
      simp only [List.flatMap_cons, List.map_append] at hnd ⊢
      have hnd1 := (List.nodup_append.1 hnd).1
      have hnd2 := (List.nodup_append.1 hnd).2.1
      have hdisj := (List.nodup_append.1 hnd).2.2
      by_cases hlen0 : (S d).length = 0
      · have hstep : pushStep P (h, acc) d = .ok (h, acc) := by
          unfold pushStep
          simp only [hSd, hlen0, or_true, ↓reduceIte]
        have hnil : S d = [] := List.length_eq_zero.1 hlen0
        obtain ⟨nd, hfold, hlen, hslot⟩ := ih h acc hid hS' hG' hnd2
        refine ⟨nd, ?_, hlen, ?_⟩
        · rw [List.foldlM_cons, hstep]
          simp only [bind, Except.bind]
          rw [hfold]
          simp [pushTo, hnil]
        · intro l
          rw [hslot l, hnil]
          simp
      · obtain ⟨nd1, hin, hlen1, hslot1⟩ := foldlM_pushEntry P L D (S d) h []
          (hG d (List.mem_cons_self _ _) hdx) hnd1
        have hstep : pushStep P (h, acc) d = .ok ({ h with nodeData := nd1 },
            acc ++ pushTo P x d (S d) L D) := by
          unfold pushStep
          simp only [hSd, hid]
          rw [if_neg (by simp [hdx, hlen0]), hin]
          simp [pushTo, hdx, hlen0, hid]
        obtain ⟨nd, hfold, hlen, hslot⟩ := ih { h with nodeData := nd1 }
          (acc ++ pushTo P x d (S d) L D) hid hS'
          (by
            intro d' hd' hd'x g hg
            obtain ⟨a1, a2, a3⟩ := hG' d' hd' hd'x g hg
            refine ⟨a1, a2, ?_⟩
            show nd1[L g]? = _
            rw [hslot1 (L g), if_neg, a3]
            intro hc
            refine hdisj hc ?_
            refine List.mem_map_of_mem _ (List.mem_flatMap.2 ⟨d', ?_, hg⟩)
            simp [List.mem_filter, hd', hd'x])
          hnd2
        refine ⟨nd, ?_, by rw [hlen]; exact hlen1, ?_⟩
        · rw [List.foldlM_cons, hstep]
          simp only [bind, Except.bind]
          rw [hfold]
          simp
        · intro l
          rw [hslot l]
          show (if l ∈ ((ds.filter (fun d => d ≠ x)).flatMap S).map L
            then (nd1[l]?).map (P.reset l) else nd1[l]?) = _
          rw [hslot1 l]
          by_cases h1 : l ∈ (S d).map L
          · have h2 : l ∉ ((ds.filter (fun d => d ≠ x)).flatMap S).map L :=
              fun hc => hdisj h1 hc
            rw [if_neg h2, if_pos h1, if_pos (List.mem_append_left _ h1)]
          · rw [if_neg h1]
            by_cases h2 : l ∈ ((ds.filter (fun d => d ≠ x)).flatMap S).map L
            · rw [if_pos h2, if_pos (List.mem_append_right _ h2)]
            · rw [if_neg h2, if_neg (by simp only [List.mem_append, h1, h2, or_self,
                not_false_eq_true])]

end vGraph

/-- With pairwise distinct local ids, the slots of the GIDs that a host sends
in one push are pairwise distinct. -/
theorem pushSlots_nodup (records : List NodeInfo) (L : Nat → Nat) (ds : List Nat)
    (hds : ds.Nodup) (hl : (records.map (·.local_id)).Nodup)
    (hL : ∀ r ∈ records, L r.global_id = r.local_id) :
    ((ds.flatMap (slaveSetOf records)).map L).Nodup := by
  have hmap : ∀ d, (slaveSetOf records d).map L
      = (records.filter (fun r => r.owner_id = d)).map (·.local_id) := by
    intro d
    unfold slaveSetOf
    rw [List.map_map]
    apply List.map_congr_left
    intro r hr
    exact hL r (List.mem_filter.1 hr).1
  rw [List.map_flatMap, List.nodup_flatMap]
  constructor
  · intro d _
    rw [hmap d]
    exact List.Nodup.sublist (List.Sublist.map _ (List.filter_sublist _)) hl
  · refine List.Pairwise.imp ?_ hds
    intro d1 d2 hne l h1 h2
    simp only [hmap] at h1 h2
    obtain ⟨r1, hr1, e1⟩ := List.mem_map.1 h1
    obtain ⟨r2, hr2, e2⟩ := List.mem_map.1 h2
    have hr1' := List.mem_filter.1 hr1
    have hr2' := List.mem_filter.1 hr2
    have := List.inj_on_of_nodup_map hl hr1'.1 hr2'.1 (by rw [e1, e2])
    subst this
    have o1 : r1.owner_id = d1 := by simpa using hr1'.2
    have o2 : r1.owner_id = d2 := by simpa using hr2'.2
    exact hne (o1.symm.trans o2)

namespace vGraph

variable {α β : Type}

/-- `sync_push` on a loaded host whose records have pairwise distinct global
ids and pairwise distinct local ids inside the payload array: the messages
are those of `pushTo` with the values held before, the slot of every replica
is reset and the slot of every master is untouched. -/
theorem sync_push_loaded (P : PushFn α β) (x n : Nat) (records : List NodeInfo)
    (nodes : List α) (h : vGraph α) (hok : loaded x n records nodes = .ok h)
    (hg : (records.map (·.global_id)).Nodup) (hl : (records.map (·.local_id)).Nodup)
    (hlt : ∀ r ∈ records, r.local_id < nodes.length) (hlen : nodes.length < 2 ^ 32)
    (L : Nat → Nat) (D : Nat → α)
    (hL : ∀ r ∈ records, L r.global_id = r.local_id)
    (hD : ∀ r ∈ records, nodes[r.local_id]? = some (D r.global_id)) :
    ∃ nd, sync_push P ⟨x, n⟩ h
        = .ok ({ h with nodeData := nd },
            (List.range n).flatMap (fun d => pushTo P x d (slaveSetOf records d) L D)) ∧
      nd.length = nodes.length ∧
      ∀ r ∈ records, nd[r.local_id]?
        = if r.owner_id ≠ x then (nodes[r.local_id]?).map (P.reset r.local_id)
          else nodes[r.local_id]? := by
  have ho := owner_lt_of_loaded x n records nodes h hok
  obtain ⟨hid, hnodes, -, -, hs, hG2L, -, -⟩ := loaded_fields x n records nodes h hok
  have hres : ∀ d ∈ List.range n, d ≠ x → ∀ g ∈ slaveSetOf records d,
      h.GlobalToLocalMap g = some (L g) ∧ L g < 2 ^ 32 ∧ h.nodeData[L g]? = some (D g) := by
    intro d _ _ g hgm
    obtain ⟨r, hr, -, rfl⟩ := (mem_slaveSetOf records d g).1 hgm
    rw [hG2L, hL r hr, hnodes]
    exact ⟨assignAll_of_mem (·.global_id) (·.local_id) StdMap.empty records hg r hr,
      lt_trans (hlt r hr) hlen, hD r hr⟩
  obtain ⟨nd, hfold, hlen', hslot⟩ := foldlM_pushStep P x (slaveSetOf records) L D
    (List.range n) h [] hid (fun d hd => hs d (List.mem_range.1 hd)) hres
    (pushSlots_nodup records L _ (List.Nodup.filter _ (List.nodup_range n)) hl hL)
  refine ⟨nd, ?_, by rw [hlen', hnodes], ?_⟩
  · unfold sync_push
    simpa using hfold
  · intro r hr
    rw [hslot r.local_id, hnodes]
    refine if_congr ?_ rfl rfl
    constructor
    · intro hc hox
      obtain ⟨g, hgm, hLg⟩ := List.mem_map.1 hc
      obtain ⟨d, hd, hgd⟩ := List.mem_flatMap.1 hgm
      obtain ⟨r', hr', ho', rfl⟩ := (mem_slaveSetOf records d _).1 hgd
      have hdx : d ≠ x := by simpa using (List.mem_filter.1 hd).2
      have := List.inj_on_of_nodup_map hl hr' hr (by rw [← hL r' hr']; exact hLg)
      subst this
      exact hdx (ho'.symm.trans hox)
    · intro hox
      refine List.mem_map.2 ⟨r.global_id, List.mem_flatMap.2 ⟨r.owner_id, ?_, ?_⟩, hL r hr⟩
      · simp [List.mem_filter, hox, ho r hr]
      · exact (mem_slaveSetOf records _ _).2 ⟨r, hr, rfl, rfl⟩

end vGraph

/-! ## Push: a round of a run -/

/-- The hosts `xs` run the send loop one after the other: each host sends
what it would send alone, and only its own object changes. -/
theorem foldlM_pushSendStep {α β : Type} (P : PushFn α β) (n : Nat)
    (Q : Nat → vGraph α → Prop) (m : Nat → List (Nat × Message β)) (xs : List Nat)
    (hxs : xs.Nodup) (c : Hosts α) (acc : List (Nat × Message β))
    (hx : ∀ x ∈ xs, ∃ r, (c x).sync_push P ⟨x, n⟩ = .ok (r, m x) ∧ Q x r) :
    ∃ c1, xs.foldlM (pushSendStep P n) (c, acc) = .ok (c1, acc ++ xs.flatMap m) ∧
      ∀ y, (y ∈ xs → Q y (c1 y)) ∧ (y ∉ xs → c1 y = c y) := by
  induction xs generalizing c acc with
  | nil => exact ⟨c, by simp [pure, Except.pure], fun y => by simp⟩
  | cons x xs ih =>
    simp only [List.nodup_cons] at hxs
    obtain ⟨r, hr, hQ⟩ := hx x (List.mem_cons_self _ _)
    have hstep : pushSendStep P n (c, acc) x = .ok (Function.update c x r, acc ++ m x) := by
      unfold pushSendStep
      simp only [hr]
    obtain ⟨c1, hfold, hc1⟩ := ih hxs.2 (Function.update c x r) (acc ++ m x)
      (by
        intro y hy
        have hne : y ≠ x := fun e => hxs.1 (e ▸ hy)
        rw [Function.update_noteq hne]
        exact hx y (List.mem_cons_of_mem _ hy))
    refine ⟨c1, ?_, ?_⟩
    · rw [List.foldlM_cons, hstep]
      simp only [bind, Except.bind]
      rw [hfold]
      simp
    · intro y
      constructor
      · intro hy
        by_cases hy' : y ∈ xs
        · exact (hc1 y).1 hy'
        · have e : y = x := by
            rcases List.mem_cons.1 hy with e | e
            · exact e
            · exact absurd e hy'
          subst e
          rw [(hc1 y).2 hy', Function.update_same]
          exact hQ
      · intro hy
        have h1 : y ∉ xs := fun h => hy (List.mem_cons_of_mem _ h)
        have h2 : y ≠ x := fun e => hy (e ▸ List.mem_cons_self _ _)
        rw [(hc1 y).2 h1, Function.update_noteq h2]

theorem slotAfter_append {α β : Type} (P : PushFn α β) (G : StdMap) (l : Nat) (d : α)
    (a b : List (Nat × β)) :
    slotAfter P G l d (a ++ b) = slotAfter P G l (slotAfter P G l d a) b := by
  simp [slotAfter, List.foldl_append]

theorem entriesTo_cons {β : Type} (y : Nat) (m : Nat × Message β) (l : List (Nat × Message β)) :
    entriesTo y (m :: l) = (if m.1 = y then entriesOf m.2 else []) ++ entriesTo y l := by
  simp [entriesTo]

/-- Delivery of push messages whose entries the destination can all resolve:
every message is accepted, only payload arrays change, and every slot of
every host holds what `slotAfter` says for the entries delivered to that
host. -/
theorem foldlM_recvPush {α β : Type} (P : PushFn α β) (n : Nat)
    (l : List (Nat × Message β)) (c : Hosts α)
    (hl : ∀ m ∈ l, m.1 < n ∧ ∃ num es, m.2 = Message.pushApply num es ∧ num ≤ es.length ∧
      ∀ e ∈ es.take num, ∃ s, (c m.1).GlobalToLocalMap e.1 = some s ∧
        u32 s < (c m.1).nodeData.length) :
    ∃ c', l.foldlM (recvPush P n) c = .ok c' ∧
      ∀ y, (c' y).GlobalToLocalMap = (c y).GlobalToLocalMap ∧
        (c' y).nodeData.length = (c y).nodeData.length ∧
        ∀ s, (c' y).nodeData[s]? = ((c y).nodeData[s]?).map
          (fun d => slotAfter P (c y).GlobalToLocalMap s d (entriesTo y l)) := by
  induction l generalizing c with
  | nil =>
    refine ⟨c, rfl, fun y => ⟨rfl, rfl, fun s => ?_⟩⟩
    simp [entriesTo, slotAfter]
  | cons m l ih =>
    obtain ⟨A, msg⟩ := m
    obtain ⟨hA, num, es, hmsg, hnum, hres⟩ := hl (A, msg) (List.mem_cons_self _ _)
    simp only at hA hmsg hres
    subst hmsg
    obtain ⟨nd, hred, hlen, hslot⟩ :=
      vGraph.foldl_reduceStep_resolved P (es.take num) (c A) hres
    have hrecv : (c A).syncRecvApply P num es = .ok { c A with nodeData := nd } := by
      apply vGraph.toOption_eq_some
      unfold vGraph.syncRecvApply
      rw [vGraph.syncRecvApplyLoop_toOption, if_pos hnum, hred]
    have hstep : recvPush P n c (A, Message.pushApply num es)
        = .ok (Function.update c A { c A with nodeData := nd }) := by
      unfold recvPush
      simp only [hA, not_true_eq_false, ↓reduceIte, hrecv]
    obtain ⟨c', hfold, hc'⟩ := ih (Function.update c A { c A with nodeData := nd })
      (by
        intro m' hm'
        obtain ⟨h1, num', es', h2, h3, h4⟩ := hl m' (List.mem_cons_of_mem _ hm')
        refine ⟨h1, num', es', h2, h3, ?_⟩
        by_cases e : m'.1 = A
        · rw [e, Function.update_same]
          rw [e] at h4
          intro e' he'
          obtain ⟨s, hs1, hs2⟩ := h4 e' he'
          exact ⟨s, hs1, by rw [hlen]; exact hs2⟩
        · rw [Function.update_noteq e]; exact h4)
    refine ⟨c', ?_, ?_⟩
    · rw [List.foldlM_cons, hstep]; exact hfold
    · intro y
      obtain ⟨g1, g2, g3⟩ := hc' y
      by_cases e : y = A
      · subst e
        rw [Function.update_same] at g1 g2 g3
        refine ⟨g1, by rw [g2]; exact hlen, fun s => ?_⟩
        rw [g3 s, entriesTo_cons]
        simp only [↓reduceIte, entriesOf]
        show (nd[s]?).map _ = _
        rw [hslot s, Option.map_map]
        congr 1
        funext d
        simp only [Function.comp, slotAfter_append]
      · rw [Function.update_noteq e] at g1 g2 g3
        refine ⟨g1, g2, fun s => ?_⟩
        rw [g3 s, entriesTo_cons]
        have : ¬ A = y := fun h => e h.symm
        simp only [this, ↓reduceIte, List.nil_append]

/-! ## Push: sums of the values delivered -/

theorem slotAfter_of_no_match {α β : Type} (P : PushFn α β) (G : StdMap) (l : Nat) (d : α)
    (es : List (Nat × β)) (hne : ∀ e ∈ es, (G e.1).map u32 ≠ some l) :
    slotAfter P G l d es = d := by
  induction es generalizing d with
  | nil => rfl
  | cons e es ih =>
    simp only [slotAfter, List.foldl_cons, hne e (List.mem_cons_self _ _), ↓reduceIte]
    exact ih d (fun e' he' => hne e' (List.mem_cons_of_mem _ he'))

theorem gidSum_cons {R : Type} [AddCommMonoid R] (g : Nat) (e : Nat × R) (es : List (Nat × R)) :
    gidSum g (e :: es) = (if e.1 = g then e.2 else 0) + gidSum g es := by
  unfold gidSum
  by_cases h : e.1 = g
  · simp [List.filter_cons, h]
  · simp [List.filter_cons, h]

theorem gidSum_append {R : Type} [AddCommMonoid R] (g : Nat) (a b : List (Nat × R)) :
    gidSum g (a ++ b) = gidSum g a + gidSum g b := by
  simp [gidSum, List.filter_append]

theorem gidSum_flatMap {R ι : Type} [AddCommMonoid R] (g : Nat) (l : List ι)
    (F : ι → List (Nat × R)) :
    gidSum g (l.flatMap F) = (l.map (fun a => gidSum g (F a))).sum := by
  induction l with
  | nil => simp [gidSum]
  | cons a l ih => simp [List.flatMap_cons, gidSum_append, ih]

theorem gidSum_perm {R : Type} [AddCommMonoid R] (g : Nat) (a b : List (Nat × R))
    (h : a.Perm b) : gidSum g a = gidSum g b :=
  List.Perm.sum_eq (List.Perm.map _ (List.Perm.filter _ h))

/-- The sum for `g` over one entry per GID of a list without repetitions is
the value of the entry of `g`, if there is one. -/
theorem gidSum_tagged {R : Type} [AddCommMonoid R] (g : Nat) (s : List Nat) (v : Nat → R)
    (hs : s.Nodup) :
    gidSum g (s.map (fun a => (a, v a))) = if g ∈ s then v g else 0 := by
  induction s with
  | nil => simp [gidSum]
  | cons a s ih =>
    simp only [List.nodup_cons] at hs
    rw [List.map_cons, gidSum_cons, ih hs.2]
    by_cases h : a = g
    · subst h
      simp [hs.1]
    · have h' : ¬ g = a := fun e => h e.symm
      simp [h, h']

theorem sum_map_single {R : Type} [AddCommMonoid R] (l : List Nat) (a : Nat) (f : Nat → R)
    (hl : l.Nodup) (ha : a ∈ l) (h0 : ∀ x ∈ l, x ≠ a → f x = 0) : (l.map f).sum = f a := by
  induction l with
  | nil => simp at ha
  | cons x l ih =>
    simp only [List.nodup_cons] at hl
    have hz : ∀ l : List Nat, (∀ y ∈ l, f y = 0) → (l.map f).sum = 0 := by
      intro l
      induction l with
      | nil => intro _; rfl
      | cons y l ih2 =>
        intro hy
        simp [hy y (List.mem_cons_self _ _), ih2 (fun z hz => hy z (List.mem_cons_of_mem _ hz))]
    rw [List.map_cons, List.sum_cons]
    rcases List.mem_cons.1 ha with e | e
    · subst e
      rw [hz l (fun y hy => h0 y (List.mem_cons_of_mem _ hy) (fun e => hl.1 (e ▸ hy))), add_zero]
    · rw [ih hl.2 e (fun y hy => h0 y (List.mem_cons_of_mem _ hy)),
        h0 x (List.mem_cons_self _ _) (fun e' => hl.1 (e' ▸ e)), zero_add]

/-- The sum over `l` of a function that vanishes outside the members of `s`
is the sum over `s`. -/
theorem sum_map_support {R : Type} [AddCommMonoid R] (l s : List Nat) (f : Nat → R)
    (hl : l.Nodup) (hs : s.Nodup) (hsub : ∀ x ∈ s, x ∈ l) (h0 : ∀ x ∈ l, x ∉ s → f x = 0) :
    (l.map f).sum = (s.map f).sum := by
  have hfil : ∀ l : List Nat, (∀ x ∈ l, x ∉ s → f x = 0) →
      (l.map f).sum = ((l.filter (fun x => decide (x ∈ s))).map f).sum := by
    intro l
    induction l with
    | nil => intro _; rfl
    | cons x l ih =>
      intro h
      have ih' := ih (fun y hy => h y (List.mem_cons_of_mem _ hy))
      by_cases hx : x ∈ s
      · simp [List.filter_cons, hx, ih']
      · simp [List.filter_cons, hx, ih', h x (List.mem_cons_self _ _) hx]
  rw [hfil l h0]
  apply List.Perm.sum_eq
  apply List.Perm.map
  rw [List.perm_ext_iff_of_nodup (List.Nodup.filter _ hl) hs]
  intro a
  simp only [List.mem_filter, decide_eq_true_eq]
  exact ⟨fun h => h.2, fun h => ⟨hsub a h, h⟩⟩

theorem slotAfter_residual {R : Type} [AddCommMonoid R] (G : StdMap) (l g : Nat)
    (d : PR_NodeData R) (es : List (Nat × R))
    (hiff : ∀ e ∈ es, ((G e.1).map u32 = some l ↔ e.1 = g)) :
    (slotAfter (Syncer_0 R) G l d es).residual = d.residual + gidSum g es := by
  induction es generalizing d with
  | nil => simp [slotAfter, gidSum]
  | cons e es ih =>
    have ih' := fun d => ih d (fun e' he' => hiff e' (List.mem_cons_of_mem _ he'))
    have hslot : slotAfter (Syncer_0 R) G l d (e :: es)
        = slotAfter (Syncer_0 R) G l
            (if (G e.1).map u32 = some l then (Syncer_0 R).reduce l d e.2 else d) es := rfl
    rw [hslot, ih', gidSum_cons]
    by_cases h : e.1 = g
    · rw [if_pos ((hiff e (List.mem_cons_self _ _)).2 h), if_pos h]
      simp only [Syncer_0, add_assoc]
    · rw [if_neg (fun hc => h ((hiff e (List.mem_cons_self _ _)).1 hc)), if_neg h, zero_add]

theorem entriesTo_flatMap {β ι : Type} (y : Nat) (l : List ι)
    (F : ι → List (Nat × Message β)) :
    entriesTo y (l.flatMap F) = l.flatMap (fun a => entriesTo y (F a)) := by
  unfold entriesTo
  rw [List.flatMap_assoc]

theorem entriesTo_pushTo {α β : Type} (P : PushFn α β) (y x d : Nat) (s : List Nat)
    (L : Nat → Nat) (D : Nat → α) (hs : s.length < 2 ^ 32) :
    entriesTo y (pushTo P x d s L D)
      = if d = y ∧ d ≠ x then s.map (fun g => (g, P.extract (L g) (D g))) else [] := by
  have hu : u32 s.length = s.length := Nat.mod_eq_of_lt hs
  unfold pushTo entriesTo
  by_cases h1 : d = x
  · simp [h1]
  · by_cases h2 : s.length = 0
    · have : s = [] := List.length_eq_zero.1 h2
      simp [this]
    · by_cases h3 : d = y
      · subst h3
        simp [h1, h2, entriesOf, hu]
      · simp [h1, h2, h3]

theorem lidOf_of_mem (records : List NodeInfo) (hg : (records.map (·.global_id)).Nodup)
    (r : NodeInfo) (hr : r ∈ records) : lidOf records r.global_id = r.local_id := by
  unfold lidOf
  rw [assignAll_of_mem (·.global_id) (·.local_id) StdMap.empty records hg r hr]
  rfl

theorem payloadOf_of_mem {α : Type} (d0 : α) (records : List NodeInfo) (nodes : List α)
    (hg : (records.map (·.global_id)).Nodup) (r : NodeInfo) (hr : r ∈ records)
    (hlt : r.local_id < nodes.length) :
    nodes[r.local_id]? = some (payloadOf d0 records nodes r.global_id) := by
  unfold payloadOf
  rw [lidOf_of_mem records hg r hr, List.getElem?_eq_getElem hlt]
  rfl

/-- A Slave Set of a host with well-formed records has fewer than `2^32`
members. -/
theorem slaveSetOf_length_lt (n : Nat) (records : Nat → List NodeInfo) (len : Nat → Nat)
    (hwf : WellFormedRun n records len) (x d : Nat) (hx : x < n) :
    (slaveSetOf (records x) d).length < 2 ^ 32 :=
  lt_of_le_of_lt
    (le_trans (slaveSetOf_length_le (records x) d)
      (length_le_of_lid_nodup (records x) (len x) (hwf.lid_nodup x hx) (hwf.lid_lt x hx)))
    (hwf.len_lt x hx)

/-- Every message of a push round goes from a host `x` to another host `d`
and carries one entry per member of the Slave Set of `x` for `d`. -/
theorem mem_roundMessages {α β : Type} (P : PushFn α β) (d0 : α) (n : Nat)
    (records : Nat → List NodeInfo) (nodes : Nat → List α) (m : Nat × Message β)
    (hm : m ∈ roundMessages P d0 n records nodes) :
    ∃ x d, x < n ∧ d < n ∧ d ≠ x ∧
      m = (d, Message.pushApply (u32 (slaveSetOf (records x) d).length)
        ((slaveSetOf (records x) d).map (fun g => (g, P.extract (lidOf (records x) g)
          (payloadOf d0 (records x) (nodes x) g))))) := by
  unfold roundMessages at hm
  obtain ⟨x, hx, hm1⟩ := List.mem_flatMap.1 hm
  obtain ⟨d, hd, hm2⟩ := List.mem_flatMap.1 hm1
  unfold pushTo at hm2
  by_cases hc : d = x ∨ (slaveSetOf (records x) d).length = 0
  · rw [if_pos hc] at hm2
    exact absurd hm2 (by simp)
  · rw [if_neg hc] at hm2
    refine ⟨x, d, List.mem_range.1 hx, List.mem_range.1 hd, fun e => hc (Or.inl e), ?_⟩
    exact List.mem_singleton.1 hm2

/-- The entries delivered to host `y` in a push round, in the order of the
senders. -/
theorem entriesTo_roundMessages {α β : Type} (P : PushFn α β) (d0 : α) (n : Nat)
    (records : Nat → List NodeInfo) (nodes : Nat → List α)
    (hwf : WellFormedRun n records (fun x => (nodes x).length)) (y : Nat) (hy : y < n) :
    (entriesTo y (roundMessages P d0 n records nodes : List (Nat × Message β))).Perm
      ((List.range n).flatMap (fun x => if x ≠ y then
        (slaveSetOf (records x) y).map (fun g => (g, P.extract (lidOf (records x) g)
          (payloadOf d0 (records x) (nodes x) g))) else [])) := by
  unfold roundMessages
  rw [entriesTo_flatMap]
  apply List.Perm.flatMap_left
  intro x hx
  have hx' : x < n := List.mem_range.1 hx
  rw [entriesTo_flatMap]
  have hfun : ∀ d ∈ List.range n,
      entriesTo y (pushTo P x d (slaveSetOf (records x) d) (lidOf (records x))
        (payloadOf d0 (records x) (nodes x)))
      = if d = y then (if x ≠ y then
          (slaveSetOf (records x) y).map (fun g => (g, P.extract (lidOf (records x) g)
            (payloadOf d0 (records x) (nodes x) g))) else []) else [] := by
    intro d _
    rw [entriesTo_pushTo P y x d _ _ _ (slaveSetOf_length_lt n records _ hwf x d hx')]
    by_cases h1 : d = y
    · subst h1
      by_cases h2 : d = x
      · subst h2; simp
      · have h3 : ¬ x = d := fun e => h2 e.symm
        simp [h2, h3]
    · simp [h1]
  rw [List.flatMap_congr hfun]
  have hsplit : ∀ (l : List Nat) (E : List (Nat × β)), l.Nodup → y ∈ l →
      (l.flatMap (fun d => if d = y then E else [])) = E := by
    intro l E
    induction l with
    | nil => intro _ h; simp at h
    | cons a l ih =>
      intro hl hmem
      simp only [List.nodup_cons] at hl
      have hz : ∀ l : List Nat, y ∉ l → (l.flatMap (fun d => if d = y then E else [])) = [] := by
        intro l
        induction l with
        | nil => intro _; rfl
        | cons b l ih2 =>
          intro hb
          have h1 : ¬ b = y := fun e => hb (e ▸ List.mem_cons_self _ _)
          simp [List.flatMap_cons, h1, ih2 (fun h => hb (List.mem_cons_of_mem _ h))]
      rcases List.mem_cons.1 hmem with e | e
      · subst e
        simp [List.flatMap_cons, hz l hl.1]
      · have h1 : ¬ a = y := fun e' => hl.1 (e' ▸ e)
        simp [List.flatMap_cons, h1, ih hl.2 e]
  rw [hsplit (List.range n) _ (List.nodup_range n) (List.mem_range.2 hy)]

/-- One push round of loaded hosts with well-formed records: every host
sends the messages of `roundMessages`; in whatever order they are
delivered, every message is accepted, the identity tables are unchanged, and
the slot of every record holds its content from before the round, reset if
the record is a replica, with the entries delivered to the host reduced into
it by `slotAfter`. -/
theorem push_round {α β : Type} (P : PushFn α β) (d0 : α) (n : Nat)
    (records : Nat → List NodeInfo) (nodes : Nat → List α) (c : Hosts α)
    (hload : ∀ x, x < n → vGraph.loaded x n (records x) (nodes x) = .ok (c x))
    (hwf : WellFormedRun n records (fun x => (nodes x).length)) :
    ∃ c1, pushSends P n c = .ok (c1, roundMessages P d0 n records nodes) ∧
      ∀ order : List (Nat × Message β), order.Perm (roundMessages P d0 n records nodes) →
        ∃ c', order.foldlM (recvPush P n) c1 = .ok c' ∧
          ∀ y, y < n → (c' y).GlobalToLocalMap = (c y).GlobalToLocalMap ∧
            ∀ r ∈ records y, (c' y).nodeData[r.local_id]?
              = some (slotAfter P (c y).GlobalToLocalMap r.local_id
                  (if r.owner_id ≠ y
                    then P.reset r.local_id (payloadOf d0 (records y) (nodes y) r.global_id)
                    else payloadOf d0 (records y) (nodes y) r.global_id)
                  (entriesTo y order)) := by
  have hsend := foldlM_pushSendStep P n
    (fun x r => r.GlobalToLocalMap = (c x).GlobalToLocalMap ∧
      r.nodeData.length = (nodes x).length ∧
      ∀ rec ∈ records x, r.nodeData[rec.local_id]?
        = if rec.owner_id ≠ x then ((nodes x)[rec.local_id]?).map (P.reset rec.local_id)
          else (nodes x)[rec.local_id]?)
    (fun x => (List.range n).flatMap (fun d =>
      pushTo P x d (slaveSetOf (records x) d) (lidOf (records x))
        (payloadOf d0 (records x) (nodes x))))
    (List.range n) (List.nodup_range n) c []
    (by
      intro x hx
      have hx' : x < n := List.mem_range.1 hx
      obtain ⟨nd, h1, h2, h3⟩ := vGraph.sync_push_loaded P x n (records x) (nodes x) (c x)
        (hload x hx') (hwf.gid_nodup x hx') (hwf.lid_nodup x hx') (hwf.lid_lt x hx')
        (hwf.len_lt x hx') (lidOf (records x)) (payloadOf d0 (records x) (nodes x))
        (lidOf_of_mem (records x) (hwf.gid_nodup x hx'))
        (fun r hr => payloadOf_of_mem d0 (records x) (nodes x) (hwf.gid_nodup x hx') r hr
          (hwf.lid_lt x hx' r hr))
      exact ⟨_, h1, rfl, h2, h3⟩)
  obtain ⟨c1, hc1, hQ⟩ := hsend
  refine ⟨c1, ?_, ?_⟩
  · unfold pushSends roundMessages
    simpa using hc1
  · intro order hperm
    have hG : ∀ y, y < n → (c1 y).GlobalToLocalMap
        = assignAll (·.global_id) (·.local_id) StdMap.empty (records y) := by
      intro y hy
      rw [((hQ y).1 (List.mem_range.2 hy)).1]
      exact (vGraph.loaded_fields y n (records y) (nodes y) (c y) (hload y hy)).2.2.2.2.2.1
    obtain ⟨c', hfold, hc'⟩ := foldlM_recvPush P n order c1
      (by
        intro m hm
        obtain ⟨x, d, hx, hd, hdx, rfl⟩ :=
          mem_roundMessages P d0 n records nodes m (hperm.subset hm)
        refine ⟨hd, _, _, rfl, ?_, ?_⟩
        · rw [List.length_map]; exact Nat.mod_le _ _
        · intro e he
          have he' := List.mem_of_mem_take he
          obtain ⟨g, hg, rfl⟩ := List.mem_map.1 he'
          obtain ⟨r, hr, hro, rfl⟩ := (mem_slaveSetOf (records x) d g).1 hg
          obtain ⟨r', hr', hg', -⟩ := hwf.owner_holds x hx r hr (by rw [hro]; exact hdx)
          rw [hro] at hr'
          refine ⟨r'.local_id, ?_, ?_⟩
          · show (c1 d).GlobalToLocalMap r.global_id = _
            rw [hG d hd, ← hg']
            exact assignAll_of_mem (·.global_id) (·.local_id) StdMap.empty (records d)
              (hwf.gid_nodup d hd) r' hr'
          · show u32 r'.local_id < (c1 d).nodeData.length
            rw [((hQ d).1 (List.mem_range.2 hd)).2.1]
            exact lt_of_le_of_lt (Nat.mod_le _ _) (hwf.lid_lt d hd r' hr'))
    refine ⟨c', hfold, ?_⟩
    intro y hy
    obtain ⟨g1, -, g3⟩ := hc' y
    obtain ⟨q1, -, q3⟩ := (hQ y).1 (List.mem_range.2 hy)
    refine ⟨g1.trans q1, ?_⟩
    intro r hr
    rw [g3 r.local_id, q3 r hr, q1,
      payloadOf_of_mem d0 (records y) (nodes y) (hwf.gid_nodup y hy) r hr (hwf.lid_lt y hy r hr)]
    by_cases ho : r.owner_id = y
    · simp [ho]
    · simp [ho]

theorem residualOf_eq {R : Type} (h : vGraph (PR_NodeData R)) (g l : Nat) (d : PR_NodeData R)
    (hG : h.GlobalToLocalMap g = some l) (hl : l < 2 ^ 32) (hd : h.nodeData[l]? = some d) :
    residualOf h g = some d.residual := by
  have hu : u32 l = l := Nat.mod_eq_of_lt hl
  unfold residualOf vGraph.getLID vGraph.G2L StdMap.atKey vGraph.getData
  simp [hG, Except.map, hu, hd]

/-- The residual that a loaded host holds for the GID of one of its
records. -/
theorem residualOf_loaded {R : Type} (d0 : PR_NodeData R) (x n : Nat) (records : List NodeInfo)
    (nodes : List (PR_NodeData R)) (h : vGraph (PR_NodeData R))
    (hok : vGraph.loaded x n records nodes = .ok h)
    (hg : (records.map (·.global_id)).Nodup) (hlen : nodes.length < 2 ^ 32)
    (r : NodeInfo) (hr : r ∈ records) (hlt : r.local_id < nodes.length) :
    residualOf h r.global_id = some (payloadOf d0 records nodes r.global_id).residual := by
  obtain ⟨-, hnodes, -, -, -, hG2L, -, -⟩ := vGraph.loaded_fields x n records nodes h hok
  apply residualOf_eq h r.global_id r.local_id
  · rw [hG2L]
    exact assignAll_of_mem (·.global_id) (·.local_id) StdMap.empty records hg r hr
  · exact lt_trans hlt hlen
  · rw [hnodes]
    exact payloadOf_of_mem d0 records nodes hg r hr hlt

/-- Every entry delivered to host `y` in a push round is for a GID that `y`
holds as its master, and `y` resolves it to the local id of that record. -/
theorem entry_resolved {α β : Type} (P : PushFn α β) (d0 : α) (n : Nat)
    (records : Nat → List NodeInfo) (nodes : Nat → List α) (c : Hosts α)
    (hload : ∀ x, x < n → vGraph.loaded x n (records x) (nodes x) = .ok (c x))
    (hwf : WellFormedRun n records (fun x => (nodes x).length))
    (order : List (Nat × Message β)) (hperm : order.Perm (roundMessages P d0 n records nodes))
    (y : Nat) (hy : y < n) (e : Nat × β) (he : e ∈ entriesTo y order) :
    ∃ r ∈ records y, r.global_id = e.1 ∧ r.owner_id = y ∧
      ((c y).GlobalToLocalMap e.1).map u32 = some r.local_id := by
  have h1 : e ∈ entriesTo y (roundMessages P d0 n records nodes : List (Nat × Message β)) :=
    (List.Perm.flatMap_right _ hperm).subset he
  have h2 := (entriesTo_roundMessages P d0 n records nodes hwf y hy).subset h1
  obtain ⟨x, hx, h3⟩ := List.mem_flatMap.1 h2
  have hx' : x < n := List.mem_range.1 hx
  by_cases hxy : x = y
  · simp [hxy] at h3
  · rw [if_pos hxy] at h3
    obtain ⟨g, hg, rfl⟩ := List.mem_map.1 h3
    obtain ⟨r, hr, hro, rfl⟩ := (mem_slaveSetOf (records x) y g).1 hg
    obtain ⟨r', hr', hg', ho'⟩ := hwf.owner_holds x hx' r hr (by rw [hro]; exact fun e => hxy e.symm)
    rw [hro] at hr' ho'
    refine ⟨r', hr', hg', ho', ?_⟩
    show ((c y).GlobalToLocalMap r.global_id).map u32 = _
    rw [(vGraph.loaded_fields y n (records y) (nodes y) (c y) (hload y hy)).2.2.2.2.2.1, ← hg',
      assignAll_of_mem (·.global_id) (·.local_id) StdMap.empty (records y)
        (hwf.gid_nodup y hy) r' hr']
    show some (u32 r'.local_id) = _
    rw [u32, Nat.mod_eq_of_lt (lt_trans (hwf.lid_lt y hy r' hr') (hwf.len_lt y hy))]

/-- C5, as stated, fails on hosts whose records give two GIDs one local id.
Host 0 masters the GIDs 10 and 11; host 1 replicates both in its slot 0,
whose residual is 2, so its pre-push value for GID 11 is 2 and the master's
is 1.  Host 1 sends `(10, 2)`, resets the shared slot and then sends
`(11, 0)`: after the complete round the master's residual for GID 11 is
still 1, not 3. -/
theorem push_shared_slot :
    (∀ x, x < 2 → vGraph.loaded x 2 (dupRecords x) (dupNodes x) = .ok (dupHosts x)) ∧
    (⟨1, 11, 0⟩ : NodeInfo) ∈ dupRecords 0 ∧ (⟨0, 11, 0⟩ : NodeInfo) ∈ dupRecords 1 ∧
    residualOf (dupHosts 0) 11 = some 1 ∧ residualOf (dupHosts 1) 11 = some 2 ∧
    ∃ c1 msgs c', pushSends (Syncer_0 Int) 2 dupHosts = .ok (c1, msgs) ∧
      msgs = [(0, Message.pushApply 2 [(10, 2), (11, 0)])] ∧
      msgs.foldlM (recvPush (Syncer_0 Int) 2) c1 = .ok c' ∧
      residualOf (c' 0) 11 = some 1 ∧ residualOf (c' 1) 11 = some 0 := by
  refine ⟨?_, by decide, by decide, rfl, rfl, ?_⟩
  · intro x hx
    interval_cases x <;> rfl
  · exact ⟨_, _, _, rfl, rfl, rfl, rfl, rfl⟩

/-- C5 (amended). Push-sum correctness with Reduce = addition and Reset = 0
(`Syncer_0`) over a commutative monoid of exact numbers.  The hosts of a run
are loaded from ownership records that are well formed: on every host the
global ids are pairwise distinct and the local ids are pairwise distinct and
inside the payload array (shorter than `2^32`), and the owner named by the
record of a replica holds that GID as its master.  If the GID `g` is
mastered by host `M` and `Rs` lists, once each, the other hosts whose record
for `g` names `M`, then `sync_push` on every host succeeds, every message
sent is accepted by `syncRecvApply` in whatever order the messages are
delivered, and afterwards the residual of `M` for `g` is its value `vM` from
before the round plus the sum of the values `v x` the replicas held before
the round, and the residual of every replica for `g` is 0. -/
theorem push_sum_correct {R : Type} [AddCommMonoid R] (n : Nat)
    (records : Nat → List NodeInfo) (nodes : Nat → List (PR_NodeData R))
    (c : Hosts (PR_NodeData R))
    (hload : ∀ x, x < n → vGraph.loaded x n (records x) (nodes x) = .ok (c x))
    (hwf : WellFormedRun n records (fun x => (nodes x).length))
    (g M lM : Nat) (hM : M < n) (hrec : (⟨lM, g, M⟩ : NodeInfo) ∈ records M)
    (Rs : List Nat) (hRsnd : Rs.Nodup)
    (hRs : ∀ x, x ∈ Rs ↔ x < n ∧ x ≠ M ∧ ∃ l, (⟨l, g, M⟩ : NodeInfo) ∈ records x) :
    ∃ c1 msgs, pushSends (Syncer_0 R) n c = .ok (c1, msgs) ∧
      ∀ order : List (Nat × Message R), order.Perm msgs →
        ∃ c', order.foldlM (recvPush (Syncer_0 R) n) c1 = .ok c' ∧
          ∃ (vM : R) (v : Nat → R), residualOf (c M) g = some vM ∧
            (∀ x ∈ Rs, residualOf (c x) g = some (v x)) ∧
            residualOf (c' M) g = some (vM + (Rs.map v).sum) ∧
            ∀ x ∈ Rs, residualOf (c' x) g = some 0 := by
  obtain ⟨c1, hsend, hdel⟩ := push_round (Syncer_0 R) (⟨0, 0, 0⟩ : PR_NodeData R) n records
    nodes c hload hwf
  refine ⟨c1, _, hsend, fun order hperm => ?_⟩
  obtain ⟨c', hfold, hc'⟩ := hdel order hperm
  have hres := entry_resolved (Syncer_0 R) (⟨0, 0, 0⟩ : PR_NodeData R) n records nodes c hload
    hwf order hperm
  have hGof : ∀ x, x < n → ∀ r ∈ records x, (c x).GlobalToLocalMap r.global_id
      = some r.local_id := by
    intro x hx r hr
    rw [(vGraph.loaded_fields x n (records x) (nodes x) (c x) (hload x hx)).2.2.2.2.2.1]
    exact assignAll_of_mem (·.global_id) (·.local_id) StdMap.empty (records x)
      (hwf.gid_nodup x hx) r hr
  have h32 : ∀ x, x < n → ∀ r ∈ records x, r.local_id < 2 ^ 32 :=
    fun x hx r hr => lt_trans (hwf.lid_lt x hx r hr) (hwf.len_lt x hx)
  refine ⟨c', hfold, (payloadOf ⟨0, 0, 0⟩ (records M) (nodes M) g).residual,
    fun x => (payloadOf ⟨0, 0, 0⟩ (records x) (nodes x) g).residual, ?_, ?_, ?_, ?_⟩
  · exact residualOf_loaded _ M n (records M) (nodes M) (c M) (hload M hM)
      (hwf.gid_nodup M hM) (hwf.len_lt M hM) ⟨lM, g, M⟩ hrec (hwf.lid_lt M hM _ hrec)
  · intro x hx
    obtain ⟨hxn, -, l, hl⟩ := (hRs x).1 hx
    exact residualOf_loaded _ x n (records x) (nodes x) (c x) (hload x hxn)
      (hwf.gid_nodup x hxn) (hwf.len_lt x hxn) ⟨l, g, M⟩ hl (hwf.lid_lt x hxn _ hl)
  · obtain ⟨hG, hslot⟩ := hc' M hM
    have hs := hslot ⟨lM, g, M⟩ hrec
    simp only [ne_eq, not_true_eq_false, ↓reduceIte] at hs
    rw [residualOf_eq (c' M) g lM _ (by rw [hG]; exact hGof M hM _ hrec) (h32 M hM _ hrec) hs]
    have hiff : ∀ e ∈ entriesTo M order,
        (((c M).GlobalToLocalMap e.1).map u32 = some lM ↔ e.1 = g) := by
      intro e he
      obtain ⟨r, hr, hrg, -, hmap⟩ := hres M hM e he
      rw [hmap, ← hrg]
      constructor
      · intro h
        have := List.inj_on_of_nodup_map (hwf.lid_nodup M hM) hr hrec (Option.some.inj h)
        rw [this]
      · intro h
        have := List.inj_on_of_nodup_map (hwf.gid_nodup M hM) hr hrec h
        rw [this]
    rw [slotAfter_residual _ lM g _ _ hiff]
    congr 2
    have hp1 : (entriesTo M order).Perm
        (entriesTo M (roundMessages (Syncer_0 R) ⟨0, 0, 0⟩ n records nodes)) :=
      List.Perm.flatMap_right _ hperm
    rw [gidSum_perm g _ _
      (hp1.trans (entriesTo_roundMessages (Syncer_0 R) _ n records nodes hwf M hM)),
      gidSum_flatMap]
    have hval : ∀ x, x < n →
        gidSum g (if x ≠ M then (slaveSetOf (records x) M).map
            (fun a => (a, (Syncer_0 R).extract (lidOf (records x) a)
              (payloadOf ⟨0, 0, 0⟩ (records x) (nodes x) a))) else [])
          = if x ∈ Rs then (payloadOf ⟨0, 0, 0⟩ (records x) (nodes x) g).residual else 0 := by
      intro x hx
      by_cases hxM : x = M
      · have hno : x ∉ Rs := fun h => ((hRs x).1 h).2.1 hxM
        rw [if_neg (by simp [hxM]), if_neg hno]
        simp [gidSum]
      · rw [if_pos hxM,
          gidSum_tagged g _ (fun a => (Syncer_0 R).extract (lidOf (records x) a)
            (payloadOf ⟨0, 0, 0⟩ (records x) (nodes x) a))
            (slaveSetOf_nodup (records x) M (hwf.gid_nodup x hx))]
        refine if_congr ?_ rfl rfl
        rw [mem_slaveSetOf, hRs]
        constructor
        · rintro ⟨r, hr, ho, hg⟩
          refine ⟨hx, hxM, r.local_id, ?_⟩
          rw [← ho, ← hg]
          exact hr
        · rintro ⟨-, -, l, hl⟩
          exact ⟨_, hl, rfl, rfl⟩
    rw [sum_map_support (List.range n) Rs _ (List.nodup_range n) hRsnd
      (fun x hx => List.mem_range.2 ((hRs x).1 hx).1)
      (fun x hx hno => by rw [hval x (List.mem_range.1 hx), if_neg hno])]
    congr 1
    apply List.map_congr_left
    intro x hx
    rw [hval x ((hRs x).1 hx).1, if_pos hx]
  · intro x hx
    obtain ⟨hxn, hxM, l, hl⟩ := (hRs x).1 hx
    obtain ⟨hG, hslot⟩ := hc' x hxn
    have hs := hslot ⟨l, g, M⟩ hl
    have hMx : M ≠ x := fun e => hxM e.symm
    simp only [ne_eq, hMx, not_false_eq_true, ↓reduceIte] at hs
    rw [residualOf_eq (c' x) g l _ (by rw [hG]; exact hGof x hxn _ hl) (h32 x hxn _ hl) hs]
    rw [slotAfter_of_no_match]
    · rfl
    · intro e he hc
      obtain ⟨r, hr, -, hro, hmap⟩ := hres x hxn e he
      rw [hmap] at hc
      have := List.inj_on_of_nodup_map (hwf.lid_nodup x hxn) hr hl (Option.some.inj hc)
      rw [this] at hro
      exact hMx hro

/-- The ownership records of the sample run are well formed. -/
theorem sampleRecords_wf :
    WellFormedRun 3 sampleRecords (fun x => (sampleNodes x).length) where
  gid_nodup := by intro x hx; interval_cases x <;> decide
  lid_nodup := by intro x hx; interval_cases x <;> decide
  lid_lt := by intro x hx; interval_cases x <;> decide
  len_lt := by intro x hx; interval_cases x <;> simp [sampleNodes]
  owner_holds := by intro x hx; interval_cases x <;> decide

/-- C5 amended, on the sample run: GID 10 is mastered by host 0 and
replicated by hosts 1 and 2. -/
theorem push_sum_correct_witness :
    ∃ c1 msgs, pushSends (Syncer_0 Int) 3 sampleHosts = .ok (c1, msgs) ∧
      ∀ order : List (Nat × Message Int), order.Perm msgs →
        ∃ c', order.foldlM (recvPush (Syncer_0 Int) 3) c1 = .ok c' ∧
          ∃ (vM : Int) (v : Nat → Int), residualOf (sampleHosts 0) 10 = some vM ∧
            (∀ x ∈ [1, 2], residualOf (sampleHosts x) 10 = some (v x)) ∧
            residualOf (c' 0) 10 = some (vM + ([1, 2].map v).sum) ∧
            ∀ x ∈ [1, 2], residualOf (c' x) 10 = some 0 :=
  push_sum_correct 3 sampleRecords sampleNodes sampleHosts sampleHosts_loaded sampleRecords_wf
    10 0 0 (by decide) (by decide) [1, 2] (by decide)
    (by
      intro x
      constructor
      · intro hx
        simp only [List.mem_cons, List.mem_singleton, List.not_mem_nil, or_false] at hx
        rcases hx with rfl | rfl
        · exact ⟨by decide, by decide, 0, by decide⟩
        · exact ⟨by decide, by decide, 0, by decide⟩
      · rintro ⟨hx, hx0, -⟩
        interval_cases x
        · exact absurd rfl hx0
        · decide
        · decide)

/-! ## Lookups in the identity translation table -/

theorem atKey_error_iff (m : StdMap) (k : Nat) :
    m.atKey k = .error "std::out_of_range" ↔ m k = none := by
  unfold StdMap.atKey
  cases m k <;> simp

theorem atKey_ok_iff (m : StdMap) (k v : Nat) : m.atKey k = .ok v ↔ m k = some v := by
  unfold StdMap.atKey
  cases m k <;> simp

/-- A map built from records binds exactly the keys of the records. -/
theorem assignAll_eq_none_iff (key val : NodeInfo → Nat) (rs : List NodeInfo) (x : Nat) :
    assignAll key val StdMap.empty rs x = none ↔ ∀ r ∈ rs, key r ≠ x := by
  constructor
  · intro h r hr hk
    obtain ⟨r', -, -, hv⟩ := assignAll_of_mem_keys key val StdMap.empty rs x
      (List.mem_map.2 ⟨r, hr, hk⟩)
    rw [hv] at h
    exact absurd h (by simp)
  · intro h
    rw [assignAll_of_not_mem key val StdMap.empty rs x]
    · rfl
    · intro hc
      obtain ⟨r, hr, hk⟩ := List.mem_map.1 hc
      exact h r hr hk

/-- A value found in a map built from records is the value of a record with
that key. -/
theorem assignAll_eq_some (key val : NodeInfo → Nat) (rs : List NodeInfo) (x v : Nat)
    (h : assignAll key val StdMap.empty rs x = some v) : ∃ r ∈ rs, key r = x ∧ val r = v := by
  by_cases hx : x ∈ rs.map key
  · obtain ⟨r, hr, hk, hv⟩ := assignAll_of_mem_keys key val StdMap.empty rs x hx
    rw [hv] at h
    exact ⟨r, hr, hk, Option.some.inj h⟩
  · rw [assignAll_of_not_mem key val StdMap.empty rs x hx] at h
    exact absurd h (by simp [StdMap.empty])

/-- C11. Identity lookups fail loudly.  On a host whose constructor has built
the tables from the ownership records `records`, `getGID(lid)` throws
`std::out_of_range` if and only if no record has the local id `lid`, and
`getLID(gid)` throws if and only if no record has the global id `gid`; a
value that is returned is the global id (the local id, as a `uint32_t`) of a
record with that local id (global id), never a default. -/
theorem lookups_fail_loudly {α : Type} (host n : Nat) (records : List NodeInfo)
    (nodes : List α) (h : vGraph α) (hok : vGraph.loaded host n records nodes = .ok h) :
    (∀ lid, (h.getGID lid = .error "std::out_of_range" ↔ ∀ r ∈ records, r.local_id ≠ lid) ∧
      ((∃ e, h.getGID lid = .error e) ↔ ∀ r ∈ records, r.local_id ≠ lid) ∧
      ∀ g, h.getGID lid = .ok g → ∃ r ∈ records, r.local_id = lid ∧ r.global_id = g) ∧
    (∀ gid, (h.getLID gid = .error "std::out_of_range" ↔ ∀ r ∈ records, r.global_id ≠ gid) ∧
      ((∃ e, h.getLID gid = .error e) ↔ ∀ r ∈ records, r.global_id ≠ gid) ∧
      ∀ l, h.getLID gid = .ok l → ∃ r ∈ records, r.global_id = gid ∧ u32 r.local_id = l) := by
  obtain ⟨-, -, -, -, -, hG2L, hL2G, -⟩ := vGraph.loaded_fields host n records nodes h hok
  constructor
  · intro lid
    have hdef : h.getGID lid = h.LocalToGlobalMap.atKey lid := rfl
    rw [hdef, hL2G]
    refine ⟨?_, ?_, ?_⟩
    · rw [atKey_error_iff, assignAll_eq_none_iff]
    · rw [← assignAll_eq_none_iff (·.local_id) (·.global_id)]
      constructor
      · rintro ⟨e, he⟩
        unfold StdMap.atKey at he
        cases hm : assignAll (·.local_id) (·.global_id) StdMap.empty records lid with
        | none => rfl
        | some v => rw [hm] at he; exact absurd he (by simp)
      · intro hm
        exact ⟨_, (atKey_error_iff _ _).2 hm⟩
    · intro g hg
      exact assignAll_eq_some _ _ records lid g ((atKey_ok_iff _ _ _).1 hg)
  · intro gid
    have hdef : h.getLID gid = (h.GlobalToLocalMap.atKey gid).map u32 := rfl
    rw [hdef, hG2L]
    cases hm : assignAll (·.global_id) (·.local_id) StdMap.empty records gid with
    | none =>
      have hno := (assignAll_eq_none_iff (·.global_id) (·.local_id) records gid).1 hm
      have hat := (atKey_error_iff _ _).2 hm
      rw [hat]
      refine ⟨⟨fun _ => hno, fun _ => rfl⟩, ⟨fun _ => hno, fun _ => ⟨_, rfl⟩⟩, ?_⟩
      intro l hl
      exact absurd hl (by simp [Except.map])
    | some v =>
      obtain ⟨r, hr, hk, hv⟩ := assignAll_eq_some _ _ records gid v hm
      have hat := (atKey_ok_iff _ _ _).2 hm
      rw [hat]
      refine ⟨⟨fun hc => absurd hc (by simp [Except.map]), fun hc => absurd hk (hc r hr)⟩,
        ⟨fun ⟨e, he⟩ => absurd he (by simp [Except.map]), fun hc => absurd hk (hc r hr)⟩, ?_⟩
      intro l hl
      refine ⟨r, hr, hk, ?_⟩
      simp only [Except.map, Except.ok.injEq] at hl
      rw [← hl]
      exact congrArg u32 hv

/-- C11 on host 1 of the sample run: the local id 5 and the global id 99 are
not held, the local id 1 and the global id 11 are. -/
theorem lookups_fail_loudly_witness :
    (sampleHosts 1).getGID 5 = .error "std::out_of_range" ∧
    (sampleHosts 1).getLID 99 = .error "std::out_of_range" ∧
    (∃ r ∈ sampleRecords 1, r.local_id = 1 ∧ r.global_id = 11) ∧
    (∃ r ∈ sampleRecords 1, r.global_id = 11 ∧ u32 r.local_id = 1) :=
  have hw := lookups_fail_loudly 1 3 (sampleRecords 1) (sampleNodes 1) (sampleHosts 1) rfl
  ⟨((hw.1 5).1).2 (by decide), ((hw.2 99).1).2 (by decide),
    (hw.1 1).2.2 11 rfl, (hw.2 11).2.2 1 rfl⟩

/-- C12, as the code behaves.  On a host whose constructor has built the
tables, `getHostID(gid)` returns the owner of a record for `gid` when there
is one; for a `gid` that no record has, `GIDtoOwnerMap[gid]` does not fail:
`getHostID(gid)` returns the host id 0. -/
theorem getHostID_unheld_default {α : Type} (host n : Nat) (hn : n ≤ 2 ^ 32)
    (records : List NodeInfo) (nodes : List α) (h : vGraph α)
    (hok : vGraph.loaded host n records nodes = .ok h) :
    (∀ gid, (∃ r ∈ records, r.global_id = gid) →
      ∃ r ∈ records, r.global_id = gid ∧ (h.getHostID gid).1 = r.owner_id) ∧
    (∀ gid, (∀ r ∈ records, r.global_id ≠ gid) → (h.getHostID gid).1 = 0) := by
  have ho := vGraph.owner_lt_of_loaded host n records nodes h hok
  obtain ⟨-, -, -, -, -, -, -, hO⟩ := vGraph.loaded_fields host n records nodes h hok
  constructor
  · rintro gid ⟨r0, hr0, hg0⟩
    obtain ⟨r, hr, hk, hv⟩ := assignAll_of_mem_keys (·.global_id) (·.owner_id) StdMap.empty
      records gid (List.mem_map.2 ⟨r0, hr0, hg0⟩)
    refine ⟨r, hr, hk, ?_⟩
    unfold vGraph.getHostID StdMap.index
    rw [hO, hv]
    exact Nat.mod_eq_of_lt (lt_of_lt_of_le (ho r hr) hn)
  · intro gid hno
    have hm := (assignAll_eq_none_iff (·.global_id) (·.owner_id) records gid).2 hno
    unfold vGraph.getHostID StdMap.index
    rw [hO, hm]
    rfl

/-- C12 on host 1 of the sample run: GID 11 has the recorded owner 1; no
record has GID 99, and `getHostID(99)` answers host 0. -/
theorem getHostID_unheld_default_witness :
    (∃ r ∈ sampleRecords 1, r.global_id = 11 ∧ ((sampleHosts 1).getHostID 11).1 = r.owner_id) ∧
    ((sampleHosts 1).getHostID 99).1 = 0 :=
  have hw := getHostID_unheld_default 1 3 (by decide) (sampleRecords 1) (sampleNodes 1)
    (sampleHosts 1) rfl
  ⟨hw.1 11 (by decide), hw.2 99 (by decide)⟩

/-- C13, as the code behaves.  `getGID` and `getLID` only read
(`std::map::at`).  `getHostID(gid)` leaves `LocalToGlobalMap` and
`GlobalToLocalMap` alone and leaves the whole object unchanged when a record
has `gid`; for a `gid` that no record has, `GIDtoOwnerMap[gid]` inserts the
entry `gid ↦ 0`, so the map after the lookup is not the map the constructor
built. -/
theorem getHostID_inserts {α : Type} (host n : Nat) (records : List NodeInfo)
    (nodes : List α) (h : vGraph α) (hok : vGraph.loaded host n records nodes = .ok h)
    (gid : Nat) :
    (h.getHostID gid).2.LocalToGlobalMap = h.LocalToGlobalMap ∧
    (h.getHostID gid).2.GlobalToLocalMap = h.GlobalToLocalMap ∧
    ((∃ r ∈ records, r.global_id = gid) → (h.getHostID gid).2 = h) ∧
    ((∀ r ∈ records, r.global_id ≠ gid) →
      h.GIDtoOwnerMap gid = none ∧ (h.getHostID gid).2.GIDtoOwnerMap gid = some 0 ∧
      (h.getHostID gid).2.GIDtoOwnerMap ≠ h.GIDtoOwnerMap) := by
  obtain ⟨-, -, -, -, -, -, -, hO⟩ := vGraph.loaded_fields host n records nodes h hok
  refine ⟨rfl, rfl, ?_, ?_⟩
  · rintro ⟨r0, hr0, hg0⟩
    obtain ⟨r, -, -, hv⟩ := assignAll_of_mem_keys (·.global_id) (·.owner_id) StdMap.empty
      records gid (List.mem_map.2 ⟨r0, hr0, hg0⟩)
    rw [← hO] at hv
    unfold vGraph.getHostID StdMap.index
    simp only [hv]
  · intro hno
    have hm := (assignAll_eq_none_iff (·.global_id) (·.owner_id) records gid).2 hno
    rw [← hO] at hm
    have hafter : (h.getHostID gid).2.GIDtoOwnerMap gid = some 0 := by
      unfold vGraph.getHostID StdMap.index
      simp only [hm, StdMap.assign, ↓reduceIte]
    refine ⟨hm, hafter, ?_⟩
    intro hc
    rw [hc, hm] at hafter
    exact absurd hafter (by simp)

/-- C13 on host 1 of the sample run: the lookup of the unheld GID 99 adds an
entry to `GIDtoOwnerMap`, the lookup of the held GID 11 changes nothing. -/
theorem getHostID_inserts_witness :
    ((sampleHosts 1).GIDtoOwnerMap 99 = none ∧
      ((sampleHosts 1).getHostID 99).2.GIDtoOwnerMap 99 = some 0 ∧
      ((sampleHosts 1).getHostID 99).2.GIDtoOwnerMap ≠ (sampleHosts 1).GIDtoOwnerMap) ∧
    ((sampleHosts 1).getHostID 11).2 = sampleHosts 1 :=
  have hw := fun gid => getHostID_inserts 1 3 (sampleRecords 1) (sampleNodes 1)
    (sampleHosts 1) rfl gid
  ⟨(hw 99).2.2.2 (by decide), (hw 11).2.2.1 (by decide)⟩

/-! ## The send phase of `sync_push` -/

/-- C14, as stated, fails on a host whose records give two GIDs one local id.
Host 1 of the run with ill-formed records has the Slave Set `[10, 11]` for
host 0, two distinct GIDs that both translate to slot 0, whose residual
before the push is 2.  The entry sent for GID 11 carries 0, the value
extracted after the entry for GID 10 has reset the slot. -/
theorem push_entry_after_reset :
    vGraph.loaded 1 2 (dupRecords 1) (dupNodes 1) = .ok (dupHosts 1) ∧
    (dupHosts 1).slaveNodes[0]? = some [10, 11] ∧
    (dupHosts 1).getLID 11 = .ok 0 ∧ (dupHosts 1).getData 0 = .ok ⟨0, 2, 0⟩ ∧
    (Syncer_0 Int).extract 0 ⟨0, 2, 0⟩ = 2 ∧
    ∃ h', (dupHosts 1).sync_push (Syncer_0 Int) ⟨1, 2⟩
      = .ok (h', [(0, Message.pushApply 2 [(10, 2), (11, 0)])]) :=
  ⟨rfl, rfl, rfl, rfl, rfl, _, rfl⟩

/-- The messages for the destination `d0` among those of a send loop over
the destinations `ds`. -/
theorem filter_pushTo {α β : Type} (P : PushFn α β) (x : Nat) (S : Nat → List Nat)
    (L : Nat → Nat) (D : Nat → α) (ds : List Nat) (hds : ds.Nodup) (d0 : Nat) :
    (ds.flatMap (fun d => pushTo P x d (S d) L D)).filter (fun m => decide (m.1 = d0))
      = if d0 ∈ ds then pushTo P x d0 (S d0) L D else [] := by
  have hone : ∀ d, (pushTo P x d (S d) L D).filter (fun m => decide (m.1 = d0))
      = if d = d0 then pushTo P x d (S d) L D else [] := by
    intro d
    unfold pushTo
    by_cases hc : d = x ∨ (S d).length = 0
    · rw [if_pos hc]
      simp
    · rw [if_neg hc]
      by_cases hd : d = d0
      · rw [if_pos hd, List.filter_cons_of_pos (by simpa using hd), List.filter_nil]
      · rw [if_neg hd, List.filter_cons_of_neg (by simpa using hd), List.filter_nil]
  induction ds with
  | nil => simp
  | cons a ds ih =>
    simp only [List.nodup_cons] at hds
    rw [List.flatMap_cons, List.filter_append, hone a, ih hds.2]
    by_cases ha : a = d0
    · subst ha
      simp [hds.1]
    · have ha' : ¬ d0 = a := fun e => ha e.symm
      simp [ha, ha']

/-- C14 (amended). Push message content.  On a loaded host `x` whose
ownership records have pairwise distinct global ids and pairwise distinct
local ids, all inside the payload array (shorter than `2^32`), `sync_push`
succeeds; every message goes to a host below `n`; to a host `d` other than
`x` with a non-empty Slave Set `s` it sends exactly one message, whose entry
count is the length of `s` and whose entries are, in the order of `s`, the
pairs of a GID and the value `Extract` gives for the slot `getLID(gid)` as it
was before the push; it sends nothing to itself and nothing to a host whose
Slave Set is empty. -/
theorem push_message_content {α β : Type} (P : PushFn α β) (d0 : α) (x n : Nat)
    (records : List NodeInfo) (nodes : List α) (h : vGraph α)
    (hok : vGraph.loaded x n records nodes = .ok h)
    (hg : (records.map (·.global_id)).Nodup) (hl : (records.map (·.local_id)).Nodup)
    (hlt : ∀ r ∈ records, r.local_id < nodes.length) (hlen : nodes.length < 2 ^ 32) :
    ∃ h' msgs, h.sync_push P ⟨x, n⟩ = .ok (h', msgs) ∧
      (∀ m ∈ msgs, m.1 < n) ∧
      ∀ d, d < n → ∃ s, h.slaveNodes[d]? = some s ∧
        (d ≠ x → s ≠ [] →
          ∃ es, msgs.filter (fun m => decide (m.1 = d)) = [(d, Message.pushApply s.length es)] ∧
            es.map (·.1) = s ∧
            ∀ e ∈ es, ∃ l v, h.getLID e.1 = .ok l ∧ h.getData l = .ok v ∧
              e.2 = P.extract l v) ∧
        (d = x ∨ s = [] → msgs.filter (fun m => decide (m.1 = d)) = []) := by
  obtain ⟨hid, hnodes, -, -, hs, hG2L, -, -⟩ := vGraph.loaded_fields x n records nodes h hok
  obtain ⟨nd, hpush, -, -⟩ := vGraph.sync_push_loaded P x n records nodes h hok hg hl hlt hlen
    (lidOf records) (payloadOf d0 records nodes) (lidOf_of_mem records hg)
    (fun r hr => payloadOf_of_mem d0 records nodes hg r hr (hlt r hr))
  refine ⟨_, _, hpush, ?_, ?_⟩
  · intro m hm
    obtain ⟨d, hd, hm'⟩ := List.mem_flatMap.1 hm
    unfold pushTo at hm'
    by_cases hc : d = x ∨ (slaveSetOf records d).length = 0
    · rw [if_pos hc] at hm'; exact absurd hm' (by simp)
    · rw [if_neg hc] at hm'
      rw [List.mem_singleton.1 hm']
      exact List.mem_range.1 hd
  · intro d hd
    refine ⟨slaveSetOf records d, hs d hd, ?_, ?_⟩
    · intro hdx hne
      have hlen0 : (slaveSetOf records d).length ≠ 0 := fun e => hne (List.length_eq_zero.1 e)
      have h32 : (slaveSetOf records d).length < 2 ^ 32 :=
        lt_of_le_of_lt (le_trans (slaveSetOf_length_le records d)
          (length_le_of_lid_nodup records nodes.length hl hlt)) hlen
      refine ⟨(slaveSetOf records d).map (fun g => (g, P.extract (lidOf records g)
        (payloadOf d0 records nodes g))), ?_, ?_, ?_⟩
      · rw [filter_pushTo P x _ _ _ _ (List.nodup_range n) d, if_pos (List.mem_range.2 hd)]
        have hcond : ¬ (d = x ∨ (slaveSetOf records d).length = 0) := by
          rintro (e | e)
          · exact hdx e
          · exact hlen0 e
        unfold pushTo
        rw [if_neg hcond, u32, Nat.mod_eq_of_lt h32]
      · rw [List.map_map]
        exact List.map_id _
      · intro e he
        obtain ⟨g, hgm, rfl⟩ := List.mem_map.1 he
        obtain ⟨r, hr, -, rfl⟩ := (mem_slaveSetOf records d g).1 hgm
        have hu : u32 r.local_id = r.local_id :=
          Nat.mod_eq_of_lt (lt_trans (hlt r hr) hlen)
        refine ⟨r.local_id, payloadOf d0 records nodes r.global_id, ?_, ?_, ?_⟩
        · show (h.GlobalToLocalMap.atKey r.global_id).map u32 = _
          rw [hG2L, (atKey_ok_iff _ _ _).2
            (assignAll_of_mem (·.global_id) (·.local_id) StdMap.empty records hg r hr)]
          show Except.ok (u32 r.local_id) = _
          rw [hu]
        · rw [vGraph.getData_eq_ok, hu, hnodes]
          exact payloadOf_of_mem d0 records nodes hg r hr (hlt r hr)
        · show P.extract (lidOf records r.global_id) _ = _
          rw [lidOf_of_mem records hg r hr]
    · intro hc
      rw [filter_pushTo P x _ _ _ _ (List.nodup_range n) d, if_pos (List.mem_range.2 hd)]
      unfold pushTo
      rw [if_pos]
      rcases hc with e | e
      · exact Or.inl e
      · exact Or.inr (by rw [e]; rfl)

/-- C14 amended, on host 1 of the sample run: one message to host 0, with the
one entry `(10, 2)`; nothing to host 1 itself and nothing to host 2. -/
theorem push_message_content_witness :
    ∃ h' msgs, (sampleHosts 1).sync_push (Syncer_0 Int) ⟨1, 3⟩ = .ok (h', msgs) ∧
      (∀ m ∈ msgs, m.1 < 3) ∧
      ∀ d, d < 3 → ∃ s, (sampleHosts 1).slaveNodes[d]? = some s ∧
        (d ≠ 1 → s ≠ [] →
          ∃ es, msgs.filter (fun m => decide (m.1 = d)) = [(d, Message.pushApply s.length es)] ∧
            es.map (·.1) = s ∧
            ∀ e ∈ es, ∃ l v, (sampleHosts 1).getLID e.1 = .ok l ∧
              (sampleHosts 1).getData l = .ok v ∧ e.2 = (Syncer_0 Int).extract l v) ∧
        (d = 1 ∨ s = [] → msgs.filter (fun m => decide (m.1 = d)) = []) :=
  push_message_content (Syncer_0 Int) ⟨0, 0, 0⟩ 1 3 (sampleRecords 1) (sampleNodes 1)
    (sampleHosts 1) rfl (by decide) (by decide) (by decide) (by decide)

/-- C15, as stated, fails on a host whose records give one local id to a
replica and to a master.  On `mixedHost` slot 0 is the slot of GID 10
(`getGID(0) = 10`), whose record names this host as owner and which is in no
Slave Set of a remote host; the push resets it, because GID 11 of the Slave
Set of host 1 translates to the same slot. -/
theorem push_resets_master_slot :
    vGraph.loaded 0 2 mixedRecords [⟨0, 4, 0⟩] = .ok mixedHost ∧
    (⟨0, 10, 0⟩ : NodeInfo) ∈ mixedRecords ∧
    mixedHost.getGID 0 = .ok 10 ∧ (mixedHost.getHostID 10).1 = 0 ∧
    mixedHost.slaveNodes = [[10], [11]] ∧
    mixedHost.getData 0 = .ok ⟨0, 4, 0⟩ ∧
    ∃ h' msgs, mixedHost.sync_push (Syncer_0 Int) ⟨0, 2⟩ = .ok (h', msgs) ∧
      h'.getData 0 = .ok ⟨0, 0, 0⟩ :=
  ⟨rfl, by decide, rfl, rfl, rfl, rfl, _, _, rfl, rfl⟩

/-- C15 (amended). Push resets replicas and nothing else.  On a loaded host
`x` whose ownership records have pairwise distinct global ids and pairwise
distinct local ids, all inside the payload array (shorter than `2^32`), the
send loop of `sync_push` succeeds and changes the payload array only: the
slot of every record whose owner is another host holds `Reset` of its old
content, and every slot that is not the slot of such a record (in particular
the slot of every record whose owner is `x`) holds its old content. -/
theorem push_resets_replicas {α β : Type} (P : PushFn α β) (d0 : α) (x n : Nat)
    (records : List NodeInfo) (nodes : List α) (h : vGraph α)
    (hok : vGraph.loaded x n records nodes = .ok h)
    (hg : (records.map (·.global_id)).Nodup) (hl : (records.map (·.local_id)).Nodup)
    (hlt : ∀ r ∈ records, r.local_id < nodes.length) (hlen : nodes.length < 2 ^ 32) :
    ∃ nd msgs, h.sync_push P ⟨x, n⟩ = .ok ({ h with nodeData := nd }, msgs) ∧
      nd.length = h.nodeData.length ∧
      (∀ r ∈ records, r.owner_id ≠ x → ∃ v, h.nodeData[r.local_id]? = some v ∧
        nd[r.local_id]? = some (P.reset r.local_id v)) ∧
      (∀ l, (∀ r ∈ records, r.local_id = l → r.owner_id = x) → nd[l]? = h.nodeData[l]?) ∧
      (∀ r ∈ records, r.owner_id = x → nd[r.local_id]? = h.nodeData[r.local_id]?) := by
  have ho := vGraph.owner_lt_of_loaded x n records nodes h hok
  obtain ⟨hid, hnodes, -, -, hs, hG2L, -, -⟩ := vGraph.loaded_fields x n records nodes h hok
  have hL := lidOf_of_mem records hg
  have hres : ∀ d ∈ List.range n, d ≠ x → ∀ g ∈ slaveSetOf records d,
      h.GlobalToLocalMap g = some (lidOf records g) ∧ lidOf records g < 2 ^ 32 ∧
      h.nodeData[lidOf records g]? = some (payloadOf d0 records nodes g) := by
    intro d _ _ g hgm
    obtain ⟨r, hr, -, rfl⟩ := (mem_slaveSetOf records d g).1 hgm
    rw [hG2L, hL r hr, hnodes]
    exact ⟨assignAll_of_mem (·.global_id) (·.local_id) StdMap.empty records hg r hr,
      lt_trans (hlt r hr) hlen, payloadOf_of_mem d0 records nodes hg r hr (hlt r hr)⟩
  obtain ⟨nd, hfold, hlen', hslot⟩ := vGraph.foldlM_pushStep P x (slaveSetOf records)
    (lidOf records) (payloadOf d0 records nodes) (List.range n) h [] hid
    (fun d hd => hs d (List.mem_range.1 hd)) hres
    (pushSlots_nodup records _ _ (List.Nodup.filter _ (List.nodup_range n)) hl hL)
  have hmem : ∀ l, l ∈ (((List.range n).filter (fun d => d ≠ x)).flatMap
      (slaveSetOf records)).map (lidOf records) ↔ ∃ r ∈ records, r.local_id = l ∧ r.owner_id ≠ x := by
    intro l
    constructor
    · intro hc
      obtain ⟨g, hgm, hLg⟩ := List.mem_map.1 hc
      obtain ⟨d, hd, hgd⟩ := List.mem_flatMap.1 hgm
      obtain ⟨r, hr, hro, rfl⟩ := (mem_slaveSetOf records d _).1 hgd
      have hdx : d ≠ x := by simpa using (List.mem_filter.1 hd).2
      exact ⟨r, hr, by rw [← hL r hr]; exact hLg, by rw [hro]; exact hdx⟩
    · rintro ⟨r, hr, hrl, hro⟩
      refine List.mem_map.2 ⟨r.global_id, List.mem_flatMap.2 ⟨r.owner_id, ?_, ?_⟩,
        by rw [hL r hr]; exact hrl⟩
      · simp [List.mem_filter, hro, ho r hr]
      · exact (mem_slaveSetOf records _ _).2 ⟨r, hr, rfl, rfl⟩
  have hkeep : ∀ l, (∀ r ∈ records, r.local_id = l → r.owner_id = x) →
      nd[l]? = h.nodeData[l]? := by
    intro l hno
    rw [hslot l, if_neg]
    intro hc
    obtain ⟨r, hr, hrl, hro⟩ := (hmem l).1 hc
    exact hro (hno r hr hrl)
  refine ⟨nd, (List.range n).flatMap (fun d => pushTo P x d (slaveSetOf records d)
    (lidOf records) (payloadOf d0 records nodes)), ?_, hlen', ?_, hkeep, ?_⟩
  · unfold vGraph.sync_push
    simpa using hfold
  · intro r hr hro
    refine ⟨payloadOf d0 records nodes r.global_id, ?_, ?_⟩
    · rw [hnodes]; exact payloadOf_of_mem d0 records nodes hg r hr (hlt r hr)
    · rw [hslot r.local_id, if_pos ((hmem _).2 ⟨r, hr, rfl, hro⟩), hnodes,
        payloadOf_of_mem d0 records nodes hg r hr (hlt r hr)]
      rfl
  · intro r hr hro
    apply hkeep
    intro r' hr' hrl
    have := List.inj_on_of_nodup_map hl hr' hr hrl
    rw [this]; exact hro

/-- C15 amended, on host 1 of the sample run: the slot of the replica of GID
10 is reset, the slot of the master of GID 11 keeps its content. -/
theorem push_resets_replicas_witness :
    ∃ nd msgs, (sampleHosts 1).sync_push (Syncer_0 Int) ⟨1, 3⟩
        = .ok ({ sampleHosts 1 with nodeData := nd }, msgs) ∧
      nd.length = (sampleHosts 1).nodeData.length ∧
      (∀ r ∈ sampleRecords 1, r.owner_id ≠ 1 → ∃ v, (sampleHosts 1).nodeData[r.local_id]? = some v ∧
        nd[r.local_id]? = some ((Syncer_0 Int).reset r.local_id v)) ∧
      (∀ l, (∀ r ∈ sampleRecords 1, r.local_id = l → r.owner_id = 1) →
        nd[l]? = (sampleHosts 1).nodeData[l]?) ∧
      (∀ r ∈ sampleRecords 1, r.owner_id = 1 →
        nd[r.local_id]? = (sampleHosts 1).nodeData[r.local_id]?) :=
  push_resets_replicas (Syncer_0 Int) ⟨0, 0, 0⟩ 1 3 (sampleRecords 1) (sampleNodes 1)
    (sampleHosts 1) rfl (by decide) (by decide) (by decide) (by decide)

/-! ## The metadata file -/

/-- The loop of `readMetaFile` from the start of record `i`, when the file
holds the `k` records it is to read. -/
theorem readRecords_of_le (uninit : Nat) (bytes : List Byte) (k i : Nat)
    (vec : List NodeInfo) (hlen : 8 + 24 * (i + k) ≤ bytes.length) :
    readRecords uninit k ⟨bytes, 8 + 24 * i, false⟩ vec
      = vec ++ (List.range k).map (fun j => metaRecord bytes (i + j)) := by
  induction k generalizing i vec with
  | zero => simp [readRecords]
  | succ k ih =>
    have e1 : 8 * (1 + 3 * i) = 8 + 24 * i := by omega
    have e2 : 8 * (2 + 3 * i) = 16 + 24 * i := by omega
    have e3 : 8 * (3 + 3 * i) = 24 + 24 * i := by omega
    have p1 : 8 + 24 * i + 8 = 16 + 24 * i := by omega
    have p2 : 16 + 24 * i + 8 = 24 + 24 * i := by omega
    have p3 : 24 + 24 * i + 8 = 8 + 24 * (i + 1) := by omega
    have h1 : (⟨bytes, 8 + 24 * i, false⟩ : FileStream).readInto 8 0
        = (hdrField bytes (1 + 3 * i), ⟨bytes, 16 + 24 * i, false⟩) := by
      rw [FileStream.readInto_of_le _ _ rfl (by simp only; omega)]
      simp only [hdrField, e1, p1]
    have h2 : (⟨bytes, 16 + 24 * i, false⟩ : FileStream).readInto 8 0
        = (hdrField bytes (2 + 3 * i), ⟨bytes, 24 + 24 * i, false⟩) := by
      rw [FileStream.readInto_of_le _ _ rfl (by simp only; omega)]
      simp only [hdrField, e2, p2]
    have h3 : (⟨bytes, 24 + 24 * i, false⟩ : FileStream).readInto 8 uninit
        = (hdrField bytes (3 + 3 * i), ⟨bytes, 8 + 24 * (i + 1), false⟩) := by
      rw [FileStream.readInto_of_le _ _ rfl (by simp only; omega)]
      simp only [hdrField, e3, p3]
    have hstep : readRecords uninit (k + 1) ⟨bytes, 8 + 24 * i, false⟩ vec
        = readRecords uninit k ⟨bytes, 8 + 24 * (i + 1), false⟩
            (vec ++ [metaRecord bytes i]) := by
      simp only [readRecords, h1, h2, h3, metaRecord]
    have hmap : (List.range k).map (fun j => metaRecord bytes (i + 1 + j))
        = (List.range k).map ((fun j => metaRecord bytes (i + j)) ∘ Nat.succ) :=
      List.map_congr_left (fun j _ => by
        simp only [Function.comp, Nat.succ_eq_add_one]
        congr 1
        omega)
    rw [hstep, ih (i + 1) _ (by omega), List.range_succ_eq_map, List.map_cons, List.map_map,
      List.append_assoc, hmap]
    rfl

/-- C16. Metadata parsing.  For every file that holds, after its 8-byte
little-endian count `n`, the `24 * n` bytes of `n` records, `readMetaFile`
returns `true` and appends exactly `n` entries in file order, the `i`-th with
`global_id` the first, `local_id` the second and `owner_id` the third 8-byte
field of the `i`-th record. -/
theorem readMetaFile_parses (bytes : List Byte) (uninit : Nat) (vec : List NodeInfo)
    (hlen : 8 + 24 * hdrField bytes 0 ≤ bytes.length) :
    readMetaFile (some bytes) uninit vec
      = (true, vec ++ (List.range (hdrField bytes 0)).map (metaRecord bytes)) := by
  have h0 : (⟨bytes, 0, false⟩ : FileStream).readInto 8 uninit
      = (hdrField bytes 0, ⟨bytes, 8 + 24 * 0, false⟩) := by
    rw [FileStream.readInto_of_le _ _ rfl (by simp only; omega)]
    simp [hdrField]
  unfold readMetaFile
  simp only [h0]
  rw [readRecords_of_le uninit bytes _ 0 vec (by omega)]
  simp

/-- C16 on the sample metadata file: two records, appended to a vector that
already holds one entry. -/
theorem readMetaFile_parses_witness :
    readMetaFile (some sampleMeta) 77 [⟨5, 6, 7⟩]
      = (true, [⟨5, 6, 7⟩, ⟨0, 10, 0⟩, ⟨1, 11, 1⟩]) :=
  (readMetaFile_parses sampleMeta 77 [⟨5, 6, 7⟩] (by decide)).trans (by decide)

/-! ## The constructor -/

namespace vGraph

variable {α β : Type}

theorem addRecord_totalNodes (n t : Nat) (h : vGraph α) (r : NodeInfo) :
    addRecord n { h with totalNodes := t } r
      = (addRecord n h r).map (fun h1 => { h1 with totalNodes := t }) := by
  unfold addRecord
  by_cases ho : r.owner_id < n
  · simp only [ho, not_true_eq_false, ↓reduceIte]
    cases h.slaveNodes[r.owner_id]? <;> rfl
  · simp only [ho, not_false_eq_true, ↓reduceIte]
    rfl

theorem foldlM_addRecord_totalNodes (n t : Nat) (rs : List NodeInfo) (h : vGraph α) :
    rs.foldlM (addRecord n) { h with totalNodes := t }
      = (rs.foldlM (addRecord n) h).map (fun h1 => { h1 with totalNodes := t }) := by
  induction rs generalizing h with
  | nil => rfl
  | cons r rs ih =>
    rw [List.foldlM_cons, List.foldlM_cons, addRecord_totalNodes]
    cases addRecord n h r with
    | error e => rfl
    | ok h1 => exact ih h1

/-- The table-building loop does not look at `totalNodes`. -/
theorem buildTables_totalNodes (n t : Nat) (h : vGraph α) :
    buildTables { h with totalNodes := t } n
      = (buildTables h n).map (fun h1 => { h1 with totalNodes := t }) := by
  unfold buildTables
  exact foldlM_addRecord_totalNodes n t h.localToGlobalMap_meta
    { h with masterNodes := resizeVec h.masterNodes n
             slaveNodes := resizeVec h.slaveNodes n }

/-- The loop of the constructor stops at the `assert` when a record names an
owner that is not a host. -/
theorem foldlM_addRecord_error (n : Nat) (rs : List NodeInfo) (h0 : vGraph α)
    (hlen : h0.slaveNodes.length = n) (hbad : ∃ r ∈ rs, ¬ r.owner_id < n) :
    rs.foldlM (addRecord n) h0
      = .error "assert(info.owner_id >= 0 && info.owner_id < numHosts)" := by
  induction rs generalizing h0 with
  | nil =>
    obtain ⟨r, hr, -⟩ := hbad
    simp at hr
  | cons r rs ih =>
    rw [List.foldlM_cons]
    by_cases ho : r.owner_id < n
    · have hs : h0.slaveNodes[r.owner_id]? = some (h0.slaveNodes[r.owner_id]) :=
        List.getElem?_eq_getElem (by omega)
      have hstep : addRecord n h0 r = .ok { h0 with
          slaveNodes := h0.slaveNodes.set r.owner_id
            (h0.slaveNodes[r.owner_id] ++ [r.global_id])
          GIDtoOwnerMap := h0.GIDtoOwnerMap.assign r.global_id r.owner_id
          LocalToGlobalMap := h0.LocalToGlobalMap.assign r.local_id r.global_id
          GlobalToLocalMap := h0.GlobalToLocalMap.assign r.global_id r.local_id } := by
        unfold addRecord
        rw [if_neg (by simpa using ho), hs]
      rw [hstep]
      refine ih _ (by simp [hlen]) ?_
      obtain ⟨r', hr', hb⟩ := hbad
      rcases List.mem_cons.1 hr' with e | e
      · subst e; exact absurd ho hb
      · exact ⟨r', e, hb⟩
    · have hstep : addRecord n h0 r
          = .error "assert(info.owner_id >= 0 && info.owner_id < numHosts)" := by
        unfold addRecord
        rw [if_pos ho]
      rw [hstep]
      rfl

/-- The constructor in terms of the loaded host: when the partition file is
accepted, the tables are built and the handshake messages are sent, the
object is the loaded host with `totalNodes`, `numOwned` and the payload array
taken from the vertex count of the partition file. -/
theorem mk?_of_loaded (d0 : α) (shard meta : Option (List Byte)) (net : NetworkInterface)
    (host numHosts uninit : Nat) (g : OfflineGraph) (hL : vGraph α)
    (msgs : List (Nat × Message β)) (hg : OfflineGraph.mk? shard = .ok g)
    (hl : loaded host numHosts (readMetaFile meta uninit []).2 [] = .ok hL)
    (hm : hL.exchange_info_init net = .ok msgs) :
    vGraph.mk? d0 shard meta net host numHosts uninit
      = .ok ({ hL with totalNodes := g.size, numOwned := u32 g.size
                       nodeData := List.replicate (u32 g.size) d0 }, msgs) := by
  unfold loaded at hl
  cases hb : (blank host (readMetaFile meta uninit []).2 : vGraph α).buildTables numHosts with
  | error e => rw [hb] at hl; exact absurd hl (by simp)
  | ok h1 =>
    rw [hb] at hl
    have e1 : hL = { h1 with nodeData := [] } := (Except.ok.inj hl).symm
    have hm1 : exchange_info_init net { h1 with totalNodes := g.size } = .ok msgs := by
      rw [e1] at hm
      exact hm
    unfold vGraph.mk?
    simp only [hg, buildTables_totalNodes, hb, Except.map, hm1, e1]

/-- The constructor fails when the table-building loop fails. -/
theorem mk?_error_of_buildTables (d0 : α) (shard meta : Option (List Byte))
    (net : NetworkInterface) (host numHosts uninit : Nat) (e : String)
    (hb : (blank host (readMetaFile meta uninit []).2 : vGraph α).buildTables numHosts
      = .error e) :
    ∃ e1, (vGraph.mk? d0 shard meta net host numHosts uninit :
      Except String (vGraph α × List (Nat × Message β))) = .error e1 := by
  unfold vGraph.mk?
  cases OfflineGraph.mk? shard with
  | error e0 => exact ⟨e0, rfl⟩
  | ok g =>
    refine ⟨e, ?_⟩
    simp only [buildTables_totalNodes, hb, Except.map]

/-- Whenever the constructor succeeds, `numOwned` and the size of the payload
array are the vertex count of the partition file, as a `uint32_t`. -/
theorem mk?_numOwned (d0 : α) (shard meta : Option (List Byte)) (net : NetworkInterface)
    (host numHosts uninit : Nat) (h : vGraph α) (msgs : List (Nat × Message β))
    (hok : vGraph.mk? d0 shard meta net host numHosts uninit = .ok (h, msgs)) :
    ∃ g, OfflineGraph.mk? shard = .ok g ∧ h.totalNodes = g.size ∧
      h.numOwned = u32 g.size ∧ h.nodeData = List.replicate (u32 g.size) d0 ∧
      h.localToGlobalMap_meta = (readMetaFile meta uninit []).2 := by
  unfold vGraph.mk? at hok
  cases hg : OfflineGraph.mk? shard with
  | error e => rw [hg] at hok; exact absurd hok (by simp)
  | ok g =>
    rw [hg] at hok
    simp only [buildTables_totalNodes] at hok
    cases hb : (blank host (readMetaFile meta uninit []).2 : vGraph α).buildTables numHosts with
    | error e => rw [hb] at hok; exact absurd hok (by simp [Except.map])
    | ok h1 =>
      rw [hb] at hok
      simp only [Except.map] at hok
      cases hm : (exchange_info_init net { h1 with totalNodes := g.size } :
          Except String (List (Nat × Message β))) with
      | error e => rw [hm] at hok; exact absurd hok (by simp)
      | ok ms =>
        rw [hm] at hok
        have e1 := (Prod.mk.inj (Except.ok.inj hok)).1
        subst e1
        refine ⟨g, rfl, rfl, rfl, rfl, ?_⟩
        show h1.localToGlobalMap_meta = _
        have hmeta : ∀ (rs : List NodeInfo) (a b : vGraph α),
            rs.foldlM (addRecord numHosts) a = .ok b →
            b.localToGlobalMap_meta = a.localToGlobalMap_meta := by
          intro rs
          induction rs with
          | nil => intro a b hab; rw [← Except.ok.inj hab]
          | cons r rs ih =>
            intro a b hab
            rw [List.foldlM_cons] at hab
            cases hr : addRecord numHosts a r with
            | error e => rw [hr] at hab; exact absurd hab (by simp [bind, Except.bind])
            | ok a1 =>
              rw [hr] at hab
              have := ih a1 b hab
              rw [this]
              unfold addRecord at hr
              split at hr
              · exact absurd hr (by simp)
              · split at hr
                · exact absurd hr (by simp)
                · rw [← Except.ok.inj hr]
        exact hmeta _ _ _ hb

end vGraph

/-- A metadata file that declares one record and holds none: the three reads
of the record fail, and the entry pushed consists of the two zeros of the
value-initialised pair and of whatever the uninitialised `owner` held. -/
theorem readMetaFile_short (uninit : Nat) :
    readMetaFile (some (toLE 8 1)) uninit [] = (true, [⟨0, 0, u64 uninit⟩]) := by
  have h0 : (⟨toLE 8 1, 0, false⟩ : FileStream).readInto 8 uninit
      = (1, ⟨toLE 8 1, 8, false⟩) := by
    rw [FileStream.readInto_of_le _ _ rfl (by decide)]
    rfl
  have h1 : (⟨toLE 8 1, 8, false⟩ : FileStream).readInto 8 0 = (0, ⟨toLE 8 1, 8, true⟩) := rfl
  have h2 : (⟨toLE 8 1, 8, true⟩ : FileStream).readInto 8 0 = (0, ⟨toLE 8 1, 8, true⟩) := rfl
  have h3 : (⟨toLE 8 1, 8, true⟩ : FileStream).readInto 8 uninit
      = (u64 uninit, ⟨toLE 8 1, 8, true⟩) := by
    have hr : (⟨toLE 8 1, 8, true⟩ : FileStream).read 8 = ([], ⟨toLE 8 1, 8, true⟩) := rfl
    unfold FileStream.readInto
    rw [hr]
    simp only [List.nil_append, List.length_nil, List.drop_zero, fromLE_toLE, u64]
    norm_num
  have hstep : ∀ (s : FileStream) (vec : List NodeInfo), readRecords uninit 1 s vec
      = vec ++ [⟨((s.readInto 8 0).2.readInto 8 0).1, (s.readInto 8 0).1,
          (((s.readInto 8 0).2.readInto 8 0).2.readInto 8 uninit).1⟩] := fun _ _ => rfl
  show (true, readRecords uninit ((⟨toLE 8 1, 0, false⟩ : FileStream).readInto 8 uninit).1
    ((⟨toLE 8 1, 0, false⟩ : FileStream).readInto 8 uninit).2 []) = _
  rw [h0, hstep, h1, h2, h3]
  rfl

/-- The reader accepts the sample partition file. -/
theorem sampleShard_accepted :
    ∃ g, OfflineGraph.mk? (some sampleShard) = .ok g ∧ g.size = 2 :=
  ⟨_, rfl, rfl⟩

/-- C17, as the code behaves.  The constructor does not look at the result
of `readMetaFile`.  Whenever the partition file is accepted, a metadata file
that cannot be opened is not fatal: the constructor succeeds with an empty
record list, empty Slave Sets and no handshake message.  A metadata file that
holds fewer bytes than its count requires is not fatal either: for the file
that declares one record and holds none the constructor goes on with a
record made of zeros and of the uninitialised `owner`, and succeeds when that
value happens to be a host id. -/
theorem mk?_continues_without_metadata {α β : Type} (d0 : α) (shard : Option (List Byte))
    (g : OfflineGraph) (hg : OfflineGraph.mk? shard = .ok g) (host numHosts uninit : Nat) :
    (readMetaFile none uninit [] = (false, []) ∧
      ∃ h, (vGraph.mk? d0 shard none ⟨host, numHosts⟩ host numHosts uninit :
          Except String (vGraph α × List (Nat × Message β))) = .ok (h, []) ∧
        h.localToGlobalMap_meta = [] ∧ h.slaveNodes = List.replicate numHosts []) ∧
    ((toLE 8 1).length < 8 + 24 * hdrField (toLE 8 1) 0 ∧
      (u64 uninit < numHosts →
        ∃ h msgs, (vGraph.mk? d0 shard (some (toLE 8 1)) ⟨host, numHosts⟩ host numHosts uninit :
            Except String (vGraph α × List (Nat × Message β))) = .ok (h, msgs) ∧
          h.localToGlobalMap_meta = [⟨0, 0, u64 uninit⟩])) := by
  refine ⟨⟨rfl, ?_⟩, by decide, ?_⟩
  · have hl := vGraph.loaded_eq host numHosts [] ([] : List α) (by simp)
    have hm := vGraph.exchange_info_init_loaded (β := β) host numHosts [] ([] : List α) _ hl
    have hnil : (List.range numHosts).flatMap (fun d => (handshakeTo host d (slaveSetOf [] d) :
        List (Nat × Message β))) = [] := by
      simp [handshakeTo, slaveSetOf]
    rw [hnil] at hm
    have hmk := vGraph.mk?_of_loaded d0 shard none ⟨host, numHosts⟩ host numHosts uninit g _ []
      hg hl hm
    exact ⟨_, hmk, rfl, rfl⟩
  · intro hu
    have hrec : (readMetaFile (some (toLE 8 1)) uninit []).2 = [⟨0, 0, u64 uninit⟩] := by
      rw [readMetaFile_short]
    have hl := vGraph.loaded_eq host numHosts [⟨0, 0, u64 uninit⟩] ([] : List α)
      (by
        intro r hr
        rw [List.mem_singleton.1 hr]
        exact hu)
    have hm := vGraph.exchange_info_init_loaded (β := β) host numHosts _ ([] : List α) _ hl
    have hmk := vGraph.mk?_of_loaded d0 shard (some (toLE 8 1)) ⟨host, numHosts⟩ host numHosts
      uninit g _ _ hg (by rw [hrec]; exact hl) hm
    exact ⟨_, _, hmk, rfl⟩

/-- C17 on the sample partition file, host 0 of 2: without a metadata file
and with the metadata file that declares one record and holds none. -/
theorem mk?_continues_without_metadata_witness :
    (readMetaFile none 0 [] = (false, []) ∧
      ∃ h, (vGraph.mk? (0 : Int) (some sampleShard) none ⟨0, 2⟩ 0 2 0 :
          Except String (vGraph Int × List (Nat × Message Int))) = .ok (h, []) ∧
        h.localToGlobalMap_meta = [] ∧ h.slaveNodes = List.replicate 2 []) ∧
    ((toLE 8 1).length < 8 + 24 * hdrField (toLE 8 1) 0 ∧
      (u64 0 < 2 →
        ∃ h msgs, (vGraph.mk? (0 : Int) (some sampleShard) (some (toLE 8 1)) ⟨0, 2⟩ 0 2 0 :
            Except String (vGraph Int × List (Nat × Message Int))) = .ok (h, msgs) ∧
          h.localToGlobalMap_meta = [⟨0, 0, u64 0⟩])) :=
  sampleShard_accepted.elim (fun g hg =>
    mk?_continues_without_metadata (0 : Int) (some sampleShard) g hg.1 0 2 0)

/-- C18. Owner range validation.  If some ownership record names an owner
that is not below `numHosts`, the table-building loop of the constructor
stops at its `assert`, and the constructor fails whatever the partition file
holds.  When every record names an owner below `numHosts`, the loop
completes: the vector of Slave Sets has `numHosts` elements throughout, so
that every `slaveNodes[info.owner_id]` is inside it. -/
theorem owner_range_validated {α β : Type} (d0 : α) (host numHosts : Nat)
    (records : List NodeInfo) :
    ((∃ r ∈ records, numHosts ≤ r.owner_id) →
      (vGraph.blank host records : vGraph α).buildTables numHosts
        = .error "assert(info.owner_id >= 0 && info.owner_id < numHosts)" ∧
      ∀ (shard meta : Option (List Byte)) (net : NetworkInterface) (uninit : Nat),
        (readMetaFile meta uninit []).2 = records →
        ∃ e, (vGraph.mk? d0 shard meta net host numHosts uninit :
          Except String (vGraph α × List (Nat × Message β))) = .error e) ∧
    ((∀ r ∈ records, r.owner_id < numHosts) →
      ∃ h, (vGraph.blank host records : vGraph α).buildTables numHosts = .ok h ∧
        h.slaveNodes.length = numHosts ∧
        ∀ r ∈ records, ∃ s, h.slaveNodes[r.owner_id]? = some s ∧ r.global_id ∈ s) := by
  constructor
  · rintro ⟨r, hr, hbad⟩
    have hb : (vGraph.blank host records : vGraph α).buildTables numHosts
        = .error "assert(info.owner_id >= 0 && info.owner_id < numHosts)" := by
      unfold vGraph.buildTables
      exact vGraph.foldlM_addRecord_error numHosts records _
        (by simp [vGraph.blank, resizeVec]) ⟨r, hr, by omega⟩
    refine ⟨hb, ?_⟩
    intro shard meta net uninit hrec
    exact vGraph.mk?_error_of_buildTables d0 shard meta net host numHosts uninit _
      (by rw [hrec]; exact hb)
  · intro ho
    have hl := vGraph.loaded_eq host numHosts records ([] : List α) ho
    unfold vGraph.loaded at hl
    cases hb : (vGraph.blank host records : vGraph α).buildTables numHosts with
    | error e => rw [hb] at hl; exact absurd hl (by simp)
    | ok h =>
      rw [hb] at hl
      have e1 := Except.ok.inj hl
      have hsl : h.slaveNodes = slaveAfter (List.replicate numHosts []) records := by
        have := congrArg vGraph.slaveNodes e1
        exact this
      refine ⟨h, rfl, ?_, ?_⟩
      · rw [hsl, slaveAfter_length, List.length_replicate]
      · intro r hr
        refine ⟨slaveSetOf records r.owner_id, ?_, ?_⟩
        · rw [hsl, slaveAfter_getElem?, List.getElem?_replicate, if_pos (ho r hr)]
          rfl
        · exact (mem_slaveSetOf records _ _).2 ⟨r, hr, rfl, rfl⟩

/-- C18 for 3 hosts: a record with owner 5 stops the constructor at the
`assert`; the records of host 1 of the sample run pass. -/
theorem owner_range_validated_witness :
    (vGraph.blank 0 [⟨0, 10, 5⟩] : vGraph Int).buildTables 3
      = .error "assert(info.owner_id >= 0 && info.owner_id < numHosts)" ∧
    ∃ h, (vGraph.blank 1 (sampleRecords 1) : vGraph Int).buildTables 3 = .ok h ∧
      h.slaveNodes.length = 3 ∧
      ∀ r ∈ sampleRecords 1, ∃ s, h.slaveNodes[r.owner_id]? = some s ∧ r.global_id ∈ s :=
  ⟨((owner_range_validated (β := Int) (0 : Int) 0 3 [⟨0, 10, 5⟩]).1
      ⟨⟨0, 10, 5⟩, List.mem_singleton.2 rfl, by decide⟩).1,
    (owner_range_validated (β := Int) (0 : Int) 1 3 (sampleRecords 1)).2 (by decide)⟩

namespace OfflineGraph

/-- The vertex count of an accepted file is its third header field. -/
theorem size_of_mk? (bytes : List Byte) (g : OfflineGraph) (h : mk? (some bytes) = .ok g) :
    g.size = hdrField bytes 2 := by
  rw [mk?_some] at h
  split at h
  · exact absurd h (by simp)
  · split at h
    · exact absurd h (by simp)
    · split at h
      · exact absurd h (by simp)
      · rw [← Except.ok.inj h]
        rfl

end OfflineGraph

/-- C20, as the code behaves.  Whenever the constructor succeeds,
`getNumOwned()` is the vertex count in the header of the partition file (as
a `uint32_t`), whatever the ownership records say, and the payload array has
that many slots: the owned range `[begin(), end())` is the whole local graph
and the ghost range is empty. -/
theorem numOwned_is_shard_size {α β : Type} (d0 : α) (bytes : List Byte)
    (meta : Option (List Byte)) (net : NetworkInterface) (host numHosts uninit : Nat)
    (h : vGraph α) (msgs : List (Nat × Message β))
    (hok : vGraph.mk? d0 (some bytes) meta net host numHosts uninit = .ok (h, msgs)) :
    h.getNumOwned = u32 (hdrField bytes 2) ∧ h.nodeData.length = h.getNumOwned ∧
    h.localToGlobalMap_meta = (readMetaFile meta uninit []).2 := by
  obtain ⟨g, hg, -, hn, hd, hm⟩ := vGraph.mk?_numOwned d0 (some bytes) meta net host numHosts
    uninit h msgs hok
  have hsz := OfflineGraph.size_of_mk? bytes g hg
  refine ⟨?_, ?_, hm⟩
  · show h.numOwned = _
    rw [hn, hsz]
  · show h.nodeData.length = h.numOwned
    rw [hd, hn, List.length_replicate]

/-- C20 on host 0 of 2 with the sample files: the partition file has two
vertices, one ownership record names host 0 as owner, and `getNumOwned()`
is 2. -/
theorem numOwned_is_shard_size_witness :
    ∃ h msgs, (vGraph.mk? (0 : Int) (some sampleShard) (some sampleMeta) ⟨0, 2⟩ 0 2 0 :
        Except String (vGraph Int × List (Nat × Message Int))) = .ok (h, msgs) ∧
      h.localToGlobalMap_meta = [⟨0, 10, 0⟩, ⟨1, 11, 1⟩] ∧
      (h.localToGlobalMap_meta.filter (fun r => r.owner_id = 0)).length = 1 ∧
      h.getNumOwned = 2 :=
  ⟨_, _, rfl, rfl, rfl,
    (numOwned_is_shard_size (β := Int) (0 : Int) sampleShard (some sampleMeta) ⟨0, 2⟩ 0 2 0 _ _
      rfl).1.trans (by decide)⟩

/-! ## Pull: entry counts -/

/-- C24. Pull reply size mismatch is fatal.  `syncPullRecvApply` stops at an
`assert`, before its loop, for every reply whose entry count `num` differs
from the size of `slaveNodes[from_id]`, whatever the entries are, and
`syncPullRecvReply` stops at its `assert`, before anything is extracted or
sent, for every request whose count differs from the size of
`masterNodes[from_id]`.  Both leave no object behind: no `SetVal` has been
applied. -/
theorem pull_count_mismatch_fatal {α β : Type} (P : PullFn α β) (h : vGraph α)
    (from_id num : Nat) :
    (∀ s, h.slaveNodes[from_id]? = some s → num ≠ s.length →
      ∀ entries, h.syncPullRecvApply P from_id num entries
          = .error "assert(num_recv_expected > 0)" ∨
        h.syncPullRecvApply P from_id num entries
          = .error "assert(num == slaveNodes[from_id].size())") ∧
    (∀ m, h.masterNodes[from_id]? = some m → num ≠ m.length →
      h.syncPullRecvReply P from_id num = .error "assert(num == masterNodes[from_id].size())") := by
  constructor
  · intro s hs hne entries
    unfold vGraph.syncPullRecvApply
    by_cases hc : 0 < h.num_recv_expected
    · right
      rw [if_neg (fun hn => hn hc), hs]
      simp only [hne, ne_eq, not_false_eq_true, ↓reduceIte]
    · left
      rw [if_pos hc]
  · intro m hm hne
    unfold vGraph.syncPullRecvReply
    rw [hm]
    simp only [hne, ne_eq, not_false_eq_true, ↓reduceIte]

/-- C24 on the sample run: host 1, waiting for one reply, receives a reply of
host 0 that announces 2 entries for its Slave Set of size 1; host 0 receives
a request of host 1 that announces 3 entries for a Master Set of size 1. -/
theorem pull_count_mismatch_fatal_witness :
    ({ sampleHosts 1 with num_recv_expected := 1 }.syncPullRecvApply (valuePull Int) 0 2
        [(10, 5), (11, 6)]
      = .error "assert(num_recv_expected > 0)" ∨
      { sampleHosts 1 with num_recv_expected := 1 }.syncPullRecvApply (valuePull Int) 0 2
        [(10, 5), (11, 6)]
      = .error "assert(num == slaveNodes[from_id].size())") ∧
    sampleResponder.syncPullRecvReply (valuePull Int) 1 3
      = .error "assert(num == masterNodes[from_id].size())" :=
  ⟨(pull_count_mismatch_fatal (valuePull Int) { sampleHosts 1 with num_recv_expected := 1 } 0
      2).1 [10] rfl (by decide) [(10, 5), (11, 6)],
    (pull_count_mismatch_fatal (valuePull Int) sampleResponder 1 3).2 [10] rfl (by decide)⟩

/-! ## The writer's header -/

/-- C26, at failing inputs.  `setCounts` sums the counts with
`std::accumulate(..., 0)`, whose accumulator is an `int`.  For the counts
`[3, 0, 4]` the header receives the vertex count 3, the edge count 7 and the
offsets 3, 3, 7.  For the one count `2^31` the vertex count 1 and the offset
`2^31` are written, but the edge count in the header is `2^64 - 2^31`, not the
sum `2^31`; for the counts `[2^32, 1]` the edge count in the header is 1,
not the sum `2^32 + 1`. -/
theorem setCounts_edge_count_truncated :
    ∃ w, OfflineGraphWriter.mk? true false = .ok w ∧
      (hdrField (w.setCounts [3, 0, 4]).file.data 2 = 3 ∧
        hdrField (w.setCounts [3, 0, 4]).file.data 3 = 7 ∧
        hdrField (w.setCounts [3, 0, 4]).file.data 4 = 3 ∧
        hdrField (w.setCounts [3, 0, 4]).file.data 5 = 3 ∧
        hdrField (w.setCounts [3, 0, 4]).file.data 6 = 7) ∧
      (hdrField (w.setCounts [2147483648]).file.data 2 = 1 ∧
        hdrField (w.setCounts [2147483648]).file.data 3 = 2 ^ 64 - 2 ^ 31 ∧
        hdrField (w.setCounts [2147483648]).file.data 4 = 2 ^ 31) ∧
      (hdrField (w.setCounts [4294967296, 1]).file.data 2 = 2 ∧
        hdrField (w.setCounts [4294967296, 1]).file.data 3 = 1 ∧
        hdrField (w.setCounts [4294967296, 1]).file.data 4 = 2 ^ 32 ∧
        hdrField (w.setCounts [4294967296, 1]).file.data 5 = 2 ^ 32 + 1) :=
  ⟨_, rfl, ⟨rfl, rfl, rfl, rfl, rfl⟩, ⟨rfl, rfl, rfl⟩, ⟨rfl, rfl, rfl, rfl⟩⟩

/-! ## File names -/

theorem decimalValue_append_singleton (cs : List Char) (c : Char) :
    decimalValue (cs ++ [c]) = 10 * decimalValue cs + (c.toNat - 48) := by
  simp [decimalValue, List.foldl_append]

/-- The digits that `Nat.toDigitsCore` puts in front of `ds`, given enough
fuel: a non-empty string of decimal digits that denotes `n`. -/
theorem toDigitsCore_spec (fuel n : Nat) (ds : List Char) (h : n < fuel) :
    ∃ pre, Nat.toDigitsCore 10 fuel n ds = pre ++ ds ∧ decimalValue pre = n ∧
      ∀ c ∈ pre, ∃ d, d < 10 ∧ c = Nat.digitChar d := by
  induction fuel generalizing n ds with
  | zero => omega
  | succ fuel ih =>
    have hval : ((Nat.digitChar (n % 10)).toNat - 48) = n % 10 := by
      have : n % 10 < 10 := Nat.mod_lt _ (by decide)
      interval_cases (n % 10) <;> rfl
    unfold Nat.toDigitsCore
    by_cases h0 : n / 10 = 0
    · simp only [h0, ↓reduceIte]
      refine ⟨[Nat.digitChar (n % 10)], rfl, ?_, ?_⟩
      · show 10 * 0 + ((Nat.digitChar (n % 10)).toNat - 48) = n
        rw [hval]
        omega
      · intro c hc
        exact ⟨n % 10, Nat.mod_lt _ (by decide), List.mem_singleton.1 hc⟩
    · simp only [h0, ↓reduceIte]
      obtain ⟨pre, hpre, hv, hd⟩ := ih (n / 10) (Nat.digitChar (n % 10) :: ds) (by omega)
      refine ⟨pre ++ [Nat.digitChar (n % 10)], ?_, ?_, ?_⟩
      · rw [hpre]; simp
      · rw [decimalValue_append_singleton, hv, hval]
        omega
      · intro c hc
        rcases List.mem_append.1 hc with hc | hc
        · exact hd c hc
        · exact ⟨n % 10, Nat.mod_lt _ (by decide), List.mem_singleton.1 hc⟩

/-- `to_string n` is a string of decimal digits that denotes `n`. -/
theorem to_string_spec (n : Nat) :
    decimalValue (to_string n).data = n ∧
    ∀ c ∈ (to_string n).data, ∃ d, d < 10 ∧ c = Nat.digitChar d := by
  obtain ⟨pre, hpre, hv, hd⟩ := toDigitsCore_spec (n + 1) n [] (by omega)
  have : (to_string n).data = pre := by
    show Nat.toDigitsCore 10 (n + 1) n [] = pre
    rw [hpre, List.append_nil]
  rw [this]
  exact ⟨hv, hd⟩

theorem to_string_injective (a b : Nat) (h : to_string a = to_string b) : a = b := by
  rw [← (to_string_spec a).1, ← (to_string_spec b).1, h]

theorem to_string_no_dot (n : Nat) : ∀ c ∈ (to_string n).data.reverse, c ≠ '.' := by
  intro c hc
  obtain ⟨d, hd, rfl⟩ := (to_string_spec n).2 c (List.mem_reverse.1 hc)
  interval_cases d <;> decide

/-- Two strings that start with a run of characters other than the dot,
followed by a dot, are equal only if the runs and the rests are equal. -/
theorem split_at_dot (xs ys r1 r2 : List Char) (hx : ∀ c ∈ xs, c ≠ '.')
    (hy : ∀ c ∈ ys, c ≠ '.') (h : xs ++ '.' :: r1 = ys ++ '.' :: r2) :
    xs = ys ∧ r1 = r2 := by
  induction xs generalizing ys with
  | nil =>
    cases ys with
    | nil => exact ⟨rfl, by simpa using h⟩
    | cons y ys =>
      simp only [List.nil_append, List.cons_append, List.cons.injEq] at h
      exact absurd h.1.symm (hy y (List.mem_cons_self _ _))
  | cons x xs ih =>
    cases ys with
    | nil =>
      simp only [List.nil_append, List.cons_append, List.cons.injEq] at h
      exact absurd h.1 (hx x (List.mem_cons_self _ _))
    | cons y ys =>
      simp only [List.cons_append, List.cons.injEq] at h
      obtain ⟨e1, e2⟩ := ih ys (fun c hc => hx c (List.mem_cons_of_mem _ hc))
        (fun c hc => hy c (List.mem_cons_of_mem _ hc)) h.2
      exact ⟨by rw [h.1, e1], e2⟩

theorem getPartitionFileName_data (b : String) (h n : Nat) :
    (getPartitionFileName b h n).data.reverse
      = (to_string n).data.reverse ++ '.' :: ('F' :: 'O' :: '.' :: ((to_string h).data.reverse
          ++ '.' :: ('T' :: 'R' :: 'A' :: 'P' :: '.' :: b.data.reverse))) := by
  simp [getPartitionFileName, String.data_append]

theorem getMetaFileName_data (b : String) (h n : Nat) :
    (getMetaFileName b h n).data.reverse
      = (to_string n).data.reverse ++ '.' :: ('F' :: 'O' :: '.' :: ((to_string h).data.reverse
          ++ '.' :: ('A' :: 'T' :: 'E' :: 'M' :: '.' :: b.data.reverse))) := by
  simp [getMetaFileName, String.data_append]

theorem file_names_example :
    getPartitionFileName "graph" 3 12 = "graph.PART.3.OF.12" ∧
    getMetaFileName "graph" 0 4 = "graph.META.0.OF.4" := by
  decide

/-- C27. File naming.  The name of the partition file is the base name
followed by `.PART.`, the host id in decimal, `.OF.` and the host count in
decimal; the name of the metadata file has `.META.` in place of `.PART.`;
`to_string` gives a string of decimal digits that denotes its argument.  For
one base name and host count, distinct host ids give distinct names, and no
partition file name, for any base name, host id and host count, is a
metadata file name. -/
theorem file_names (b : String) (h n : Nat) :
    getPartitionFileName b h n = b ++ ".PART." ++ to_string h ++ ".OF." ++ to_string n ∧
    getMetaFileName b h n = b ++ ".META." ++ to_string h ++ ".OF." ++ to_string n ∧
    (decimalValue (to_string h).data = h ∧
      ∀ c ∈ (to_string h).data, ∃ d, d < 10 ∧ c = Nat.digitChar d) ∧
    (∀ h2, h2 ≠ h → getPartitionFileName b h2 n ≠ getPartitionFileName b h n ∧
      getMetaFileName b h2 n ≠ getMetaFileName b h n) ∧
    (∀ b2 h2 n2, getPartitionFileName b h n ≠ getMetaFileName b2 h2 n2) := by
  refine ⟨rfl, rfl, to_string_spec h, ?_, ?_⟩
  · intro h2 hne
    constructor
    · intro hc
      have hd := congrArg (fun s => s.data.reverse) hc
      simp only [getPartitionFileName_data] at hd
      have h1 := List.append_cancel_left hd
      simp only [List.cons.injEq, true_and] at h1
      have h2' := (split_at_dot _ _ _ _ (to_string_no_dot h2) (to_string_no_dot h) h1).1
      exact hne (to_string_injective _ _ (String.ext (List.reverse_injective h2')))
    · intro hc
      have hd := congrArg (fun s => s.data.reverse) hc
      simp only [getMetaFileName_data] at hd
      have h1 := List.append_cancel_left hd
      simp only [List.cons.injEq, true_and] at h1
      have h2' := (split_at_dot _ _ _ _ (to_string_no_dot h2) (to_string_no_dot h) h1).1
      exact hne (to_string_injective _ _ (String.ext (List.reverse_injective h2')))
  · intro b2 h2 n2 hc
    have hd := congrArg (fun s => s.data.reverse) hc
    simp only [getPartitionFileName_data, getMetaFileName_data] at hd
    have h1 := (split_at_dot _ _ _ _ (to_string_no_dot n) (to_string_no_dot n2) hd).2
    simp only [List.cons.injEq, true_and] at h1
    have h3 := (split_at_dot _ _ _ _ (to_string_no_dot h) (to_string_no_dot h2) h1).2
    simp only [List.cons.injEq] at h3
    exact absurd h3.1 (by decide)

/-! ## Pull: the wait loop -/

namespace vGraph

variable {α β : Type}

theorem reduceEntry_counter (P : PushFn α β) (h h1 : vGraph α) (e : Nat × β)
    (hok : reduceEntry P h e = .ok h1) : h1.num_recv_expected = h.num_recv_expected := by
  unfold reduceEntry at hok
  split at hok
  · exact absurd hok (by simp)
  · split at hok
    · exact absurd hok (by simp)
    · rw [← Except.ok.inj hok]; rfl

theorem setValEntry_counter (P : PullFn α β) (h h1 : vGraph α) (e : Nat × β)
    (hok : setValEntry P h e = .ok h1) : h1.num_recv_expected = h.num_recv_expected := by
  unfold setValEntry at hok
  split at hok
  · exact absurd hok (by simp)
  · split at hok
    · exact absurd hok (by simp)
    · rw [← Except.ok.inj hok]; rfl

theorem syncRecvApplyLoop_counter (P : PushFn α β) (num : Nat) (es : List (Nat × β))
    (h h1 : vGraph α) (hok : syncRecvApplyLoop P num es h = .ok h1) :
    h1.num_recv_expected = h.num_recv_expected := by
  induction num generalizing es h with
  | zero =>
    simp only [syncRecvApplyLoop] at hok
    rw [← Except.ok.inj hok]
  | succ num ih =>
    cases es with
    | nil => simp [syncRecvApplyLoop] at hok
    | cons e es =>
      simp only [syncRecvApplyLoop] at hok
      cases hr : reduceEntry P h e with
      | error err => rw [hr] at hok; exact absurd hok (by simp)
      | ok h2 =>
        rw [hr] at hok
        rw [ih es h2 hok, reduceEntry_counter P h h2 e hr]

theorem syncPullRecvApplyLoop_counter (P : PullFn α β) (num : Nat) (es : List (Nat × β))
    (h h1 : vGraph α) (hok : syncPullRecvApplyLoop P num es h = .ok h1) :
    h1.num_recv_expected = h.num_recv_expected := by
  induction num generalizing es h with
  | zero =>
    simp only [syncPullRecvApplyLoop] at hok
    rw [← Except.ok.inj hok]
  | succ num ih =>
    cases es with
    | nil => simp [syncPullRecvApplyLoop] at hok
    | cons e es =>
      simp only [syncPullRecvApplyLoop] at hok
      cases hr : setValEntry P h e with
      | error err => rw [hr] at hok; exact absurd hok (by simp)
      | ok h2 =>
        rw [hr] at hok
        rw [ih es h2 hok, setValEntry_counter P h h2 e hr]

/-- What one dispatched message does to `num_recv_expected`: a pull reply
finds it positive and decrements it, every other message leaves it alone. -/
theorem syncRecv_counter (Ppush : PushFn α β) (Ppull : PullFn α β) (h h1 : vGraph α)
    (m : Message β) (out : List (Nat × Message β))
    (hok : h.syncRecv Ppush Ppull m = .ok (h1, out)) :
    h1.num_recv_expected + (pullReplies [m]).length = h.num_recv_expected := by
  cases m with
  | exchangeInfo hostID numItems items =>
    simp only [syncRecv] at hok
    cases hr : h.exchange_info_landingPad hostID numItems items with
    | error e => rw [hr] at hok; exact absurd hok (by simp)
    | ok h2 =>
      rw [hr] at hok
      have e1 : h2 = h1 := (Prod.mk.inj (Except.ok.inj hok)).1
      subst e1
      unfold exchange_info_landingPad at hr
      simp only at hr
      repeat' split at hr
      all_goals first
        | (rw [← Except.ok.inj hr]; rfl)
        | exact absurd hr (by simp)
  | pushApply num entries =>
    simp only [syncRecv] at hok
    cases hr : h.syncRecvApply Ppush num entries with
    | error e => rw [hr] at hok; exact absurd hok (by simp)
    | ok h2 =>
      rw [hr] at hok
      have e1 : h2 = h1 := (Prod.mk.inj (Except.ok.inj hok)).1
      subst e1
      have := syncRecvApplyLoop_counter Ppush num entries h h2 hr
      rw [this]; rfl
  | pullRequest from_id num =>
    simp only [syncRecv] at hok
    cases hr : h.syncPullRecvReply Ppull from_id num with
    | error e => rw [hr] at hok; exact absurd hok (by simp)
    | ok r =>
      rw [hr] at hok
      have e1 : r.1 = h1 := (Prod.mk.inj (Except.ok.inj hok)).1
      subst e1
      unfold syncPullRecvReply at hr
      split at hr
      · exact absurd hr (by simp)
      · split at hr
        · exact absurd hr (by simp)
        · split at hr
          · exact absurd hr (by simp)
          · rw [← Except.ok.inj hr]; rfl
  | pullReply from_id num entries =>
    simp only [syncRecv] at hok
    cases hr : h.syncPullRecvApply Ppull from_id num entries with
    | error e => rw [hr] at hok; exact absurd hok (by simp)
    | ok h2 =>
      rw [hr] at hok
      have e1 : h2 = h1 := (Prod.mk.inj (Except.ok.inj hok)).1
      subst e1
      unfold syncPullRecvApply at hr
      split at hr
      · exact absurd hr (by simp)
      · rename_i hpos
        split at hr
        · exact absurd hr (by simp)
        · split at hr
          · exact absurd hr (by simp)
          · split at hr
            · exact absurd hr (by simp)
            · rename_i h3 hl
              rw [← Except.ok.inj hr]
              have := syncPullRecvApplyLoop_counter Ppull num entries h h3 hl
              show h3.num_recv_expected - 1 + 1 = _
              rw [this]
              omega

end vGraph

namespace vGraph

variable {α β : Type}

theorem handled_cons_ok (Ppush : PushFn α β) (Ppull : PullFn α β) (h h' : vGraph α)
    (m : Message β) (ms : List (Message β)) (hok : handled Ppush Ppull h (m :: ms) = .ok h') :
    ∃ h1 out, h.syncRecv Ppush Ppull m = .ok (h1, out) ∧ handled Ppush Ppull h1 ms = .ok h' := by
  unfold handled at hok
  rw [List.foldlM_cons] at hok
  cases hr : h.syncRecv Ppush Ppull m with
  | error e => rw [hr] at hok; exact absurd hok (by simp [bind, Except.bind])
  | ok r => rw [hr] at hok; exact ⟨r.1, r.2, rfl, hok⟩

theorem handled_cons_of_ok (Ppush : PushFn α β) (Ppull : PullFn α β) (h h1 : vGraph α)
    (m : Message β) (ms : List (Message β)) (out : List (Nat × Message β))
    (hr : h.syncRecv Ppush Ppull m = .ok (h1, out)) :
    handled Ppush Ppull h (m :: ms) = handled Ppush Ppull h1 ms := by
  unfold handled
  rw [List.foldlM_cons, hr]
  rfl

theorem pullReplies_cons (m : Message β) (ms : List (Message β)) :
    (pullReplies (m :: ms)).length = (pullReplies [m]).length + (pullReplies ms).length := by
  unfold pullReplies
  rw [← List.length_append, ← List.filter_append]
  rfl

/-- At every point of the dispatching, `num_recv_expected` is what it was at
the start minus the number of replies applied. -/
theorem handled_counter (Ppush : PushFn α β) (Ppull : PullFn α β) (ms : List (Message β))
    (h h' : vGraph α) (hok : handled Ppush Ppull h ms = .ok h') :
    h'.num_recv_expected + (pullReplies ms).length = h.num_recv_expected := by
  induction ms generalizing h with
  | nil =>
    have : h = h' := Except.ok.inj hok
    rw [this]; rfl
  | cons m ms ih =>
    obtain ⟨h1, out, hr, hrest⟩ := handled_cons_ok Ppush Ppull h h' m ms hok
    have h1c := syncRecv_counter Ppush Ppull h h1 m out hr
    have := ih h1 hrest
    rw [pullReplies_cons]
    omega

theorem waitLoop_cons (Ppush : PushFn α β) (Ppull : PullFn α β) (h h1 : vGraph α)
    (m : Message β) (rest : List (Message β)) (sent out : List (Nat × Message β))
    (hc : h.num_recv_expected ≠ 0) (hr : h.syncRecv Ppush Ppull m = .ok (h1, out)) :
    waitLoop Ppush Ppull (m :: rest) h sent = waitLoop Ppush Ppull rest h1 (sent ++ out) := by
  rw [waitLoop, if_neg hc]
  simp only [handleReceives, hr]

/-- When the wait loop exits, it has dispatched a prefix of the queue that
holds as many replies as were expected, and no shorter prefix does. -/
theorem waitLoop_exit (Ppush : PushFn α β) (Ppull : PullFn α β) (q : List (Message β))
    (h : vGraph α) (sent : List (Nat × Message β)) (h' : vGraph α)
    (sent' : List (Nat × Message β)) (rest : List (Message β))
    (hok : waitLoop Ppush Ppull q h sent = .ok (some (h', sent', rest))) :
    ∃ done, q = done ++ rest ∧ handled Ppush Ppull h done = .ok h' ∧
      h'.num_recv_expected = 0 ∧ (pullReplies done).length = h.num_recv_expected ∧
      ∀ p s, done = p ++ s → s ≠ [] → (pullReplies p).length < h.num_recv_expected := by
  induction q generalizing h sent with
  | nil =>
    rw [waitLoop] at hok
    by_cases hc : h.num_recv_expected = 0
    · rw [if_pos hc] at hok
      simp only [Except.ok.injEq, Option.some.injEq, Prod.mk.injEq] at hok
      obtain ⟨e1, -, e3⟩ := hok
      subst e1 e3
      refine ⟨[], rfl, rfl, hc, by rw [hc]; rfl, ?_⟩
      intro p s hps hs
      have : s = [] := (List.append_eq_nil.1 hps.symm).2
      exact absurd this hs
    · rw [if_neg hc] at hok
      exact absurd hok (by simp)
  | cons m q ih =>
    by_cases hc : h.num_recv_expected = 0
    · rw [waitLoop, if_pos hc] at hok
      simp only [Except.ok.injEq, Option.some.injEq, Prod.mk.injEq] at hok
      obtain ⟨e1, -, e3⟩ := hok
      subst e1 e3
      refine ⟨[], rfl, rfl, hc, by rw [hc]; rfl, ?_⟩
      intro p s hps hs
      have : s = [] := (List.append_eq_nil.1 hps.symm).2
      exact absurd this hs
    · cases hr : h.syncRecv Ppush Ppull m with
      | error e =>
        rw [waitLoop, if_neg hc] at hok
        simp only [handleReceives, hr] at hok
        exact absurd hok (by simp)
      | ok r =>
        obtain ⟨h1, out⟩ := r
        rw [waitLoop_cons Ppush Ppull h h1 m q sent out hc hr] at hok
        obtain ⟨done, hq, hh, h0, hcount, hmin⟩ := ih h1 (sent ++ out) hok
        have h1c := syncRecv_counter Ppush Ppull h h1 m out hr
        refine ⟨m :: done, by rw [hq]; rfl, ?_, h0, ?_, ?_⟩
        · rw [handled_cons_of_ok Ppush Ppull h h1 m done out hr]; exact hh
        · rw [pullReplies_cons]; omega
        · intro p s hps hs
          cases p with
          | nil =>
            show 0 < h.num_recv_expected
            omega
          | cons a p =>
            simp only [List.cons_append, List.cons.injEq] at hps
            obtain ⟨e1, e2⟩ := hps
            subst e1
            have := hmin p s e2 hs
            rw [pullReplies_cons]
            omega

/-- While fewer replies than expected have arrived, the wait loop goes on
polling. -/
theorem waitLoop_blocks (Ppush : PushFn α β) (Ppull : PullFn α β) (q : List (Message β))
    (h hq : vGraph α) (sent : List (Nat × Message β))
    (hok : handled Ppush Ppull h q = .ok hq)
    (hlt : (pullReplies q).length < h.num_recv_expected) :
    waitLoop Ppush Ppull q h sent = .ok none := by
  induction q generalizing h sent with
  | nil =>
    rw [waitLoop, if_neg (by omega)]
  | cons m q ih =>
    obtain ⟨h1, out, hr, hrest⟩ := handled_cons_ok Ppush Ppull h hq m q hok
    have h1c := syncRecv_counter Ppush Ppull h h1 m out hr
    rw [pullReplies_cons] at hlt
    rw [waitLoop_cons Ppush Ppull h h1 m q sent out (by omega) hr]
    exact ih h1 (sent ++ out) hrest (by omega)

/-- Once as many replies as expected have been applied, the wait loop exits. -/
theorem waitLoop_exits (Ppush : PushFn α β) (Ppull : PullFn α β) (done : List (Message β))
    (rest : List (Message β)) (h h' : vGraph α) (sent : List (Nat × Message β))
    (hok : handled Ppush Ppull h done = .ok h')
    (heq : (pullReplies done).length = h.num_recv_expected) :
    ∃ r, waitLoop Ppush Ppull (done ++ rest) h sent = .ok (some r) := by
  induction done generalizing h sent with
  | nil =>
    have hc : h.num_recv_expected = 0 := by rw [← heq]; rfl
    cases rest with
    | nil => exact ⟨_, by rw [List.append_nil, waitLoop, if_pos hc]⟩
    | cons a rest => exact ⟨_, by rw [List.nil_append, waitLoop, if_pos hc]⟩
  | cons m done ih =>
    by_cases hc : h.num_recv_expected = 0
    · exact ⟨_, by rw [List.cons_append, waitLoop, if_pos hc]⟩
    · obtain ⟨h1, out, hr, hrest⟩ := handled_cons_ok Ppush Ppull h h' m done hok
      have h1c := syncRecv_counter Ppush Ppull h h1 m out hr
      rw [pullReplies_cons] at heq
      rw [List.cons_append, waitLoop_cons Ppush Ppull h h1 m (done ++ rest) sent out hc hr]
      exact ih h1 (sent ++ out) hrest (by omega)

end vGraph

theorem length_filter_ne_range (n b : Nat) (hb : b < n) :
    ((List.range n).filter (· ≠ b)).length = n - 1 := by
  have h1 : (List.range n).filter (· ≠ b) = (List.range n).erase b := by
    rw [List.Nodup.erase_eq_filter (List.nodup_range n) b]
    apply List.filter_congr
    intro x _
    by_cases hx : x = b <;> simp [hx]
  rw [h1, List.length_erase_of_mem (List.mem_range.2 hb), List.length_range]

/-- C25. Pull waits for one reply per contacted host.  On host `b` of a run
of `n` hosts, `sync_pull` sends one request to every host other than `b`, in
the order of the host ids (`n - 1` requests, whatever the Slave Sets hold),
and leaves the number of requests in `num_recv_expected`.  At every point of
the wait loop `num_recv_expected` is the number of requests minus the number
of replies applied; the loop exits after the shortest prefix of the arriving
messages that holds a reply for every request, goes on polling while fewer
replies have arrived, and exits once as many have been applied. -/
theorem pull_waits_for_replies {α β : Type} (Ppush : PushFn α β) (Ppull : PullFn α β)
    (n b : Nat) (hn : n ≤ 2 ^ 32) (hb : b < n) (h : vGraph α) (hid : h.id = b)
    (hlen : h.slaveNodes.length = n) :
    ∃ h1 msgs, (h.sync_pull ⟨b, n⟩ : Except String (vGraph α × List (Nat × Message β)))
        = .ok (h1, msgs) ∧
      msgs.map (·.1) = (List.range n).filter (· ≠ b) ∧ msgs.length = n - 1 ∧
      (∀ m ∈ msgs, ∃ k, m.2 = Message.pullRequest b k) ∧
      h1.num_recv_expected = msgs.length ∧
      (∀ ms hp, h1.handled Ppush Ppull ms = .ok hp →
        hp.num_recv_expected + (pullReplies ms).length = msgs.length) ∧
      (∀ q sent h' sent' rest,
        vGraph.waitLoop Ppush Ppull q h1 sent = .ok (some (h', sent', rest)) →
        ∃ done, q = done ++ rest ∧ h1.handled Ppush Ppull done = .ok h' ∧
          h'.num_recv_expected = 0 ∧ (pullReplies done).length = msgs.length ∧
          ∀ p s, done = p ++ s → s ≠ [] → (pullReplies p).length < msgs.length) ∧
      (∀ q hq sent, h1.handled Ppush Ppull q = .ok hq → (pullReplies q).length < msgs.length →
        vGraph.waitLoop Ppush Ppull q h1 sent = .ok none) ∧
      (∀ done h' rest sent, h1.handled Ppush Ppull done = .ok h' →
        (pullReplies done).length = msgs.length →
        ∃ r, vGraph.waitLoop Ppush Ppull (done ++ rest) h1 sent = .ok (some r)) := by
  have hsend := vGraph.sync_pull_eq (β := β) n b hn hb h hid hlen
  have hcount := length_filter_ne_range n b hb
  refine ⟨_, _, hsend, ?_, ?_, ?_, ?_, ?_, ?_, ?_, ?_⟩
  · rw [List.map_map]
    exact List.map_id _
  · rw [List.length_map]; exact hcount
  · intro m hm
    obtain ⟨x, -, rfl⟩ := List.mem_map.1 hm
    exact ⟨_, rfl⟩
  · rw [List.length_map]
  · intro ms hp hok
    have := vGraph.handled_counter Ppush Ppull ms _ hp hok
    rw [List.length_map]
    exact this
  · intro q sent h' sent' rest hok
    obtain ⟨done, h1, h2, h3, h4, h5⟩ :=
      vGraph.waitLoop_exit Ppush Ppull q _ sent h' sent' rest hok
    refine ⟨done, h1, h2, h3, ?_, ?_⟩
    · rw [List.length_map]; exact h4
    · intro p s hps hs
      rw [List.length_map]
      exact h5 p s hps hs
  · intro q hq sent hok hlt
    rw [List.length_map] at hlt
    exact vGraph.waitLoop_blocks Ppush Ppull q _ hq sent hok hlt
  · intro done h' rest sent hok heq
    rw [List.length_map] at heq
    exact vGraph.waitLoop_exits Ppush Ppull done rest _ h' sent hok heq

/-- C25 on host 1 of the sample run of three hosts: two requests, to the
hosts 0 and 2. -/
theorem pull_waits_for_replies_witness :
    ∃ h1 msgs, ((sampleHosts 1).sync_pull ⟨1, 3⟩ :
        Except String (vGraph (PR_NodeData Int) × List (Nat × Message Int))) = .ok (h1, msgs) ∧
      msgs.map (·.1) = (List.range 3).filter (· ≠ 1) ∧ msgs.length = 3 - 1 ∧
      (∀ m ∈ msgs, ∃ k, m.2 = Message.pullRequest 1 k) ∧
      h1.num_recv_expected = msgs.length ∧
      (∀ ms hp, h1.handled (Syncer_0 Int) (valuePull Int) ms = .ok hp →
        hp.num_recv_expected + (pullReplies ms).length = msgs.length) ∧
      (∀ q sent h' sent' rest,
        vGraph.waitLoop (Syncer_0 Int) (valuePull Int) q h1 sent = .ok (some (h', sent', rest)) →
        ∃ done, q = done ++ rest ∧ h1.handled (Syncer_0 Int) (valuePull Int) done = .ok h' ∧
          h'.num_recv_expected = 0 ∧ (pullReplies done).length = msgs.length ∧
          ∀ p s, done = p ++ s → s ≠ [] → (pullReplies p).length < msgs.length) ∧
      (∀ q hq sent, h1.handled (Syncer_0 Int) (valuePull Int) q = .ok hq →
        (pullReplies q).length < msgs.length →
        vGraph.waitLoop (Syncer_0 Int) (valuePull Int) q h1 sent = .ok none) ∧
      (∀ done h' rest sent, h1.handled (Syncer_0 Int) (valuePull Int) done = .ok h' →
        (pullReplies done).length = msgs.length →
        ∃ r, vGraph.waitLoop (Syncer_0 Int) (valuePull Int) (done ++ rest) h1 sent
          = .ok (some r)) :=
  pull_waits_for_replies (Syncer_0 Int) (valuePull Int) 3 1 (by decide) (by decide)
    (sampleHosts 1) rfl rfl

/-- The wait loop on host 1 of the sample run, which expects two replies:
with the reply of host 0 alone it goes on polling, with the replies of the
hosts 0 and 2 it exits. -/
theorem waitLoop_example :
    ∃ h1 msgs, ((sampleHosts 1).sync_pull ⟨1, 3⟩ :
        Except String (vGraph (PR_NodeData Int) × List (Nat × Message Int))) = .ok (h1, msgs) ∧
      vGraph.waitLoop (Syncer_0 Int) (valuePull Int) [Message.pullReply 0 1 [(10, 5)]] h1 []
        = .ok none ∧
      ∃ h2, vGraph.waitLoop (Syncer_0 Int) (valuePull Int)
          [Message.pullReply 0 1 [(10, 5)], Message.pullReply 2 0 []] h1 []
        = .ok (some (h2, [], [])) ∧ h2.num_recv_expected = 0 :=
  ⟨_, _, rfl, rfl, _, rfl, rfl⟩

/-! ## Accesses of a reader whose streams are in step -/

namespace OfflineGraph

/-- `outIndexs(node)` inside the file, on a reader in step: the value is the
offset entry of the file, the reader stays in step, and only `file1`, `loc1`
and the seek counter change. -/
theorem outIndexs_step (g : OfflineGraph) (bytes : List Byte) (node : Nat)
    (hs : g.InStep bytes) (hlen : bytes.length < 2 ^ 63)
    (hin : (4 + node) * 8 + 8 ≤ bytes.length) :
    (g.outIndexs node).1 = some (hdrField bytes (4 + node)) ∧
    (g.outIndexs node).2 = { g with
      file1 := ⟨bytes, (4 + node) * 8 + 8, false⟩
      loc1 := (4 + node) * 8 + 8
      numSeeks1 := if g.loc1 ≠ (4 + node) * 8 then u64 (g.numSeeks1 + 1) else g.numSeeks1 } := by
  have hpos : u64 ((4 + node) * 8) = (4 + node) * 8 := Nat.mod_eq_of_lt (by omega)
  have hpos8 : u64 ((4 + node) * 8 + 8) = (4 + node) * 8 + 8 := Nat.mod_eq_of_lt (by omega)
  have hread : (⟨bytes, (4 + node) * 8, false⟩ : FileStream).read 8
      = ((bytes.drop ((4 + node) * 8)).take 8, ⟨bytes, (4 + node) * 8 + 8, false⟩) :=
    FileStream.read_of_le _ 8 rfl hin
  have hl : ((bytes.drop ((4 + node) * 8)).take 8).length = 8 := by
    simp only [List.length_take, List.length_drop]; omega
  have hmul : 8 * (4 + node) = (4 + node) * 8 := Nat.mul_comm _ _
  unfold outIndexs
  rw [hpos]
  by_cases hc : g.loc1 ≠ (4 + node) * 8
  · simp only [hc, ne_eq, not_false_eq_true, ↓reduceIte, hs.file1]
    rw [FileStream.seekg_of_lt _ _ rfl (by omega)]
    simp only [hread, hl, ↓reduceIte, hpos8, hdrField, hmul, and_self]
  · have hc' : g.loc1 = (4 + node) * 8 := not_not.1 hc
    simp only [hc', ne_eq, not_true_eq_false, ↓reduceIte]
    have hf : g.file1 = ⟨bytes, (4 + node) * 8, false⟩ := by rw [hs.file1, hc']
    simp only [hf, hread, hl, ↓reduceIte, hpos8, hdrField, hmul, true_and]

/-- `outEdges(edge)` inside the file, on a reader in step. -/
theorem outEdges_step (g : OfflineGraph) (bytes : List Byte) (edge : Nat)
    (hs : g.InStep bytes) (hlen : bytes.length < 2 ^ 63)
    (hin : (4 + g.numNodes) * 8 + edge * dstWidth g.v2 + dstWidth g.v2 ≤ bytes.length) :
    (g.outEdges edge).1 = some (fromLE ((bytes.drop
      ((4 + g.numNodes) * 8 + edge * dstWidth g.v2)).take (dstWidth g.v2))) ∧
    (g.outEdges edge).2 = { g with
      fileIndex := ⟨bytes, (4 + g.numNodes) * 8 + edge * dstWidth g.v2 + dstWidth g.v2, false⟩
      locIndex := (4 + g.numNodes) * 8 + edge * dstWidth g.v2 + dstWidth g.v2
      numSeeksDst := if g.locIndex ≠ (4 + g.numNodes) * 8 + edge * dstWidth g.v2
        then u64 (g.numSeeksDst + 1) else g.numSeeksDst } := by
  generalize hp : (4 + g.numNodes) * 8 + edge * dstWidth g.v2 = pos at hin ⊢
  generalize hw : dstWidth g.v2 = w at hin ⊢
  have hpos : u64 pos = pos := Nat.mod_eq_of_lt (by omega)
  have hposw : u64 (pos + w) = pos + w := Nat.mod_eq_of_lt (by omega)
  have hread : (⟨bytes, pos, false⟩ : FileStream).read w
      = ((bytes.drop pos).take w, ⟨bytes, pos + w, false⟩) :=
    FileStream.read_of_le _ w rfl hin
  have hl : ((bytes.drop pos).take w).length = w := by
    simp only [List.length_take, List.length_drop]; omega
  unfold outEdges
  rw [hp, hw, hpos]
  by_cases hc : g.locIndex ≠ pos
  · simp only [hc, ne_eq, not_false_eq_true, ↓reduceIte, hs.fileIndex]
    rw [FileStream.seekg_of_lt _ _ rfl (by omega)]
    simp only [hread, hl, ↓reduceIte, hposw, and_self]
  · have hc' : g.locIndex = pos := not_not.1 hc
    simp only [hc', ne_eq, not_true_eq_false, ↓reduceIte]
    have hf : g.fileIndex = ⟨bytes, pos, false⟩ := by rw [hs.fileIndex, hc']
    simp only [hf, hread, hl, ↓reduceIte, hposw, true_and]

end OfflineGraph

namespace OfflineGraph

/-- `edgeData<T>(edge)` inside the file, on a reader in step: the `sizeT`
bytes at `payloadStart + edge * sizeEdgeData`. -/
theorem edgeData_step (g : OfflineGraph) (bytes : List Byte) (sizeT edge : Nat)
    (hs : g.InStep bytes) (hlen : bytes.length < 2 ^ 63) (hsz : sizeT ≤ g.sizeEdgeData)
    (hin : g.payloadStart + edge * g.sizeEdgeData + sizeT ≤ bytes.length) :
    g.edgeData sizeT edge = .ok
      (some ((bytes.drop (g.payloadStart + edge * g.sizeEdgeData)).take sizeT),
       { g with
        fileEdgeData := ⟨bytes, g.payloadStart + edge * g.sizeEdgeData + sizeT, false⟩
        locEdgeData := g.payloadStart + edge * g.sizeEdgeData + sizeT
        numSeeksData := if g.locEdgeData ≠ g.payloadStart + edge * g.sizeEdgeData
          then u64 (g.numSeeksData + 1) else g.numSeeksData }) := by
  have hP : g.payloadStart
      = ((4 + g.numNodes) * 8 + g.numEdges * dstWidth g.v2 + 7) / 8 * 8 := rfl
  generalize hb : (4 + g.numNodes) * 8 + g.numEdges * dstWidth g.v2 = base at hP
  generalize hpe : edge * g.sizeEdgeData = off at hin ⊢
  have hbase : base ≤ g.payloadStart := by rw [hP]; omega
  have h0 : u64 base = base := Nat.mod_eq_of_lt (by omega)
  have h1 : u64 (base + 7) / 8 * 8 = g.payloadStart := by
    rw [hP]
    have : u64 (base + 7) = base + 7 := Nat.mod_eq_of_lt (by omega)
    rw [this]
  have h2 : u64 (g.payloadStart + off) = g.payloadStart + off := Nat.mod_eq_of_lt (by omega)
  have h3 : u64 (g.payloadStart + off + sizeT) = g.payloadStart + off + sizeT :=
    Nat.mod_eq_of_lt (by omega)
  have hread : (⟨bytes, g.payloadStart + off, false⟩ : FileStream).read sizeT
      = ((bytes.drop (g.payloadStart + off)).take sizeT,
         ⟨bytes, g.payloadStart + off + sizeT, false⟩) :=
    FileStream.read_of_le _ sizeT rfl hin
  have hl : ((bytes.drop (g.payloadStart + off)).take sizeT).length = sizeT := by
    simp only [List.length_take, List.length_drop]; omega
  unfold edgeData
  rw [if_neg (by simpa using hsz)]
  simp only [hb, h0, h1, hpe, h2]
  by_cases hc : g.locEdgeData ≠ g.payloadStart + off
  · simp only [hc, ne_eq, not_false_eq_true, ↓reduceIte, hs.fileEdgeData]
    rw [FileStream.seekg_of_lt _ _ rfl (by omega)]
    simp only [hread, hl, ↓reduceIte, h3]
  · have hc' : g.locEdgeData = g.payloadStart + off := not_not.1 hc
    simp only [hc', ne_eq, not_true_eq_false, ↓reduceIte]
    have hf : g.fileEdgeData = ⟨bytes, g.payloadStart + off, false⟩ := by
      rw [hs.fileEdgeData, hc']
    simp only [hf, hread, hl, ↓reduceIte, h3]

/-- The reader that the constructor returns is in step, and its fields are
the header fields of the file. -/
theorem inStep_of_mk? (bytes : List Byte) (g : OfflineGraph) (h : mk? (some bytes) = .ok g) :
    g.InStep bytes ∧ g.loc1 = 0 ∧ g.locIndex = 0 ∧ g.locEdgeData = 0 ∧
    g.numNodes = hdrField bytes 2 ∧ g.numEdges = hdrField bytes 3 ∧
    g.sizeEdgeData = hdrField bytes 1 ∧ g.v2 = decide (hdrField bytes 0 = 2) ∧
    (hdrField bytes 0 = 1 ∨ hdrField bytes 0 = 2) ∧
    u64 (8 * (4 + hdrField bytes 2)
      + dstWidth (decide (hdrField bytes 0 = 2)) * hdrField bytes 3) ≤ bytes.length := by
  rw [mk?_some] at h
  split at h
  · exact absurd h (by simp)
  · rename_i hv
    split at h
    · exact absurd h (by simp)
    · split at h
      · exact absurd h (by simp)
      · rename_i hl
        rw [← Except.ok.inj h]
        refine ⟨⟨rfl, rfl, rfl⟩, rfl, rfl, rfl, rfl, rfl, rfl, rfl, by omega, by omega⟩

end OfflineGraph

/-- The reader accepts the version-1 encoding of the sample graph. -/
theorem sampleGraph_accepted :
    ∃ g, OfflineGraph.mk? (some (encodeV1 sampleGraph)) = .ok g ∧ g.numNodes = 2 ∧
      g.numEdges = 3 ∧ g.sizeEdgeData = 4 ∧ g.v2 = false :=
  ⟨_, rfl, rfl, rfl, rfl, rfl⟩

namespace OfflineGraph

/-- C30. Edge payload position.  On a reader in step (as the constructor
leaves it) with the header fields `numNodes`, `numEdges`, `v2` and
`sizeEdgeData`, when the element lies inside a file shorter than `2^63`
bytes (nothing overflows), `edgeData<T>(k)` returns the `sizeof(T)` bytes of
the file at the byte offset `P + k * sizeEdgeData` and leaves the reader in
step behind them.  `P` is the smallest multiple of 8 that is not below the
end `8 * (4 + N) + w * E` of the destination array; the padding between the
two is 0 for version 2 and 0 or 4 for version 1. -/
theorem edgeData_position (g : OfflineGraph) (bytes : List Byte) (sizeT k : Nat)
    (hs : g.InStep bytes) (hlen : bytes.length < 2 ^ 63) (hsz : sizeT ≤ g.sizeEdgeData)
    (hin : g.payloadStart + k * g.sizeEdgeData + sizeT ≤ bytes.length) :
    (∃ g1, g.edgeData sizeT k
        = .ok (some ((bytes.drop (g.payloadStart + k * g.sizeEdgeData)).take sizeT), g1) ∧
      g1.InStep bytes ∧ g1.locEdgeData = g.payloadStart + k * g.sizeEdgeData + sizeT) ∧
    8 ∣ g.payloadStart ∧
    8 * (4 + g.numNodes) + dstWidth g.v2 * g.numEdges ≤ g.payloadStart ∧
    (∀ m, 8 ∣ m → 8 * (4 + g.numNodes) + dstWidth g.v2 * g.numEdges ≤ m →
      g.payloadStart ≤ m) ∧
    (g.v2 = true →
      g.payloadStart - (8 * (4 + g.numNodes) + dstWidth g.v2 * g.numEdges) = 0) ∧
    (g.v2 = false →
      g.payloadStart - (8 * (4 + g.numNodes) + dstWidth g.v2 * g.numEdges) = 0 ∨
      g.payloadStart - (8 * (4 + g.numNodes) + dstWidth g.v2 * g.numEdges) = 4) := by
  have hstep := OfflineGraph.edgeData_step g bytes sizeT k hs hlen hsz hin
  have hP : g.payloadStart
      = ((4 + g.numNodes) * 8 + g.numEdges * dstWidth g.v2 + 7) / 8 * 8 := rfl
  have hcomm : 8 * (4 + g.numNodes) + dstWidth g.v2 * g.numEdges
      = (4 + g.numNodes) * 8 + g.numEdges * dstWidth g.v2 := by ring
  rw [hcomm]
  generalize ha : (4 + g.numNodes) * 8 = a at hP ⊢
  refine ⟨⟨_, hstep, ⟨hs.file1, hs.fileIndex, rfl⟩, rfl⟩, ?_, ?_, ?_, ?_, ?_⟩
  · rw [hP]; exact Dvd.intro_left _ rfl
  · rw [hP]; omega
  · rintro m ⟨c, rfl⟩ hm
    rw [hP]; omega
  · intro hv
    rw [hP, hv]
    simp only [dstWidth, ↓reduceIte]
    omega
  · intro hv
    rw [hP, hv]
    simp only [dstWidth, Bool.false_eq_true, ↓reduceIte]
    omega

/-- C30 on the version-1 encoding of the sample graph (2 vertices, 3 edges,
4-byte payloads): the destination array ends at byte 60, the payload starts
at byte 64 after 4 bytes of padding, and `edgeData<T>(1)` reads the 4 bytes
at offset 68. -/
theorem edgeData_position_witness :
    ∃ g, mk? (some (encodeV1 sampleGraph)) = .ok g ∧ g.payloadStart = 64 ∧
      (∃ g1, g.edgeData 4 1
          = .ok (some (((encodeV1 sampleGraph).drop (g.payloadStart + 1 * g.sizeEdgeData)).take
              4), g1) ∧
        g1.InStep (encodeV1 sampleGraph) ∧
        g1.locEdgeData = g.payloadStart + 1 * g.sizeEdgeData + 4) ∧
      8 ∣ g.payloadStart ∧
      8 * (4 + g.numNodes) + dstWidth g.v2 * g.numEdges ≤ g.payloadStart ∧
      (∀ m, 8 ∣ m → 8 * (4 + g.numNodes) + dstWidth g.v2 * g.numEdges ≤ m →
        g.payloadStart ≤ m) ∧
      (g.v2 = true →
        g.payloadStart - (8 * (4 + g.numNodes) + dstWidth g.v2 * g.numEdges) = 0) ∧
      (g.v2 = false →
        g.payloadStart - (8 * (4 + g.numNodes) + dstWidth g.v2 * g.numEdges) = 0 ∨
        g.payloadStart - (8 * (4 + g.numNodes) + dstWidth g.v2 * g.numEdges) = 4) := by
  obtain ⟨g, hg, hN, hE, hS, hv⟩ := sampleGraph_accepted
  have hP : g.payloadStart = 64 := by
    simp only [payloadStart, hN, hE, hv, dstWidth]
    decide
  refine ⟨g, hg, hP, ?_⟩
  exact edgeData_position g (encodeV1 sampleGraph) 4 1 (inStep_of_mk? _ g hg).1 (by decide)
    (by rw [hS]) (by rw [hP, hS]; decide)

end OfflineGraph

/-! ## Edge ranges -/

/-- A table that does not decrease from one entry to the next does not
decrease at all. -/
theorem offsetEntry_mono (bytes : List Byte) (N : Nat)
    (hmono : ∀ i, i + 1 < N → offsetEntry bytes i ≤ offsetEntry bytes (i + 1))
    (u v : Nat) (huv : u ≤ v) (hv : v < N) : offsetEntry bytes u ≤ offsetEntry bytes v := by
  induction v with
  | zero =>
    have : u = 0 := by omega
    rw [this]
  | succ v ih =>
    by_cases h : u = v + 1
    · rw [h]
    · exact le_trans (ih (by omega) (by omega)) (hmono v hv)

/-- With a non-decreasing offset table the ranges of the vertices are
pairwise disjoint and cover exactly the edge indices below the last entry. -/
theorem ranges_tile (bytes : List Byte) (N : Nat)
    (hmono : ∀ i, i + 1 < N → offsetEntry bytes i ≤ offsetEntry bytes (i + 1)) :
    (∀ u v, u < v → v < N → ∀ e,
      ¬ ((rangeBegin bytes u ≤ e ∧ e < offsetEntry bytes u) ∧
         (rangeBegin bytes v ≤ e ∧ e < offsetEntry bytes v))) ∧
    (0 < N → ∀ e, (∃ v, v < N ∧ rangeBegin bytes v ≤ e ∧ e < offsetEntry bytes v)
      ↔ e < offsetEntry bytes (N - 1)) := by
  constructor
  · rintro u v huv hv e ⟨⟨-, h1⟩, ⟨h2, -⟩⟩
    have hv0 : v ≠ 0 := by omega
    have hle := offsetEntry_mono bytes N hmono u (v - 1) (by omega) (by omega)
    simp only [rangeBegin, hv0, ↓reduceIte] at h2
    omega
  · intro hN e
    constructor
    · rintro ⟨v, hv, -, h2⟩
      exact lt_of_lt_of_le h2 (offsetEntry_mono bytes N hmono v (N - 1) (by omega) (by omega))
    · intro he
      have hex : ∃ v, v < N ∧ e < offsetEntry bytes v := ⟨N - 1, by omega, he⟩
      classical
      refine ⟨Nat.find hex, (Nat.find_spec hex).1, ?_, (Nat.find_spec hex).2⟩
      by_cases h0 : Nat.find hex = 0
      · simp [rangeBegin, h0]
      · simp only [rangeBegin, h0, ↓reduceIte]
        by_contra hc
        have hmin := Nat.find_min hex (m := Nat.find hex - 1) (by omega)
        exact hmin ⟨by have := (Nat.find_spec hex).1; omega, by omega⟩

namespace OfflineGraph

/-- C29, as stated, fails for a header whose sizes overflow the length
check.  The reader accepts the 32-byte `wrapFile`, whose header announces
`2^61` vertices; the file holds no offset entry, and `edge_end(0)` and
`edge_begin(1)` read past its end. -/
theorem accepted_without_offsets :
    ∃ g, mk? (some wrapFile) = .ok g ∧ g.size = 2 ^ 61 ∧ wrapFile.length = 32 ∧
      (g.edge_begin 0).1 = some 0 ∧ (g.edge_end 0).1 = none ∧ (g.edge_begin 1).1 = none :=
  ⟨_, rfl, rfl, rfl, rfl, rfl, rfl⟩

/-- C29 (amended). Edge ranges tile the edge array.  On a reader in step (as
the constructor leaves it) on a file shorter than `2^63` bytes that holds
the whole offset table of its `N = numNodes` vertices, for every vertex `v`
below `N` (a `uint32_t`): `edge_begin(0) = 0`, `edge_begin(v) = offset[v-1]`
for `v > 0`, `edge_end(v) = offset[v]`, hence `edge_end(v) = edge_begin(v+1)`
for `v + 1 < N`, and the reader stays in step.  When the offset table is
non-decreasing, the ranges of the vertices are pairwise disjoint and their
union is exactly `[0, offset[N-1])`. -/
theorem edge_ranges_tile (g : OfflineGraph) (bytes : List Byte) (hs : g.InStep bytes)
    (hlen : bytes.length < 2 ^ 63) (hoff : 8 * (4 + g.numNodes) ≤ bytes.length) :
    (g.edge_begin 0).1 = some 0 ∧
    (∀ v, v < g.numNodes → v < 2 ^ 32 →
      (g.edge_begin v).1 = some (rangeBegin bytes v) ∧
      (g.edge_end v).1 = some (offsetEntry bytes v) ∧
      (g.edge_begin v).2.InStep bytes ∧ (g.edge_end v).2.InStep bytes ∧
      (g.edge_begin v).2.numNodes = g.numNodes ∧ (g.edge_end v).2.numNodes = g.numNodes) ∧
    (∀ v, v + 1 < g.numNodes → v + 1 < 2 ^ 32 →
      (g.edge_end v).1 = (g.edge_begin (v + 1)).1) ∧
    ((∀ i, i + 1 < g.numNodes → offsetEntry bytes i ≤ offsetEntry bytes (i + 1)) →
      (∀ u v, u < v → v < g.numNodes → ∀ e,
        ¬ ((rangeBegin bytes u ≤ e ∧ e < offsetEntry bytes u) ∧
           (rangeBegin bytes v ≤ e ∧ e < offsetEntry bytes v))) ∧
      (0 < g.numNodes →
        ∀ e, (∃ v, v < g.numNodes ∧ rangeBegin bytes v ≤ e ∧ e < offsetEntry bytes v)
          ↔ e < offsetEntry bytes (g.numNodes - 1))) := by
  have hend : ∀ v, v < g.numNodes → v < 2 ^ 32 →
      (g.edge_end v).1 = some (offsetEntry bytes v) ∧ (g.edge_end v).2.InStep bytes ∧
      (g.edge_end v).2.numNodes = g.numNodes := by
    intro v hv h32
    have hu : u32 v = v := Nat.mod_eq_of_lt h32
    obtain ⟨h1, h2⟩ := outIndexs_step g bytes v hs hlen (by omega)
    unfold edge_end
    rw [hu, h1, h2]
    exact ⟨rfl, ⟨rfl, hs.fileIndex, hs.fileEdgeData⟩, rfl⟩
  have hbegin : ∀ v, v < g.numNodes → v < 2 ^ 32 →
      (g.edge_begin v).1 = some (rangeBegin bytes v) ∧ (g.edge_begin v).2.InStep bytes ∧
      (g.edge_begin v).2.numNodes = g.numNodes := by
    intro v hv h32
    have hu : u32 v = v := Nat.mod_eq_of_lt h32
    unfold edge_begin
    rw [hu]
    by_cases h0 : v = 0
    · rw [if_pos h0]
      exact ⟨by simp [rangeBegin, h0], hs, rfl⟩
    · rw [if_neg h0]
      obtain ⟨h1, h2⟩ := outIndexs_step g bytes (v - 1) hs hlen (by omega)
      rw [h1, h2]
      exact ⟨by simp [rangeBegin, h0, offsetEntry], ⟨rfl, hs.fileIndex, hs.fileEdgeData⟩, rfl⟩
  refine ⟨rfl, ?_, ?_, ranges_tile bytes g.numNodes⟩
  · intro v hv h32
    obtain ⟨a1, a2, a3⟩ := hbegin v hv h32
    obtain ⟨b1, b2, b3⟩ := hend v hv h32
    exact ⟨a1, b1, a2, b2, a3, b3⟩
  · intro v hv h32
    rw [(hend v (by omega) (by omega)).1, (hbegin (v + 1) hv h32).1]
    simp [rangeBegin]

/-- C29 amended, on the version-1 encoding of the sample graph, whose offset
table is `[2, 3]`. -/
theorem edge_ranges_tile_witness :
    ∃ g, mk? (some (encodeV1 sampleGraph)) = .ok g ∧ g.numNodes = 2 ∧
      offsetEntry (encodeV1 sampleGraph) 0 = 2 ∧ offsetEntry (encodeV1 sampleGraph) 1 = 3 ∧
      (g.edge_begin 0).1 = some 0 ∧
      (∀ v, v < g.numNodes → v < 2 ^ 32 →
        (g.edge_begin v).1 = some (rangeBegin (encodeV1 sampleGraph) v) ∧
        (g.edge_end v).1 = some (offsetEntry (encodeV1 sampleGraph) v) ∧
        (g.edge_begin v).2.InStep (encodeV1 sampleGraph) ∧
        (g.edge_end v).2.InStep (encodeV1 sampleGraph) ∧
        (g.edge_begin v).2.numNodes = g.numNodes ∧ (g.edge_end v).2.numNodes = g.numNodes) ∧
      (∀ v, v + 1 < g.numNodes → v + 1 < 2 ^ 32 →
        (g.edge_end v).1 = (g.edge_begin (v + 1)).1) ∧
      ((∀ i, i + 1 < g.numNodes →
          offsetEntry (encodeV1 sampleGraph) i ≤ offsetEntry (encodeV1 sampleGraph) (i + 1)) →
        (∀ u v, u < v → v < g.numNodes → ∀ e,
          ¬ ((rangeBegin (encodeV1 sampleGraph) u ≤ e ∧ e < offsetEntry (encodeV1 sampleGraph) u) ∧
             (rangeBegin (encodeV1 sampleGraph) v ≤ e ∧
               e < offsetEntry (encodeV1 sampleGraph) v))) ∧
        (0 < g.numNodes →
          ∀ e, (∃ v, v < g.numNodes ∧ rangeBegin (encodeV1 sampleGraph) v ≤ e ∧
              e < offsetEntry (encodeV1 sampleGraph) v)
            ↔ e < offsetEntry (encodeV1 sampleGraph) (g.numNodes - 1))) := by
  obtain ⟨g, hg, hN, -⟩ := sampleGraph_accepted
  exact ⟨g, hg, hN, by decide, by decide,
    edge_ranges_tile g (encodeV1 sampleGraph) (inStep_of_mk? _ g hg).1 (by decide)
      (by rw [hN]; decide)⟩

end OfflineGraph

/-- A file that the constructor accepts and whose header sizes do not
overflow 64 bits holds its whole offset table. -/
theorem OfflineGraph.offsets_in_file_of_mk? (bytes : List Byte) (g : OfflineGraph)
    (h : OfflineGraph.mk? (some bytes) = .ok g)
    (hno : 8 * (4 + g.numNodes) + OfflineGraph.dstWidth g.v2 * g.numEdges < 2 ^ 64) :
    8 * (4 + g.numNodes) ≤ bytes.length := by
  obtain ⟨-, -, -, -, hN, hE, -, hv, -, hle⟩ := OfflineGraph.inStep_of_mk? bytes g h
  rw [← hN, ← hE, ← hv, u64, Nat.mod_eq_of_lt hno] at hle
  omega

/-! ## Loading the edges -/

namespace OfflineGraph

/-- A destination is at least four bytes wide. -/
theorem dstWidth_ge (v2 : Bool) : 4 ≤ dstWidth v2 := by
  unfold dstWidth; split <;> omega

/-- A reader in step reads itself. -/
theorem Reads.refl (g : OfflineGraph) (bytes : List Byte) (hs : g.InStep bytes) :
    g.Reads bytes g := ⟨hs, rfl, rfl, rfl, rfl⟩

/-- The payload start depends on the header only. -/
theorem Reads.payloadStart_eq {g0 g : OfflineGraph} {bytes : List Byte}
    (hr : g0.Reads bytes g) : g.payloadStart = g0.payloadStart := by
  unfold payloadStart
  rw [hr.numNodes, hr.numEdges, hr.v2]

/-- `edge_end(v)` on a reader of the file. -/
theorem edge_end_reads (g0 g : OfflineGraph) (bytes : List Byte) (v : Nat)
    (hr : g0.Reads bytes g) (hlen : bytes.length < 2 ^ 63)
    (hoff : 8 * (4 + g0.numNodes) ≤ bytes.length) (hv : v < g0.numNodes) (h32 : v < 2 ^ 32) :
    (g.edge_end v).1 = some (offsetEntry bytes v) ∧ g0.Reads bytes (g.edge_end v).2 := by
  have hu : u32 v = v := Nat.mod_eq_of_lt h32
  obtain ⟨h1, h2⟩ := outIndexs_step g bytes v hr.inStep hlen (by omega)
  unfold edge_end
  rw [hu, h1, h2]
  exact ⟨rfl, ⟨⟨rfl, hr.inStep.fileIndex, hr.inStep.fileEdgeData⟩, hr.numNodes, hr.numEdges,
    hr.sizeEdgeData, hr.v2⟩⟩

/-- `edge_begin(v)` on a reader of the file; `v` may be the vertex count. -/
theorem edge_begin_reads (g0 g : OfflineGraph) (bytes : List Byte) (v : Nat)
    (hr : g0.Reads bytes g) (hlen : bytes.length < 2 ^ 63)
    (hoff : 8 * (4 + g0.numNodes) ≤ bytes.length) (hv : v ≤ g0.numNodes) (h32 : v < 2 ^ 32) :
    (g.edge_begin v).1 = some (rangeBegin bytes v) ∧ g0.Reads bytes (g.edge_begin v).2 := by
  have hu : u32 v = v := Nat.mod_eq_of_lt h32
  unfold edge_begin
  rw [hu]
  by_cases h0 : v = 0
  · rw [if_pos h0]
    exact ⟨by simp [rangeBegin, h0], hr⟩
  · rw [if_neg h0]
    obtain ⟨h1, h2⟩ := outIndexs_step g bytes (v - 1) hr.inStep hlen (by omega)
    rw [h1, h2]
    exact ⟨by simp [rangeBegin, h0, offsetEntry],
      ⟨⟨rfl, hr.inStep.fileIndex, hr.inStep.fileEdgeData⟩, hr.numNodes, hr.numEdges,
        hr.sizeEdgeData, hr.v2⟩⟩

/-- `getEdgeDst(e)` on a reader of the file. -/
theorem getEdgeDst_reads (g0 g : OfflineGraph) (bytes : List Byte) (e : Nat)
    (hr : g0.Reads bytes g) (hlen : bytes.length < 2 ^ 63)
    (hin : (4 + g0.numNodes) * 8 + e * dstWidth g0.v2 + dstWidth g0.v2 ≤ bytes.length) :
    (g.getEdgeDst e).1 = some (g0.dstAt bytes e) ∧ g0.Reads bytes (g.getEdgeDst e).2 := by
  have hw := dstWidth_ge g0.v2
  have he : e < 2 ^ 63 := by
    have : e * 4 ≤ e * dstWidth g0.v2 := Nat.mul_le_mul_left e hw
    omega
  have hu : u64 e = e := Nat.mod_eq_of_lt (by omega)
  rw [← hr.numNodes, ← hr.v2] at hin
  obtain ⟨h1, h2⟩ := outEdges_step g bytes e hr.inStep hlen hin
  unfold getEdgeDst
  rw [hu]
  dsimp only
  rw [h1, h2]
  refine ⟨?_, ⟨⟨hr.inStep.file1, rfl, hr.inStep.fileEdgeData⟩, hr.numNodes, hr.numEdges,
        hr.sizeEdgeData, hr.v2⟩⟩
  simp only [Option.map_some', dstAt, hr.numNodes, hr.v2]

/-- `getEdgeData<T>(e)` on a reader of the file. -/
theorem getEdgeData_reads (g0 g : OfflineGraph) (bytes : List Byte) (sz e : Nat)
    (hr : g0.Reads bytes g) (hlen : bytes.length < 2 ^ 63) (hsz : sz ≤ g0.sizeEdgeData)
    (he : e < 2 ^ 64)
    (hin : g0.payloadStart + e * g0.sizeEdgeData + sz ≤ bytes.length) :
    ∃ g1, g.getEdgeData sz e = .ok (some (g0.dataAt bytes sz e), g1) ∧ g0.Reads bytes g1 := by
  have hu : u64 e = e := Nat.mod_eq_of_lt he
  rw [← hr.payloadStart_eq, ← hr.sizeEdgeData] at hin
  have h1 := edgeData_step g bytes sz e hr.inStep hlen (by rw [hr.sizeEdgeData]; exact hsz) hin
  unfold getEdgeData
  rw [hu, h1]
  rw [dataAt, ← hr.payloadStart_eq, ← hr.sizeEdgeData]
  exact ⟨_, rfl, ⟨⟨hr.inStep.file1, hr.inStep.fileIndex, rfl⟩, hr.numNodes, hr.numEdges,
        hr.sizeEdgeData, hr.v2⟩⟩

end OfflineGraph

/-- Writing edge `cur` keeps what the local graph holds below `cur` and adds
the edge. -/
theorem LC_CSR_Graph.Filled.constructEdge {g0 : OfflineGraph} {bytes : List Byte}
    {sizeT : Option Nat} {L M : Nat} {c : LC_CSR_Graph} {cur n : Nat}
    (hf : c.Filled g0 bytes sizeT L M cur n) (hcur : cur < L) :
    ∃ c1, c.constructEdge cur (g0.dstAt bytes cur)
        (sizeT.map (fun sz => g0.dataAt bytes sz cur)) = .ok c1 ∧
      c1.Filled g0 bytes sizeT L M (cur + 1) n := by
  have hl : cur < c.edgeDst.length := by rw [hf.lenDst]; exact hcur
  unfold LC_CSR_Graph.constructEdge
  rw [if_pos hl]
  refine ⟨_, rfl, ?_⟩
  refine ⟨by simp [hf.lenDst], ?_, hf.lenInd, ?_, ?_, hf.ind⟩
  · cases sizeT <;> simp [hf.lenData]
  · intro j hj
    by_cases hjc : j = cur
    · subst hjc
      simp [List.getElem?_set, hl]
    · have : j < cur := by omega
      simp only [List.getElem?_set, ne_eq, Ne.symm hjc, not_false_eq_true, ↓reduceIte]
      exact hf.dst j this
  · intro sz hsz j hj
    subst hsz
    have hl2 : cur < c.edgeData.length := by rw [hf.lenData]; exact hcur
    by_cases hjc : j = cur
    · subst hjc
      simp [List.getElem?_set, hl2]
    · have : j < cur := by omega
      simp only [Option.map_some', List.getElem?_set]
      rw [if_neg (fun h => hjc h.symm)]
      exact hf.data sz rfl j this

/-- One turn of the inner loop of `loadEdges` at `ii = cur`. -/
theorem loadEdge_step (g0 g : OfflineGraph) (bytes : List Byte) (sizeT : Option Nat)
    (L M : Nat) (c : LC_CSR_Graph) (cur n : Nat)
    (hr : g0.Reads bytes g) (hlen : bytes.length < 2 ^ 63)
    (hf : c.Filled g0 bytes sizeT L M cur n) (hcur : cur < L)
    (hdst : (4 + g0.numNodes) * 8 + cur * OfflineGraph.dstWidth g0.v2
      + OfflineGraph.dstWidth g0.v2 ≤ bytes.length)
    (hdata : ∀ sz, sizeT = some sz → sz ≤ g0.sizeEdgeData ∧
      g0.payloadStart + cur * g0.sizeEdgeData + sz ≤ bytes.length) :
    ∃ g1 c1, loadEdge sizeT (g, c, cur) cur = .ok (g1, c1, cur + 1) ∧
      g0.Reads bytes g1 ∧ c1.Filled g0 bytes sizeT L M (cur + 1) n := by
  have hw := OfflineGraph.dstWidth_ge g0.v2
  have hc63 : cur < 2 ^ 63 := by
    have : cur * 4 ≤ cur * OfflineGraph.dstWidth g0.v2 := Nat.mul_le_mul_left cur hw
    omega
  have hu : u64 (cur + 1) = cur + 1 := Nat.mod_eq_of_lt (by omega)
  obtain ⟨hd1, hd2⟩ := OfflineGraph.getEdgeDst_reads g0 g bytes cur hr hlen hdst
  obtain ⟨c1, hc1, hf1⟩ := hf.constructEdge hcur
  cases sizeT with
  | none =>
    refine ⟨_, c1, ?_, hd2, hf1⟩
    simp only [Option.map_none'] at hc1
    simp only [loadEdge, hd1, hc1, hu]
  | some sz =>
    obtain ⟨hsz, hin⟩ := hdata sz rfl
    obtain ⟨g1, hg1, hr1⟩ := OfflineGraph.getEdgeData_reads g0 (g.getEdgeDst cur).2 bytes sz cur
      hd2 hlen hsz (by omega) hin
    refine ⟨g1, c1, ?_, hr1, hf1⟩
    simp only [Option.map_some'] at hc1
    simp only [loadEdge, hd1, hg1, hc1, hu]

/-- The inner loop of `loadEdges` from `ii = cur` over `k` edges. -/
theorem loadEdge_range (g0 : OfflineGraph) (bytes : List Byte) (sizeT : Option Nat)
    (L M n : Nat) (hlen : bytes.length < 2 ^ 63) (k : Nat) :
    ∀ (g : OfflineGraph) (c : LC_CSR_Graph) (cur : Nat),
      g0.Reads bytes g → c.Filled g0 bytes sizeT L M cur n → cur + k ≤ L →
      (∀ e, e < cur + k → (4 + g0.numNodes) * 8 + e * OfflineGraph.dstWidth g0.v2
        + OfflineGraph.dstWidth g0.v2 ≤ bytes.length) →
      (∀ sz, sizeT = some sz → sz ≤ g0.sizeEdgeData ∧
        ∀ e, e < cur + k → g0.payloadStart + e * g0.sizeEdgeData + sz ≤ bytes.length) →
      ∃ g1 c1, (List.range' cur k).foldlM (loadEdge sizeT) (g, c, cur) = .ok (g1, c1, cur + k) ∧
        g0.Reads bytes g1 ∧ c1.Filled g0 bytes sizeT L M (cur + k) n := by
  induction k with
  | zero =>
    intro g c cur hr hf _ _ _
    exact ⟨g, c, rfl, hr, hf⟩
  | succ k ih =>
    intro g c cur hr hf hL hdst hdata
    obtain ⟨g1, c1, h1, hr1, hf1⟩ := loadEdge_step g0 g bytes sizeT L M c cur n hr hlen hf
      (by omega) (hdst cur (by omega))
      (fun sz hsz => ⟨(hdata sz hsz).1, (hdata sz hsz).2 cur (by omega)⟩)
    obtain ⟨g2, c2, h2, hr2, hf2⟩ := ih g1 c1 (cur + 1) hr1 hf1 (by omega)
      (fun e he => hdst e (by omega))
      (fun sz hsz => ⟨(hdata sz hsz).1, fun e he => (hdata sz hsz).2 e (by omega)⟩)
    refine ⟨g2, c2, ?_, hr2, by rw [show cur + (k + 1) = cur + 1 + k by omega]; exact hf2⟩
    rw [List.range'_succ, List.foldlM_cons, h1]
    rw [show cur + (k + 1) = cur + 1 + k by omega, ← h2]
    rfl

/-- The range of a vertex begins where the range of the vertex before ends. -/
theorem rangeBegin_succ (bytes : List Byte) (n : Nat) :
    rangeBegin bytes (n + 1) = offsetEntry bytes n := by
  simp [rangeBegin]

/-- With a non-decreasing offset table the range of a vertex does not end
before it begins, and ends at or before the last offset. -/
theorem rangeBegin_le_offsetEntry (bytes : List Byte) (N : Nat)
    (hmono : ∀ i, i + 1 < N → offsetEntry bytes i ≤ offsetEntry bytes (i + 1))
    (n : Nat) (hn : n < N) :
    rangeBegin bytes n ≤ offsetEntry bytes n ∧ offsetEntry bytes n ≤ rangeBegin bytes N := by
  constructor
  · by_cases h0 : n = 0
    · simp [rangeBegin, h0]
    · obtain ⟨m, rfl⟩ : ∃ m, n = m + 1 := ⟨n - 1, by omega⟩
      rw [rangeBegin_succ]
      exact hmono m hn
  · obtain ⟨m, rfl⟩ : ∃ m, N = m + 1 := ⟨N - 1, by omega⟩
    rw [rangeBegin_succ]
    exact offsetEntry_mono bytes (m + 1) hmono n m (by omega) (by omega)

/-- One turn of the outer loop of `loadEdges`, entered with `cur` at the
beginning of the range of node `n`. -/
theorem loadNode_step (g0 g : OfflineGraph) (bytes : List Byte) (sizeT : Option Nat)
    (L M : Nat) (c : LC_CSR_Graph) (n : Nat)
    (hr : g0.Reads bytes g) (hlen : bytes.length < 2 ^ 63)
    (hoff : 8 * (4 + g0.numNodes) ≤ bytes.length)
    (hn : n < g0.numNodes) (h32 : n < 2 ^ 32) (hM : n < M)
    (hf : c.Filled g0 bytes sizeT L M (rangeBegin bytes n) n)
    (hle : rangeBegin bytes n ≤ offsetEntry bytes n) (hL : offsetEntry bytes n ≤ L)
    (hdst : ∀ e, e < offsetEntry bytes n →
      (4 + g0.numNodes) * 8 + e * OfflineGraph.dstWidth g0.v2
        + OfflineGraph.dstWidth g0.v2 ≤ bytes.length)
    (hdata : ∀ sz, sizeT = some sz → sz ≤ g0.sizeEdgeData ∧
      ∀ e, e < offsetEntry bytes n →
        g0.payloadStart + e * g0.sizeEdgeData + sz ≤ bytes.length) :
    ∃ g1 c1, loadNode sizeT (g, c, rangeBegin bytes n) n = .ok (g1, c1, offsetEntry bytes n) ∧
      g0.Reads bytes g1 ∧ c1.Filled g0 bytes sizeT L M (offsetEntry bytes n) (n + 1) := by
  obtain ⟨hb1, hb2⟩ := OfflineGraph.edge_begin_reads g0 g bytes n hr hlen hoff (le_of_lt hn) h32
  obtain ⟨he1, he2⟩ := OfflineGraph.edge_end_reads g0 (g.edge_begin n).2 bytes n hb2 hlen hoff
    hn h32
  have hk : rangeBegin bytes n + (offsetEntry bytes n - rangeBegin bytes n)
      = offsetEntry bytes n := by omega
  obtain ⟨g1, c1, h1, hr1, hf1⟩ := loadEdge_range g0 bytes sizeT L M n hlen
    (offsetEntry bytes n - rangeBegin bytes n) ((g.edge_begin n).2.edge_end n).2 c
    (rangeBegin bytes n) he2 hf (by omega) (by rw [hk]; exact hdst) (by rw [hk]; exact hdata)
  rw [hk] at h1 hf1
  have hlM : n < c1.edgeIndData.length := by rw [hf1.lenInd]; exact hM
  refine ⟨g1, { c1 with edgeIndData := c1.edgeIndData.set n (offsetEntry bytes n) }, ?_, hr1, ?_⟩
  · simp only [loadNode, hb1, he1, h1, LC_CSR_Graph.fixEndEdge, hlM, ↓reduceIte]
  · refine ⟨hf1.lenDst, hf1.lenData, by simp [hf1.lenInd], hf1.dst, hf1.data, ?_⟩
    intro i hi
    by_cases hin : i = n
    · subst hin
      simp [List.getElem?_set, hlM]
    · simp only [List.getElem?_set, ne_eq, Ne.symm hin, not_false_eq_true, ↓reduceIte]
      exact hf1.ind i (by omega)

/-- The outer loop of `loadEdges` over the first `n` nodes of a file with a
non-decreasing offset table. -/
theorem loadNode_prefix (g0 g : OfflineGraph) (bytes : List Byte) (sizeT : Option Nat)
    (L M : Nat) (c0 : LC_CSR_Graph)
    (hr : g0.Reads bytes g) (hlen : bytes.length < 2 ^ 63)
    (hoff : 8 * (4 + g0.numNodes) ≤ bytes.length) (hN : g0.numNodes < 2 ^ 32)
    (hM : g0.numNodes ≤ M) (hL : rangeBegin bytes g0.numNodes ≤ L)
    (hmono : ∀ i, i + 1 < g0.numNodes → offsetEntry bytes i ≤ offsetEntry bytes (i + 1))
    (hc0 : c0.Filled g0 bytes sizeT L M 0 0)
    (hdst : ∀ e, e < rangeBegin bytes g0.numNodes →
      (4 + g0.numNodes) * 8 + e * OfflineGraph.dstWidth g0.v2
        + OfflineGraph.dstWidth g0.v2 ≤ bytes.length)
    (hdata : ∀ sz, sizeT = some sz → sz ≤ g0.sizeEdgeData ∧
      ∀ e, e < rangeBegin bytes g0.numNodes →
        g0.payloadStart + e * g0.sizeEdgeData + sz ≤ bytes.length)
    (n : Nat) (hn : n ≤ g0.numNodes) :
    ∃ g1 c1, (List.range n).foldlM (loadNode sizeT) (g, c0, 0)
        = .ok (g1, c1, rangeBegin bytes n) ∧
      g0.Reads bytes g1 ∧ c1.Filled g0 bytes sizeT L M (rangeBegin bytes n) n := by
  induction n with
  | zero => exact ⟨g, c0, rfl, hr, hc0⟩
  | succ n ih =>
    obtain ⟨g1, c1, h1, hr1, hf1⟩ := ih (by omega)
    obtain ⟨hle, hle2⟩ := rangeBegin_le_offsetEntry bytes g0.numNodes hmono n (by omega)
    obtain ⟨g2, c2, h2, hr2, hf2⟩ := loadNode_step g0 g1 bytes sizeT L M c1 n hr1 hlen hoff
      (by omega) (by omega) (by omega) hf1 hle (by omega)
      (fun e he => hdst e (by omega))
      (fun sz hsz => ⟨(hdata sz hsz).1, fun e he => (hdata sz hsz).2 e (by omega)⟩)
    refine ⟨g2, c2, ?_, hr2, by rw [rangeBegin_succ]; exact hf2⟩
    rw [List.range_succ, List.foldlM_append, h1, rangeBegin_succ]
    change List.foldlM (loadNode sizeT) (g1, c1, rangeBegin bytes n) [n] = _
    rw [List.foldlM_cons, h2]
    rfl

/-- A file that holds `E` elements of `w` bytes from `base` on holds each of
them. -/
theorem element_in_file (base E w len e : Nat) (h : base + E * w ≤ len) (he : e < E) :
    base + e * w + w ≤ len := by
  have h1 : (e + 1) * w ≤ E * w := Nat.mul_le_mul_right w he
  have h2 : (e + 1) * w = e * w + w := by ring
  omega

/-- The end of the constructor on the reader of a complete shard with a
non-decreasing offset table: the local graph is allocated for the vertices
and the edges of the shard and `loadEdges` fills it with the edge ends, the
destinations and the payloads of the file. -/
theorem loadGraph_spec (g : OfflineGraph) (bytes : List Byte) (sizeT : Option Nat)
    (hs : g.InStep bytes) (hlen : bytes.length < 2 ^ 63) (hN : g.numNodes < 2 ^ 32)
    (hmono : ∀ i, i + 1 < g.numNodes → offsetEntry bytes i ≤ offsetEntry bytes (i + 1))
    (hoff : 8 * (4 + g.numNodes) ≤ bytes.length)
    (hdst : (4 + g.numNodes) * 8 + rangeBegin bytes g.numNodes * OfflineGraph.dstWidth g.v2
      ≤ bytes.length)
    (hdata : ∀ sz, sizeT = some sz → sz ≤ g.sizeEdgeData ∧
      g.payloadStart + rangeBegin bytes g.numNodes * g.sizeEdgeData ≤ bytes.length) :
    ∃ g1 c, loadGraph sizeT g = .ok (g1, c, rangeBegin bytes g.numNodes) ∧ g.Reads bytes g1 ∧
      c.Filled g bytes sizeT (rangeBegin bytes g.numNodes) g.numNodes
        (rangeBegin bytes g.numNodes) g.numNodes := by
  have hw := OfflineGraph.dstWidth_ge g.v2
  have hE : rangeBegin bytes g.numNodes < 2 ^ 63 := by
    have : rangeBegin bytes g.numNodes * 4
        ≤ rangeBegin bytes g.numNodes * OfflineGraph.dstWidth g.v2 := Nat.mul_le_mul_left _ hw
    omega
  have hu : u32 g.numNodes = g.numNodes := Nat.mod_eq_of_lt hN
  obtain ⟨hb1, hb2⟩ := OfflineGraph.edge_begin_reads g g bytes g.numNodes
    (OfflineGraph.Reads.refl g bytes hs) hlen hoff (le_refl _) hN
  have hnum : u64 (rangeBegin bytes g.numNodes + 2 ^ 64 - 0) = rangeBegin bytes g.numNodes := by
    rw [Nat.sub_zero, u64, Nat.add_mod_right]
    exact Nat.mod_eq_of_lt (by omega)
  have hc0 : (LC_CSR_Graph.allocateFrom g.numNodes (rangeBegin bytes g.numNodes)).Filled g bytes
      sizeT (rangeBegin bytes g.numNodes) g.numNodes 0 0 :=
    ⟨by simp [LC_CSR_Graph.allocateFrom], by simp [LC_CSR_Graph.allocateFrom],
      by simp [LC_CSR_Graph.allocateFrom], fun j hj => absurd hj (by omega),
      fun _ _ j hj => absurd hj (by omega), fun j hj => absurd hj (by omega)⟩
  obtain ⟨g1, c1, h1, hr1, hf1⟩ := loadNode_prefix g (g.edge_begin g.numNodes).2 bytes sizeT
    (rangeBegin bytes g.numNodes) g.numNodes _ hb2 hlen hoff hN (le_refl _) (le_refl _) hmono hc0
    (fun e he => element_in_file _ _ _ _ e hdst he)
    (fun sz hsz => ⟨(hdata sz hsz).1, fun e he => by
      have h1 := element_in_file _ _ _ _ e (hdata sz hsz).2 he
      have h2 := (hdata sz hsz).1
      omega⟩)
    g.numNodes (le_refl _)
  refine ⟨g1, c1, ?_, hr1, hf1⟩
  have h0 : ∀ x : OfflineGraph, x.edge_begin 0 = (some 0, x) := fun x => rfl
  simp only [loadGraph, OfflineGraph.size, hu, hb1, h0, hnum, loadEdges, hb2.numNodes, h1]

/-- C23, as stated, fails: `loadEdges` stores the destination as the reader
returns it.  Host 0 of 1 loads the sample graph with a metadata file that
puts GID 1 in slot 0: the reader returns the destination 1 for edge 0,
`getLID(1)` is 0, and the local CSR storage holds 1 for edge 0. -/
theorem destination_not_translated :
    ∃ (g g1 : OfflineGraph) (c : LC_CSR_Graph) (h : vGraph Int)
      (msgs : List (Nat × Message Int)),
      OfflineGraph.mk? (some (encodeV1 sampleGraph)) = .ok g ∧
      vGraph.mk? (0 : Int) (some (encodeV1 sampleGraph)) (some swappedMeta) ⟨0, 1⟩ 0 1 0
        = .ok (h, msgs) ∧
      loadGraph (some 4) g = .ok (g1, c, 3) ∧
      (g.getEdgeDst 0).1 = some 1 ∧ h.getLID 1 = .ok 0 ∧ c.getEdgeDst 0 = some 1 :=
  ⟨_, _, _, _, _, rfl, rfl, rfl, rfl, rfl, rfl⟩

/-- C23 (amended). Edge destinations are stored as read.  For a complete
shard with a non-decreasing offset table, after the load every edge `e` of
the shard has in the local CSR storage the destination `d` that the reader
returns for it, untranslated: on a host whose table gives `getLID(d) = l`,
the stored destination is `l` only if `l = d`. -/
theorem destinations_stored_as_read {α : Type} (h : vGraph α) (g : OfflineGraph)
    (bytes : List Byte) (sizeT : Option Nat)
    (hs : g.InStep bytes) (hlen : bytes.length < 2 ^ 63) (hN : g.numNodes < 2 ^ 32)
    (hmono : ∀ i, i + 1 < g.numNodes → offsetEntry bytes i ≤ offsetEntry bytes (i + 1))
    (hoff : 8 * (4 + g.numNodes) ≤ bytes.length)
    (hdst : (4 + g.numNodes) * 8 + rangeBegin bytes g.numNodes * OfflineGraph.dstWidth g.v2
      ≤ bytes.length)
    (hdata : ∀ sz, sizeT = some sz → sz ≤ g.sizeEdgeData ∧
      g.payloadStart + rangeBegin bytes g.numNodes * g.sizeEdgeData ≤ bytes.length) :
    ∃ g1 c, loadGraph sizeT g = .ok (g1, c, rangeBegin bytes g.numNodes) ∧
      ∀ r, g.Reads bytes r → ∀ e, e < rangeBegin bytes g.numNodes →
        ∃ d, (r.getEdgeDst e).1 = some d ∧ c.getEdgeDst e = some d ∧
          ∀ l, h.getLID d = .ok l → (c.getEdgeDst e = some l ↔ l = d) := by
  obtain ⟨g1, c, hload, -, hf⟩ := loadGraph_spec g bytes sizeT hs hlen hN hmono hoff hdst hdata
  refine ⟨g1, c, hload, ?_⟩
  intro r hr e he
  have hin := element_in_file _ _ _ _ e hdst he
  have hc : c.getEdgeDst e = some (g.dstAt bytes e) := hf.dst e he
  refine ⟨_, (OfflineGraph.getEdgeDst_reads g r bytes e hr hlen hin).1, hc, ?_⟩
  intro l _
  rw [hc]
  exact ⟨fun hx => (Option.some.inj hx).symm, fun hx => by rw [hx]⟩

/-- C23 amended, on the sample graph loaded for a void edge type by host 0
of 1, whose metadata file puts GID 1 in slot 0. -/
theorem destinations_stored_as_read_witness :
    ∃ (g : OfflineGraph) (h : vGraph Int) (msgs : List (Nat × Message Int)),
      OfflineGraph.mk? (some (encodeV1 sampleGraph)) = .ok g ∧
      vGraph.mk? (0 : Int) (some (encodeV1 sampleGraph)) (some swappedMeta) ⟨0, 1⟩ 0 1 0
        = .ok (h, msgs) ∧
      ∃ g1 c, loadGraph none g = .ok (g1, c, 3) ∧
        ∀ r, g.Reads (encodeV1 sampleGraph) r → ∀ e, e < 3 →
          ∃ d, (r.getEdgeDst e).1 = some d ∧ c.getEdgeDst e = some d ∧
            ∀ l, h.getLID d = .ok l → (c.getEdgeDst e = some l ↔ l = d) := by
  obtain ⟨g, hg, hN, hE, hS, hv⟩ := sampleGraph_accepted
  have h3 : rangeBegin (encodeV1 sampleGraph) g.numNodes = 3 := by rw [hN]; decide
  obtain ⟨h, msgs, hh⟩ : ∃ (h : vGraph Int) (msgs : List (Nat × Message Int)),
      vGraph.mk? (0 : Int) (some (encodeV1 sampleGraph)) (some swappedMeta) ⟨0, 1⟩ 0 1 0
        = .ok (h, msgs) := ⟨_, _, rfl⟩
  have hw := destinations_stored_as_read h g (encodeV1 sampleGraph) none
    (OfflineGraph.inStep_of_mk? _ g hg).1 (by decide) (by rw [hN]; decide)
    (by
      rw [hN]
      intro i hi
      have h0 : i = 0 := by omega
      subst h0
      decide)
    (by rw [hN]; decide) (by rw [hN, hv]; decide)
    (fun sz hsz => absurd hsz (by simp))
  rw [h3] at hw
  exact ⟨g, h, msgs, hg, hh, hw⟩

/-! ## Local slots -/

/-- C21, as stated, fails: the constructor does not look at the local ids of
the ownership records.  Host 0 of 2 loads the two-vertex sample shard with a
metadata file that puts GID 10 in slot 7: `size()` is 2, `getLID(10)` is 7,
slot 0 is not in the table, and the payload accesses of `sync_push` and of
`syncRecvApply` for GID 10 are outside the node array. -/
theorem local_id_out_of_range :
    ∃ (h : vGraph (PR_NodeData Int)) (msgs : List (Nat × Message Int)),
      vGraph.mk? (⟨0, 0, 0⟩ : PR_NodeData Int) (some sampleShard) (some strayMeta) ⟨0, 2⟩ 0 2 0
        = .ok (h, msgs) ∧
      h.size = 2 ∧ h.getLID 10 = .ok 7 ∧ h.LocalToGlobalMap 7 = some 10 ∧
      h.LocalToGlobalMap 0 = none ∧
      h.sync_push (Syncer_0 Int) ⟨0, 2⟩ = .error outOfBounds ∧
      h.syncRecvApply (Syncer_0 Int) 1 [(10, 5)] = .error outOfBounds :=
  ⟨_, _, rfl, rfl, rfl, rfl, rfl, rfl, rfl⟩

/-- A fold whose step keeps an invariant and never fails with the error `bad`
keeps the invariant and does not fail with `bad`. -/
theorem foldlM_safe {σ ι : Type} (I : σ → Prop) (bad : String) (f : σ → ι → Except String σ)
    (hf : ∀ s x, I s → f s x ≠ .error bad ∧ ∀ s1, f s x = .ok s1 → I s1) :
    ∀ (l : List ι) (s : σ), I s →
      l.foldlM f s ≠ .error bad ∧ ∀ s1, l.foldlM f s = .ok s1 → I s1 := by
  intro l
  induction l with
  | nil =>
    intro s hs
    exact ⟨by simp [pure, Except.pure], fun s1 h1 => by
      rw [List.foldlM_nil] at h1
      rw [← Except.ok.inj h1]
      exact hs⟩
  | cons x l ih =>
    intro s hs
    rw [List.foldlM_cons]
    obtain ⟨h1, h2⟩ := hf s x hs
    cases hx : f s x with
    | error e =>
      refine ⟨?_, fun s1 h => absurd h (by simp [bind, Except.bind])⟩
      intro h
      apply h1
      rw [hx]
      simpa [bind, Except.bind] using h
    | ok s2 => exact ih s2 (h2 s2 hx)

namespace vGraph

variable {α β : Type}

/-- A slot of the table of a host with slots in range holds a payload. -/
theorem getData_of_slotsInRange (h : vGraph α) (hI : h.SlotsInRange) (g l : Nat)
    (hl : h.GlobalToLocalMap g = some l) : ∃ d, h.getData l = .ok d := by
  have hlt : u32 l < h.nodeData.length := hI g l hl
  unfold getData
  rw [List.getElem?_eq_getElem hlt]
  exact ⟨_, rfl⟩

/-- Storing a payload keeps the slots in range. -/
theorem setData_slotsInRange (h : vGraph α) (hI : h.SlotsInRange) (N : Nat) (d : α) :
    (h.setData N d).SlotsInRange := by
  intro g l hl
  have := hI g l hl
  simpa [setData, size] using this

/-- The body of the loop of `sync_push` stays inside the node array. -/
theorem pushEntry_safe (P : PushFn α β) (st : vGraph α × List (Nat × β)) (gid : Nat)
    (hI : st.1.SlotsInRange) :
    pushEntry P st gid ≠ .error outOfBounds ∧
    ∀ st1, pushEntry P st gid = .ok st1 → st1.1.SlotsInRange := by
  unfold pushEntry G2L StdMap.atKey
  cases hm : st.1.GlobalToLocalMap gid with
  | none => simp [outOfBounds]
  | some lid =>
    obtain ⟨d, hd⟩ := getData_of_slotsInRange st.1 hI gid lid hm
    simp only [hd]
    refine ⟨by simp, fun st1 h1 => ?_⟩
    rw [← Except.ok.inj h1]
    exact setData_slotsInRange st.1 hI _ _

/-- One iteration of the send loop of `sync_push` stays inside the node
array. -/
theorem pushStep_safe (P : PushFn α β) (st : vGraph α × List (Nat × Message β)) (x : Nat)
    (hI : st.1.SlotsInRange) :
    pushStep P st x ≠ .error outOfBounds ∧
    ∀ st1, pushStep P st x = .ok st1 → st1.1.SlotsInRange := by
  unfold pushStep
  cases hs : st.1.slaveNodes[x]? with
  | none => simp [outOfBounds]
  | some s =>
    dsimp only
    split
    · exact ⟨by simp, fun st1 h1 => by rw [← Except.ok.inj h1]; exact hI⟩
    · obtain ⟨h1, h2⟩ := foldlM_safe (fun t : vGraph α × List (Nat × β) => t.1.SlotsInRange)
        outOfBounds (pushEntry P) (fun t g ht => pushEntry_safe P t g ht) s (st.1, []) hI
      cases hf : List.foldlM (pushEntry P) (st.1, []) s with
      | error e =>
        refine ⟨?_, fun st1 h => absurd h (by simp)⟩
        intro h
        apply h1
        rw [hf]
        simpa using h
      | ok r =>
        refine ⟨by simp, fun st1 h => ?_⟩
        simp only [Except.ok.injEq] at h
        rw [← h]
        exact h2 r hf

/-- `sync_push` stays inside the node array and keeps the slots in range. -/
theorem sync_push_safe (P : PushFn α β) (net : NetworkInterface) (h : vGraph α)
    (hI : h.SlotsInRange) :
    h.sync_push P net ≠ .error outOfBounds ∧
    ∀ h1 msgs, h.sync_push P net = .ok (h1, msgs) → h1.SlotsInRange := by
  obtain ⟨h1, h2⟩ := foldlM_safe
    (fun t : vGraph α × List (Nat × Message β) => t.1.SlotsInRange) outOfBounds (pushStep P)
    (fun t x ht => pushStep_safe P t x ht) (List.range net.Num) (h, []) hI
  exact ⟨h1, fun h1 msgs hr => h2 (h1, msgs) hr⟩

/-- The body of the loop of `syncRecvApply` stays inside the node array. -/
theorem reduceEntry_safe (P : PushFn α β) (h : vGraph α) (e : Nat × β)
    (hI : h.SlotsInRange) :
    reduceEntry P h e ≠ .error outOfBounds ∧
    ∀ h1, reduceEntry P h e = .ok h1 → h1.SlotsInRange := by
  unfold reduceEntry G2L StdMap.atKey
  cases hm : h.GlobalToLocalMap e.1 with
  | none => simp [outOfBounds]
  | some lid =>
    obtain ⟨d, hd⟩ := getData_of_slotsInRange h hI e.1 lid hm
    simp only [hd]
    refine ⟨by simp, fun h1 hr => ?_⟩
    rw [← Except.ok.inj hr]
    exact setData_slotsInRange h hI _ _

/-- `syncRecvApply` stays inside the node array and keeps the slots in
range. -/
theorem syncRecvApply_safe (P : PushFn α β) (num : Nat) :
    ∀ (entries : List (Nat × β)) (h : vGraph α), h.SlotsInRange →
      h.syncRecvApply P num entries ≠ .error outOfBounds ∧
      ∀ h1, h.syncRecvApply P num entries = .ok h1 → h1.SlotsInRange := by
  unfold syncRecvApply
  induction num with
  | zero =>
    intro entries h hI
    exact ⟨by simp [syncRecvApplyLoop], fun h1 hr => by
      simp only [syncRecvApplyLoop, Except.ok.injEq] at hr
      rw [← hr]; exact hI⟩
  | succ num ih =>
    intro entries h hI
    cases entries with
    | nil => simp [syncRecvApplyLoop, outOfBounds]
    | cons e buf =>
      obtain ⟨h1, h2⟩ := reduceEntry_safe P h e hI
      rw [syncRecvApplyLoop]
      cases hr : reduceEntry P h e with
      | error err =>
        refine ⟨?_, fun _ hx => absurd hx (by simp)⟩
        intro hx
        apply h1
        rw [hr]
        simpa using hx
      | ok h3 => exact ih buf h3 (h2 h3 hr)

/-- The body of the loop of `syncPullRecvReply` stays inside the node
array. -/
theorem replyEntry_safe (P : PullFn α β) (h : vGraph α) (b : List (Nat × β)) (n : Nat)
    (hI : h.SlotsInRange) : replyEntry P h b n ≠ .error outOfBounds := by
  unfold replyEntry G2L StdMap.atKey
  cases hm : h.GlobalToLocalMap n with
  | none => simp [outOfBounds]
  | some lid =>
    obtain ⟨d, hd⟩ := getData_of_slotsInRange h hI n lid hm
    simp only [hd]
    simp

/-- `syncPullRecvReply` stays inside the node array and leaves the object as
it is. -/
theorem syncPullRecvReply_safe (P : PullFn α β) (h : vGraph α) (from_id num : Nat)
    (hI : h.SlotsInRange) :
    h.syncPullRecvReply P from_id num ≠ .error outOfBounds ∧
    ∀ h1 msg, h.syncPullRecvReply P from_id num = .ok (h1, msg) → h1.SlotsInRange := by
  unfold syncPullRecvReply
  cases hm : h.masterNodes[from_id]? with
  | none => simp [outOfBounds]
  | some m =>
    dsimp only
    split
    · simp [outOfBounds]
    · obtain ⟨h1, -⟩ := foldlM_safe (fun _ : List (Nat × β) => True) outOfBounds
        (replyEntry P h) (fun b n _ => ⟨replyEntry_safe P h b n hI, fun _ _ => trivial⟩) m []
        trivial
      cases hf : List.foldlM (replyEntry P h) [] m with
      | error e =>
        refine ⟨?_, fun _ _ hx => absurd hx (by simp)⟩
        intro hx
        apply h1
        rw [hf]
        simpa using hx
      | ok b =>
        refine ⟨by simp, fun h1 msg hx => ?_⟩
        simp only [Except.ok.injEq, Prod.mk.injEq] at hx
        rw [← hx.1]
        exact hI

/-- The body of the loop of `syncPullRecvApply` stays inside the node
array. -/
theorem setValEntry_safe (P : PullFn α β) (h : vGraph α) (e : Nat × β)
    (hI : h.SlotsInRange) :
    setValEntry P h e ≠ .error outOfBounds ∧
    ∀ h1, setValEntry P h e = .ok h1 → h1.SlotsInRange := by
  unfold setValEntry G2L StdMap.atKey
  cases hm : h.GlobalToLocalMap e.1 with
  | none => simp [outOfBounds]
  | some lid =>
    obtain ⟨d, hd⟩ := getData_of_slotsInRange h hI e.1 lid hm
    simp only [hd]
    refine ⟨by simp, fun h1 hr => ?_⟩
    rw [← Except.ok.inj hr]
    exact setData_slotsInRange h hI _ _

/-- The loop of `syncPullRecvApply` stays inside the node array and keeps the
slots in range. -/
theorem syncPullRecvApplyLoop_safe (P : PullFn α β) (num : Nat) :
    ∀ (entries : List (Nat × β)) (h : vGraph α), h.SlotsInRange →
      syncPullRecvApplyLoop P num entries h ≠ .error outOfBounds ∧
      ∀ h1, syncPullRecvApplyLoop P num entries h = .ok h1 → h1.SlotsInRange := by
  induction num with
  | zero =>
    intro entries h hI
    exact ⟨by simp [syncPullRecvApplyLoop], fun h1 hr => by
      simp only [syncPullRecvApplyLoop, Except.ok.injEq] at hr
      rw [← hr]; exact hI⟩
  | succ num ih =>
    intro entries h hI
    cases entries with
    | nil => simp [syncPullRecvApplyLoop, outOfBounds]
    | cons e buf =>
      obtain ⟨h1, h2⟩ := setValEntry_safe P h e hI
      rw [syncPullRecvApplyLoop]
      cases hr : setValEntry P h e with
      | error err =>
        refine ⟨?_, fun _ hx => absurd hx (by simp)⟩
        intro hx
        apply h1
        rw [hr]
        simpa using hx
      | ok h3 => exact ih buf h3 (h2 h3 hr)

/-- `syncPullRecvApply` stays inside the node array and keeps the slots in
range. -/
theorem syncPullRecvApply_safe (P : PullFn α β) (h : vGraph α) (from_id num : Nat)
    (entries : List (Nat × β)) (hI : h.SlotsInRange) :
    h.syncPullRecvApply P from_id num entries ≠ .error outOfBounds ∧
    ∀ h1, h.syncPullRecvApply P from_id num entries = .ok h1 → h1.SlotsInRange := by
  unfold syncPullRecvApply
  split
  · simp [outOfBounds]
  · cases hs : h.slaveNodes[from_id]? with
    | none => simp [outOfBounds]
    | some s =>
      dsimp only
      split
      · simp [outOfBounds]
      · obtain ⟨h1, h2⟩ := syncPullRecvApplyLoop_safe P num entries h hI
        cases hf : syncPullRecvApplyLoop P num entries h with
        | error e =>
          refine ⟨?_, fun _ hx => absurd hx (by simp)⟩
          intro hx
          apply h1
          rw [hf]
          simpa using hx
        | ok h3 =>
          refine ⟨by simp, fun h4 hx => ?_⟩
          simp only [Except.ok.injEq] at hx
          rw [← hx]
          exact h2 h3 hf

end vGraph

/-- C21 (amended). Local slots are dense and in range when the ownership
records say so.  When the local ids of the ownership records are exactly the
indices of the node array of the local graph (each is below `size()` and
each index occurs), then after load the local ids of the translation table
are exactly the indices `[0, size())`, every LID returned by `getLID` is less
than `size()`, and on the loaded host and on every later state `h1` of it
no payload access of `sync_push`, `syncRecvApply`, `syncPullRecvReply` or
`syncPullRecvApply` is outside the node array; each of them leaves the slots
in range. -/
theorem slots_dense_in_range {α β : Type} (host n : Nat) (records : List NodeInfo)
    (nodes : List α) (h : vGraph α) (hok : vGraph.loaded host n records nodes = .ok h)
    (hlt : ∀ r ∈ records, r.local_id < nodes.length)
    (hall : ∀ i, i < nodes.length → ∃ r ∈ records, r.local_id = i) :
    h.size = nodes.length ∧
    (∀ l, h.LocalToGlobalMap l ≠ none ↔ l < h.size) ∧
    (∀ g l, h.getLID g = .ok l → l < h.size) ∧
    h.SlotsInRange ∧
    ∀ h1 : vGraph α, h1.SlotsInRange →
      (∀ (P : PushFn α β) (net : NetworkInterface),
        h1.sync_push P net ≠ .error outOfBounds ∧
        ∀ h2 msgs, h1.sync_push P net = .ok (h2, msgs) → h2.SlotsInRange) ∧
      (∀ (P : PushFn α β) (num : Nat) (entries : List (Nat × β)),
        h1.syncRecvApply P num entries ≠ .error outOfBounds ∧
        ∀ h2, h1.syncRecvApply P num entries = .ok h2 → h2.SlotsInRange) ∧
      (∀ (P : PullFn α β) (from_id num : Nat),
        h1.syncPullRecvReply P from_id num ≠ .error outOfBounds ∧
        ∀ h2 msg, h1.syncPullRecvReply P from_id num = .ok (h2, msg) → h2.SlotsInRange) ∧
      (∀ (P : PullFn α β) (from_id num : Nat) (entries : List (Nat × β)),
        h1.syncPullRecvApply P from_id num entries ≠ .error outOfBounds ∧
        ∀ h2, h1.syncPullRecvApply P from_id num entries = .ok h2 → h2.SlotsInRange) := by
  obtain ⟨-, hnodes, -, -, -, hG2L, hL2G, -⟩ := vGraph.loaded_fields host n records nodes h hok
  have hsize : h.size = nodes.length := by rw [vGraph.size, hnodes]
  have hval : ∀ g l, h.GlobalToLocalMap g = some l → l < h.size := by
    intro g l hl
    rw [hG2L] at hl
    obtain ⟨r, hr, -, hv⟩ := assignAll_eq_some _ _ records g l hl
    rw [hsize, ← hv]
    exact hlt r hr
  have hu : ∀ l, u32 l ≤ l := fun l => Nat.mod_le _ _
  refine ⟨hsize, ?_, ?_, fun g l hl => lt_of_le_of_lt (hu l) (hval g l hl), ?_⟩
  · intro l
    rw [hL2G, Ne, assignAll_eq_none_iff, hsize]
    constructor
    · intro hne
      by_contra hc
      exact hne (fun r hr hk => hc (hk ▸ hlt r hr))
    · intro hl hnone
      obtain ⟨r, hr, hk⟩ := hall l hl
      exact hnone r hr hk
  · intro g l hl
    unfold vGraph.getLID vGraph.G2L StdMap.atKey at hl
    cases hm : h.GlobalToLocalMap g with
    | none => rw [hm] at hl; exact absurd hl (by simp [Except.map])
    | some v =>
      rw [hm] at hl
      simp only [Except.map, Except.ok.injEq] at hl
      rw [← hl]
      exact lt_of_le_of_lt (hu v) (hval g v hm)
  · intro h1 hI
    exact ⟨fun P net => vGraph.sync_push_safe P net h1 hI,
      fun P num entries => vGraph.syncRecvApply_safe P num entries h1 hI,
      fun P from_id num => vGraph.syncPullRecvReply_safe P h1 from_id num hI,
      fun P from_id num entries => vGraph.syncPullRecvApply_safe P h1 from_id num entries hI⟩

/-- C21 amended, on host 1 of the sample run, whose two records fill the
slots 0 and 1 of its two nodes. -/
theorem slots_dense_in_range_witness :
    (∀ r ∈ sampleRecords 1, r.local_id < (sampleNodes 1).length) ∧
    (∀ i, i < (sampleNodes 1).length → ∃ r ∈ sampleRecords 1, r.local_id = i) ∧
    (sampleHosts 1).size = 2 ∧
    (∀ l, (sampleHosts 1).LocalToGlobalMap l ≠ none ↔ l < (sampleHosts 1).size) ∧
    (∀ g l, (sampleHosts 1).getLID g = .ok l → l < (sampleHosts 1).size) ∧
    (sampleHosts 1).sync_push (Syncer_0 Int) ⟨1, 3⟩ ≠ .error outOfBounds := by
  have hlt : ∀ r ∈ sampleRecords 1, r.local_id < (sampleNodes 1).length := by decide
  have hall : ∀ i, i < (sampleNodes 1).length → ∃ r ∈ sampleRecords 1, r.local_id = i := by
    decide
  obtain ⟨h1, h2, h3, h4, h5⟩ := slots_dense_in_range (β := Int) 1 3 (sampleRecords 1)
    (sampleNodes 1) (sampleHosts 1) (sampleHosts_loaded 1 (by decide)) hlt hall
  exact ⟨hlt, hall, h1, h2, h3, ((h5 _ h4).1 (Syncer_0 Int) ⟨1, 3⟩).1⟩

/-! ## Destinations of a version-2 file -/

namespace OfflineGraph

/-- C34. `getEdgeDst` returns a 32-bit value in both versions.  On a reader
in step on a version-2 file shorter than `2^63` bytes that holds the
destination of edge `e`, the 8-byte field number `4 + N + e` of the file,
`getEdgeDst(e)` returns that field reduced modulo `2^32`; it returns the
stored destination itself if and only if the destination is below `2^32`. -/
theorem getEdgeDst_v2_truncates (g : OfflineGraph) (bytes : List Byte) (e : Nat)
    (hs : g.InStep bytes) (hlen : bytes.length < 2 ^ 63) (hv2 : g.v2 = true)
    (hin : 8 * (4 + g.numNodes + e) + 8 ≤ bytes.length) :
    (g.getEdgeDst e).1 = some (hdrField bytes (4 + g.numNodes + e) % 2 ^ 32) ∧
    ((g.getEdgeDst e).1 = some (hdrField bytes (4 + g.numNodes + e)) ↔
      hdrField bytes (4 + g.numNodes + e) < 2 ^ 32) := by
  have hw : dstWidth g.v2 = 8 := by rw [hv2]; rfl
  have hpos : (4 + g.numNodes) * 8 + e * dstWidth g.v2 = 8 * (4 + g.numNodes + e) := by
    rw [hw]; ring
  have h1 := (getEdgeDst_reads g g bytes e (Reads.refl g bytes hs) hlen
    (by rw [hpos, hw]; exact hin)).1
  have hval : g.dstAt bytes e = hdrField bytes (4 + g.numNodes + e) % 2 ^ 32 := by
    rw [dstAt, hpos, hw]
    rfl
  rw [h1, hval]
  refine ⟨rfl, ?_⟩
  rw [Option.some.injEq]
  constructor
  · intro h
    rw [← h]
    exact Nat.mod_lt _ (by norm_num)
  · intro h
    exact Nat.mod_eq_of_lt h

/-- C34 on the version-2 encoding of `wideGraph`: the stored destination of
edge 0 is `2^32 + 5` and `getEdgeDst(0)` is 5. -/
theorem getEdgeDst_v2_truncates_witness :
    ∃ g, mk? (some (encodeV2 wideGraph)) = .ok g ∧
      hdrField (encodeV2 wideGraph) (4 + g.numNodes + 0) = 2 ^ 32 + 5 ∧
      (g.getEdgeDst 0).1 = some 5 ∧
      (g.getEdgeDst 0).1 = some (hdrField (encodeV2 wideGraph) (4 + g.numNodes + 0) % 2 ^ 32) ∧
      ((g.getEdgeDst 0).1 = some (hdrField (encodeV2 wideGraph) (4 + g.numNodes + 0)) ↔
        hdrField (encodeV2 wideGraph) (4 + g.numNodes + 0) < 2 ^ 32) := by
  obtain ⟨g, hg, hN, hv⟩ : ∃ g, mk? (some (encodeV2 wideGraph)) = .ok g ∧ g.numNodes = 1 ∧
      g.v2 = true := ⟨_, rfl, rfl, rfl⟩
  have hw := getEdgeDst_v2_truncates g (encodeV2 wideGraph) 0 (inStep_of_mk? _ g hg).1
    (by decide) hv (by rw [hN]; decide)
  have hf : hdrField (encodeV2 wideGraph) (4 + g.numNodes + 0) = 2 ^ 32 + 5 := by
    rw [hN]; decide
  refine ⟨g, hg, hf, ?_, hw⟩
  rw [hw.1, hf]
  rfl

end OfflineGraph

/-! ## Handshake: receiving -/

/-- C36. Handshake receive stays in bounds.  `h0` is a vGraph constructed for
`numHosts` hosts and `h` is it, or it after any handshake messages: its
`masterNodes` has as many entries.  For every handshake message whose sender
id is below `numHosts`, `exchange_info_landingPad` does not take its resize
branch, succeeds, stores the items of the message in `masterNodes[sender]`,
leaves `masterNodes` with exactly `numHosts` entries, changes no other entry
of it and no other field of the object. -/
theorem handshake_receive_in_bounds {α : Type} (host numHosts : Nat)
    (records : List NodeInfo) (nodes : List α) (h0 h : vGraph α)
    (hok : vGraph.loaded host numHosts records nodes = .ok h0)
    (hh : h.masterNodes.length = h0.masterNodes.length)
    (sender numItems : Nat) (items : List Nat) (hs : sender < numHosts) :
    h0.masterNodes.length = numHosts ∧
    ¬ h.masterNodes.length < sender ∧
    ∃ h1, h.exchange_info_landingPad sender numItems items = .ok h1 ∧
      h1 = { h with masterNodes := h.masterNodes.set sender items } ∧
      h1.masterNodes.length = numHosts ∧
      h1.masterNodes[sender]? = some items ∧
      ∀ x, x ≠ sender → h1.masterNodes[x]? = h.masterNodes[x]? := by
  have h0len : h0.masterNodes.length = numHosts := by
    rw [(vGraph.loaded_fields host numHosts records nodes h0 hok).2.2.1]
    simp
  have hlen : h.masterNodes.length = numHosts := hh.trans h0len
  have hlt : sender < h.masterNodes.length := by omega
  refine ⟨h0len, by omega, _, vGraph.exchange_info_landingPad_of_lt h sender numItems items hlt,
    rfl, by simp [hlen], by simp [List.getElem?_set, hlt], ?_⟩
  intro x hx
  simp [List.getElem?_set, Ne.symm hx]

/-- C36 on host 0 of the sample run of three hosts, receiving the handshake
message of host 1. -/
theorem handshake_receive_in_bounds_witness :
    (sampleHosts 0).masterNodes.length = 3 ∧
    ¬ (sampleHosts 0).masterNodes.length < 1 ∧
    ∃ h1, (sampleHosts 0).exchange_info_landingPad 1 1 [10] = .ok h1 ∧
      h1 = { sampleHosts 0 with masterNodes := (sampleHosts 0).masterNodes.set 1 [10] } ∧
      h1.masterNodes.length = 3 ∧
      h1.masterNodes[1]? = some [10] ∧
      ∀ x, x ≠ 1 → h1.masterNodes[x]? = (sampleHosts 0).masterNodes[x]? :=
  handshake_receive_in_bounds 0 3 (sampleRecords 0) (sampleNodes 0) (sampleHosts 0)
    (sampleHosts 0) (sampleHosts_loaded 0 (by decide)) rfl 1 1 [10] (by decide)

/-! ## Loading the edges: the allocated edge array -/

/-- C31. Pull reply content.  On a request of host `r` whose count `num` is
the size of `masterNodes[r]`, on a host that holds every GID `g` of that
Master Set (`getLID(g)` is defined and names a slot of the node array),
`syncPullRecvReply` leaves the object as it is and sends one reply, addressed
to `r`: its entries are, in the order of `masterNodes[r]`, the pairs
`(g, Extract(getLID(g)))`, and its declared entry count is the number of
entries it carries. -/
theorem pull_reply_content {α β : Type} (P : PullFn α β) (h : vGraph α) (r num : Nat)
    (m : List Nat) (hm : h.masterNodes[r]? = some m) (hnum : num = m.length)
    (hheld : ∀ g ∈ m, ∃ l d, h.getLID g = .ok l ∧ h.getData l = .ok d) :
    ∃ entries, h.syncPullRecvReply P r num
        = .ok (h, (r, Message.pullReply (u32 h.id) entries.length entries)) ∧
      entries.length = m.length ∧ entries.map (·.1) = m ∧
      ∀ e ∈ entries, ∃ l d, h.getLID e.1 = .ok l ∧ h.getData l = .ok d ∧
        e.2 = P.extract l d := by
  have hlid : ∀ g l, h.getLID g = .ok l → ∃ l0, h.G2L g = .ok l0 ∧ l = u32 l0 := by
    intro g l hl
    unfold vGraph.getLID at hl
    cases hG : h.G2L g with
    | error e => rw [hG] at hl; exact absurd hl (by simp [Except.map])
    | ok l0 =>
      rw [hG] at hl
      exact ⟨l0, rfl, (Except.ok.inj hl).symm⟩
  have hgd : ∀ l0, h.getData (u32 l0) = h.getData l0 := by
    intro l0
    unfold vGraph.getData
    rw [u32_u32]
  have hres : ∀ g ∈ m, ∃ l d, h.G2L g = .ok l ∧ h.getData l = .ok d := by
    intro g hg
    obtain ⟨l, d, hl, hd⟩ := hheld g hg
    obtain ⟨l0, hl0, rfl⟩ := hlid g l hl
    exact ⟨l0, d, hl0, by rw [← hgd]; exact hd⟩
  obtain ⟨outs, hfold, hfst, hval⟩ := vGraph.foldlM_replyEntry P h m [] hres
  have hlen : outs.length = m.length := by rw [← hfst, List.length_map]
  refine ⟨outs, ?_, hlen, hfst, ?_⟩
  · unfold vGraph.syncPullRecvReply
    rw [hm]
    simp only [hnum, ne_eq, not_true_eq_false, ↓reduceIte, hfold, List.nil_append, hlen]
  · intro e he
    obtain ⟨l0, d, hl0, hd, hv⟩ := hval e he
    refine ⟨u32 l0, d, ?_, by rw [hgd]; exact hd, hv⟩
    unfold vGraph.getLID
    rw [hl0]
    rfl

/-- C31 on host 0 of the sample run, answering the request of host 1 for its
one replica: the reply carries the entry `(10, value of slot 0)`. -/
theorem pull_reply_content_witness :
    sampleMaster.masterNodes[1]? = some [10] ∧
    ∃ entries, sampleMaster.syncPullRecvReply (valuePull Int) 1 1
        = .ok (sampleMaster, (1, Message.pullReply (u32 sampleMaster.id) entries.length entries)) ∧
      entries.length = [10].length ∧ entries.map (·.1) = [10] ∧
      ∀ e ∈ entries, ∃ l d, sampleMaster.getLID e.1 = .ok l ∧ sampleMaster.getData l = .ok d ∧
        e.2 = (valuePull Int).extract l d :=
  ⟨rfl, pull_reply_content (valuePull Int) sampleMaster 1 1 [10] rfl rfl (by
    intro g hg
    rw [List.mem_singleton] at hg
    subst hg
    exact ⟨0, _, rfl, rfl⟩)⟩

/-! ## The reader and its call history -/

namespace OfflineGraph

/-- One call that reads inside the file, on a reader of the file: the result
is the content of the file at the offset of the argument and the reader
stays a reader of the file. -/
theorem call_reads (g0 r : OfflineGraph) (bytes : List Byte) (c : ReaderCall)
    (hr : g0.Reads bytes r) (hlen : bytes.length < 2 ^ 63) (hin : g0.ReadsInside bytes c) :
    ∃ r1, r.call c = .ok (g0.answer bytes c, r1) ∧ g0.Reads bytes r1 := by
  cases c with
  | edge_begin n =>
    obtain ⟨h32, hn⟩ := hin
    have hu : u32 n = n := Nat.mod_eq_of_lt h32
    refine ⟨(r.edge_begin n).2, ?_, ?_⟩
    · show Except.ok (ReaderResult.index (r.edge_begin n).1, (r.edge_begin n).2) = _
      unfold edge_begin
      rw [hu]
      by_cases h0 : n = 0
      · simp [h0, answer, rangeBegin]
      · have hf : (4 + (n - 1)) * 8 + 8 ≤ bytes.length := hn.resolve_left h0
        rw [if_neg h0, (outIndexs_step r bytes (n - 1) hr.inStep hlen hf).1]
        simp [answer, rangeBegin, h0, offsetEntry]
    · unfold edge_begin
      rw [hu]
      by_cases h0 : n = 0
      · rw [if_pos h0]; exact hr
      · have hf : (4 + (n - 1)) * 8 + 8 ≤ bytes.length := hn.resolve_left h0
        rw [if_neg h0, (outIndexs_step r bytes (n - 1) hr.inStep hlen hf).2]
        exact ⟨⟨rfl, hr.inStep.fileIndex, hr.inStep.fileEdgeData⟩, hr.numNodes, hr.numEdges,
          hr.sizeEdgeData, hr.v2⟩
  | edge_end n =>
    obtain ⟨h32, hf⟩ := hin
    have hu : u32 n = n := Nat.mod_eq_of_lt h32
    obtain ⟨h1, h2⟩ := outIndexs_step r bytes n hr.inStep hlen hf
    refine ⟨(r.edge_end n).2, ?_, ?_⟩
    · show Except.ok (ReaderResult.index (r.edge_end n).1, (r.edge_end n).2) = _
      unfold edge_end
      rw [hu, h1]
      rfl
    · unfold edge_end
      rw [hu, h2]
      exact ⟨⟨rfl, hr.inStep.fileIndex, hr.inStep.fileEdgeData⟩, hr.numNodes, hr.numEdges,
        hr.sizeEdgeData, hr.v2⟩
  | getEdgeDst e =>
    obtain ⟨h1, h2⟩ := getEdgeDst_reads g0 r bytes e hr hlen hin
    refine ⟨(r.getEdgeDst e).2, ?_, h2⟩
    show Except.ok (ReaderResult.node (r.getEdgeDst e).1, (r.getEdgeDst e).2) = _
    rw [h1]
    rfl
  | getEdgeData sizeT e =>
    obtain ⟨hsz, he, hf⟩ := hin
    obtain ⟨r1, h1, h2⟩ := getEdgeData_reads g0 r bytes sizeT e hr hlen hsz he hf
    refine ⟨r1, ?_, h2⟩
    simp only [call, h1, answer]

/-- A sequence of calls that read inside the file, on a reader of the file. -/
theorem calls_reads (g0 : OfflineGraph) (bytes : List Byte) (hlen : bytes.length < 2 ^ 63)
    (cs : List ReaderCall) :
    ∀ r, g0.Reads bytes r → (∀ c ∈ cs, g0.ReadsInside bytes c) →
      ∃ r1, r.calls cs = .ok (cs.map (g0.answer bytes), r1) ∧ g0.Reads bytes r1 := by
  induction cs with
  | nil => exact fun r hr _ => ⟨r, rfl, hr⟩
  | cons c cs ih =>
    intro r hr hin
    obtain ⟨r1, h1, hr1⟩ := call_reads g0 r bytes c hr hlen (hin c (List.mem_cons_self _ _))
    obtain ⟨r2, h2, hr2⟩ := ih r1 hr1 (fun c1 hc1 => hin c1 (List.mem_cons_of_mem _ hc1))
    refine ⟨r2, ?_, hr2⟩
    simp only [calls, h1, h2, List.map_cons]

/-- C33, as stated, fails on an accepted file that lacks a payload element.
The constructor accepts `cutSample`, whose header announces three edges with
4-byte payloads and which ends before the payload of edge 2.  On a fresh
reader `getEdgeData(0)` returns the payload of edge 0; after
`getEdgeData(2)`, whose read fails, the same call returns nothing: the
stream stays failed. -/
theorem result_depends_on_history :
    ∃ g, mk? (some cutSample) = .ok g ∧ g.numEdges = 3 ∧ g.sizeEdgeData = 4 ∧
      (g.calls [.getEdgeData 4 0]).map (·.1) = .ok [.data (some (toLE 4 10))] ∧
      (g.calls [.getEdgeData 4 2, .getEdgeData 4 0]).map (·.1) = .ok [.data none, .data none] :=
  ⟨_, rfl, rfl, rfl, rfl, rfl⟩

/-- C33 (amended). The reader's results do not depend on call history, for
calls that read inside the file.  For every file shorter than `2^63` bytes
that the constructor accepts and every sequence of calls to `edge_begin`,
`edge_end`, `getEdgeDst` and `getEdgeData` each of which reads inside the
file, each call returns the content of the file at the offset computed from
its argument alone, and afterwards the three streams are not failed and the
cached positions `loc1`, `locIndex` and `locEdgeData` equal the positions of
their streams. -/
theorem results_independent_of_history (bytes : List Byte) (g : OfflineGraph)
    (hg : mk? (some bytes) = .ok g) (hlen : bytes.length < 2 ^ 63) (cs : List ReaderCall)
    (hin : ∀ c ∈ cs, g.ReadsInside bytes c) :
    ∃ g1, g.calls cs = .ok (cs.map (g.answer bytes), g1) ∧
      g1.file1 = ⟨bytes, g1.loc1, false⟩ ∧ g1.fileIndex = ⟨bytes, g1.locIndex, false⟩ ∧
      g1.fileEdgeData = ⟨bytes, g1.locEdgeData, false⟩ ∧
      g1.file1.pos = g1.loc1 ∧ g1.fileIndex.pos = g1.locIndex ∧
      g1.fileEdgeData.pos = g1.locEdgeData := by
  obtain ⟨g1, h1, hr1⟩ := calls_reads g bytes hlen cs g
    (Reads.refl g bytes (inStep_of_mk? bytes g hg).1) hin
  refine ⟨g1, h1, hr1.inStep.file1, hr1.inStep.fileIndex, hr1.inStep.fileEdgeData, ?_, ?_, ?_⟩
  · rw [hr1.inStep.file1]
  · rw [hr1.inStep.fileIndex]
  · rw [hr1.inStep.fileEdgeData]

/-- C33 amended, on the version-1 encoding of the sample graph: the payload
of edge 0 is the same before and after other calls. -/
theorem results_independent_of_history_witness :
    ∃ g g1, mk? (some (encodeV1 sampleGraph)) = .ok g ∧
      g.calls [.getEdgeData 4 2, .edge_end 1, .getEdgeDst 1, .edge_begin 1, .getEdgeData 4 0]
        = .ok ([.data (some (toLE 4 30)), .index (some 3), .node (some 0), .index (some 2),
            .data (some (toLE 4 10))], g1) ∧
      g1.file1.pos = g1.loc1 ∧ g1.fileIndex.pos = g1.locIndex ∧
      g1.fileEdgeData.pos = g1.locEdgeData := by
  obtain ⟨g, hg, hN, hE, hS, hv⟩ := sampleGraph_accepted
  obtain ⟨g1, h1, -, -, -, h2, h3, h4⟩ := results_independent_of_history
    (encodeV1 sampleGraph) g hg (by decide)
    [.getEdgeData 4 2, .edge_end 1, .getEdgeDst 1, .edge_begin 1, .getEdgeData 4 0]
    (by
      intro c hc
      simp only [List.mem_cons, List.mem_singleton, List.not_mem_nil, or_false] at hc
      rcases hc with rfl | rfl | rfl | rfl | rfl <;>
        simp only [ReadsInside, payloadStart, hN, hE, hS, hv] <;> decide)
  refine ⟨g, g1, hg, ?_, h2, h3, h4⟩
  rw [h1]
  simp only [List.map_cons, List.map_nil, answer, dstAt, dataAt, payloadStart, hN, hE, hS, hv]
  refine congrArg (fun l => Except.ok (l, g1)) ?_
  decide

end OfflineGraph

/-! ## Push: conservation -/

/-- One push round with `Syncer_0` on a run with well-formed ownership
records: every message is accepted in whatever order, the master of a GID
ends with its residual plus the residuals of the replicas, and every replica
ends with 0. -/
theorem push_round_residuals {R : Type} [AddCommMonoid R] (n : Nat)
    (records : Nat → List NodeInfo) (nodes : Nat → List (PR_NodeData R))
    (c : Hosts (PR_NodeData R))
    (hload : ∀ x, x < n → vGraph.loaded x n (records x) (nodes x) = .ok (c x))
    (hwf : WellFormedRun n records (fun x => (nodes x).length))
    (g M lM : Nat) (hM : M < n) (hrec : (⟨lM, g, M⟩ : NodeInfo) ∈ records M)
    (Rs : List Nat) (hRsnd : Rs.Nodup)
    (hRs : ∀ x, x ∈ Rs ↔ x < n ∧ x ≠ M ∧ ∃ l, (⟨l, g, M⟩ : NodeInfo) ∈ records x) :
    ∃ c1 msgs, pushSends (Syncer_0 R) n c = .ok (c1, msgs) ∧
      ∀ order : List (Nat × Message R), order.Perm msgs →
        ∃ c', order.foldlM (recvPush (Syncer_0 R) n) c1 = .ok c' ∧
          ∃ (vM : R) (v : Nat → R), residualOf (c M) g = some vM ∧
            (∀ x ∈ Rs, residualOf (c x) g = some (v x)) ∧
            residualOf (c' M) g = some (vM + (Rs.map v).sum) ∧
            ∀ x ∈ Rs, residualOf (c' x) g = some 0 := by
  obtain ⟨c1, hsend, hdel⟩ := push_round (Syncer_0 R) (⟨0, 0, 0⟩ : PR_NodeData R) n records
    nodes c hload hwf
  refine ⟨c1, _, hsend, fun order hperm => ?_⟩
  obtain ⟨c', hfold, hc'⟩ := hdel order hperm
  have hres := entry_resolved (Syncer_0 R) (⟨0, 0, 0⟩ : PR_NodeData R) n records nodes c hload
    hwf order hperm
  have hGof : ∀ x, x < n → ∀ r ∈ records x, (c x).GlobalToLocalMap r.global_id
      = some r.local_id := by
    intro x hx r hr
    rw [(vGraph.loaded_fields x n (records x) (nodes x) (c x) (hload x hx)).2.2.2.2.2.1]
    exact assignAll_of_mem (·.global_id) (·.local_id) StdMap.empty (records x)
      (hwf.gid_nodup x hx) r hr
  have h32 : ∀ x, x < n → ∀ r ∈ records x, r.local_id < 2 ^ 32 :=
    fun x hx r hr => lt_trans (hwf.lid_lt x hx r hr) (hwf.len_lt x hx)
  refine ⟨c', hfold, (payloadOf ⟨0, 0, 0⟩ (records M) (nodes M) g).residual,
    fun x => (payloadOf ⟨0, 0, 0⟩ (records x) (nodes x) g).residual, ?_, ?_, ?_, ?_⟩
  · exact residualOf_loaded _ M n (records M) (nodes M) (c M) (hload M hM)
      (hwf.gid_nodup M hM) (hwf.len_lt M hM) ⟨lM, g, M⟩ hrec (hwf.lid_lt M hM _ hrec)
  · intro x hx
    obtain ⟨hxn, -, l, hl⟩ := (hRs x).1 hx
    exact residualOf_loaded _ x n (records x) (nodes x) (c x) (hload x hxn)
      (hwf.gid_nodup x hxn) (hwf.len_lt x hxn) ⟨l, g, M⟩ hl (hwf.lid_lt x hxn _ hl)
  · obtain ⟨hG, hslot⟩ := hc' M hM
    have hs := hslot ⟨lM, g, M⟩ hrec
    simp only [ne_eq, not_true_eq_false, ↓reduceIte] at hs
    rw [residualOf_eq (c' M) g lM _ (by rw [hG]; exact hGof M hM _ hrec) (h32 M hM _ hrec) hs]
    have hiff : ∀ e ∈ entriesTo M order,
        (((c M).GlobalToLocalMap e.1).map u32 = some lM ↔ e.1 = g) := by
      intro e he
      obtain ⟨r, hr, hrg, -, hmap⟩ := hres M hM e he
      rw [hmap, ← hrg]
      constructor
      · intro h
        have := List.inj_on_of_nodup_map (hwf.lid_nodup M hM) hr hrec (Option.some.inj h)
        rw [this]
      · intro h
        have := List.inj_on_of_nodup_map (hwf.gid_nodup M hM) hr hrec h
        rw [this]
    rw [slotAfter_residual _ lM g _ _ hiff]
    congr 2
    have hp1 : (entriesTo M order).Perm
        (entriesTo M (roundMessages (Syncer_0 R) ⟨0, 0, 0⟩ n records nodes)) :=
      List.Perm.flatMap_right _ hperm
    rw [gidSum_perm g _ _
      (hp1.trans (entriesTo_roundMessages (Syncer_0 R) _ n records nodes hwf M hM)),
      gidSum_flatMap]
    have hval : ∀ x, x < n →
        gidSum g (if x ≠ M then (slaveSetOf (records x) M).map
            (fun a => (a, (Syncer_0 R).extract (lidOf (records x) a)
              (payloadOf ⟨0, 0, 0⟩ (records x) (nodes x) a))) else [])
          = if x ∈ Rs then (payloadOf ⟨0, 0, 0⟩ (records x) (nodes x) g).residual else 0 := by
      intro x hx
      by_cases hxM : x = M
      · have hno : x ∉ Rs := fun h => ((hRs x).1 h).2.1 hxM
        rw [if_neg (by simp [hxM]), if_neg hno]
        simp [gidSum]
      · rw [if_pos hxM,
          gidSum_tagged g _ (fun a => (Syncer_0 R).extract (lidOf (records x) a)
            (payloadOf ⟨0, 0, 0⟩ (records x) (nodes x) a))
            (slaveSetOf_nodup (records x) M (hwf.gid_nodup x hx))]
        refine if_congr ?_ rfl rfl
        rw [mem_slaveSetOf, hRs]
        constructor
        · rintro ⟨r, hr, ho, hg⟩
          refine ⟨hx, hxM, r.local_id, ?_⟩
          rw [← ho, ← hg]
          exact hr
        · rintro ⟨-, -, l, hl⟩
          exact ⟨_, hl, rfl, rfl⟩
    rw [sum_map_support (List.range n) Rs _ (List.nodup_range n) hRsnd
      (fun x hx => List.mem_range.2 ((hRs x).1 hx).1)
      (fun x hx hno => by rw [hval x (List.mem_range.1 hx), if_neg hno])]
    congr 1
    apply List.map_congr_left
    intro x hx
    rw [hval x ((hRs x).1 hx).1, if_pos hx]
  · intro x hx
    obtain ⟨hxn, hxM, l, hl⟩ := (hRs x).1 hx
    obtain ⟨hG, hslot⟩ := hc' x hxn
    have hs := hslot ⟨l, g, M⟩ hl
    have hMx : M ≠ x := fun e => hxM e.symm
    simp only [ne_eq, hMx, not_false_eq_true, ↓reduceIte] at hs
    rw [residualOf_eq (c' x) g l _ (by rw [hG]; exact hGof x hxn _ hl) (h32 x hxn _ hl) hs]
    rw [slotAfter_of_no_match]
    · rfl
    · intro e he hc
      obtain ⟨r, hr, -, hro, hmap⟩ := hres x hxn e he
      rw [hmap] at hc
      have := List.inj_on_of_nodup_map (hwf.lid_nodup x hxn) hr hl (Option.some.inj hc)
      rw [this] at hro
      exact hMx hro

/-- The total of hosts that all hold the GID is the sum of their residuals. -/
theorem totalOf_eq {R : Type} [AddCommMonoid R] (c : Hosts (PR_NodeData R)) (g : Nat)
    (f : Nat → R) (xs : List Nat) (h : ∀ x ∈ xs, residualOf (c x) g = some (f x)) :
    totalOf c g xs = some ((xs.map f).sum) := by
  induction xs with
  | nil => rfl
  | cons x xs ih =>
    rw [totalOf, h x (List.mem_cons_self _ _),
      ih (fun y hy => h y (List.mem_cons_of_mem _ hy))]
    simp

/-- C32, as stated, fails on hosts whose records give two GIDs one local id.
With the records `dupRecords`, GID 11 is held by host 0, its master, with
residual 1 and by host 1 with residual 2: its total is 3 before the push
round and 1 after all push messages have been applied. -/
theorem push_total_not_conserved :
    (∀ x, x < 2 → vGraph.loaded x 2 (dupRecords x) (dupNodes x) = .ok (dupHosts x)) ∧
    totalOf dupHosts 11 [0, 1] = some 3 ∧
    ∃ c1 msgs c', pushSends (Syncer_0 Int) 2 dupHosts = .ok (c1, msgs) ∧
      msgs.foldlM (recvPush (Syncer_0 Int) 2) c1 = .ok c' ∧
      totalOf c' 11 [0, 1] = some 1 := by
  refine ⟨?_, rfl, ?_⟩
  · intro x hx
    interval_cases x <;> rfl
  · exact ⟨_, _, _, rfl, rfl, rfl⟩

/-- C32 (amended). With Reduce = addition and Reset = 0 (`Syncer_0`) over a
commutative monoid of exact numbers, a complete Push round conserves every
vertex's total when the ownership records are well formed (on every host the
global ids are pairwise distinct and the local ids are pairwise distinct and
inside the payload array, shorter than `2^32`, and the owner named by the
record of a replica holds that GID as its master).  For a GID `g` mastered by
host `M` and replicated by the hosts `Rs`, once each, `sync_push` on every
host succeeds, every message is accepted in whatever order the messages are
delivered, and the sum of the residuals of `g` over the master and the
replicas is defined and is the same before the round and after all push
messages have been applied. -/
theorem push_conserves_total {R : Type} [AddCommMonoid R] (n : Nat)
    (records : Nat → List NodeInfo) (nodes : Nat → List (PR_NodeData R))
    (c : Hosts (PR_NodeData R))
    (hload : ∀ x, x < n → vGraph.loaded x n (records x) (nodes x) = .ok (c x))
    (hwf : WellFormedRun n records (fun x => (nodes x).length))
    (g M lM : Nat) (hM : M < n) (hrec : (⟨lM, g, M⟩ : NodeInfo) ∈ records M)
    (Rs : List Nat) (hRsnd : Rs.Nodup)
    (hRs : ∀ x, x ∈ Rs ↔ x < n ∧ x ≠ M ∧ ∃ l, (⟨l, g, M⟩ : NodeInfo) ∈ records x) :
    ∃ c1 msgs, pushSends (Syncer_0 R) n c = .ok (c1, msgs) ∧
      ∀ order : List (Nat × Message R), order.Perm msgs →
        ∃ c', order.foldlM (recvPush (Syncer_0 R) n) c1 = .ok c' ∧
          ∃ total : R, totalOf c g (M :: Rs) = some total ∧
            totalOf c' g (M :: Rs) = some total := by
  obtain ⟨c1, msgs, hsend, hdel⟩ := push_round_residuals n records nodes c hload hwf g M lM hM
    hrec Rs hRsnd hRs
  refine ⟨c1, msgs, hsend, fun order hperm => ?_⟩
  obtain ⟨c', hfold, vM, v, hbM, hbR, haM, haR⟩ := hdel order hperm
  have hMR : M ∉ Rs := fun h => ((hRs M).1 h).2.1 rfl
  have hne : ∀ x ∈ Rs, x ≠ M := fun x hx e => hMR (e ▸ hx)
  refine ⟨c', hfold, vM + (Rs.map v).sum, ?_, ?_⟩
  · rw [totalOf_eq c g (fun x => if x = M then vM else v x) (M :: Rs)]
    · rw [List.map_cons, List.sum_cons, if_pos rfl]
      rw [List.map_congr_left (fun x hx => if_neg (hne x hx))]
    · intro x hx
      rcases List.mem_cons.1 hx with rfl | hx
      · rw [if_pos rfl]; exact hbM
      · rw [if_neg (hne x hx)]; exact hbR x hx
  · rw [totalOf_eq c' g (fun x => if x = M then vM + (Rs.map v).sum else 0) (M :: Rs)]
    · rw [List.map_cons, List.sum_cons, if_pos rfl]
      have h0 : (Rs.map (fun x => if x = M then vM + (Rs.map v).sum else 0)).sum = 0 := by
        rw [List.map_congr_left (fun x hx => if_neg (hne x hx))]
        simp
      rw [h0, add_zero]
    · intro x hx
      rcases List.mem_cons.1 hx with rfl | hx
      · rw [if_pos rfl]; exact haM
      · rw [if_neg (hne x hx)]; exact haR x hx

/-- C32 amended, on the sample run: GID 10 is mastered by host 0 and
replicated by hosts 1 and 2; its total is 1 + 2 + 3. -/
theorem push_conserves_total_witness :
    totalOf sampleHosts 10 [0, 1, 2] = some 6 ∧
    ∃ c1 msgs, pushSends (Syncer_0 Int) 3 sampleHosts = .ok (c1, msgs) ∧
      ∀ order : List (Nat × Message Int), order.Perm msgs →
        ∃ c', order.foldlM (recvPush (Syncer_0 Int) 3) c1 = .ok c' ∧
          ∃ total : Int, totalOf sampleHosts 10 (0 :: [1, 2]) = some total ∧
            totalOf c' 10 (0 :: [1, 2]) = some total :=
  ⟨rfl, push_conserves_total 3 sampleRecords sampleNodes sampleHosts sampleHosts_loaded
    sampleRecords_wf 10 0 0 (by decide) (by decide) [1, 2] (by decide)
    (by
      intro x
      constructor
      · intro hx
        simp only [List.mem_cons, List.mem_singleton, List.not_mem_nil, or_false] at hx
        rcases hx with rfl | rfl
        · exact ⟨by decide, by decide, 0, by decide⟩
        · exact ⟨by decide, by decide, 0, by decide⟩
      · rintro ⟨hx, hx0, -⟩
        interval_cases x
        · exact absurd rfl hx0
        · decide
        · decide)⟩

/-! ## The writer: edge slots -/

/-- C35, at the failing input: one vertex with `2^31` edges.  After
`setCounts` and `setEdge(0, 0, 5, 9)` the stream has failed, because the
payload offset computed from the edge count `2^64 - 2^31` of `setCounts` is
negative.  The slot of `setEdge(0, 1, 7, 9)` is edge 1, whose destination
belongs at byte offset `8 * (4 + 1 + 1) = 48`; the call leaves the 48 bytes
of the file as they are and writes no destination.  With the counts `[2]`
the same two calls put the destination 7 at byte offset 48. -/
theorem setEdge_after_overflow_writes_nothing :
    (∃ w1 w2, writeSession false [2147483648] [⟨0, 0, 5, 9⟩] = .ok w1 ∧
      w1.numNodes = 1 ∧ w1.numEdges = 2 ^ 64 - 2 ^ 31 ∧ w1.file.failbit = true ∧
      w1.slotIndex 0 1 = .ok 1 ∧ w1.offsetOfDst 1 = 48 ∧
      w1.setEdge 0 1 7 9 = .ok w2 ∧
      w2.file.data = w1.file.data ∧ w2.file.data.length = 48) ∧
    (∃ w1 w2, writeSession false [2] [⟨0, 0, 5, 9⟩] = .ok w1 ∧
      w1.slotIndex 0 1 = .ok 1 ∧ w1.offsetOfDst 1 = 48 ∧
      w1.setEdge 0 1 7 9 = .ok w2 ∧
      (w2.file.data.drop 48).take 8 = toLE 8 7) := by
  obtain ⟨w1, h1, h2, h3, h4, h5, h6, h7⟩ : ∃ w1,
      writeSession false [2147483648] [⟨0, 0, 5, 9⟩] = .ok w1 ∧
      w1.numNodes = 1 ∧ w1.numEdges = 2 ^ 64 - 2 ^ 31 ∧ w1.file.failbit = true ∧
      w1.slotIndex 0 1 = .ok 1 ∧ w1.offsetOfDst 1 = 48 ∧ w1.file.data.length = 48 :=
    ⟨_, rfl, rfl, rfl, rfl, rfl, rfl, rfl⟩
  exact ⟨⟨w1, w1, h1, h2, h3, h4, h5, h6, OfflineGraphWriter.setEdge_of_failbit w1 1 7 9 h4,
    rfl, h7⟩, ⟨_, _, rfl, rfl, rfl, rfl, rfl⟩⟩

/-! ## `tsuba_api.cpp`: `Store` -/

namespace tsuba

/-- C38, on the code.  `Store` uploads to S3 for an S3 URI, and for a local
path it returns 0 without an upload when the local write succeeds.  When the
local write fails, `S3OrDoFile` returns -1 and `if (ret)` takes the S3
branch: `Store` calls `S3UploadOverwrite` on the local path and returns what
the upload returns, not -1.  `StoreSync`, `StoreAsync` and
`StoreMultiAsync1` do the same with their upload functions. -/
theorem Store_uploads_after_local_failure (env : Env) (uri : String) (data : List Byte) :
    (env.IsUri uri = true → Store env uri data = DoWriteS3 env uri data) ∧
    (env.IsUri uri = false → env.openGood uri = true → env.writeGood uri data = true →
      Store env uri data = (0, [.fileOpen uri, .fileWrite uri data])) ∧
    (env.IsUri uri = false → (env.openGood uri = false ∨ env.writeGood uri data = false) →
      (S3OrDoFile env uri data).1 = -1 ∧
      (Store env uri data).1
        = env.S3UploadOverwrite (env.S3SplitUri uri).1 (env.S3SplitUri uri).2 data ∧
      Effect.s3 "S3UploadOverwrite" (env.S3SplitUri uri).1 (env.S3SplitUri uri).2 data
        ∈ (Store env uri data).2 ∧
      Effect.s3 "S3PutSingleSync" (env.S3SplitUri uri).1 (env.S3SplitUri uri).2 data
        ∈ (StoreSync env uri data).2 ∧
      Effect.s3 "S3PutSingleAsync" (env.S3SplitUri uri).1 (env.S3SplitUri uri).2 data
        ∈ (StoreAsync env uri data).2 ∧
      Effect.s3 "S3PutMultiAsync1" (env.S3SplitUri uri).1 (env.S3SplitUri uri).2 data
        ∈ (StoreMultiAsync1 env uri data).2) := by
  refine ⟨fun hu => ?_, fun hu ho hw => ?_, fun hu hf => ?_⟩
  · simp [Store, S3OrDoFile, hu]
  · simp [Store, S3OrDoFile, hu, ho, hw]
  · rcases hf with ho | hw
    · simp [Store, StoreSync, StoreAsync, StoreMultiAsync1, S3OrDoFile, DoWriteS3,
        DoWriteS3Sync, DoWriteS3Async, DoWriteS3MultiAsync1, hu, ho]
    · cases ho : env.openGood uri <;>
        simp [Store, StoreSync, StoreAsync, StoreMultiAsync1, S3OrDoFile, DoWriteS3,
          DoWriteS3Sync, DoWriteS3Async, DoWriteS3MultiAsync1, hu, ho, hw]

/-- C38 at a failing input: in `sampleEnv` the local file cannot be opened,
and `Store` returns the 7 of the upload after calling `S3UploadOverwrite`. -/
theorem Store_uploads_after_local_failure_witness :
    Store sampleEnv "/no/such/dir/file" [1, 2] =
      (7, [.fileOpen "/no/such/dir/file", .s3 "S3UploadOverwrite" "" "" [1, 2]]) ∧
    (S3OrDoFile sampleEnv "/no/such/dir/file" [1, 2]).1 = -1 ∧
    (Store sampleEnv "/no/such/dir/file" [1, 2]).1
      = sampleEnv.S3UploadOverwrite (sampleEnv.S3SplitUri "/no/such/dir/file").1
          (sampleEnv.S3SplitUri "/no/such/dir/file").2 [1, 2] :=
  ⟨rfl, ((Store_uploads_after_local_failure sampleEnv "/no/such/dir/file" [1, 2]).2.2 rfl
      (Or.inl rfl)).1,
    ((Store_uploads_after_local_failure sampleEnv "/no/such/dir/file" [1, 2]).2.2 rfl
      (Or.inl rfl)).2.1⟩

end tsuba

/-! ## `tsuba_api.cpp`: the mapping registry -/

namespace tsuba

/-- The history with one more call. -/
theorem live_append (p : Nat) (hist : List (Call × Ret)) (e : Call × Ret) :
    live p (hist ++ [e]) =
      match e with
      | (.Mmap _ _ _, .ptr q) => if q = p ∧ q ≠ 0 then true else live p hist
      | (.Munmap q, _) => if q = p then false else live p hist
      | _ => live p hist := by
  unfold live
  rw [List.foldl_append]
  rfl

/-- `Mmap` returns: either the null pointer, and the registry is as before,
or a non-null pointer that was not in the registry and now is. -/
theorem Mmap_cases (reg : Registry) (isUri : Bool) (a : MapAnswers) (size : Nat) :
    Mmap reg isUri a size = .ok (0, reg) ∨
    ∃ p m, p ≠ 0 ∧ reg p = none ∧
      Mmap reg isUri a size = .ok (p, fun k => if k = p then some m else reg k) := by
  unfold Mmap MappingDesc.Init
  simp only [Bool.false_eq_true, ↓reduceIte]
  generalize (if isUri = true then AllocAndReadS3 a else MmapLocalFile a) = p0
  by_cases h0 : p0 = 0
  · left
    simp [h0]
  · simp only [h0, ↓reduceIte]
    cases hr : reg p0 with
    | some d => left; simp
    | none =>
      right
      exact ⟨p0, ⟨p0, size, true⟩, h0, hr, by simp⟩

/-- One call keeps the registry equal to the set of live pointers. -/
theorem step_live (hist : List (Call × Ret)) (reg : Registry) (c : Call)
    (hinv : ∀ p, (reg p).isSome = live p hist) :
    ∃ r reg1, step reg c = .ok (r, reg1) ∧ ∀ p, (reg1 p).isSome = live p (hist ++ [(c, r)]) := by
  cases c with
  | Mmap isUri a size =>
    rcases Mmap_cases reg isUri a size with h | ⟨q, m, hq, hnone, h⟩
    · refine ⟨.ptr 0, reg, by simp [step, h], fun p => ?_⟩
      rw [live_append]
      simp [hinv p]
    · refine ⟨.ptr q, (fun k => if k = q then some m else reg k), by simp [step, h],
        fun p => ?_⟩
      rw [live_append]
      by_cases hpq : p = q
      · subst hpq
        simp [hq]
      · have hqp : ¬ q = p := fun e => hpq e.symm
        simp [hpq, hqp, hinv p]
  | Munmap q =>
    refine ⟨_, _, rfl, fun p => ?_⟩
    rw [live_append]
    unfold Munmap
    cases hr : reg q with
    | some d =>
      by_cases hpq : p = q
      · subst hpq
        simp [Registry.erase]
      · have hqp : ¬ q = p := fun e => hpq e.symm
        simp [Registry.erase, hpq, hqp, hinv p]
    | none =>
      by_cases hpq : p = q
      · subst hpq
        simp [hr]
      · have hqp : ¬ q = p := fun e => hpq e.symm
        simp [hqp, hinv p]

/-- A sequence of calls keeps the registry equal to the set of live
pointers. -/
theorem run_live (calls : List Call) :
    ∀ (hist : List (Call × Ret)) (reg : Registry), (∀ p, (reg p).isSome = live p hist) →
      ∃ hist1 reg1, calls.foldlM (fun (st : List (Call × Ret) × Registry) c =>
          match step st.2 c with
          | Except.error e => Except.error e
          | Except.ok r => Except.ok (st.1 ++ [(c, r.1)], r.2)) (hist, reg)
          = Except.ok (hist1, reg1) ∧
        hist1.map (·.1) = hist.map (·.1) ++ calls ∧
        ∀ p, (reg1 p).isSome = live p hist1 := by
  induction calls with
  | nil => exact fun hist reg hinv => ⟨hist, reg, rfl, by simp, hinv⟩
  | cons c calls ih =>
    intro hist reg hinv
    obtain ⟨r, reg1, hs, hinv1⟩ := step_live hist reg c hinv
    obtain ⟨hist2, reg2, h2, hm2, hinv2⟩ := ih (hist ++ [(c, r)]) reg1 hinv1
    refine ⟨hist2, reg2, ?_, by simp [hm2], hinv2⟩
    rw [List.foldlM_cons]
    simp only [hs]
    exact h2

end tsuba

namespace tsuba

/-- C39. The mapping registry tracks live mappings exactly.  Every sequence
of `Mmap` and `Munmap` calls from the empty registry runs through, and
afterwards, for every pointer `p`: if `p` was returned by a successful
`Mmap` and has not been unmapped since, `Munmap(p)` returns 0 and removes
exactly the entry for `p`; otherwise it returns -22 and leaves the registry
unchanged.  Hence a second `Munmap` of the same pointer returns -22.  A
`Mmap` never stops, and one that returns the null pointer leaves the
registry unchanged. -/
theorem registry_tracks_live_mappings (calls : List Call) :
    ∃ hist reg, run calls Registry.empty = .ok (hist, reg) ∧ hist.map (·.1) = calls ∧
      ∀ p,
        (live p hist = true →
          Munmap reg p = (0, reg.erase p) ∧ (reg.erase p) p = none ∧
          ∀ q, q ≠ p → (reg.erase p) q = reg q) ∧
        (live p hist = false → Munmap reg p = (-22, reg)) ∧
        (Munmap (Munmap reg p).2 p).1 = -22 ∧
        ∀ (isUri : Bool) (a : MapAnswers) (size : Nat),
          ∃ r reg1, Mmap reg isUri a size = .ok (r, reg1) ∧ (r = 0 → reg1 = reg) := by
  obtain ⟨hist, reg, hrun, hmap, hinv⟩ := run_live calls [] Registry.empty (fun p => rfl)
  refine ⟨hist, reg, hrun, by simpa using hmap, fun p => ⟨?_, ?_, ?_, ?_⟩⟩
  · intro hl
    have hs : (reg p).isSome = true := by rw [hinv p, hl]
    obtain ⟨d, hd⟩ := Option.isSome_iff_exists.1 hs
    refine ⟨by simp [Munmap, hd], by simp [Registry.erase], fun q hq => by
      simp [Registry.erase, hq]⟩
  · intro hl
    have hs : (reg p).isSome = false := by rw [hinv p, hl]
    have hn : reg p = none := by
      cases hr : reg p with
      | none => rfl
      | some d => rw [hr] at hs; exact absurd hs (by simp)
    simp [Munmap, hn]
  · unfold Munmap
    cases hr : reg p with
    | none => simp [hr]
    | some d => simp [Registry.erase]
  · intro isUri a size
    rcases Mmap_cases reg isUri a size with h | ⟨q, m, hq, -, h⟩
    · exact ⟨0, reg, h, fun _ => rfl⟩
    · exact ⟨q, _, h, fun h0 => absurd h0 hq⟩

/-- C39 on a sequence of four calls: a `Mmap` of a local file that the
operating system maps at address 4096, two `Munmap(4096)` and a `Mmap` whose
`open` fails.  They return 4096, 0, -22 and the null pointer; after the
first call alone, 4096 is live and `Munmap(4096)` returns 0. -/
theorem registry_tracks_live_mappings_witness :
    (run [.Mmap false ⟨3, some 4096, 0⟩ 10, .Munmap 4096, .Munmap 4096,
        .Mmap false ⟨-1, none, 0⟩ 10] Registry.empty).map (fun r => r.1.map (·.2))
      = .ok [.ptr 4096, .status 0, .status (-22), .ptr 0] ∧
    ∃ hist reg, run [.Mmap false ⟨3, some 4096, 0⟩ 10] Registry.empty = .ok (hist, reg) ∧
      live 4096 hist = true ∧ Munmap reg 4096 = (0, reg.erase 4096) ∧
      (Munmap (Munmap reg 4096).2 4096).1 = -22 := by
  refine ⟨rfl, ?_⟩
  obtain ⟨hist, reg, hrun, -, hp⟩ :=
    registry_tracks_live_mappings [.Mmap false ⟨3, some 4096, 0⟩ 10]
  have hh : hist = [(.Mmap false ⟨3, some 4096, 0⟩ 10, .ptr 4096)] := by
    have h1 : run [.Mmap false ⟨3, some 4096, 0⟩ 10] Registry.empty
        = .ok ([(.Mmap false ⟨3, some 4096, 0⟩ 10, .ptr 4096)],
            fun k => if k = 4096 then some ⟨4096, 10, true⟩ else Registry.empty k) := rfl
    rw [h1] at hrun
    exact (Prod.mk.inj (Except.ok.inj hrun)).1.symm
  have hl : live 4096 hist = true := by rw [hh]; rfl
  exact ⟨hist, reg, hrun, hl, ((hp 4096).1 hl).1, (hp 4096).2.2.1⟩

end tsuba

/-! ## Fan-in with `float` -/

/-- C6, as stated, fails for the sum policy of the code, whose values are
`float`.  Host 0 masters GID 10 with the residual `16777216.0f`: four
messages that each contribute `1.0f` leave it at `16777216.0f`, not at
`16777220.0f`, because `16777216.0f + 1.0f` rounds to `16777216.0f`.  From
the residual `0.0f` the contributions 1, 1 and 16777216 give `16777218.0f`
in that order of arrival and `16777216.0f` when the large one arrives
first. -/
theorem fan_in_float_loses_contributions :
    floatMaster.G2L 10 = .ok 0 ∧
    floatMaster.getData 0 = .ok ⟨⟨0⟩, ⟨16777216⟩, 0⟩ ∧
    (∃ h1, applyPushes (Syncer_0 F32) floatMaster
        (List.replicate 4 (1, [(10, (⟨1⟩ : F32))])) = .ok h1 ∧
      h1.getData 0 = .ok ⟨⟨0⟩, ⟨16777216⟩, 0⟩) ∧
    (∃ h1 h2, applyPushes (Syncer_0 F32) floatMasterZero
        [(1, [(10, (⟨1⟩ : F32))]), (1, [(10, ⟨1⟩)]), (1, [(10, ⟨16777216⟩)])] = .ok h1 ∧
      applyPushes (Syncer_0 F32) floatMasterZero
        [(1, [(10, (⟨16777216⟩ : F32))]), (1, [(10, ⟨1⟩)]), (1, [(10, ⟨1⟩)])] = .ok h2 ∧
      h1.getData 0 = .ok ⟨⟨0⟩, ⟨16777218⟩, 0⟩ ∧
      h2.getData 0 = .ok ⟨⟨0⟩, ⟨16777216⟩, 0⟩) :=
  ⟨rfl, rfl, ⟨_, rfl, rfl⟩, ⟨_, _, rfl, rfl, rfl, rfl⟩⟩

end Katana
